import Mathlib

/-!
# simcommsys: BCJR decoder, turbo iterator, forward-backward decoders, channels and tools

Shallow embedding of `Libcomm/Source/bcjr.cpp`, `Libcomm/Source/turbo.cpp`,
`Libcomm/algorithm/fba2-fss-implementation.h`, `Libcomm/Source/fba.cpp` with `myfba::P` and
`bsid::receive` of `Libcomm/Source/bsid.cpp`, `Libcomm/mapper/map_interleaved.cpp`,
`Libcomm/Source/map_interleaved.cpp`, `Libcomm/Source/blockmodem.cpp`,
`Libcomm/channel/bpmr.cpp`, `Libcomm/modem/dminner2.cpp`, the statistical operations of
`Libbase/Source/vector.h` and `Turbo Codes/MakeSRandom/makesrandom.cpp`.

* The numeric backends (`real`, `dbl`) are modelled by exact rationals `ℚ`: the statements
  about the values that the decoders compute are statements in exact arithmetic. Division by
  zero, which gives an infinity or a NaN in `double`, is `0` in `ℚ`; the statements exclude
  it. Where the rounding of `double` shows in a result, the function is embedded a second
  time over a backend that rounds (`roundDouble`, `normalize_fl`, `work_alpha_fl`, ...).
* An `assert` of the source is modelled as a failure (`none`), like an `assertalways`: the
  embedding is that of the default build. `create_srandom` takes the build as a parameter.
* A `libbase::matrix<T>` is a shape together with an element function; element access
  `r(t, i)` is `r.val t i`.  Loops are the counted loops `forUp` / `forDown`, and an
  assignment to an element is `Matrix.set`.
* Mutable objects are passed explicitly: a C++ method that changes members of its object
  returns the changed object.
* An `int` that is a count, an index or a symbol is a natural number, and `int` arithmetic on
  such values is exact: they stay below the sizes of the alphabets, which the classes
  themselves hold in an `int`.  Where the sign of an `int` matters (constructor arguments,
  drift indices) it is an integer.
-/

namespace Simcommsys

/-! ## Loops -/

/-- Counted loop `for (k = 0; k < n; k++) s = f k s`. -/
def forUp {σ : Type} : Nat → (Nat → σ → σ) → σ → σ
  | 0, _, s => s
  | n + 1, f, s => f n (forUp n f s)

/-- Counted loop `for (k = n - 1; k >= 0; k--) s = f k s`. -/
def forDown {σ : Type} : Nat → (Nat → σ → σ) → σ → σ
  | 0, _, s => s
  | n + 1, f, s => forDown n f (f n s)

/-- Counted loop `for (k = 0; k < n; k++)` whose body may fail; a failure ends the run. -/
def forUpO {σ : Type} : Nat → (Nat → σ → Option σ) → σ → Option σ
  | 0, _, s => some s
  | n + 1, f, s => (forUpO n f s).bind (f n)

/-! ## Matrices -/

/-- A `libbase::matrix<T>`: `xsize` rows, `ysize` columns, element `(t, i)` is `val t i`. -/
structure Matrix where
  xsize : Nat
  ysize : Nat
  val : Nat → Nat → ℚ

/-- The assignment `a(t, i) = v`. -/
def Matrix.set (a : Matrix) (t i : Nat) (v : ℚ) : Matrix :=
  { a with val := Function.update a.val t (Function.update (a.val t) i v) }

/-- Modelled from the spec: `matrix::init(x, y)` (matrix.h is not part of the sources). The
matrix takes the given shape; its elements are not given any particular value. -/
def Matrix.init (a : Matrix) (x y : Nat) : Matrix :=
  { a with xsize := x, ysize := y }

/-- Modelled from the spec: `matrix::operator=(const T)` (matrix.h is not part of the sources),
after `vector::operator=(const A x)`: every element of the matrix is set to `v`. -/
def Matrix.fill (a : Matrix) (v : ℚ) : Matrix :=
  { a with val := fun t i => if t < a.xsize ∧ i < a.ysize then v else a.val t i }

/-- A `libbase::matrix3<T>`, element `(t, m, i)` is `val t m i`. -/
structure Matrix3 where
  xsize : Nat
  ysize : Nat
  zsize : Nat
  val : Nat → Nat → Nat → ℚ

/-- The assignment `g(t, m, i) = v`. -/
def Matrix3.set (g : Matrix3) (t m i : Nat) (v : ℚ) : Matrix3 :=
  let row := Function.update (g.val t) m (Function.update (g.val t m) i v)
  { g with val := Function.update g.val t row }

/-- Modelled from the spec: `matrix3::init(x, y, z)` (matrix3.h is not part of the sources). -/
def Matrix3.init (g : Matrix3) (x y z : Nat) : Matrix3 :=
  { g with xsize := x, ysize := y, zsize := z }

/-- Modelled from the spec: `matrix::multiplyby(x)` (matrix.h is not part of the sources):
element-wise product, in place. -/
def Matrix.multiplyby (a x : Matrix) : Matrix :=
  { a with val := fun t i => if t < a.xsize ∧ i < a.ysize then a.val t i * x.val t i else a.val t i }

/-- Modelled from the spec: `matrix::divide(x)` (matrix.h is not part of the sources): the
element-wise quotient, returned as a new matrix. -/
def Matrix.divide (a x : Matrix) : Matrix :=
  { a with val := fun t i => if t < a.xsize ∧ i < a.ysize then a.val t i / x.val t i else a.val t i }

/-- A `libbase::vector<int>`. -/
structure IntVector where
  size : Nat
  val : Nat → Nat

/-- `vector::init(x)`. -/
def IntVector.init (v : IntVector) (x : Nat) : IntVector :=
  { v with size := x }

/-- The assignment `v(t) = x`. -/
def IntVector.set (v : IntVector) (t x : Nat) : IntVector :=
  { v with val := Function.update v.val t x }

/-- Two matrices hold the same values: same shape and same elements. -/
def Matrix.same (a b : Matrix) : Prop :=
  a.xsize = b.xsize ∧ a.ysize = b.ysize ∧
    ∀ t, t < a.xsize → ∀ i, i < a.ysize → a.val t i = b.val t i

/-! ## The BCJR decoder (`bcjr.cpp`) -/

/-- The members of `class bcjr`: block length, trellis constants, the two trellis look-up
tables `lut_X` (output symbol) and `lut_m` (next state), the allocation flag and the working
matrices. -/
structure Bcjr where
  tau : Nat
  K : Nat
  N : Nat
  M : Nat
  lut_X : Nat → Nat → Nat
  lut_m : Nat → Nat → Nat
  initialised : Bool
  alpha : Matrix
  beta : Matrix
  gamma : Matrix3

namespace Bcjr

/-- `bcjr::allocate`. -/
def allocate (b : Bcjr) : Bcjr :=
  { b with
    alpha := b.alpha.init (b.tau + 1) b.M
    beta := b.beta.init (b.tau + 1) b.M
    gamma := b.gamma.init b.tau b.M b.K
    initialised := true }

/-- `bcjr::getstart`. -/
def getstart (b : Bcjr) : Nat → ℚ :=
  forUp b.M (fun m r => Function.update r m (b.beta.val 0 m)) (fun _ => 0)

/-- `bcjr::getend`. -/
def getend (b : Bcjr) : Nat → ℚ :=
  forUp b.M (fun m r => Function.update r m (b.alpha.val b.tau m)) (fun _ => 0)

/-- `bcjr::setstart(int state)`. -/
def setstart (b : Bcjr) (state : Nat) : Bcjr :=
  let b := if !b.initialised then b.allocate else b
  let alpha := forUp b.M (fun m alpha => alpha.set 0 m 0) b.alpha
  { b with alpha := alpha.set 0 state 1 }

/-- `bcjr::setend(int state)`. -/
def setend (b : Bcjr) (state : Nat) : Bcjr :=
  let b := if !b.initialised then b.allocate else b
  let beta := forUp b.M (fun m beta => beta.set b.tau m 0) b.beta
  { b with beta := beta.set b.tau state 1 }

/-- `bcjr::setend()`: equiprobable end states. -/
def setend_equiprobable (b : Bcjr) : Bcjr :=
  let b := if !b.initialised then b.allocate else b
  { b with beta := forUp b.M (fun m beta => beta.set b.tau m (1 / (b.M : ℚ))) b.beta }

/-- `bcjr::setstart(const vector<dbl>& p)`; the size assertion is left to the caller. -/
def setstart_pdf (b : Bcjr) (p : Nat → ℚ) : Bcjr :=
  let b := if !b.initialised then b.allocate else b
  { b with alpha := forUp b.M (fun m alpha => alpha.set 0 m (p m)) b.alpha }

/-- `bcjr::setend(const vector<dbl>& p)`; the size assertion is left to the caller. -/
def setend_pdf (b : Bcjr) (p : Nat → ℚ) : Bcjr :=
  let b := if !b.initialised then b.allocate else b
  { b with beta := forUp b.M (fun m beta => beta.set b.tau m (p m)) b.beta }

/-- `bcjr::lambda`. -/
def lambda (b : Bcjr) (t m : Nat) : ℚ :=
  b.alpha.val t m * b.beta.val t m

/-- `bcjr::sigma`. -/
def sigma (b : Bcjr) (t m i : Nat) : ℚ :=
  let mdash := b.lut_m m i
  b.alpha.val (t - 1) m * b.gamma.val (t - 1) m i * b.beta.val t mdash

/-- `bcjr::work_gamma(R)`. -/
def work_gamma (b : Bcjr) (R : Matrix) : Bcjr :=
  { b with gamma :=
      forUp b.tau (fun k gamma =>
        let t := k + 1
        forUp b.M (fun mdash gamma =>
          forUp b.K (fun i gamma =>
            let X := b.lut_X mdash i
            gamma.set (t - 1) mdash i (R.val (t - 1) X)) gamma) gamma) b.gamma }

/-- `bcjr::work_gamma(R, app)`. -/
def work_gamma_app (b : Bcjr) (R app : Matrix) : Bcjr :=
  { b with gamma :=
      forUp b.tau (fun k gamma =>
        let t := k + 1
        forUp b.M (fun mdash gamma =>
          forUp b.K (fun i gamma =>
            let X := b.lut_X mdash i
            gamma.set (t - 1) mdash i (R.val (t - 1) X * app.val (t - 1) i)) gamma) gamma) b.gamma }

/-- The first half of the body of the loop over `t` in `bcjr::work_alpha`: row `t` of alpha is
cleared and the summations are accumulated into it. -/
def work_alpha_sum (b : Bcjr) (t : Nat) (alpha : Matrix) : Matrix :=
  let alpha := forUp b.M (fun m alpha => alpha.set t m 0) alpha
  forUp b.M (fun mdash alpha =>
    forUp b.K (fun i alpha =>
      let m := b.lut_m mdash i
      alpha.set t m (alpha.val t m + alpha.val (t - 1) mdash * b.gamma.val (t - 1) mdash i))
      alpha) alpha

/-- The value of `scale` in `bcjr::work_alpha` at time `t`, before its reciprocal is taken:
the divisor of the normalisation of row `t`. -/
def work_alpha_scale (b : Bcjr) (t : Nat) (alpha : Matrix) : ℚ :=
  let alpha := work_alpha_sum b t alpha
  let scale := alpha.val t 0
  forUp (b.M - 1) (fun j scale =>
    let m := j + 1
    if alpha.val t m > scale then alpha.val t m else scale) scale

/-- The body of the loop over `t` in `bcjr::work_alpha`, in exact arithmetic (`work_alpha_fl`
is the function over a backend that rounds). -/
def work_alpha_step (b : Bcjr) (t : Nat) (alpha : Matrix) : Matrix :=
  let scale := work_alpha_scale b t alpha
  let alpha := work_alpha_sum b t alpha
  let scale := 1 / scale
  forUp b.M (fun m alpha => alpha.set t m (alpha.val t m * scale)) alpha

/-- `bcjr::work_alpha`: `for (t = 1; t <= tau; t++)`. -/
def work_alpha (b : Bcjr) : Bcjr :=
  { b with alpha := forUp b.tau (fun k alpha => work_alpha_step b (k + 1) alpha) b.alpha }

/-- The first half of the body of the loop over `t` in `bcjr::work_beta`. -/
def work_beta_sum (b : Bcjr) (t : Nat) (beta : Matrix) : Matrix :=
  forUp b.M (fun m beta =>
    let beta := beta.set t m 0
    forUp b.K (fun i beta =>
      let mdash := b.lut_m m i
      beta.set t m (beta.val t m + beta.val (t + 1) mdash * b.gamma.val t m i)) beta) beta

/-- The value of `scale` in `bcjr::work_beta` at time `t`, before its reciprocal is taken:
the divisor of the normalisation of row `t`. -/
def work_beta_scale (b : Bcjr) (t : Nat) (beta : Matrix) : ℚ :=
  let beta := work_beta_sum b t beta
  let scale := beta.val t 0
  forUp (b.M - 1) (fun j scale =>
    let m := j + 1
    if beta.val t m > scale then beta.val t m else scale) scale

/-- The body of the loop over `t` in `bcjr::work_beta`, in exact arithmetic (`work_beta_fl` is
the function over a backend that rounds). -/
def work_beta_step (b : Bcjr) (t : Nat) (beta : Matrix) : Matrix :=
  let scale := work_beta_scale b t beta
  let beta := work_beta_sum b t beta
  let scale := 1 / scale
  forUp b.M (fun m beta => beta.set t m (beta.val t m * scale)) beta

/-- `bcjr::work_beta`: `for (t = tau - 1; t >= 0; t--)`. -/
def work_beta (b : Bcjr) : Bcjr :=
  { b with beta := forDown b.tau (fun t beta => work_beta_step b t beta) b.beta }

/-- The probability `Py` of the received sequence computed at the start of
`bcjr::work_results`: the divisor of every result. -/
def work_results_Py (b : Bcjr) : ℚ :=
  forUp b.M (fun mdash Py => Py + b.lambda b.tau mdash) 0

/-- `bcjr::work_results(ri, ro)`. -/
def work_results (b : Bcjr) (ri ro : Matrix) : Matrix × Matrix :=
  let Py := b.work_results_Py
  let ri := ri.fill 0
  let ro := ro.fill 0
  forUp b.tau (fun k s =>
    let t := k + 1
    forUp b.M (fun mdash s =>
      forUp b.K (fun i s =>
        let X := b.lut_X mdash i
        let delta := b.sigma t mdash i / Py
        let ri := s.1.set (t - 1) i (s.1.val (t - 1) i + delta)
        let ro := s.2.set (t - 1) X (s.2.val (t - 1) X + delta)
        (ri, ro)) s) s) (ri, ro)

/-- `bcjr::work_results(ri)`: input statistics only. -/
def work_results_ri (b : Bcjr) (ri : Matrix) : Matrix :=
  let Py := b.work_results_Py
  forUp b.tau (fun k ri =>
    let t := k + 1
    forUp b.K (fun i ri =>
      let delta := forUp b.M (fun mdash delta => delta + b.sigma t mdash i / Py) 0
      ri.set (t - 1) i delta) ri) ri

/-- `bcjr::normalize`, in exact arithmetic (`normalize_fl` is the function over a backend that
rounds). -/
def normalize (r : Matrix) : Matrix :=
  forUp r.xsize (fun t r =>
    let scale := r.val t 0
    let scale := forUp (r.ysize - 1) (fun j scale =>
      let i := j + 1
      if r.val t i > scale then r.val t i else scale) scale
    if scale > 0 then
      let scale := 1 / scale
      forUp r.ysize (fun i r => r.set t i (r.val t i * scale)) r
    else r) r

/-- `bcjr::decode(R, ri, ro)`; `none` is the failed assertion `assert(initialised)`. -/
def decode (b : Bcjr) (R ri ro : Matrix) : Option (Bcjr × Matrix × Matrix) :=
  if b.initialised then
    let b := b.work_gamma R
    let b := b.work_alpha
    let b := b.work_beta
    let r := b.work_results ri ro
    some (b, r.1, r.2)
  else none

/-- `bcjr::decode(R, app, ri, ro)`. -/
def decode_app (b : Bcjr) (R app ri ro : Matrix) : Option (Bcjr × Matrix × Matrix) :=
  if b.initialised then
    let b := b.work_gamma_app R app
    let b := b.work_alpha
    let b := b.work_beta
    let r := b.work_results ri ro
    some (b, r.1, r.2)
  else none

/-- `bcjr::fdecode(R, ri)`. -/
def fdecode (b : Bcjr) (R ri : Matrix) : Option (Bcjr × Matrix) :=
  if b.initialised then
    let b := b.work_gamma R
    let b := b.work_alpha
    let b := b.work_beta
    some (b, b.work_results_ri ri)
  else none

/-- `bcjr::fdecode(R, app, ri)`. -/
def fdecode_app (b : Bcjr) (R app ri : Matrix) : Option (Bcjr × Matrix) :=
  if b.initialised then
    let b := b.work_gamma_app R app
    let b := b.work_alpha
    let b := b.work_beta
    some (b, b.work_results_ri ri)
  else none

end Bcjr

/-! ## The turbo decoder (`turbo.cpp`) -/

/-- Modelled from the spec: the abstract encoder `fsm` (fsm.h is not part of the sources): the
sizes of its alphabets and state space, its current state, and its transition and output
functions. `actual m i` is the input that is fed when `i` is asked for in state `m` (the
operations take their input by reference and may replace a tail marker by the input that
drives the encoder towards state zero), and `circstate m` is the state chosen by
`resetcircular()` when the pass from state zero has ended in `m`. -/
structure Fsm where
  num_inputs : Nat
  num_outputs : Nat
  num_states : Nat
  state : Nat
  next : Nat → Nat → Nat
  output : Nat → Nat → Nat
  actual : Nat → Nat → Nat
  circstate : Nat → Nat

namespace Fsm

/-- Modelled from the spec: `fsm::reset(state)`. -/
def reset (e : Fsm) (s : Nat) : Fsm := { e with state := s }

/-- Modelled from the spec: `fsm::step(int& input)`: the input is fed, the state advances, and
the output symbol is returned. The result is the encoder, the input as the call leaves it and
the output. -/
def step (e : Fsm) (input : Nat) : Fsm × Nat × Nat :=
  let a := e.actual e.state input
  ({ e with state := e.next e.state a }, a, e.output e.state a)

/-- Modelled from the spec: `fsm::advance(int& input)`: as `step`, without an output. -/
def advance (e : Fsm) (input : Nat) : Fsm × Nat :=
  let a := e.actual e.state input
  ({ e with state := e.next e.state a }, a)

/-- Modelled from the spec: `fsm::resetcircular()`. -/
def resetcircular (e : Fsm) : Fsm := { e with state := e.circstate e.state }

end Fsm

/-- Modelled from the spec: the abstract `interleaver` (interleaver.h is not part of the
sources), as far as the codec uses it: `transform(in, out)` and `inverse(in, out)` on
probability matrices, and `transform(in, out)` on vectors of symbols, each giving `out` as a
function of `in`. -/
structure Interleaver where
  transform : Matrix → Matrix
  inverse : Matrix → Matrix
  transform_int : IntVector → IntVector

/-- The probability matrices owned by a `turbo` object. C++ references to them are modelled by
these names, so that a method called with the same matrix for two of its parameters reads back
what it has written. -/
inductive MRef where
  | m_rp : MRef
  | m_ri : MRef
  | m_rai : MRef
  | m_rii : MRef
  | m_ra : Nat → MRef
  | m_r : Nat → MRef
  | m_R : Nat → MRef
  deriving DecidableEq

/-- The members of `class turbo`. `bcjr` is the base-class object, `mem` holds the matrices
named by `MRef`, `ss` and `se` are the stored start- and end-state distributions. -/
structure Turbo where
  encoder : Fsm
  tau : Nat
  num_sets : Nat
  inter : Nat → Interleaver
  iter : Nat
  endatzero : Bool
  parallel : Bool
  circular : Bool
  initialised : Bool
  bcjr : Bcjr
  mem : MRef → Matrix
  ss : Nat → Nat → ℚ
  se : Nat → Nat → ℚ

namespace Turbo

/-- `turbo::num_inputs()`. -/
def num_inputs (T : Turbo) : Nat := T.encoder.num_inputs

/-- `turbo::enc_outputs()`. -/
def enc_outputs (T : Turbo) : Nat := T.encoder.num_outputs

/-- `turbo::enc_states()`. -/
def enc_states (T : Turbo) : Nat := T.encoder.num_states

/-- The assignment of a whole matrix to the matrix named `x`. -/
def store (T : Turbo) (x : MRef) (a : Matrix) : Turbo :=
  { T with mem := Function.update T.mem x a }

/-- `turbo::allocate`. The vectors `ss(i)`, `se(i)` carry no size in the model, so that their
`init(enc_states())` for a circular code does not show. -/
def allocate (T : Turbo) : Turbo :=
  let T := forUp T.num_sets (fun i T =>
    let T := T.store (MRef.m_r i) ((T.mem (MRef.m_r i)).init T.tau T.num_inputs)
    T.store (MRef.m_R i) ((T.mem (MRef.m_R i)).init T.tau T.enc_outputs)) T
  let T := T.store MRef.m_rp ((T.mem MRef.m_rp).init T.tau T.num_inputs)
  let T := T.store MRef.m_ri ((T.mem MRef.m_ri).init T.tau T.num_inputs)
  let T := T.store MRef.m_rai ((T.mem MRef.m_rai).init T.tau T.num_inputs)
  let T := T.store MRef.m_rii ((T.mem MRef.m_rii).init T.tau T.num_inputs)
  let T :=
    if T.parallel then
      forUp T.num_sets (fun i T =>
        T.store (MRef.m_ra i) ((T.mem (MRef.m_ra i)).init T.tau T.num_inputs)) T
    else T.store (MRef.m_ra 0) ((T.mem (MRef.m_ra 0)).init T.tau T.num_inputs)
  { T with initialised := true }

/-- `turbo::reset`; `none` is the failed assertion `assert(initialised)`. -/
def reset (T : Turbo) : Option Turbo :=
  if T.circular then
    if T.initialised then
      some (forUp T.num_sets (fun set T =>
        let T := { T with ss := Function.update T.ss set (fun _ => 1 / (T.enc_states : ℚ)) }
        { T with se := Function.update T.se set (fun _ => 1 / (T.enc_states : ℚ)) }) T)
    else none
  else if T.endatzero then
    some { T with bcjr := (T.bcjr.setstart 0).setend 0 }
  else
    some { T with bcjr := (T.bcjr.setstart 0).setend_equiprobable }

/-- `turbo::work_extrinsic(ra, ri, r, re)`. Where the divisor `ra(t, x) * r(t, x)` is zero
the `double` code stores an infinity and the quotient of rationals is `0`: the statements
about the quotient are for a divisor that is not zero. -/
def work_extrinsic (T : Turbo) (ra ri r re : MRef) : Turbo :=
  forUp T.tau (fun t T =>
    forUp T.num_inputs (fun x T =>
      if (T.mem ri).val t x > 0 then
        T.store re ((T.mem re).set t x ((T.mem ri).val t x / ((T.mem ra).val t x * (T.mem r).val t x)))
      else
        T.store re ((T.mem re).set t x 0)) T) T

/-- `turbo::bcjr_wrap(set, ra, ri, re)`; `none` is a failed assertion of the BCJR decoder. -/
def bcjr_wrap (T : Turbo) (set : Nat) (ra ri re : MRef) : Option Turbo :=
  let T :=
    if T.circular then
      { T with bcjr := (T.bcjr.setstart_pdf (T.ss set)).setend_pdf (T.se set) }
    else T
  let T := T.store MRef.m_rai ((T.inter set).transform (T.mem ra))
  (T.bcjr.fdecode_app (T.mem (MRef.m_R set)) (T.mem MRef.m_rai) (T.mem MRef.m_rii)).map
    (fun r =>
      let T := { T with bcjr := r.1 }
      let T := T.store MRef.m_rii r.2
      let T := T.work_extrinsic MRef.m_rai MRef.m_rii (MRef.m_r set) MRef.m_rai
      let T := T.store ri ((T.inter set).inverse (T.mem MRef.m_rii))
      let T := T.store re ((T.inter set).inverse (T.mem MRef.m_rai))
      if T.circular then
        let T := { T with ss := Function.update T.ss set T.bcjr.getstart }
        { T with se := Function.update T.se set T.bcjr.getend }
      else T)

/-- `turbo::hard_decision(ri, decoded)` on a vector that holds its `tau` elements, as
`turbo::decode` passes it after `decoded.init(tau)`: the index assertions of `decoded(t)`,
which then hold, are left out. `hard_decision_checked` is the function with them. -/
def hard_decision (T : Turbo) (ri : Matrix) (decoded : IntVector) : IntVector :=
  forUp T.tau (fun t decoded =>
    let decoded := decoded.set t 0
    forUp (T.num_inputs - 1) (fun j decoded =>
      let i := j + 1
      if ri.val t i > ri.val t (decoded.val t) then decoded.set t i else decoded) decoded)
    decoded

/-- `turbo::decode_serial(ri)`. -/
def decode_serial (T : Turbo) (ri : MRef) : Option Turbo :=
  (forUpO T.num_sets (fun set T =>
    (T.bcjr_wrap set (MRef.m_ra 0) ri (MRef.m_ra 0)).map (fun T =>
      T.store (MRef.m_ra 0) (Bcjr.normalize (T.mem (MRef.m_ra 0))))) T).map (fun T =>
    T.store ri (Bcjr.normalize (T.mem ri)))

/-- The part of `turbo::decode_parallel(ri)` that follows the decoding of the sets: the
extrinsic matrices are combined into `ri` and into the next a-priori matrices. -/
def decode_parallel_combine (T : Turbo) (ri : MRef) : Turbo :=
  let T := T.store ri (T.mem (MRef.m_ra 0))
  let T := forUp (T.num_sets - 1) (fun j T =>
    let set := j + 1
    T.store ri ((T.mem ri).multiplyby (T.mem (MRef.m_ra set)))) T
  let T := forUp T.num_sets (fun set T =>
    T.store (MRef.m_ra set) ((T.mem ri).divide (T.mem (MRef.m_ra set)))) T
  let T := T.store ri ((T.mem ri).multiplyby (T.mem MRef.m_rp))
  let T := forUp T.num_sets (fun set T =>
    T.store (MRef.m_ra set) (Bcjr.normalize (T.mem (MRef.m_ra set)))) T
  T.store ri (Bcjr.normalize (T.mem ri))

/-- The first loop of `turbo::decode_parallel(ri)`: every set is decoded with its own a-priori
matrix, which receives the extrinsic information of that set. -/
def decode_parallel_sets (T : Turbo) (ri : MRef) : Option Turbo :=
  forUpO T.num_sets (fun set T => T.bcjr_wrap set (MRef.m_ra set) ri (MRef.m_ra set)) T

/-- `turbo::decode_parallel(ri)`. -/
def decode_parallel (T : Turbo) (ri : MRef) : Option Turbo :=
  (T.decode_parallel_sets ri).map (fun T => T.decode_parallel_combine ri)

/-- `turbo::decode(decoded)`. -/
def decode (T : Turbo) (decoded : IntVector) : Option (Turbo × IntVector) :=
  let decoded := decoded.init T.tau
  let T := if !T.initialised then T.allocate else T
  let r := if T.parallel then T.decode_parallel MRef.m_ri else T.decode_serial MRef.m_ri
  r.map (fun T => (T, T.hard_decision (T.mem MRef.m_ri) decoded))

end Turbo

/-! ## Loop patterns used by the proofs -/

/-- The running maximum `scale = f(0); for (m = 1; m <= n; m++) if (f(m) > scale) scale = f(m)`,
the pattern by which every row maximum of the decoder is found. -/
def maxLoop (f : Nat → ℚ) (n : Nat) : ℚ :=
  forUp n (fun j scale => if f (j + 1) > scale then f (j + 1) else scale) (f 0)

/-- The running argmax `d = 0; for (i = 1; i <= n; i++) if (f(i) > f(d)) d = i`. -/
def argLoop (f : Nat → ℚ) (n : Nat) : Nat :=
  forUp n (fun j d => if f (j + 1) > f d then j + 1 else d) 0

/-- The value that `work_extrinsic` assigns to `re(t, x)`, read from the matrices of `T`. -/
def extrinsicValue (T : Turbo) (ra ri r : MRef) (t x : Nat) : ℚ :=
  if (T.mem ri).val t x > 0 then
    (T.mem ri).val t x / ((T.mem ra).val t x * (T.mem r).val t x)
  else 0

/-- The body of the inner loop of `work_extrinsic`. -/
def extrinsicBody (ra ri r re : MRef) (t x : Nat) (T : Turbo) : Turbo :=
  if (T.mem ri).val t x > 0 then
    T.store re ((T.mem re).set t x ((T.mem ri).val t x / ((T.mem ra).val t x * (T.mem r).val t x)))
  else
    T.store re ((T.mem re).set t x 0)

/-- The maximum of row `t` of a matrix, as found by the row-max normaliser. -/
def Matrix.rowMax (r : Matrix) (t : Nat) : ℚ :=
  maxLoop (r.val t) (r.ysize - 1)

/-- The body of the loop over `t` in `bcjr::normalize`. -/
def normalizeBody (t : Nat) (r : Matrix) : Matrix :=
  let scale := r.val t 0
  let scale := forUp (r.ysize - 1) (fun j scale =>
    let i := j + 1
    if r.val t i > scale then r.val t i else scale) scale
  if scale > 0 then
    let scale := 1 / scale
    forUp r.ysize (fun i r => r.set t i (r.val t i * scale)) r
  else r

/-- A matrix with a row of positive maximum and a row without. -/
def exampleMatrix : Matrix :=
  { xsize := 2, ysize := 2, val := fun t i => if t = 0 then (if i = 0 then 1 / 2 else 1 / 3) else 0 }

/-! ## The forward and backward recursions, as sums -/

/-- One step of the forward recursion on a row of state metrics: the metric of state `m'` is
the sum, over the transitions `(m, i)` that lead to `m'`, of `f m * g m i`. -/
def trStep (M K : Nat) (lm : Nat → Nat → Nat) (g : Nat → Nat → ℚ) (f : Nat → ℚ) (m' : Nat) : ℚ :=
  ∑ m in Finset.range M, ∑ i in Finset.range K, if lm m i = m' then f m * g m i else 0

/-- One step of the backward recursion on a row of state metrics. -/
def bkStep (K : Nat) (lm : Nat → Nat → Nat) (g : Nat → Nat → ℚ) (f : Nat → ℚ) (m : Nat) : ℚ :=
  ∑ i in Finset.range K, f (lm m i) * g m i

/-- The forward state metrics without normalisation: `fwd 0 = a0` and each further row is one
forward step from the row before, with the branch metrics `g t` of time `t`. -/
def fwd (M K : Nat) (lm : Nat → Nat → Nat) (g : Nat → Nat → Nat → ℚ) (a0 : Nat → ℚ) :
    Nat → Nat → ℚ
  | 0 => a0
  | t + 1 => trStep M K lm (g t) (fwd M K lm g a0 t)

/-- The backward state metrics without normalisation, `n` steps before the end of the block, at
time `t`: `bwd 0 = bEnd` and each further row is one backward step from the row after. -/
def bwd (K : Nat) (lm : Nat → Nat → Nat) (g : Nat → Nat → Nat → ℚ) (bEnd : Nat → ℚ) :
    Nat → Nat → Nat → ℚ
  | 0, _ => bEnd
  | n + 1, t => bkStep K lm (g t) (bwd K lm g bEnd n (t + 1))

namespace Bcjr

/-- The divisor by which `bcjr::work_alpha` normalises row `k + 1` of alpha: the value of
`scale`, before its reciprocal is taken, in the iteration `t = k + 1` of the loop, which starts
from the matrix left by the iterations before it. -/
def alpha_divisor (b : Bcjr) (k : Nat) : ℚ :=
  b.work_alpha_scale (k + 1) (forUp k (fun j alpha => b.work_alpha_step (j + 1) alpha) b.alpha)

/-- The divisor by which `bcjr::work_beta` normalises row `t` of beta: the value of `scale`,
before its reciprocal is taken, in the iteration `t` of the loop, which starts from the matrix
left by the iterations `tau - 1, ..., t + 1`. -/
def beta_divisor (b : Bcjr) (t : Nat) : ℚ :=
  b.work_beta_scale t
    (forDown (b.tau - 1 - t) (fun j beta => b.work_beta_step (t + 1 + j) beta) b.beta)

end Bcjr

/-- The hypotheses under which the rows `A` of alpha and `B` of beta, with the divisors `D` and
`E`, are those computed by `work_alpha` and `work_beta` from the start vector `a0`, the end
vector `bEnd` and the branch metrics `g`. -/
structure Normalised (M K tau : Nat) (lm : Nat → Nat → Nat) (g : Nat → Nat → Nat → ℚ)
    (a0 bEnd : Nat → ℚ) (A B : Nat → Nat → ℚ) (D E : Nat → ℚ) : Prop where
  hM : 0 < M
  hwf : ∀ m i, m < M → i < K → lm m i < M
  hg : ∀ t m i, t < tau → m < M → i < K → 0 ≤ g t m i
  ha0 : ∀ m, m < M → 0 ≤ a0 m
  hb : ∀ m, m < M → 0 ≤ bEnd m
  hA0 : ∀ m, m < M → A 0 m = a0 m
  hAD : ∀ k, k < tau → D k = maxLoop (trStep M K lm (g k) (A k)) (M - 1)
  hAstep : ∀ k, k < tau → ∀ m, m < M → A (k + 1) m = trStep M K lm (g k) (A k) m * (1 / D k)
  hBend : ∀ m, m < M → B tau m = bEnd m
  hBE : ∀ t, t < tau → E t = maxLoop (bkStep K lm (g t) (B (t + 1))) (M - 1)
  hBstep : ∀ t, t < tau → ∀ m, m < M → B t m = bkStep K lm (g t) (B (t + 1)) m * (1 / E t)

/-! ## The MAP posterior as a sum over trellis paths -/

/-- All input sequences of length `n` over the input alphabet `[0, K)`. -/
def inputSeqs (K : Nat) : Nat → List (List Nat)
  | 0 => [[]]
  | n + 1 => (List.range K).flatMap (fun i => (inputSeqs K n).map (fun u => i :: u))

/-- The weight of the path that leaves state `s` at time `k` and follows the inputs `u`: the
product of `R[k'][lut_X(s_k', u_k')]` over the steps of the path, times the end metric of the
state in which the path ends, where `s_{k'+1} = lut_m(s_k', u_k')`. -/
def pathWeight (b : Bcjr) (R : Matrix) (bEnd : Nat → ℚ) : Nat → Nat → List Nat → ℚ
  | _, s, [] => bEnd s
  | k, s, i :: u => R.val k (b.lut_X s i) * pathWeight b R bEnd (k + 1) (b.lut_m s i) u

/-- The sum, over all start states `s0` and all input sequences `u` of length `tau` with
`u_t = i`, of `a0[s0] * prod_k R[k][lut_X(s_k,u_k)] * bEnd[s_tau]`: the unnormalised MAP
posterior of input `i` at time `t`. -/
def mapSum (b : Bcjr) (R : Matrix) (a0 bEnd : Nat → ℚ) (t i : Nat) : ℚ :=
  ((List.range b.M).map (fun s0 =>
    (((inputSeqs b.K b.tau).filter (fun u => decide (u[t]? = some i))).map
      (fun u => a0 s0 * pathWeight b R bEnd 0 s0 u)).sum)).sum

/-- The weight of a path for general branch metrics `g` and next-state table `lm`. -/
def pathW (lm : Nat → Nat → Nat) (g : Nat → Nat → Nat → ℚ) (bEnd : Nat → ℚ) :
    Nat → Nat → List Nat → ℚ
  | _, s, [] => bEnd s
  | k, s, i :: u => g k s i * pathW lm g bEnd (k + 1) (lm s i) u

/-- The sum of the weights of the paths of length `n` that leave state `s` at time `k` and have
input `i` at their step `t`. -/
def pathSumAt (K : Nat) (lm : Nat → Nat → Nat) (g : Nat → Nat → Nat → ℚ) (bEnd : Nat → ℚ)
    (n k s t i : Nat) : ℚ :=
  (((inputSeqs K n).filter (fun u => decide (u[t]? = some i))).map (pathW lm g bEnd k s)).sum

/-- The plain forward recursion started at time `k` from the row `f`, after `t` steps. -/
def fwdFrom (M K : Nat) (lm : Nat → Nat → Nat) (g : Nat → Nat → Nat → ℚ) :
    Nat → (Nat → ℚ) → Nat → Nat → ℚ
  | _, f, 0 => f
  | k, f, t + 1 => fwdFrom M K lm g (k + 1) (trStep M K lm (g k) f) t

/-! ## A small trellis for the examples -/

/-- An unallocated decoder for the two-state accumulator code (next state `(m + i) mod 2`,
output symbol `i + 2 * next state`) with block length 2. -/
def exampleTrellis : Bcjr :=
  { tau := 2, K := 2, N := 4, M := 2
    lut_X := fun m i => i + 2 * ((m + i) % 2)
    lut_m := fun m i => (m + i) % 2
    initialised := false
    alpha := { xsize := 0, ysize := 0, val := fun _ _ => 0 }
    beta := { xsize := 0, ysize := 0, val := fun _ _ => 0 }
    gamma := { xsize := 0, ysize := 0, zsize := 0, val := fun _ _ _ => 0 } }

/-- The example decoder after `setstart(0)` and `setend(1)`. -/
def exampleBcjr : Bcjr := (exampleTrellis.setstart 0).setend 1

/-- The noiseless channel table of the codeword `3, 2`, which encodes the inputs `1, 0` from
state 0 and ends in state 1. -/
def exampleR : Matrix :=
  { xsize := 2, ysize := 4
    val := fun t x => if (t = 0 ∧ x = 3) ∨ (t = 1 ∧ x = 2) then 1 else 0 }

/-- A channel table with strictly positive entries. -/
def exampleRpos : Matrix :=
  { xsize := 2, ysize := 4, val := fun t x => ((x : ℚ) + 1 + t) / 8 }

/-- A `2 x 2` result matrix with arbitrary previous contents. -/
def exampleRi : Matrix :=
  { xsize := 2, ysize := 2, val := fun t i => 5 + t + i }

/-- A `2 x 4` result matrix with arbitrary previous contents. -/
def exampleRo : Matrix :=
  { xsize := 2, ysize := 4, val := fun _ _ => 7 }

/-- The a-priori table that is 1 everywhere. -/
def exampleOnes : Matrix :=
  { xsize := 2, ysize := 2, val := fun _ _ => 1 }

/-- A turbo decoder over a one-state trellis with two inputs and four output symbols (output
`3 * i` for input `i`), one set with the identity interleaver, block length 1, `iter = 2`,
serial schedule, ended at zero; its matrices are those left by `translate` for the intrinsic
probabilities `(1, 1/2)` of the inputs and `(2/3, 1)` of the parity symbols. -/
def exampleTurbo : Turbo :=
  { encoder := { num_inputs := 2, num_outputs := 4, num_states := 1, state := 0
                 next := fun _ _ => 0, output := fun _ i => 3 * i
                 actual := fun _ i => i, circstate := fun m => m }
    tau := 1
    num_sets := 1
    inter := fun _ => { transform := id, inverse := id, transform_int := id }
    iter := 2
    endatzero := true
    parallel := false
    circular := false
    initialised := true
    bcjr := Bcjr.setend (Bcjr.setstart
      { tau := 1, K := 2, N := 4, M := 1
        lut_X := fun _ i => 3 * i
        lut_m := fun _ _ => 0
        initialised := false
        alpha := { xsize := 0, ysize := 0, val := fun _ _ => 0 }
        beta := { xsize := 0, ysize := 0, val := fun _ _ => 0 }
        gamma := { xsize := 0, ysize := 0, zsize := 0, val := fun _ _ _ => 0 } } 0) 0
    mem := fun x =>
      match x with
      | MRef.m_rp => { xsize := 1, ysize := 2, val := fun _ i => if i = 0 then 1 else 1 / 2 }
      | MRef.m_r _ => { xsize := 1, ysize := 2, val := fun _ i => if i = 0 then 1 else 1 / 2 }
      | MRef.m_R _ =>
        { xsize := 1, ysize := 4
          val := fun _ x => if x = 0 then 2 / 3 else if x = 1 then 1 / 3 else if x = 2 then 1
            else 1 / 2 }
      | MRef.m_ra _ => { xsize := 1, ysize := 2, val := fun _ _ => 1 }
      | _ => { xsize := 1, ysize := 2, val := fun _ _ => 0 }
    ss := fun _ _ => 0
    se := fun _ _ => 0 }

/-- An empty vector of decoded symbols. -/
def exampleDecoded : IntVector := { size := 0, val := fun _ => 0 }

/-! ## The encoder as a walk on the trellis -/

/-- The output symbols of the encoder started in state `s` on the inputs `u`. -/
def encOutputs (b : Bcjr) : Nat → List Nat → List Nat
  | _, [] => []
  | s, i :: u => b.lut_X s i :: encOutputs b (b.lut_m s i) u

/-- The state in which the encoder started in state `s` ends after the inputs `u`. -/
def encFinal (b : Bcjr) : Nat → List Nat → Nat
  | s, [] => s
  | s, i :: u => encFinal b (b.lut_m s i) u

/-- The noiseless channel table of the codeword `xs`: `R[t][x] = 1` if `x` is the symbol sent
at time `t` and `0` otherwise. -/
def noiselessR (N : Nat) (xs : List Nat) : Matrix :=
  { xsize := xs.length, ysize := N, val := fun t x => if xs[t]? = some x then 1 else 0 }

/-- An unallocated decoder for a one-state trellis with two parallel transitions: both inputs
give output symbol 0. -/
def parallelTrellis : Bcjr :=
  { tau := 1, K := 2, N := 1, M := 1
    lut_X := fun _ _ => 0
    lut_m := fun _ _ => 0
    initialised := false
    alpha := { xsize := 0, ysize := 0, val := fun _ _ => 0 }
    beta := { xsize := 0, ysize := 0, val := fun _ _ => 0 }
    gamma := { xsize := 0, ysize := 0, zsize := 0, val := fun _ _ _ => 0 } }

/-! ## The steps of `turbo::bcjr_wrap` and the schedule -/

namespace Turbo

/-- The first part of `bcjr_wrap`: the start and end vectors of a circular code are set from
the stored distributions, and the a-priori matrix is interleaved into `rai`. -/
def bcjr_wrap_prepare (T : Turbo) (set : Nat) (ra : MRef) : Turbo :=
  let T :=
    if T.circular then
      { T with bcjr := (T.bcjr.setstart_pdf (T.ss set)).setend_pdf (T.se set) }
    else T
  T.store MRef.m_rai ((T.inter set).transform (T.mem ra))

/-- The last part of `bcjr_wrap`, after the BCJR decoder returned the state `b` and the
posteriors `rii`: the extrinsic information is extracted and both results are
de-interleaved. -/
def bcjr_wrap_finish (T : Turbo) (set : Nat) (ri re : MRef) (b : Bcjr) (rii : Matrix) : Turbo :=
  let T := { T with bcjr := b }
  let T := T.store MRef.m_rii rii
  let T := T.work_extrinsic MRef.m_rai MRef.m_rii (MRef.m_r set) MRef.m_rai
  let T := T.store ri ((T.inter set).inverse (T.mem MRef.m_rii))
  let T := T.store re ((T.inter set).inverse (T.mem MRef.m_rai))
  if T.circular then
    let T := { T with ss := Function.update T.ss set T.bcjr.getstart }
    { T with se := Function.update T.se set T.bcjr.getend }
  else T

/-- The configuration that decoding leaves alone: a decoder `T'` reached from `T` has the
block length, number of sets, flags and interleavers of `T`. -/
def sameConfig (T T' : Turbo) : Prop :=
  T'.tau = T.tau ∧ T'.num_sets = T.num_sets ∧ T'.parallel = T.parallel ∧
    T'.circular = T.circular ∧ T'.initialised = T.initialised ∧ T'.inter = T.inter ∧
    T'.encoder = T.encoder

/-- One outer iteration of the schedule over all sets, serial or parallel as configured. -/
def schedule (T : Turbo) : Option Turbo :=
  if T.parallel then T.decode_parallel MRef.m_ri else T.decode_serial MRef.m_ri

/-- The decoder state on entry to the call of `bcjr_wrap` for set `s` in `decode_parallel`
(or `T` itself if an earlier call failed). -/
def parallel_before (T : Turbo) (ri : MRef) (s : Nat) : Turbo :=
  (forUpO s (fun set T => T.bcjr_wrap set (MRef.m_ra set) ri (MRef.m_ra set)) T).getD T

/-- The extrinsic matrix `re_s` that the call of `bcjr_wrap` for set `s` in `decode_parallel`
leaves in `ra(s)`. -/
def parallel_extrinsic (T : Turbo) (ri : MRef) (s : Nat) : Matrix :=
  (((T.parallel_before ri s).bcjr_wrap s (MRef.m_ra s) ri (MRef.m_ra s)).getD T).mem
    (MRef.m_ra s)

end Turbo

/-- The element-wise product `rp * prod_{s < S} re s`, with the shape of `re 0`. -/
def productMatrix (rp : Matrix) (re : Nat → Matrix) (S : Nat) : Matrix :=
  { xsize := (re 0).xsize, ysize := (re 0).ysize
    val := fun t x => rp.val t x * ∏ s in Finset.range S, (re s).val t x }

/-- The decoder `T` configured with `n` iterations instead of `T.iter`. -/
def Turbo.withIter (T : Turbo) (n : Nat) : Turbo := { T with iter := n }

/-- The example decoder with two sets and the parallel schedule. -/
def exampleParallel : Turbo := { exampleTurbo with num_sets := 2, parallel := true }

/-! ## Construction (`bcjr::init`, `turbo::init`) -/

namespace Bcjr

/-- `bcjr::init(encoder, tau)`; `none` is the fatal error for a block size below 1. The encoder
is passed by reference: it is returned in the state in which the loops leave it. -/
def init (b : Bcjr) (encoder : Fsm) (tau : Int) : Option (Bcjr × Fsm) :=
  if tau < 1 then none
  else
    let b := { b with tau := tau.toNat }
    let b := { b with K := encoder.num_inputs, N := encoder.num_outputs, M := encoder.num_states }
    let s := forUp b.M (fun mdash s =>
      forUp b.K (fun i s =>
        let encoder := s.2.reset mdash
        let input := i
        let r := encoder.step input
        let b := { s.1 with
          lut_X := Function.update s.1.lut_X mdash (Function.update (s.1.lut_X mdash) i r.2.2) }
        let b := { b with
          lut_m := Function.update b.lut_m mdash (Function.update (b.lut_m mdash) i r.1.state) }
        (b, r.1)) s) (b, encoder)
    some ({ s.1 with initialised := false }, s.2)

end Bcjr

namespace Turbo

/-- Modelled from the spec: `turbo::enc_parity()` (turbo.h is not part of the sources): the
number of parity symbols of the encoder, `enc_outputs() / num_inputs()`. -/
def enc_parity (T : Turbo) : Nat := T.enc_outputs / T.num_inputs

/-- The constructor `turbo::turbo(encoder, tau, inter, iter, endatzero, parallel, circular)`:
the members are set and `turbo::init()` is run; `none` is a fatal error, a failed
`assertalways`, or the division by zero in `enc_parity()` for an encoder without inputs. `T` is
the object under construction, `num_sets` is the size of `inter`. The call `seed(0)` only
re-seeds the random sources of the interleavers, which the model does not hold. -/
def construct (T : Turbo) (encoder : Fsm) (tau : Int) (num_sets : Nat)
    (inter : Nat → Interleaver) (iter : Int) (endatzero parallel circular : Bool) :
    Option Turbo :=
  let T := { T with
    encoder := encoder, tau := tau.toNat, num_sets := num_sets, inter := inter
    endatzero := endatzero, parallel := parallel, circular := circular, iter := iter.toNat }
  (T.bcjr.init T.encoder tau).bind (fun r =>
    let T := { T with bcjr := r.1, encoder := r.2 }
    if T.num_inputs = 0 then none
    else if T.enc_parity * T.num_inputs ≠ T.enc_outputs then none
    else if ¬ 0 < T.num_sets then none
    else if ¬ 0 < tau then none
    else if ¬ (!endatzero || !circular) = true then none
    else if ¬ 0 < iter then none
    else some { T with initialised := false })

end Turbo

/-- The body of the loops of `bcjr::init` at `(mdash, i)`, on the decoder and the encoder. -/
def initBody (mdash i : Nat) (s : Bcjr × Fsm) : Bcjr × Fsm :=
  let encoder := s.2.reset mdash
  let input := i
  let r := encoder.step input
  let b := { s.1 with
    lut_X := Function.update s.1.lut_X mdash (Function.update (s.1.lut_X mdash) i r.2.2) }
  let b := { b with
    lut_m := Function.update b.lut_m mdash (Function.update (b.lut_m mdash) i r.1.state) }
  (b, r.1)

/-- The objects that `turbo::encode` works on: the codec (for its encoder and interleavers),
the vector `source`, and the local variables `source2` and `x`. -/
structure EncodeState where
  T : Turbo
  source : IntVector
  source2 : IntVector
  x : Nat → Nat → Nat

namespace Turbo

/-- The start of the body of the loop over the sets in `turbo::encode`: the source is
interleaved and the encoder is reset, for a circular code after a first pass that determines
the circulation state. The result is the encoder, the vector `source2` and `cstate`. The call
`inter(set)->advance()` moves interleaver `set` to its next block; what it becomes is given by
`advanced set`. -/
def encode_prepare (advanced : Nat → Interleaver) (set : Nat) (s : EncodeState) :
    Fsm × IntVector × Nat :=
  let T := { s.T with inter := Function.update s.T.inter set (advanced set) }
  let source2 := (T.inter set).transform_int s.source
  let encoder := T.encoder.reset 0
  let cstate := 0
  if T.circular then
    let r := forUp T.tau (fun t (r : Fsm × IntVector) =>
      let a := r.1.advance (r.2.val t)
      (a.1, r.2.set t a.2)) (encoder, source2)
    let encoder := r.1.resetcircular
    (encoder, r.2, encoder.state)
  else (encoder, source2, cstate)

/-- The body of the loop over the sets in `turbo::encode`; `none` is a failed `assertalways`
on the final state of the encoder. -/
def encode_set (advanced : Nat → Interleaver) (set : Nat) (s : EncodeState) :
    Option EncodeState :=
  let T := { s.T with inter := Function.update s.T.inter set (advanced set) }
  let c := encode_prepare advanced set s
  let r := forUp T.tau (fun t (r : Fsm × IntVector × (Nat → Nat → Nat)) =>
    let o := r.1.step (r.2.1.val t)
    (o.1, r.2.1.set t o.2.1,
      Function.update r.2.2 set (Function.update (r.2.2 set) t (o.2.2 / T.num_inputs))))
    (c.1, c.2.1, s.x)
  let source := if T.endatzero && set == 0 then r.2.1 else s.source
  if T.circular = true ∧ r.1.state ≠ c.2.2 then none
  else if T.endatzero = true ∧ r.1.state ≠ 0 then none
  else some { T := { T with encoder := r.1 }, source := source, source2 := r.2.1, x := r.2.2 }

/-- The last loop of `turbo::encode`: the source symbol and the parity symbols of time `t` are
packed into `encoded(t)`. -/
def encode_pack (s : EncodeState) (encoded : IntVector) : IntVector :=
  forUp s.T.tau (fun t encoded =>
    let encoded := encoded.set t (s.source.val t)
    (forUp s.T.num_sets (fun set (r : IntVector × Nat) =>
      (r.1.set t (r.1.val t + s.x set t * r.2), r.2 * s.T.enc_parity))
      (encoded, s.T.num_inputs)).1) encoded

/-- `turbo::encode(source, encoded)`. The result holds the codec, the vector `source` as the
call leaves it and the local matrix `x` (so that its values can be named), and the vector
`encoded`. The local variables `source2` and `x` start with values that are never read. -/
def encode (T : Turbo) (advanced : Nat → Interleaver) (source encoded : IntVector) :
    Option (EncodeState × IntVector) :=
  let encoded := encoded.init T.tau
  let s : EncodeState :=
    { T := T, source := source, source2 := { size := T.tau, val := fun _ => 0 }
      x := fun _ _ => 0 }
  (forUpO T.num_sets (encode_set advanced) s).map (fun s => (s, encode_pack s encoded))

end Turbo

/-- The value of `int(round(log(double(v)) / log(double(S))))` in exact arithmetic, for
`S >= 2` and `v >= 1`: the integer nearest to the logarithm of `v` in base `S`, which is the
integer part `k` of the logarithm unless `v >= S ^ (k + 1/2)`. -/
def roundLog (S v : Nat) : Nat :=
  let k := Nat.log S v
  if S ^ (2 * k + 1) ≤ v ^ 2 then k + 1 else k

/-- The entry `rp(t, x)` as `turbo::translate` computes it: the product over the `sk` digits of
`x` of the channel likelihoods of these digits. -/
def translate_rp_entry (ptable : Matrix) (S s sk t x : Nat) (rp : Matrix) : Matrix :=
  let rp := rp.set t x 1
  (forUp sk (fun i (r : Matrix × Nat) =>
    (r.1.set t x (r.1.val t x * ptable.val (t * s + i) (r.2 % S)), r.2 / S)) (rp, x)).1

/-- The entry `p(set, t, x)` as `turbo::translate` computes it. -/
def translate_p_entry (ptable : Matrix) (S s sp t x set offset : Nat) (p : Matrix3) : Matrix3 :=
  let p := p.set set t x 1
  (forUp sp (fun i (r : Matrix3 × Nat) =>
    (r.1.set set t x (r.1.val set t x * ptable.val (t * s + i + offset) (r.2 % S)), r.2 / S))
    (p, x)).1

namespace Turbo

/-- The loop of `turbo::translate` that reads the channel table: it fills `rp` and the local
table `p` of the parity symbols. -/
def translate_tables (T : Turbo) (ptable : Matrix) (S s sk sp : Nat) (rp : Matrix)
    (p : Matrix3) : Matrix × Matrix3 :=
  forUp T.tau (fun t (st : Matrix × Matrix3) =>
    let rp := forUp T.num_inputs (fun x rp => translate_rp_entry ptable S s sk t x rp) st.1
    let p := forUp T.enc_parity (fun x p =>
      (forUp T.num_sets (fun set (q : Matrix3 × Nat) =>
        (translate_p_entry ptable S s sp t x set q.2 q.1, q.2 + sp)) (p, sk)).1) st.2
    (rp, p)) (rp, p)

/-- The part of `turbo::translate` that initialises the extrinsic a-priori matrices:
`ra(set) = 1.0` for every matrix `ra(set)` that exists. -/
def translate_apriori (T : Turbo) : Turbo :=
  forUp (if T.parallel then T.num_sets else 1) (fun set T =>
    T.store (MRef.m_ra set) ((T.mem (MRef.m_ra set)).fill 1)) T

/-- The part of `turbo::translate` that normalises `rp` and interleaves it into the intrinsic
a-priori matrices `r(set)`. -/
def translate_intrinsic (T : Turbo) : Turbo :=
  let T := T.store MRef.m_rp (Bcjr.normalize (T.mem MRef.m_rp))
  forUp T.num_sets (fun set T =>
    T.store (MRef.m_r set) ((T.inter set).transform (T.mem MRef.m_rp))) T

/-- The part of `turbo::translate` that computes and normalises the matrices `R(set)` from
`r(set)` and the table `p` of the parity symbols. -/
def translate_encoded (T : Turbo) (p : Matrix3) : Turbo :=
  forUp T.num_sets (fun set T =>
    let T := forUp T.tau (fun t T =>
      forUp T.enc_outputs (fun x T =>
        T.store (MRef.m_R set) ((T.mem (MRef.m_R set)).set t x
          ((T.mem (MRef.m_r set)).val t (x % T.num_inputs) * p.val set t (x / T.num_inputs))))
        T) T
    T.store (MRef.m_R set) (Bcjr.normalize (T.mem (MRef.m_R set)))) T

/-- The part of `turbo::translate` that follows the checks, on an allocated codec: `sk` and
`sp` are the numbers of channel symbols per input and per parity symbol. The result holds the
local table `p` as well; it starts with values that are never read. -/
def translate_work (T : Turbo) (ptable : Matrix) (sk sp : Nat) : Option Turbo × Matrix3 :=
  let S := ptable.ysize
  let s := sk + T.num_sets * sp
  let p : Matrix3 :=
    { xsize := T.num_sets, ysize := T.tau, zsize := T.enc_parity, val := fun _ _ _ => 0 }
  let tb := T.translate_tables ptable S s sk sp (T.mem MRef.m_rp) p
  let T := T.store MRef.m_rp tb.1
  let p := tb.2
  let T := T.translate_apriori
  let T := T.translate_intrinsic
  let T := T.translate_encoded p
  (T.reset, p)

/-- `turbo::translate(ptable)`; `none` is one of the two fatal errors (or the failed assertion
of `reset`). -/
def translate (T : Turbo) (ptable : Matrix) : Option Turbo :=
  let S := ptable.ysize
  let sp := roundLog S T.enc_parity
  let sk := roundLog S T.num_inputs
  let s := sk + T.num_sets * sp
  if T.enc_parity ≠ S ^ sp ∨ T.num_inputs ≠ S ^ sk then none
  else if ptable.xsize ≠ T.tau * s then none
  else
    let T := if !T.initialised then T.allocate else T
    (T.translate_work ptable sk sp).1

/-- The local table `p` of `turbo::translate`, as it stands at the end of the call. -/
def translate_p (T : Turbo) (ptable : Matrix) : Matrix3 :=
  ((if !T.initialised then T.allocate else T).translate_work ptable
    (roundLog ptable.ysize T.num_inputs) (roundLog ptable.ysize T.enc_parity)).2

end Turbo

/-- The digit `j` of `v` in base `S`, least significant first. -/
def digit (S v j : Nat) : Nat := v / S ^ j % S

/-- The encoder after `t` steps over the inputs `u 0, u 1, ...`. -/
def Fsm.run (e : Fsm) (u : Nat → Nat) : Nat → Fsm
  | 0 => e
  | t + 1 => ((Fsm.run e u t).step (u t)).1

/-- The output symbol of step `t` of the encoder run over the inputs `u`. -/
def Fsm.run_output (e : Fsm) (u : Nat → Nat) (t : Nat) : Nat :=
  ((e.run u t).step (u t)).2.2

/-- The objects of `turbo::encode` on entry to the body of the loop for set `set` (or at the
start of the loop if an earlier set failed). -/
def Turbo.encode_before (T : Turbo) (advanced : Nat → Interleaver) (source : IntVector)
    (set : Nat) : EncodeState :=
  (forUpO set (Turbo.encode_set advanced)
    { T := T, source := source, source2 := { size := T.tau, val := fun _ => 0 }
      x := fun _ _ => 0 }).getD
    { T := T, source := source, source2 := { size := T.tau, val := fun _ => 0 }
      x := fun _ _ => 0 }

/-- The encoder output of set `set` at time `t`, described without the loops of
`turbo::encode`: the output at step `t` of the encoder, prepared for set `set`, on the
interleaved source of that set. -/
def Turbo.encode_output (T : Turbo) (advanced : Nat → Interleaver) (source : IntVector)
    (set t : Nat) : Nat :=
  Fsm.run_output (Turbo.encode_prepare advanced set (T.encode_before advanced source set)).1
    (Turbo.encode_prepare advanced set (T.encode_before advanced source set)).2.1.val t

/-- The parity symbol of set `set` at time `t`: the encoder output divided by the number of
inputs. -/
def Turbo.encode_parity (T : Turbo) (advanced : Nat → Interleaver) (source : IntVector)
    (set t : Nat) : Nat :=
  T.encode_output advanced source set t / T.num_inputs

/-- The codec `T'` is `T` up to its BCJR decoder, its stored state distributions and the
matrices that `keep` does not select. -/
def Turbo.frame (keep : MRef → Prop) (T T' : Turbo) : Prop :=
  T.sameConfig T' ∧ ∀ y, keep y → T'.mem y = T.mem y

/-! ## The forward-backward lattice decoder (`fba2-fss-implementation.h`) -/

/-- Counted loop `for (x = lo; x <= hi; x++) s = f x s` over integers. -/
def forRange {σ : Type} (lo hi : Int) (f : Int → σ → σ) (s : σ) : σ :=
  forUp (hi + 1 - lo).toNat (fun k s => f (lo + k) s) s

/-- Counted loop `for (k = n - 1; k >= 0; k--)` whose body may fail. -/
def forDownO {σ : Type} : Nat → (Nat → σ → Option σ) → σ → Option σ
  | 0, _, s => some s
  | n + 1, f, s => (f n s).bind (forDownO n f)

/-- A `libbase::vector<real>` (`array1r_t`, `array1d_t`). -/
structure RVector where
  size : Nat
  val : Nat → ℚ

/-- `vector::init(n)`. -/
def RVector.init (v : RVector) (n : Nat) : RVector := { v with size := n }

/-- The assignment `v(k) = x`. -/
def RVector.set (v : RVector) (k : Nat) (x : ℚ) : RVector :=
  { v with val := Function.update v.val k x }

/-- Two vectors hold the same values: same size and same elements. -/
def RVector.same (a b : RVector) : Prop :=
  a.size = b.size ∧ ∀ k, k < a.size → a.val k = b.val k

/-- A vector of vectors of reals (`array1vr_t`). -/
structure RTable where
  size : Nat
  val : Nat → RVector

/-- Modelled from the spec: `libbase::allocate(ptable, n, q)` (vectorutils.h is not part of the
sources): the table gets `n` vectors of `q` elements. -/
def RTable.allocate (p : RTable) (n q : Nat) : RTable :=
  { size := n, val := fun i => (p.val i).init q }

/-- The assignment `a[i][x] = v` to an array indexed by codeword index and drift. -/
def set2 (a : Nat → Int → ℚ) (i : Nat) (x : Int) (v : ℚ) : Nat → Int → ℚ :=
  Function.update a i (Function.update (a i) x v)

/-- Modelled from the spec: the received frame `r` together with the a-priori table `app`, as
far as the decoder uses them (the receiver and fba2-fss.h are not part of the sources): the
number of received symbols, and the branch metric that the receiver computes from them for
codeword index `i`, drift `x`, symbol `d` and drift change `deltax`. -/
structure Received where
  size : Nat
  metric : Nat → Int → Nat → Int → ℚ

/-- The members of `class fba2_fss`: the code parameters `N`, `n`, `q`, the drift limits, the
storage policy (a template parameter), the allocation flag, the arrays `alpha`, `beta`,
`gamma.global` and `gamma.local`, and the stored copy of the received frame. -/
structure Fba where
  N : Nat
  n : Nat
  q : Nat
  mtau_min : Int
  mtau_max : Int
  mn_min : Int
  mn_max : Int
  globalstore : Bool
  initialised : Bool
  alpha : Nat → Int → ℚ
  beta : Nat → Int → ℚ
  gamma_global : Nat → Int → Nat → Int → ℚ
  gamma_local : Int → Nat → Int → ℚ
  r : Received

namespace Fba

/-- Modelled from the spec: `fba2_fss::get_gamma(d, i, x, deltax)` (fba2-fss.h is not part of
the sources): the branch metric, read from the global or from the local store. -/
def get_gamma (F : Fba) (d i : Nat) (x deltax : Int) : ℚ :=
  if F.globalstore then F.gamma_global i x d deltax else F.gamma_local x d deltax

/-- `fba2_fss::get_scale(metric, row, col_min, col_max)`; `none` is the failed
`assertalways(scale > real(0))`. -/
def get_scale (metric : Nat → Int → ℚ) (row : Nat) (col_min col_max : Int) : Option ℚ :=
  let scale := forRange col_min col_max (fun col scale => scale + metric row col) 0
  if scale > 0 then some (1 / scale) else none

/-- `fba2_fss::normalize(metric, row, col_min, col_max)`, in exact arithmetic (`normalize_fl`
is the function over a backend that rounds). -/
def normalize (metric : Nat → Int → ℚ) (row : Nat) (col_min col_max : Int) :
    Option (Nat → Int → ℚ) :=
  (get_scale metric row col_min col_max).map (fun scale =>
    forRange col_min col_max (fun col metric => set2 metric row col (metric row col * scale))
      metric)

/-- Modelled from the spec: `fba2_fss::normalize_alpha(i)` (fba2-fss.h is not part of the
sources): row `i` of `alpha` is normalised over the drift range. -/
def normalize_alpha (F : Fba) (i : Nat) : Option Fba :=
  (normalize F.alpha i F.mtau_min F.mtau_max).map (fun a => { F with alpha := a })

/-- Modelled from the spec: `fba2_fss::normalize_beta(i)` (fba2-fss.h is not part of the
sources): row `i` of `beta` is normalised over the drift range. -/
def normalize_beta (F : Fba) (i : Nat) : Option Fba :=
  (normalize F.beta i F.mtau_min F.mtau_max).map (fun b => { F with beta := b })

/-- `fba2_fss::work_alpha(i)`. -/
def work_alpha (F : Fba) (i : Nat) : Fba :=
  forRange F.mtau_min F.mtau_max (fun x1 F =>
    let prev_alpha := F.alpha (i - 1) x1
    let x2min := max F.mtau_min (F.mn_min + x1)
    let x2max := min F.mtau_max (F.mn_max + x1)
    forRange x2min x2max (fun x2 F =>
      let this_alpha := F.alpha i x2
      let this_alpha := forUp F.q (fun d this_alpha =>
        let temp := prev_alpha
        let temp := temp * F.get_gamma d (i - 1) x1 (x2 - x1)
        this_alpha + temp) this_alpha
      { F with alpha := set2 F.alpha i x2 this_alpha }) F) F

/-- `fba2_fss::work_beta(i)`. -/
def work_beta (F : Fba) (i : Nat) : Fba :=
  forRange F.mtau_min F.mtau_max (fun x1 F =>
    let this_beta := 0
    let x2min := max F.mtau_min (F.mn_min + x1)
    let x2max := min F.mtau_max (F.mn_max + x1)
    let this_beta := forRange x2min x2max (fun x2 this_beta =>
      let next_beta := F.beta (i + 1) x2
      forUp F.q (fun d this_beta =>
        let temp := next_beta
        let temp := temp * F.get_gamma d i x1 (x2 - x1)
        this_beta + temp) this_beta) this_beta
    { F with beta := set2 F.beta i x1 this_beta }) F

/-- `fba2_fss::work_message_app(ptable, i)` on a table that holds the row `i` with its `q`
elements, as `work_results` passes it after `libbase::allocate(ptable, N, q)`: the index
assertions of `ptable(i)(d)`, which then hold, are left out. `work_message_app_checked` is
the function with them. -/
def work_message_app (F : Fba) (ptable : RTable) (i : Nat) : RTable :=
  forUp F.q (fun d ptable =>
    let p := 0
    let p := forRange F.mtau_min F.mtau_max (fun x1 p =>
      let this_alpha := F.alpha i x1
      let x2min := max F.mtau_min (F.mn_min + x1)
      let x2max := min F.mtau_max (F.mn_max + x1)
      forRange x2min x2max (fun x2 p =>
        let temp := this_alpha
        let temp := temp * F.beta (i + 1) x2
        let temp := temp * F.get_gamma d i x1 (x2 - x1)
        p + temp) p) p
    { ptable with val := Function.update ptable.val i ((ptable.val i).set d p) }) ptable

/-- `fba2_fss::work_state_app(ptable, i)`; `none` is the failed assertion
`assert(i >= 0 && i <= N)`. -/
def work_state_app (F : Fba) (ptable : RVector) (i : Nat) : Option RVector :=
  if i ≤ F.N then
    let ptable := ptable.init (F.mtau_max - F.mtau_min + 1).toNat
    some (forRange F.mtau_min F.mtau_max (fun x ptable =>
      ptable.set (x - F.mtau_min).toNat (F.alpha i x * F.beta i x)) ptable)
  else none

/-- `fba2_fss::allocate`: the arrays take their shapes (which the model does not hold; their
elements are not given any particular value) and the flag is set. -/
def allocate (F : Fba) : Fba := { F with initialised := true }

/-- The assignment `a = real(0)` to an array of `N + 1` rows over the drift range. -/
def zero2 (F : Fba) (a : Nat → Int → ℚ) : Nat → Int → ℚ :=
  fun i x => if i ≤ F.N ∧ F.mtau_min ≤ x ∧ x ≤ F.mtau_max then 0 else a i x

/-- Modelled from the spec: `fba2_fss::work_gamma(r, app, i)` (fba2-fss.h is not part of the
sources): the branch metrics of codeword index `i` are computed by the receiver, for every
drift, symbol and drift change in range, and put into the global store at index `i` or into
the local store. -/
def work_gamma_at (F : Fba) (r : Received) (i : Nat) : Fba :=
  if F.globalstore then
    { F with gamma_global := fun i' x d deltax =>
        if i' = i ∧ F.mtau_min ≤ x ∧ x ≤ F.mtau_max ∧ d < F.q ∧
            F.mn_min ≤ deltax ∧ deltax ≤ F.mn_max then
          r.metric i x d deltax
        else F.gamma_global i' x d deltax }
  else
    { F with gamma_local := fun x d deltax =>
        if F.mtau_min ≤ x ∧ x ≤ F.mtau_max ∧ d < F.q ∧
            F.mn_min ≤ deltax ∧ deltax ≤ F.mn_max then
          r.metric i x d deltax
        else F.gamma_local x d deltax }

/-- `fba2_fss::work_gamma(r, app)`; `none` is the failed assertion `assert(initialised)`. -/
def work_gamma (F : Fba) (r : Received) : Option Fba :=
  if F.initialised then some (forUp F.N (fun i F => F.work_gamma_at r i) F) else none

/-- The part of `fba2_fss::work_alpha_and_beta` before its main loop: both arrays are cleared,
row `0` of `alpha` and row `N` of `beta` are set from the priors and normalised. -/
def alpha_beta_start (F : Fba) (sof_prior eof_prior : RVector) : Option Fba :=
  let F := { F with alpha := F.zero2 F.alpha }
  let F := { F with beta := F.zero2 F.beta }
  let F := forRange F.mtau_min F.mtau_max (fun x F =>
    let F := { F with alpha := set2 F.alpha 0 x (sof_prior.val (x - F.mtau_min).toNat) }
    { F with beta := set2 F.beta F.N x (eof_prior.val (x - F.mtau_min).toNat) }) F
  (F.normalize_alpha 0).bind (fun F => F.normalize_beta F.N)

/-- The body of the main loop of `fba2_fss::work_alpha_and_beta`, for `i = k + 1`. -/
def alpha_beta_step (k : Nat) (F : Fba) : Option Fba :=
  let i := k + 1
  let F := F.work_alpha i
  let F := F.work_beta (F.N - i)
  (F.normalize_alpha i).bind (fun F => F.normalize_beta (F.N - i))

/-- `fba2_fss::work_alpha_and_beta(sof_prior, eof_prior)`; `none` is a failed assertion. -/
def work_alpha_and_beta (F : Fba) (sof_prior eof_prior : RVector) : Option Fba :=
  if F.initialised then
    (F.alpha_beta_start sof_prior eof_prior).bind (fun F => forUpO F.N alpha_beta_step F)
  else none

/-- `fba2_fss::work_results(ptable, sof_post, eof_post)`; `none` is a failed assertion. -/
def work_results (F : Fba) (ptable : RTable) (sof_post eof_post : RVector) :
    Option (RTable × RVector × RVector) :=
  if F.initialised then
    let ptable := ptable.allocate F.N F.q
    let ptable := forUp F.N (fun i ptable => F.work_message_app ptable i) ptable
    (F.work_state_app sof_post 0).bind (fun sof_post =>
      (F.work_state_app eof_post F.N).map (fun eof_post => (ptable, sof_post, eof_post)))
  else none

/-- The part of `fba2_fss::work_alpha(sof_prior)` before its main loop: `alpha` is cleared,
its row `0` is set from the prior and normalised. -/
def alpha_start (F : Fba) (sof_prior : RVector) : Option Fba :=
  let F := { F with alpha := F.zero2 F.alpha }
  let F := forRange F.mtau_min F.mtau_max (fun x F =>
    { F with alpha := set2 F.alpha 0 x (sof_prior.val (x - F.mtau_min).toNat) }) F
  F.normalize_alpha 0

/-- The body of the main loop of `fba2_fss::work_alpha(sof_prior)`, for `i = k + 1`. -/
def alpha_step (k : Nat) (F : Fba) : Option Fba :=
  let i := k + 1
  let F := if !F.globalstore then F.work_gamma_at F.r (i - 1) else F
  let F := F.work_alpha i
  F.normalize_alpha i

/-- `fba2_fss::work_alpha(sof_prior)`; `none` is a failed assertion. -/
def work_alpha_prior (F : Fba) (sof_prior : RVector) : Option Fba :=
  if F.initialised then
    (F.alpha_start sof_prior).bind (fun F => forUpO F.N alpha_step F)
  else none

/-- The body of the main loop of `fba2_fss::work_beta_and_results`, on the decoder and the
table of results. -/
def beta_results_step (i : Nat) (s : Fba × RTable) : Option (Fba × RTable) :=
  let F := if !s.1.globalstore then s.1.work_gamma_at s.1.r i else s.1
  let F := F.work_beta i
  (F.normalize_beta i).map (fun F => (F, F.work_message_app s.2 i))

/-- `fba2_fss::work_beta_and_results(eof_prior, ptable, sof_post, eof_post)`; `none` is a
failed assertion. -/
def work_beta_and_results (F : Fba) (eof_prior : RVector) (ptable : RTable)
    (sof_post eof_post : RVector) : Option (Fba × RTable × RVector × RVector) :=
  if F.initialised then
    let ptable := ptable.allocate F.N F.q
    let F := { F with beta := F.zero2 F.beta }
    let F := forRange F.mtau_min F.mtau_max (fun x F =>
      { F with beta := set2 F.beta F.N x (eof_prior.val (x - F.mtau_min).toNat) }) F
    (F.normalize_beta F.N).bind (fun F =>
      (forDownO F.N beta_results_step (F, ptable)).bind (fun s =>
        (s.1.work_state_app sof_post 0).bind (fun sof_post =>
          (s.1.work_state_app eof_post s.1.N).map (fun eof_post =>
            (s.1, s.2, sof_post, eof_post)))))
  else none

/-- `fba2_fss::decode(collector, r, sof_prior, eof_prior, app, ptable, sof_post, eof_post,
offset)`; the frame `r` and the table `app` are the argument `r`, the collector of timings is
left out, and `none` is a failed assertion. -/
def decode (F : Fba) (r : Received) (sof_prior eof_prior : RVector) (ptable : RTable)
    (sof_post eof_post : RVector) (offset : Int) :
    Option (Fba × RTable × RVector × RVector) :=
  let F := if !F.initialised then F.allocate else F
  let tau := F.N * F.n
  if offset ≠ -F.mtau_min then none
  else if (r.size : Int) ≠ tau + F.mtau_max - F.mtau_min then none
  else if (sof_prior.size : Int) ≠ F.mtau_max - F.mtau_min + 1 then none
  else if (eof_prior.size : Int) ≠ F.mtau_max - F.mtau_min + 1 then none
  else if F.globalstore then
    (F.work_gamma r).bind (fun F =>
      (F.work_alpha_and_beta sof_prior eof_prior).bind (fun F =>
        (F.work_results ptable sof_post eof_post).map (fun res => (F, res))))
  else
    let F := { F with r := r }
    (F.work_alpha_prior sof_prior).bind (fun F =>
      F.work_beta_and_results eof_prior ptable sof_post eof_post)

/-- `fba2_fss::get_drift_pdf(pdftable)`; `none` is a failed assertion. -/
def get_drift_pdf (F : Fba) (pdftable : RTable) : Option RTable :=
  if F.initialised then
    let pdftable := { pdftable with size := F.N + 1 }
    forUpO (F.N + 1) (fun i pdftable =>
      (F.work_state_app (pdftable.val i) i).map (fun v =>
        { pdftable with val := Function.update pdftable.val i v })) pdftable
  else none

/-- The decoder keeps its parameters, its storage policy and its allocation flag. -/
def sameConfig (F F' : Fba) : Prop :=
  F'.N = F.N ∧ F'.n = F.n ∧ F'.q = F.q ∧ F'.mtau_min = F.mtau_min ∧ F'.mtau_max = F.mtau_max ∧
    F'.mn_min = F.mn_min ∧ F'.mn_max = F.mn_max ∧ F'.globalstore = F.globalstore ∧
    F'.initialised = F.initialised

end Fba

/-- A small decoder for one binary symbol per frame, with drifts and drift changes in
`[-1, 1]`, before allocation. -/
def exampleFba : Fba :=
  { N := 1, n := 1, q := 2, mtau_min := -1, mtau_max := 1, mn_min := -1, mn_max := 1,
    globalstore := true, initialised := false,
    alpha := fun _ _ => 0, beta := fun _ _ => 0,
    gamma_global := fun _ _ _ _ => 0, gamma_local := fun _ _ _ => 0,
    r := { size := 0, metric := fun _ _ _ _ => 0 } }

/-- A received frame of three symbols for `exampleFba`. -/
def exampleReceived : Received :=
  { size := 3, metric := fun _ _ d _ => if d = 0 then 1 / 2 else 1 / 4 }

/-- A prior for `exampleFba` that puts the frame boundary at drift `0`. -/
def examplePrior : RVector := { size := 3, val := fun k => if k = 1 then 1 else 0 }

/-- An empty vector of reals. -/
def emptyRVector : RVector := { size := 0, val := fun _ => 0 }

/-- An empty table of reals. -/
def emptyRTable : RTable := { size := 0, val := fun _ => emptyRVector }

/-- The decoder keeps its configuration and the rows `j` of `alpha` selected by `keep`. -/
def Fba.keepsAlpha (keep : Nat → Prop) (F F' : Fba) : Prop :=
  F.sameConfig F' ∧ ∀ j, keep j → F'.alpha j = F.alpha j

/-- The decoder `exampleFba` with branch metrics `1/2` and `1/4` for the two symbols, and an
`alpha` whose row `0` puts the frame start at drift `0` and whose other rows are zero. -/
def exampleForward : Fba :=
  { exampleFba with
    initialised := true,
    alpha := fun i x => if i = 0 ∧ x = 0 then 1 else 0,
    beta := fun i x => if i = 1 ∧ x = 0 then 1 else 0,
    gamma_global := fun _ _ d _ => if d = 0 then 1 / 2 else 1 / 4 }

/-- A source block of one symbol, the input `1`. -/
def exampleSource : IntVector := { size := 1, val := fun _ => 1 }

/-- The noiseless channel table of two binary symbols that are both `1`. -/
def exampleChannel : Matrix :=
  { xsize := 2, ysize := 2, val := fun _ d => if d = 1 then 1 else 0 }

/-- An array of metrics whose entries are all `1`. -/
def exampleOnesArray : Nat → Int → ℚ := fun _ _ => 1

/-! ## The passes of the lattice decoder on their arrays alone

The forward pass only reads and writes `alpha`, the backward pass only `beta`, and both read
the branch metrics at indices inside the lattice. The definitions below give the effect of
each step on its array, for branch metrics `g i x d deltax` that are a fixed function. -/

namespace Fba

/-- The branch metrics that the decoder `F` reads at the codeword index `i` are those of `g`:
for every drift `x` of the range, every symbol `d < q` and every drift change `deltax` within
its limits, `get_gamma(d, i, x, deltax) = g i x d deltax`. -/
def gammaIs (F : Fba) (g : Nat → Int → Nat → Int → ℚ) (i : Nat) : Prop :=
  ∀ x d deltax, F.mtau_min ≤ x → x ≤ F.mtau_max → d < F.q → F.mn_min ≤ deltax →
    deltax ≤ F.mn_max → F.get_gamma d i x deltax = g i x d deltax

/-- The array `alpha` after `work_alpha(i)`: row `i` gains, at every drift `y` of the range,
the sum over the admissible predecessors. -/
def alphaNext (F : Fba) (g : Nat → Int → Nat → Int → ℚ) (i : Nat) (a : Nat → Int → ℚ) :
    Nat → Int → ℚ :=
  fun j y =>
    if j = i ∧ F.mtau_min ≤ y ∧ y ≤ F.mtau_max then
      a i y + ∑ x in (Finset.Icc F.mtau_min F.mtau_max).filter
          (fun x => F.mn_min ≤ y - x ∧ y - x ≤ F.mn_max),
        ∑ d in Finset.range F.q, a (i - 1) x * g (i - 1) x d (y - x)
    else a j y

/-- The array `beta` after `work_beta(i)`: row `i` holds, at every drift `x` of the range,
the sum over the admissible successors. -/
def betaNext (F : Fba) (g : Nat → Int → Nat → Int → ℚ) (i : Nat) (b : Nat → Int → ℚ) :
    Nat → Int → ℚ :=
  fun j x =>
    if j = i ∧ F.mtau_min ≤ x ∧ x ≤ F.mtau_max then
      ∑ y in (Finset.Icc F.mtau_min F.mtau_max).filter
          (fun y => F.mn_min ≤ y - x ∧ y - x ≤ F.mn_max),
        ∑ d in Finset.range F.q, b (i + 1) y * g i x d (y - x)
    else b j x

/-- Row `i` of the table of results after `work_message_app(ptable, i)`, from the arrays `a`
and `b` and the row as it was. -/
def messageRow (F : Fba) (g : Nat → Int → Nat → Int → ℚ) (a b : Nat → Int → ℚ) (i : Nat)
    (row : RVector) : RVector :=
  { size := row.size
    val := fun d =>
      if d < F.q then
        ∑ x in Finset.Icc F.mtau_min F.mtau_max,
          ∑ y in (Finset.Icc F.mtau_min F.mtau_max).filter
              (fun y => F.mn_min ≤ y - x ∧ y - x ≤ F.mn_max),
            a i x * g i x d (y - x) * b (i + 1) y
      else row.val d }

/-- The table of results after `work_message_app(ptable, i)`, from the arrays `a` and `b`. -/
def messageNext (F : Fba) (g : Nat → Int → Nat → Int → ℚ) (a b : Nat → Int → ℚ)
    (ptable : RTable) (i : Nat) : RTable :=
  { ptable with val := Function.update ptable.val i (F.messageRow g a b i (ptable.val i)) }

/-- The array on which a pass starts: cleared over the lattice, then row `row` set from the
prior. -/
def priorRow (F : Fba) (a : Nat → Int → ℚ) (row : Nat) (prior : RVector) : Nat → Int → ℚ :=
  forRange F.mtau_min F.mtau_max
    (fun x a => set2 a row x (prior.val (x - F.mtau_min).toNat)) (F.zero2 a)

/-- The forward pass on `alpha` alone: row `0` from the prior, normalised, then the rows
`1, ..., N`, each normalised. -/
def alphaPass (F : Fba) (g : Nat → Int → Nat → Int → ℚ) (sof_prior : RVector) :
    Option (Nat → Int → ℚ) :=
  (normalize (F.priorRow F.alpha 0 sof_prior) 0 F.mtau_min F.mtau_max).bind (fun a =>
    forUpO F.N (fun k a =>
      normalize (F.alphaNext g (k + 1) a) (k + 1) F.mtau_min F.mtau_max) a)

/-- The backward pass on `beta` alone: row `N` from the prior, normalised, then the rows
`N - 1, ..., 0`, each normalised. -/
def betaPass (F : Fba) (g : Nat → Int → Nat → Int → ℚ) (eof_prior : RVector) :
    Option (Nat → Int → ℚ) :=
  (normalize (F.priorRow F.beta F.N eof_prior) F.N F.mtau_min F.mtau_max).bind (fun b =>
    forUpO F.N (fun k b =>
      normalize (F.betaNext g (F.N - (k + 1)) b) (F.N - (k + 1)) F.mtau_min F.mtau_max) b)

/-- The results of the decoder from the arrays `a` and `b` of the two passes: the table of
message posteriors and the drift posteriors at the two ends. -/
def resultsOf (F : Fba) (g : Nat → Int → Nat → Int → ℚ) (a b : Nat → Int → ℚ)
    (ptable : RTable) (sof_post eof_post : RVector) : Option (RTable × RVector × RVector) :=
  let G : Fba := { F with alpha := a, beta := b }
  (G.work_state_app sof_post 0).bind (fun sof =>
    (G.work_state_app eof_post F.N).map (fun eof =>
      (forUp F.N (fun i pt => F.messageNext g a b pt i) (ptable.allocate F.N F.q), sof, eof)))

/-- What a run of the decoder leaves for its callers: `alpha`, `beta`, the table of message
posteriors and the drift posteriors at the two ends. -/
def observed (res : Fba × RTable × RVector × RVector) :
    (Nat → Int → ℚ) × (Nat → Int → ℚ) × RTable × RVector × RVector :=
  (res.1.alpha, res.1.beta, res.2.1, res.2.2.1, res.2.2.2)

/-- The two passes and the results, on the arrays alone, for the branch metrics of the
received frame `r`. -/
def passes (F : Fba) (r : Received) (sof_prior eof_prior : RVector) (ptable : RTable)
    (sof_post eof_post : RVector) :
    Option ((Nat → Int → ℚ) × (Nat → Int → ℚ) × RTable × RVector × RVector) :=
  (F.alphaPass r.metric sof_prior).bind (fun a =>
    (F.betaPass r.metric eof_prior).bind (fun b =>
      (F.resultsOf r.metric a b ptable sof_post eof_post).map (fun res => (a, b, res))))

end Fba

/-- The decoder `exampleFba` with local storage of the branch metrics. -/
def exampleFbaLocal : Fba := { exampleFba with globalstore := false }

/-- A decoder for a trellis of two states in which every transition leads to state `0`, so
that state `1` has no incoming transition; one input, one output symbol, block length 1,
after `setstart(0)` and `setend(1)`. -/
def exampleDeadEnd : Bcjr :=
  Bcjr.setend (Bcjr.setstart
    { tau := 1, K := 1, N := 1, M := 2
      lut_X := fun _ _ => 0
      lut_m := fun _ _ => 0
      initialised := false
      alpha := { xsize := 0, ysize := 0, val := fun _ _ => 0 }
      beta := { xsize := 0, ysize := 0, val := fun _ _ => 0 }
      gamma := { xsize := 0, ysize := 0, zsize := 0, val := fun _ _ _ => 0 } } 0) 1

/-- A channel table with one row and one column, whose entry is `1`. -/
def exampleUnitR : Matrix := { xsize := 1, ysize := 1, val := fun _ _ => 1 }

/-! ## The interleaved mapper (`mapper/map_interleaved.cpp`, `Source/map_interleaved.cpp`)

The straight mapper on which the interleaved mapper is built (`map_straight`) is not part of
the sources: its `transform` and `inverse` are parameters `base` of the definitions. -/

/-- `vector::init(x)` on a vector of vectors. -/
def RTable.init (p : RTable) (n : Nat) : RTable := { p with size := n }

/-- The look-up table `lut` is a permutation of `[0, n)`: it has `n` elements, which lie in
`[0, n)`, are pairwise different and cover `[0, n)`. -/
def IntVector.isPerm (lut : IntVector) (n : Nat) : Prop :=
  lut.size = n ∧ (∀ i, i < n → lut.val i < n) ∧
    (∀ i j, i < n → j < n → lut.val i = lut.val j → i = j) ∧
    ∀ k, k < n → ∃ i, i < n ∧ lut.val i = k

namespace MapInterleaved

/-- The shuffling loop of `dotransform`: `for (i = 0; i < out.size(); i++) out(lut(i)) = s(i)`. -/
def shuffle (lut s out : IntVector) : IntVector :=
  forUp out.size (fun i out => out.set (lut.val i) (s.val i)) out

/-- `map_interleaved<C, dbl>::dotransform(in, out)`; `none` is the failed assertion
`assert(out.size() == lut.size())`. -/
def dotransform (lut : IntVector) (base : IntVector → IntVector) (inp out : IntVector) :
    Option IntVector :=
  let s := base inp
  let out := out.init s.size
  if out.size ≠ lut.size then none
  else some (shuffle lut s out)

/-- The loop of `doinverse` that inverts the shuffling:
`for (i = 0; i < lut.size(); i++) ptable(i) = pin(lut(i))`, on the new table `ptable`. -/
def deshuffle (lut : IntVector) (pin : RTable) : RTable :=
  let ptable := emptyRTable.init lut.size
  forUp lut.size (fun i (ptable : RTable) =>
    { ptable with val := Function.update ptable.val i (pin.val (lut.val i)) }) ptable

/-- `map_interleaved<C, dbl>::doinverse(pin, pout)`; `none` is the failed assertion
`assert(pin.size() == lut.size())`. -/
def doinverse (lut : IntVector) (base : RTable → RTable → RTable) (pin pout : RTable) :
    Option RTable :=
  if pin.size ≠ lut.size then none
  else some (base (deshuffle lut pin) pout)

end MapInterleaved

namespace MapInterleavedOld

/-- `map_interleaved::transform(in, out)` of `Source/map_interleaved.cpp`. -/
def transform (lut : IntVector) (base : IntVector → IntVector) (inp out : IntVector) :
    IntVector :=
  let s := base inp
  let out := out.init s.size
  forUp out.size (fun i out => out.set i (s.val (lut.val i))) out

/-- `map_interleaved::inverse(pin, pout)` of `Source/map_interleaved.cpp`; `none` is the failed
assertion `assert(ptable.xsize() == lut.size())`. -/
def inverse (lut : IntVector) (base : Matrix → Matrix) (pin pout : Matrix) : Option Matrix :=
  let ptable := base pin
  let pout := pout.init ptable.xsize ptable.ysize
  if ptable.xsize ≠ lut.size then none
  else
    some (forUp pout.xsize (fun i pout =>
      forUp pout.ysize (fun j pout => pout.set (lut.val i) j (ptable.val i j)) pout) pout)

end MapInterleavedOld

/-- The look-up table `(1, 2, 0)`, a permutation of `[0, 3)`. -/
def exampleLut : IntVector := { size := 3, val := fun i => (i + 1) % 3 }

/-- A sequence of three symbols, `(5, 6, 7)`. -/
def exampleSeq : IntVector := { size := 3, val := fun i => i + 5 }

/-! ## Vectors of any element type -/

/-- A `libbase::vector<T>` of any element type: `size` elements, element `k` is `val k`. -/
structure Vec (G : Type) where
  size : Nat
  val : Nat → G

/-- `vector::init(x)`. -/
def Vec.init {G : Type} (v : Vec G) (x : Nat) : Vec G := { v with size := x }

/-- The assignment `v(k) = x`. -/
def Vec.set {G : Type} (v : Vec G) (k : Nat) (x : G) : Vec G :=
  { v with val := Function.update v.val k x }

/-- `vector::extract(start, n)`: the sub-vector of the `n` elements from `start` on. The
assertions `n >= 0` and `m_xsize >= start + n` of the source fail otherwise; the source
states no assertion on the sign of `start`. -/
def Vec.extract {G : Type} (v : Vec G) (start n : Int) : Option (Vec G) :=
  if ¬ n ≥ 0 then none
  else if ¬ (v.size : Int) ≥ start + n then none
  else some { size := n.toNat, val := fun i => v.val (start + i).toNat }

/-! ## The direct block modem (`blockmodem.cpp`)

`direct_modem<G>::modulate`, the map from a symbol index to the modulation symbol, is not part
of the sources: it is the parameter `modulate`. `M` is `num_symbols()` and `tau` is
`input_block_size()`. -/

namespace DirectBlockmodem

end DirectBlockmodem

namespace DirectBlockmodemBool

end DirectBlockmodemBool

/-- An empty vector of booleans. -/
def emptyBoolVec : Vec Bool := { size := 0, val := fun _ => false }

/-- Counted loop `for (x = lo; x <= hi; x++)` over integers whose body may fail. -/
def forRangeO {σ : Type} (lo hi : Int) (f : Int → σ → Option σ) (s : σ) : Option σ :=
  forUpO (hi + 1 - lo).toNat (fun k s => f (lo + k) s) s

/-- Counted loop `for (x = hi; x >= lo; x--)` over integers whose body may fail. -/
def forRangeDownO {σ : Type} (hi lo : Int) (f : Int → σ → Option σ) (s : σ) : Option σ :=
  forUpO (hi + 1 - lo).toNat (fun k s => f (hi - k) s) s

/-- The state of an `fba<real, sig, normalize>` object, with the template parameter
`normalize` as a field and the four recording fields at the end. -/
structure OldFba (G : Type) where
  tau : Int
  I : Int
  xmax : Int
  th_inner : ℚ
  normalize : Bool
  initialised : Bool
  mF : Int → Int → ℚ
  mB : Int → Int → ℚ
  P : Int → Int → ℚ
  Q : Int → Int → Int → Vec G → ℚ
  fwd_visited : List (Int × Int × Int)
  bwd_visited : List (Int × Int × Int)
  fwd_sums : List ℚ
  bwd_sums : List ℚ

namespace OldFba

variable {G : Type}

/-- Modelled from the spec: the accessor `F(j, y)` of `fba.h`. -/
def F (A : OldFba G) (j y : Int) : ℚ := A.mF j y

/-- Modelled from the spec: the accessor `B(j, y)` of `fba.h`. -/
def B (A : OldFba G) (j y : Int) : ℚ := A.mB j y

/-- The assignment `F(j, y) = v`. -/
def setF (A : OldFba G) (j y : Int) (v : ℚ) : OldFba G :=
  { A with mF := Function.update A.mF j (Function.update (A.mF j) y v) }

/-- The assignment `B(j, y) = v`. -/
def setB (A : OldFba G) (j y : Int) (v : ℚ) : OldFba G :=
  { A with mB := Function.update A.mB j (Function.update (A.mB j) y v) }

/-- `fba::allocate`: the matrices get their shapes and the object is flagged as
initialised. -/
def allocate (A : OldFba G) : OldFba G := { A with initialised := true }

/-- `fba::init`, with its four assertions. -/
def init (A : OldFba G) (tau I xmax : Int) (th_inner : ℚ) : Option (OldFba G) :=
  if ¬ tau > 0 then none
  else if ¬ I > 0 then none
  else if ¬ xmax > 0 then none
  else if ¬ th_inner ≥ 0 then none
  else some { A with tau := tau, I := I, xmax := xmax, th_inner := th_inner,
                     initialised := false }

/-- The innermost statement of the forward pass,
`F(j,y) += F(j-1,a) * P(a,y) * Q(a,y,j-1,r.extract(j-1+a,y-a+1))`. -/
def forward_event (r : Vec G) (j a y : Int) (A : OldFba G) : Option (OldFba G) :=
  (r.extract (j - 1 + a) (y - a + 1)).map (fun s =>
    let A1 := A.setF j y (A.F j y + A.F (j - 1) a * A.P a y * A.Q a y (j - 1) s)
    { A1 with fwd_visited := (j, a, y) :: A1.fwd_visited })

/-- The normalisation of row `j` of `F`. -/
def forward_normalize (j : Int) (A : OldFba G) : OldFba G :=
  let sum := forRange (-A.xmax) A.xmax (fun y sum => sum + A.F j y) 0
  let A1 : OldFba G := { A with fwd_sums := sum :: A.fwd_sums }
  let sum := 1 / sum
  forRange (-A1.xmax) A1.xmax (fun y A => A.setF j y (A.F j y * sum)) A1

/-- The body of the loop over `j` in `fba::work_forward`. -/
def forward_step (r : Vec G) (j : Int) (A : OldFba G) : Option (OldFba G) :=
  let threshold := forRange (-A.xmax) A.xmax
    (fun a threshold => if A.F (j - 1) a > threshold then A.F (j - 1) a else threshold) 0
  let threshold := threshold * A.th_inner
  let amin := max (-A.xmax) (1 - j)
  let amax := A.xmax
  (forRangeO amin amax (fun a A =>
    if A.F (j - 1) a < threshold then some A
    else
      let ymin := max (-A.xmax) (a - 1)
      let ymax := min (min A.xmax (a + A.I)) ((r.size : Int) - j)
      forRangeO ymin ymax (forward_event r j a) A) A).map
    (fun A => if A.normalize then forward_normalize j A else A)

/-- `fba::work_forward`. -/
def work_forward (A : OldFba G) (r : Vec G) : Option (OldFba G) :=
  let A := if !A.initialised then A.allocate else A
  let A : OldFba G := { A with mF := fun _ _ => 0, fwd_visited := [], fwd_sums := [] }
  let A := A.setF 0 0 1
  forRangeO 1 (A.tau - 1) (forward_step r) A

/-- The innermost statement of the backward pass,
`B(j,y) += B(j+1,b) * P(y,b) * Q(y,b,j,r.extract(j+y,b-y+1))`. -/
def backward_event (r : Vec G) (j b y : Int) (A : OldFba G) : Option (OldFba G) :=
  (r.extract (j + y) (b - y + 1)).map (fun s =>
    let A1 := A.setB j y (A.B j y + A.B (j + 1) b * A.P y b * A.Q y b j s)
    { A1 with bwd_visited := (j, y, b) :: A1.bwd_visited })

/-- The normalisation of row `j` of `B`. -/
def backward_normalize (j : Int) (A : OldFba G) : OldFba G :=
  let sum := forRange (-A.xmax) A.xmax (fun y sum => sum + A.B j y) 0
  let A1 : OldFba G := { A with bwd_sums := sum :: A.bwd_sums }
  let sum := 1 / sum
  forRange (-A1.xmax) A1.xmax (fun y A => A.setB j y (A.B j y * sum)) A1

/-- The body of the loop over `j` in `fba::work_backward`. -/
def backward_step (r : Vec G) (j : Int) (A : OldFba G) : Option (OldFba G) :=
  let threshold := forRange (-A.xmax) A.xmax
    (fun b threshold => if A.B (j + 1) b > threshold then A.B (j + 1) b else threshold) 0
  let threshold := threshold * A.th_inner
  let bmin := -A.xmax
  let bmax := min A.xmax ((r.size : Int) - j - 1)
  (forRangeO bmin bmax (fun b A =>
    if A.B (j + 1) b < threshold then some A
    else
      let ymin := max (max (-A.xmax) (b - A.I)) (-j)
      let ymax := min A.xmax (b + 1)
      forRangeO ymin ymax (backward_event r j b) A) A).map
    (fun A => if A.normalize then backward_normalize j A else A)

/-- `fba::work_backward`, with its check `abs(r.size() - tau) <= xmax`. -/
def work_backward (A : OldFba G) (r : Vec G) : Option (OldFba G) :=
  let A := if !A.initialised then A.allocate else A
  let A : OldFba G := { A with mB := fun _ _ => 0, bwd_visited := [], bwd_sums := [] }
  if ¬ |(r.size : Int) - A.tau| ≤ A.xmax then none
  else
    let A := A.setB A.tau ((r.size : Int) - A.tau) 1
    forRangeDownO (A.tau - 1) 0 (backward_step r) A

/-- `fba::prepare`: the forward pass, then the backward pass. -/
def prepare (A : OldFba G) (r : Vec G) : Option (OldFba G) :=
  (A.work_forward r).bind (fun A => A.work_backward r)

end OldFba

/-- `myfba::P` of `bsid.cpp`, the probability of the drift going from `a` to `b`, for the
deletion and insertion probabilities `Pd` and `Pi` of the channel. -/
def myfba_P (Pd Pi : ℚ) (a b : Int) : ℚ :=
  let m := b - a
  if m = -1 then Pd
  else if m ≥ 0 then Pi ^ m.toNat * (1 - Pi) * (1 - Pd)
  else 0

namespace OldFba

variable {G : Type}

/-- The object `A'` has the parameters and the channel metrics of `A`. -/
def sameSetup (A A' : OldFba G) : Prop :=
  A'.tau = A.tau ∧ A'.I = A.I ∧ A'.xmax = A.xmax ∧ A'.th_inner = A.th_inner ∧
    A'.normalize = A.normalize ∧ A'.P = A.P ∧ A'.Q = A.Q

/-- The event `(j, a, y)` of the forward pass fits the received sequence `r` and the limits
of the decoder. -/
def fitsForward (A : OldFba G) (r : Vec G) (t : Int × Int × Int) : Prop :=
  -A.xmax ≤ t.2.1 ∧ t.2.1 ≤ A.xmax ∧ -A.xmax ≤ t.2.2 ∧ t.2.2 ≤ A.xmax ∧
    0 ≤ t.1 - 1 + t.2.1 ∧ t.1 + t.2.2 ≤ (r.size : Int) ∧
    -1 ≤ t.2.2 - t.2.1 ∧ t.2.2 - t.2.1 ≤ A.I

/-- The event `(j, y, b)` of the backward pass fits the received sequence `r` and the limits
of the decoder. -/
def fitsBackward (A : OldFba G) (r : Vec G) (t : Int × Int × Int) : Prop :=
  -A.xmax ≤ t.2.1 ∧ t.2.1 ≤ A.xmax ∧ -A.xmax ≤ t.2.2 ∧ t.2.2 ≤ A.xmax ∧
    0 ≤ t.1 + t.2.1 ∧ t.1 + t.2.2 + 1 ≤ (r.size : Int) ∧
    -1 ≤ t.2.2 - t.2.1 ∧ t.2.2 - t.2.1 ≤ A.I

/-- What every state `A'` of a forward pass started on `A` satisfies: the setup and the
backward side are those of `A`, every event visited so far fits, and with the drift metric
of a channel without deletions and insertions `F` is zero off drift 0. -/
def forwardInv (A : OldFba G) (r : Vec G) (A' : OldFba G) : Prop :=
  A.sameSetup A' ∧ A'.mB = A.mB ∧ A'.bwd_visited = A.bwd_visited ∧
    A'.bwd_sums = A.bwd_sums ∧ (∀ t, t ∈ A'.fwd_visited → A.fitsForward r t) ∧
    (A.P = myfba_P 0 0 → ∀ j y, y ≠ 0 → A'.mF j y = 0)

/-- What every state `A'` of a backward pass started on `A` satisfies: the setup and the
forward side are those of `A` and every event visited so far fits. -/
def backwardInv (A : OldFba G) (r : Vec G) (A' : OldFba G) : Prop :=
  A.sameSetup A' ∧ A'.mF = A.mF ∧ A'.fwd_visited = A.fwd_visited ∧
    A'.fwd_sums = A.fwd_sums ∧ ∀ t, t ∈ A'.bwd_visited → A.fitsBackward r t

end OldFba

/-- An `fba` object for the witnesses: three symbols, drift limit 1, at most one insertion per
symbol, no path truncation, normalisation on, a channel without deletions and insertions and
`Q` equal to `1/2` throughout. -/
def exampleOldFba : OldFba Bool :=
  { tau := 3, I := 1, xmax := 1, th_inner := 0, normalize := true, initialised := false
    mF := fun _ _ => 0, mB := fun _ _ => 0
    P := myfba_P 0 0
    Q := fun _ _ _ _ => 1 / 2
    fwd_visited := [], bwd_visited := [], fwd_sums := [], bwd_sums := [] }

/-- A received vector of three bits. -/
def exampleBits : Vec Bool := { size := 3, val := fun _ => false }

namespace Vec

variable {G : Type}

/-- `vector::min()`: the smallest element; `none` is the failed `assertalways(m_xsize > 0)`. -/
def min [LinearOrder G] (v : Vec G) : Option G :=
  if ¬ v.size > 0 then none
  else
    some (forUp (v.size - 1) (fun k result =>
      let i := k + 1
      if v.val i < result then v.val i else result) (v.val 0))

/-- `vector::max()`: the largest element; `none` is the failed `assertalways(m_xsize > 0)`. -/
def max [LinearOrder G] (v : Vec G) : Option G :=
  if ¬ v.size > 0 then none
  else
    some (forUp (v.size - 1) (fun k result =>
      let i := k + 1
      if v.val i > result then v.val i else result) (v.val 0))

/-- `vector::min(int& index, const bool getfirst)`: the result and the value that the call
leaves in `index`. The loop state is `(result, index)`. -/
def min_index [LinearOrder G] (v : Vec G) (getfirst : Bool) : Option (G × Nat) :=
  if ¬ v.size > 0 then none
  else
    some (forUp (v.size - 1) (fun k (st : G × Nat) =>
      let i := k + 1
      if v.val i < st.1 then (v.val i, i)
      else if getfirst = false ∧ v.val i = st.1 then (st.1, i)
      else st) (v.val 0, 0))

/-- `vector::max(int& index, const bool getfirst)`: the result and the value that the call
leaves in `index`. The loop state is `(result, index)`. -/
def max_index [LinearOrder G] (v : Vec G) (getfirst : Bool) : Option (G × Nat) :=
  if ¬ v.size > 0 then none
  else
    some (forUp (v.size - 1) (fun k (st : G × Nat) =>
      let i := k + 1
      if v.val i > st.1 then (v.val i, i)
      else if getfirst = false ∧ v.val i = st.1 then (st.1, i)
      else st) (v.val 0, 0))

end Vec

/-! ## Normalisation of a probability table in the symbol-level modem (`dminner2.cpp`) -/

namespace Dminner2

/-- `dminner2::normalize(in, out)`, in exact arithmetic (`normalize_fl` is the function over a
backend that rounds); `none` is a failed assertion, `assert(N > 0)` or
`assert(scale != real(0))`. -/
def normalize (inp out : Vec ℚ) : Option (Vec ℚ) :=
  let N := inp.size
  if ¬ N > 0 then none
  else
    inp.max.bind (fun scale =>
      if ¬ scale ≠ 0 then none
      else
        let scale := 1 / scale
        let out := out.init N
        some (forUp N (fun i out => out.set i (inp.val i * scale)) out))

end Dminner2

/-- A vector of five integers, `(3, 7, 1, 7, 1)`, for the witnesses. -/
def exampleInts : Vec Int :=
  { size := 5, val := fun i => if i = 0 then 3 else if i = 1 ∨ i = 3 then 7 else 1 }

/-- A table with the entries `(1, 4, 2)`. -/
def exampleTable : Vec ℚ :=
  { size := 3, val := fun i => if i = 0 then 1 else if i = 1 then 4 else 2 }

/-- An empty vector of reals. -/
def emptyRealVec : Vec ℚ := { size := 0, val := fun _ => 0 }

/-! ## The bit-patterned media channel (`channel/bpmr.cpp`)

The random generator `r` of the channel is not part of the sources: it is modelled by the
stream `draws` of the values that `fval_closed()` returns, together with the number `drawn`
of values taken from it so far. Probabilities are rationals. -/

/-- `vector::operator=(const T x)`: every element of the vector is set to `x`. -/
def Vec.fill {G : Type} (v : Vec G) (x : G) : Vec G :=
  { v with val := fun i => if i < v.size then x else v.val i }

/-- `vector::operator=(const vector<T>& x)`: the vector takes the size of `x` and its
elements are copied one by one. -/
def Vec.assign {G : Type} (v x : Vec G) : Vec G :=
  forUp (v.init x.size).size (fun i (v : Vec G) => v.set i (x.val i)) (v.init x.size)

/-- The members of a `bpmr<real>` object that the state sequence and the transmission use,
and its random generator. -/
structure Bpmr where
  Zmin : Int
  Zmax : Int
  fixedPd : ℚ
  fixedPi : ℚ
  Pd : ℚ
  Pi : ℚ
  Z : Vec Int
  draws : Nat → ℚ
  drawn : Nat

namespace Bpmr

/-- `bpmr::init`: the channel parameters take their fixed values (the metric computer is
left out). -/
def init (c : Bpmr) : Bpmr := { c with Pd := c.fixedPd, Pi := c.fixedPi }

/-- The end of `bpmr::serialize(std::istream&)`, once the members have been read: the two
sanity checks `assertalways(Zmin <= 0)` and `assertalways(Zmax > Zmin)`, then `init()`. -/
def sanity_checks (c : Bpmr) : Option Bpmr :=
  if ¬ c.Zmin ≤ 0 then none
  else if ¬ c.Zmax > c.Zmin then none
  else some c.init

/-- The value that the body of the loop of `generate_state_sequence` assigns to `Z(i)`, for
the previous state `Zprev` and the random value `p`: the three cases of the source, upper
limit, lower limit and general case. -/
def next_state (c : Bpmr) (Zprev : Int) (p : ℚ) : Int :=
  if Zprev = c.Zmax then
    if p < c.Pd then Zprev - 1 else Zprev
  else if Zprev = c.Zmin then
    if p < c.Pi then Zprev + 1 else Zprev
  else
    if p < c.Pi then Zprev + 1
    else if p < c.Pi + c.Pd then Zprev - 1
    else Zprev

/-- `bpmr::generate_state_sequence(tau)`. The loop state is the object and `Zprev`. -/
def generate_state_sequence (c : Bpmr) (tau : Nat) : Bpmr :=
  let c := { c with Z := (c.Z.init tau).fill 0 }
  (forUp tau (fun i (st : Bpmr × Int) =>
    let c := st.1
    let Zprev := st.2
    let p := c.draws c.drawn
    let c := { c with drawn := c.drawn + 1 }
    let c := { c with Z := c.Z.set i (c.next_state Zprev p) }
    (c, c.Z.val i)) (c, 0)).1

/-- `bpmr::transmit(tx, rx)`. The two arguments are references: `mem` holds the vectors, and
`tx` and `rx` name two of its cells, which may be the same cell. The result is the object
and the memory after the call. -/
def transmit (c : Bpmr) (mem : Nat → Vec Bool) (tx rx : Nat) : Bpmr × (Nat → Vec Bool) :=
  let tau := (mem tx).size
  let c := c.generate_state_sequence tau
  let newrx : Vec Bool := emptyBoolVec.init tau
  let st := forUp tau (fun i (st : Bpmr × Vec Bool) =>
    let c := st.1
    let j : Int := (i : Int) - c.Z.val i
    if j ≥ 0 ∧ j < (tau : Int) then (c, st.2.set i ((mem tx).val j.toNat))
    else if j < 0 then
      let p := c.draws c.drawn
      ({ c with drawn := c.drawn + 1 }, st.2.set i (decide (p < 1 / 2)))
    else (c, st.2.set i ((mem tx).val (tau - 1)))) (c, newrx)
  (st.1, Function.update mem rx ((mem rx).assign st.2))

end Bpmr

/-- A channel whose range of states `[-2, -1]` passes the sanity checks of the loader but
does not hold the initial state 0; no insertions and no deletions, every random value 1. -/
def exampleBpmrLow : Bpmr :=
  { Zmin := -2, Zmax := -1, fixedPd := 0, fixedPi := 0, Pd := 0, Pi := 0
    Z := { size := 0, val := fun _ => 0 }
    draws := fun _ => 1, drawn := 0 }

/-- A channel with states in `[-1, 1]`, `Pd = Pi = 3/10` and the random values
`0, 1/4, 1/2, 3/4, 0, ...`, which give the states `1, 0, -1, -1, 0, 1, ...`. -/
def exampleBpmr : Bpmr :=
  { Zmin := -1, Zmax := 1, fixedPd := 3 / 10, fixedPi := 3 / 10, Pd := 3 / 10, Pi := 3 / 10
    Z := { size := 0, val := fun _ => 0 }
    draws := fun k => ((k % 4 : Nat) : ℚ) / 4, drawn := 0 }

/-- A memory whose cell 0 holds the bits `(true, false, true, true)`; the other cells are
empty. -/
def exampleMem : Nat → Vec Bool := fun x =>
  if x = 0 then { size := 4, val := fun i => decide (i ≠ 1) } else emptyBoolVec

/-! ## Serialization of the symbol-level modem (`dminner2.cpp`)

A text stream is modelled as the list of its lines. The stream operators of the C++ library
and the manipulators `libbase::eatcomments` and `libbase::verify` are not part of the
sources: reading skips comment lines and takes one number, and a failed read that is followed
by `verify` ends the load. `Base::serialize`, the serialization of the base class, is a
parameter. -/

/-- A line of a text stream: a comment (a line that starts with `#`), a number, or any other
text. -/
inductive Line where
  | comment (text : String)
  | number (v : Int)
  | other (text : String)

/-- Modelled from the spec: `libbase::eatcomments` skips the comment lines at the head of the
stream. -/
def eatcomments : List Line → List Line
  | Line.comment _ :: s => eatcomments s
  | s => s

/-- Modelled from the spec: `sin >> libbase::eatcomments >> x` for an `int x`. The result is
the number read and the rest of the stream; `none` is the stream in the failed state. -/
def read_int (sin : List Line) : Option (Int × List Line) :=
  match eatcomments sin with
  | Line.number v :: rest => some (v, rest)
  | _ => none

/-- Modelled from the spec: `sin >> libbase::eatcomments >> x` for a `bool x`, which is written
and read as `0` or `1`. -/
def read_bool (sin : List Line) : Option (Bool × List Line) :=
  match eatcomments sin with
  | Line.number v :: rest =>
    if v = 0 then some (false, rest) else if v = 1 then some (true, rest) else none
  | _ => none

/-- The line that `sout << x << std::endl` writes for a `bool x`. -/
def write_bool (x : Bool) : Line := Line.number (if x then 1 else 0)

/-- The extension fields of a `dminner2<real>` object. -/
structure Dminner2 where
  batch : Bool
  lazy : Bool
  globalstore : Bool
  lookahead : Int

namespace Dminner2

/-- `dminner2::serialize(std::ostream&)`: the lines of the base class `base`, then the
version number 4 and the four extension fields, each after its comment line. The result is
the stream after the call. -/
def serialize_ostream (d : Dminner2) (base : List Line) (sout : List Line) : List Line :=
  let sout := sout ++ base
  let sout := sout ++ [Line.comment "Version"]
  let sout := sout ++ [Line.number 4]
  let sout := sout ++ [Line.comment "Use batch receiver computation?"]
  let sout := sout ++ [write_bool d.batch]
  let sout := sout ++ [Line.comment "Lazy computation of gamma?"]
  let sout := sout ++ [write_bool d.lazy]
  let sout := sout ++ [Line.comment "Global storage / caching of computed gamma values?"]
  let sout := sout ++ [write_bool d.globalstore]
  let sout := sout ++ [Line.comment "Number of codewords to look ahead when stream decoding"]
  let sout := sout ++ [Line.number d.lookahead]
  sout

/-- `dminner2::serialize(std::istream&)`. The result is the object and the stream after the
call; `none` is a failed load, of the base class or at a `libbase::verify`. -/
def serialize_istream (d : Dminner2) (base : List Line → Option (List Line))
    (sin : List Line) : Option (Dminner2 × List Line) :=
  (base sin).bind (fun sin =>
    let start := sin
    -- get format version; an old-format file rewinds the stream
    let vs : Int × List Line :=
      match read_int sin with
      | some (version, sin) => if version < 2 then (1, start) else (version, sin)
      | none => (1, start)
    let version := vs.1
    let sin := vs.2
    -- read decoder parameters
    let params : Option (Dminner2 × List Line) :=
      if version ≥ 2 then
        (read_bool sin).bind (fun b =>
          (read_bool b.2).bind (fun l =>
            if l.1 = true ∨ version ≥ 3 then
              (read_bool l.2).map (fun g =>
                ({ d with batch := b.1, lazy := l.1, globalstore := g.1 }, g.2))
            else some ({ d with batch := b.1, lazy := l.1, globalstore := true }, l.2)))
      else some ({ d with batch := true, lazy := true, globalstore := true }, sin)
    -- read look-ahead quantity
    params.bind (fun ds =>
      if version ≥ 4 then
        (read_int ds.2).map (fun la => ({ ds.1 with lookahead := la.1 }, la.2))
      else some ({ ds.1 with lookahead := 0 }, ds.2)))

end Dminner2

/-- A modem with single interface, pre-computation, local storage and a look-ahead of 3. -/
def exampleDminner2 : Dminner2 :=
  { batch := false, lazy := false, globalstore := false, lookahead := 3 }

/-- The lines of a base class for the witnesses: one comment and one number. -/
def exampleBaseLines : List Line := [Line.comment "n", Line.number 5]

/-- A reader of the base class that takes two lines. -/
def exampleBaseReader : List Line → Option (List Line)
  | _ :: _ :: s => some s
  | _ => none

/-! ## The likelihood of a received sequence on the BSID channel (`bsid::receive`)

`fba.h` and `matrix.h` are not part of the sources. The fourth argument of `fba::init`, which
`bsid::receive` leaves to its default, the template parameter `normalize` of the class
`fba<double>` from which `myfba` derives, and the metric `myfba::Q`, which goes back to the
channel for a single step, are parameters of `receive`. -/

/-- A `libbase::matrix<T>` of any element type: `xsize` rows, `ysize` columns. -/
structure Mat (G : Type) where
  xsize : Nat
  ysize : Nat
  val : Nat → Nat → G

/-- `vector::operator()(x)` for reading, with its assertion `x >= 0 && x < m_xsize`. -/
def Vec.get {G : Type} (v : Vec G) (x : Int) : Option G :=
  if ¬ (x ≥ 0 ∧ x < (v.size : Int)) then none else some (v.val x.toNat)

/-- Modelled from the spec: the assignment `a(t, i) = v` through `matrix::operator()(x, y)`,
with the index check that `vector::operator()(x)` makes in each dimension. -/
def Matrix.put (a : Matrix) (t i : Int) (v : ℚ) : Option Matrix :=
  if ¬ (t ≥ 0 ∧ t < (a.xsize : Int) ∧ i ≥ 0 ∧ i < (a.ysize : Int)) then none
  else some (a.set t.toNat i.toNat v)

/-- Modelled from the spec: the operators `*=`, `+=` and `/=` of a matrix with a scalar, as
the function `f` applied to every element. -/
def Matrix.apply (a : Matrix) (f : ℚ → ℚ) : Matrix :=
  { a with val := fun t i => if t < a.xsize ∧ i < a.ysize then f (a.val t i) else a.val t i }

/-- Modelled from the spec: `fba::getF(j, y)` of `fba.h`, which reads `F(j, y)`. The row `j`
must be one of the `tau` rows and the drift `y` one of the `2 * xmax + 1` columns that
`fba::allocate` gives `mF`. -/
def OldFba.getF {G : Type} (A : OldFba G) (j y : Int) : Option ℚ :=
  if ¬ (j ≥ 0 ∧ j < A.tau ∧ y ≥ -A.xmax ∧ y ≤ A.xmax) then none else some (A.F j y)

/-- The members of a `bsid` channel: the decoder parameters and the channel parameters. -/
structure Bsid where
  I : Int
  xmax : Int
  Ps : ℚ
  Pd : ℚ
  Pi : ℚ

namespace Bsid

variable {G : Type}

/-- `bsid::pdf(tx, rx)`. -/
def pdf [DecidableEq G] (c : Bsid) (tx rx : G) : ℚ :=
  if tx ≠ rx then c.Ps else 1 - c.Ps

/-- The `myfba` object that `bsid::receive` declares, attached to the channel `c`. -/
def myfba (c : Bsid) (normalize : Bool) (Q : Int → Int → Int → Vec G → ℚ) : OldFba G :=
  { tau := 0, I := 0, xmax := 0, th_inner := 0, normalize := normalize, initialised := false
    mF := fun _ _ => 0, mB := fun _ _ => 0
    P := myfba_P c.Pd c.Pi
    Q := Q
    fwd_visited := [], bwd_visited := [], fwd_sums := [], bwd_sums := [] }

/-- `bsid::receive(tx, rx, ptable)`. The result is `ptable` after the call; `none` is a failed
index check or assertion, or the error exit of the last branch. In the first branch
`(1 << m)` is the power `2 ^ m`. -/
def receive [DecidableEq G] (c : Bsid) (th_inner : ℚ) (normalize : Bool)
    (Q : Int → Int → Int → Vec G → ℚ) (tx : Mat G) (rx : Vec G) (ptable : Matrix) :
    Option Matrix :=
  let tau : Int := tx.xsize
  let M := tx.ysize
  let m : Int := (rx.size : Int) - tau
  let ptable := ptable.init 1 M
  if tau = 1 then
    (forUpO M (fun x ptable =>
      (rx.get m).bind (fun y => ptable.put 0 x (c.pdf (tx.val 0 x) y))) ptable).map
      (fun ptable =>
        let ptable := ptable.apply (fun v => v * (1 - c.Pi - c.Pd))
        let ptable := ptable.apply (fun v => v + 1 / 2 * c.Pi * c.Pd)
        ptable.apply (fun v => v / ((2 : ℚ) ^ m.toNat * (1 - c.Pi) * (1 - c.Pd))))
  else if M = 1 then
    let f := c.myfba normalize Q
    (f.init (tau + 1) c.I c.xmax th_inner).bind (fun f =>
      (f.prepare rx).bind (fun f =>
        (f.getF (tau + 1) m).bind (fun v => ptable.put 1 1 v)))
  else none

end Bsid

/-- A BSID channel with `I = 1`, `xmax = 1` and error probabilities of `1/10`. -/
def exampleBsid : Bsid := { I := 1, xmax := 1, Ps := 1 / 10, Pd := 1 / 10, Pi := 1 / 10 }

/-- One candidate sequence of two symbols, `(true, false)`, as a `2 x 1` matrix. -/
def exampleCandidate : Mat Bool := { xsize := 2, ysize := 1, val := fun t _ => decide (t = 0) }

/-- Two candidate symbols for a single step, as a `1 x 2` matrix. -/
def exampleSymbols : Mat Bool := { xsize := 1, ysize := 2, val := fun _ x => decide (x = 1) }

/-! ## Creation of S-random interleavers (`MakeSRandom/makesrandom.cpp`)

The random generators are not part of the sources. The true random generator `trng` is
modelled by the function that gives the value of its `k`-th call of `ival()`, and a
pseudo-random generator seeded with `seed` by the function `prng seed` that gives, for the
call number `k` and the bound `m`, the value of its `k`-th call `ival(m)`.

The assertions of `libbase::vector` are `assert`s, which the build with `NDEBUG` compiles
out: the parameter `asserts` of the definitions tells whether they are active. -/

/-- A `DerivedVector<int>` with the two members it inherits from `libbase::vector`: `elems`
lists the elements `m_data[0], ..., m_data[m_xsize - 1]`, and `null` tells whether `m_data`
is the NULL pointer. -/
structure DerivedVector where
  elems : List Nat
  null : Bool

namespace DerivedVector

/-- `vector::test_invariant()`: the size is not negative, and `m_data` is NULL exactly when
the size is zero. The value is whether the assertions hold. -/
def test_invariant (v : DerivedVector) : Bool :=
  if v.elems.length = 0 then v.null else !v.null

/-- The constructor `DerivedVector(x)`, which is `vector(x)`: `alloc(x)` reserves memory for
`x > 0` elements and leaves `m_data` NULL for `x = 0`. -/
def create (x : Nat) : DerivedVector :=
  { elems := List.replicate x 0, null := decide (x = 0) }

/-- The copy constructor of `vector`: `alloc(x.m_xsize)` and a copy of the elements. -/
def copy (v : DerivedVector) : DerivedVector :=
  { elems := v.elems, null := decide (v.elems.length = 0) }

/-- `vector::size()`. -/
def size (v : DerivedVector) : Nat := v.elems.length

/-- `DerivedVector<T>::sequence()`: element `i` is set to `i`. -/
def sequence (v : DerivedVector) : DerivedVector :=
  { v with elems := List.range v.elems.length }

/-- `DerivedVector<T>::remove(x)`: the elements after position `x` move down by one and
`m_xsize` is decremented, while `m_data` stays as it is, also when the size becomes zero;
`none` is the failed assertion `x < m_xsize`. -/
def remove (v : DerivedVector) (x : Nat) : Option DerivedVector :=
  if ¬ x < v.elems.length then none else some { v with elems := v.elems.eraseIdx x }

/-- The read `v(x)`, `vector::operator()`: with `asserts` it calls `test_invariant()`; `none`
is a failed assertion, or an index outside the vector. -/
def get (asserts : Bool) (v : DerivedVector) (x : Nat) : Option Nat :=
  if asserts = true ∧ v.test_invariant = false then none else v.elems[x]?

/-- The destructor `~vector()`, which calls `free()`: with `asserts` its first statement
`test_invariant()` is checked, and `none` is its failure. -/
def destroy (asserts : Bool) (v : DerivedVector) : Option Unit :=
  if asserts = true ∧ v.test_invariant = false then none else some ()

end DerivedVector

/-- The working variables of one attempt of `create_srandom`: the interleaver, the numbers not
yet used, the flag `failed`, and the number of values taken from the pseudo-random
generator. -/
structure SRandom where
  lut : IntVector
  unused : DerivedVector
  failed : Bool
  calls : Nat

/-- What `create_srandom` leaves: the interleaver it returns and its reference parameters
`spread` and `seed`. The field `prng_seed` is not a variable of the caller: it records the
value with which the pseudo-random generator was seeded in the last attempt. -/
structure SRandomResult where
  lut : IntVector
  spread : Int
  seed : Nat
  prng_seed : Nat

namespace SRandom

/-- The test of the spread constraint in `create_srandom`: the value of `good` after the loop
`for (j = max(0, i - spread); j < i; j++) if (abs(lut(j) - n) < spread) { good = false;
break; }`. After the `break` the remaining rounds do nothing. -/
def good (lut : IntVector) (i : Nat) (spread : Int) (n : Nat) : Bool :=
  forRange (max 0 ((i : Int) - spread)) ((i : Int) - 1) (fun j good =>
    if good = true ∧ |((lut.val j.toNat : Nat) : Int) - (n : Int)| < spread then false
    else good) true

/-- The inner `do ... while (!good && !failed)` loop of `create_srandom` for the entry `i`,
which returns the working variables and the vectors `untried` and `index` as it leaves
them. Every round but the last removes an element of `untried`, so the loop makes at most as
many rounds as `untried` has elements at the start: `fuel` counts the rounds that are left,
and `none` is a failed index check or assertion, or the fuel at its end. -/
def choose (asserts : Bool) (ival : Nat → Nat → Nat) (spread : Int) (i : Nat) :
    Nat → DerivedVector → DerivedVector → SRandom →
      Option (SRandom × DerivedVector × DerivedVector)
  | 0, _, _, _ => none
  | fuel + 1, untried, index, s =>
    let ndx := ival s.calls untried.size
    let s := { s with calls := s.calls + 1 }
    (untried.get asserts ndx).bind (fun n =>
      if good s.lut i spread n = false then
        (untried.remove ndx).bind (fun untried =>
          (index.remove ndx).bind (fun index =>
            if untried.size = 0 then some ({ s with failed := true }, untried, index)
            else choose asserts ival spread i fuel untried index s))
      else
        (index.get asserts ndx).bind (fun x =>
          (s.unused.remove x).map (fun unused =>
            ({ s with unused := unused, lut := s.lut.set i n }, untried, index))))

/-- One round of the outer `do ... while (failed)` loop of `create_srandom`, up to the test
of `failed`: the loop `for (i = 0; i < tau && !failed; i++)` over the entries, with the
generator `ival` of this attempt. At the end of the body of an entry its local vectors
`index` and `untried` are destroyed, in this order. -/
def attempt (asserts : Bool) (ival : Nat → Nat → Nat) (tau : Nat) (spread : Int)
    (lut : IntVector) : Option SRandom :=
  let unused := (DerivedVector.create tau).sequence
  forUpO tau (fun i (s : SRandom) =>
    if s.failed = true then some s
    else
      let untried := s.unused.copy
      let index := (DerivedVector.create s.unused.size).sequence
      (choose asserts ival spread i untried.size untried index s).bind (fun r =>
        (r.2.2.destroy asserts).bind (fun _ =>
          (r.2.1.destroy asserts).map (fun _ => r.1))))
    { lut := lut, unused := unused, failed := false, calls := 0 }

/-- The outer `do ... while (failed)` loop of `create_srandom`, with the number `k` of
attempts made so far; `fuel` bounds the number of attempts. At the end of the body the local
vector `unused` is destroyed. The result is the interleaver, the spread and the seed of the
attempt that succeeded. -/
def attempts (asserts : Bool) (trng : Nat → Nat) (prng : Nat → Nat → Nat → Nat) (tau : Nat)
    (max_attempts : Int) : Nat → Nat → Int → Int → IntVector → Option (IntVector × Int × Nat)
  | 0, _, _, _, _ => none
  | fuel + 1, k, attempt_no, spread, lut =>
    let seed := trng k
    (attempt asserts (prng seed) tau spread lut).bind (fun s =>
      (s.unused.destroy asserts).bind (fun _ =>
        if s.failed = true then
          let attempt_no := attempt_no + 1
          if attempt_no ≥ max_attempts then
            attempts asserts trng prng tau max_attempts fuel (k + 1) 0 (spread - 1) s.lut
          else attempts asserts trng prng tau max_attempts fuel (k + 1) attempt_no spread s.lut
        else some (s.lut, spread, seed)))

end SRandom

/-- `create_srandom(tau, spread, seed, max_attempts)`. With `asserts` it is the default
build, in which the assertions of `libbase::vector` (`assert`) are active; without, the build
with `NDEBUG`, in which they are compiled out. The local `seed` of the loop body hides the
reference parameter `seed`, which is handed back as it came. -/
def create_srandom (asserts : Bool) (trng : Nat → Nat) (prng : Nat → Nat → Nat → Nat)
    (fuel : Nat) (tau : Nat) (spread : Int) (seed : Nat) (max_attempts : Int) :
    Option SRandomResult :=
  let lut : IntVector := { size := tau, val := fun _ => 0 }
  (SRandom.attempts asserts trng prng tau max_attempts fuel 0 0 spread lut).map (fun r =>
    { lut := r.1, spread := r.2.1, seed := seed, prng_seed := r.2.2 })

/-- What holds of the working variables after `i` entries of an attempt have been filled:
the interleaver has `tau` elements, its first `i` entries are different numbers below `tau`
that keep the spread, and `unused` lists, without repetition, the numbers below `tau` that
are not among them. -/
def SRandom.filled (tau : Nat) (spread : Int) (i : Nat) (s : SRandom) : Prop :=
  s.lut.size = tau ∧ s.unused.elems.Nodup ∧
    (∀ v, v ∈ s.unused.elems ↔ v < tau ∧ ∀ j, j < i → s.lut.val j ≠ v) ∧
    s.unused.elems.length + i = tau ∧
    (∀ j, j < i → s.lut.val j < tau) ∧
    (∀ j j', j < i → j' < i → s.lut.val j = s.lut.val j' → j = j') ∧
    ∀ i' j : Nat, i' < i → max 0 ((i' : Int) - spread) ≤ (j : Int) → j < i' →
      spread ≤ |((s.lut.val i' : Nat) : Int) - ((s.lut.val j : Nat) : Int)|

/-- A true random generator for the witnesses: its `k`-th value is `7 + k`. -/
def exampleTrng : Nat → Nat := fun k => 7 + k

/-- A pseudo-random generator for the witnesses: the `k`-th call `ival(m)` of the generator
seeded with `seed` returns `(seed + 3 * k) mod m`. -/
def examplePrng : Nat → Nat → Nat → Nat := fun seed k m => (seed + 3 * k) % m

/-! ## The rounding of the `double` backend

The definitions above compute with exact rationals. The explicit realizations of the classes
with `real = double` (`bcjr<double>`, `dminner2<double>`, ...) store every arithmetic result
rounded to IEEE 754 binary64. Where this shows, the function is embedded a second time, with
every arithmetic result passed through the rounding `fl` of the backend: `fl = roundDouble`
is the `double` backend, and `fl = id` gives back the exact definition. -/

/-- The integer part of the binary logarithm of `n`, by repeated halving; `fuel` bounds the
number of halvings. -/
def ilog2Aux : Nat → Nat → Nat
  | 0, _ => 0
  | fuel + 1, n => if n < 2 then 0 else ilog2Aux fuel (n / 2) + 1

/-- The integer part of the binary logarithm of `n >= 1`. -/
def ilog2 (n : Nat) : Nat := ilog2Aux n n

/-- The `double` that holds the exact result `x` of an arithmetic operation: IEEE 754
binary64, round to nearest, ties to even. With `|x| = n / d` and `2 ^ e <= |x| < 2 ^ (e + 1)`,
the unit in the last place is `2 ^ q` with `q = max (e - 52) (-1074)` (53 significant bits,
gradual underflow), and `|x| / 2 ^ q` is rounded to the nearest integer `m`, to the even one
in a tie. Overflow to infinity is not modelled: the function is used on values far below
`2 ^ 1024`. -/
def roundDouble (x : ℚ) : ℚ :=
  if x = 0 then 0
  else
    let n := x.num.natAbs
    let d := x.den
    let k : Int := (ilog2 n : Int) - (ilog2 d : Int)
    let e : Int :=
      if (if 0 ≤ k then d * 2 ^ k.toNat ≤ n else d ≤ n * 2 ^ (-k).toNat) then k else k - 1
    let q : Int := max (e - 52) (-1074)
    let num : Nat := if 0 ≤ q then n else n * 2 ^ (-q).toNat
    let den : Nat := if 0 ≤ q then d * 2 ^ q.toNat else d
    let f : Nat := num / den
    let r : Nat := num % den
    let m : Nat :=
      if 2 * r < den then f else if den < 2 * r then f + 1
      else if f % 2 = 0 then f else f + 1
    let y : ℚ :=
      if 0 ≤ q then ((m * 2 ^ q.toNat : Nat) : ℚ) else (m : ℚ) / ((2 ^ (-q).toNat : Nat) : ℚ)
    if 0 < x then y else -y

namespace Bcjr

/-- `bcjr::normalize` over a backend that rounds: `scale = dbl(1) / scale` and
`r(t, i) *= scale` store rounded results. -/
def normalize_fl (fl : ℚ → ℚ) (r : Matrix) : Matrix :=
  forUp r.xsize (fun t r =>
    let scale := r.val t 0
    let scale := forUp (r.ysize - 1) (fun j scale =>
      let i := j + 1
      if r.val t i > scale then r.val t i else scale) scale
    if scale > 0 then
      let scale := fl (1 / scale)
      forUp r.ysize (fun i r => r.set t i (fl (r.val t i * scale))) r
    else r) r

/-- `bcjr::work_alpha` over a backend that rounds: the product, the sum of
`alpha(t, m) += alpha(t-1, mdash) * gamma(t-1, mdash, i)`, the reciprocal
`scale = real(1) / scale` and the product of `alpha(t, m) *= scale` store rounded results. -/
def work_alpha_fl (fl : ℚ → ℚ) (b : Bcjr) : Bcjr :=
  { b with alpha := forUp b.tau (fun k alpha =>
      let t := k + 1
      let alpha := forUp b.M (fun m alpha => alpha.set t m 0) alpha
      let alpha := forUp b.M (fun mdash alpha =>
        forUp b.K (fun i alpha =>
          let m := b.lut_m mdash i
          alpha.set t m
            (fl (alpha.val t m + fl (alpha.val (t - 1) mdash * b.gamma.val (t - 1) mdash i))))
          alpha) alpha
      let scale := alpha.val t 0
      let scale := forUp (b.M - 1) (fun j scale =>
        let m := j + 1
        if alpha.val t m > scale then alpha.val t m else scale) scale
      let scale := fl (1 / scale)
      forUp b.M (fun m alpha => alpha.set t m (fl (alpha.val t m * scale))) alpha) b.alpha }

/-- `bcjr::work_beta` over a backend that rounds. -/
def work_beta_fl (fl : ℚ → ℚ) (b : Bcjr) : Bcjr :=
  { b with beta := forDown b.tau (fun t beta =>
      let beta := forUp b.M (fun m beta =>
        let beta := beta.set t m 0
        forUp b.K (fun i beta =>
          let mdash := b.lut_m m i
          beta.set t m
            (fl (beta.val t m + fl (beta.val (t + 1) mdash * b.gamma.val t m i)))) beta) beta
      let scale := beta.val t 0
      let scale := forUp (b.M - 1) (fun j scale =>
        let m := j + 1
        if beta.val t m > scale then beta.val t m else scale) scale
      let scale := fl (1 / scale)
      forUp b.M (fun m beta => beta.set t m (fl (beta.val t m * scale))) beta) b.beta }

/-- The value of `scale` in `bcjr::work_alpha` at time `t`, before its reciprocal is taken,
over a backend that rounds; `alpha` is the matrix at the start of the round for `t`. -/
def work_alpha_scale_fl (fl : ℚ → ℚ) (b : Bcjr) (t : Nat) (alpha : Matrix) : ℚ :=
  let alpha := forUp b.M (fun m alpha => alpha.set t m 0) alpha
  let alpha := forUp b.M (fun mdash alpha =>
    forUp b.K (fun i alpha =>
      let m := b.lut_m mdash i
      alpha.set t m
        (fl (alpha.val t m + fl (alpha.val (t - 1) mdash * b.gamma.val (t - 1) mdash i))))
      alpha) alpha
  let scale := alpha.val t 0
  forUp (b.M - 1) (fun j scale =>
    let m := j + 1
    if alpha.val t m > scale then alpha.val t m else scale) scale

end Bcjr

namespace Fba

/-- `fba2_fss::get_scale` over a backend that rounds: the sums of `scale += metric[row][col]`
and the reciprocal `real(1) / scale` are rounded. -/
def get_scale_fl (fl : ℚ → ℚ) (metric : Nat → Int → ℚ) (row : Nat) (col_min col_max : Int) :
    Option ℚ :=
  let scale := forRange col_min col_max (fun col scale => fl (scale + metric row col)) 0
  if scale > 0 then some (fl (1 / scale)) else none

/-- `fba2_fss::normalize` over a backend that rounds. -/
def normalize_fl (fl : ℚ → ℚ) (metric : Nat → Int → ℚ) (row : Nat) (col_min col_max : Int) :
    Option (Nat → Int → ℚ) :=
  (get_scale_fl fl metric row col_min col_max).map (fun scale =>
    forRange col_min col_max
      (fun col metric => set2 metric row col (fl (metric row col * scale))) metric)

end Fba

namespace Dminner2

/-- `dminner2::normalize(in, out)` over a backend that rounds: `scale = real(1) / scale` and
the product `in(i) * scale` are rounded. -/
def normalize_fl (fl : ℚ → ℚ) (inp out : Vec ℚ) : Option (Vec ℚ) :=
  let N := inp.size
  if ¬ N > 0 then none
  else
    inp.max.bind (fun scale =>
      if ¬ scale ≠ 0 then none
      else
        let scale := fl (1 / scale)
        let out := out.init N
        some (forUp N (fun i out => out.set i (fl (inp.val i * scale))) out))

end Dminner2

/-- A matrix with the one row `(49, 7)`. -/
def exampleSevens : Matrix :=
  { xsize := 1, ysize := 2, val := fun _ i => if i = 0 then 49 else 7 }

/-- A table with the entries `(49, 7)`. -/
def exampleSevensTable : Vec ℚ := { size := 2, val := fun i => if i = 0 then 49 else 7 }

/-- A trellis with one state and one input, block length 1, not yet allocated. -/
def exampleSingleState : Bcjr :=
  { tau := 1, K := 1, N := 1, M := 1
    lut_X := fun _ _ => 0
    lut_m := fun _ _ => 0
    initialised := false
    alpha := { xsize := 0, ysize := 0, val := fun _ _ => 0 }
    beta := { xsize := 0, ysize := 0, val := fun _ _ => 0 }
    gamma := { xsize := 0, ysize := 0, zsize := 0, val := fun _ _ _ => 0 } }

/-- A channel table with one row and one column, whose entry is `49`. -/
def exampleR49 : Matrix := { xsize := 1, ysize := 1, val := fun _ _ => 49 }

/-- An array of metrics whose rows are `(1, 5)` in the columns 0 and 1. -/
def exampleOneFive : Nat → Int → ℚ := fun _ col => if col = 0 then 1 else 5

/-! ## Element access with the index assertion of `vector::operator()`

`vector<T>::operator()(x)` asserts `x >= 0 && x < m_xsize`. A function that gives its output
vector a size itself is embedded with plain assignments (`IntVector.set`, `RVector.set`);
the two functions below are handed a vector that they do not size, and are embedded a second
time with the assertion at every access. -/

/-- The read `v(t)`; `none` is the failed index assertion of `vector::operator()`. -/
def IntVector.get (v : IntVector) (t : Nat) : Option Nat :=
  if t < v.size then some (v.val t) else none

/-- The assignment `v(t) = x`; `none` is the failed index assertion of
`vector::operator()`. -/
def IntVector.put (v : IntVector) (t x : Nat) : Option IntVector :=
  if t < v.size then some (v.set t x) else none

/-- The assignment `v(k) = x`; `none` is the failed index assertion of
`vector::operator()`. -/
def RVector.put (v : RVector) (k : Nat) (x : ℚ) : Option RVector :=
  if k < v.size then some (v.set k x) else none

/-- The assignment `ptable(i)(d) = x` to a vector of vectors; `none` is the failed index
assertion of `vector::operator()`, for the row `i` or for its element `d`. -/
def RTable.put (p : RTable) (i d : Nat) (x : ℚ) : Option RTable :=
  if i < p.size then
    ((p.val i).put d x).map (fun row => { p with val := Function.update p.val i row })
  else none

/-- `turbo::hard_decision(ri, decoded)` with the index assertion at every access
`decoded(t)`: the function does not give `decoded` a size. -/
def Turbo.hard_decision_checked (T : Turbo) (ri : Matrix) (decoded : IntVector) :
    Option IntVector :=
  forUpO T.tau (fun t decoded =>
    (decoded.put t 0).bind (fun decoded =>
      forUpO (T.num_inputs - 1) (fun j decoded =>
        let i := j + 1
        (decoded.get t).bind (fun d =>
          if ri.val t i > ri.val t d then decoded.put t i else some decoded)) decoded))
    decoded

/-- `fba2_fss::work_message_app(ptable, i)` with the index assertions of the assignment
`ptable(i)(d) = p`: the function does not give `ptable` a size. -/
def Fba.work_message_app_checked (F : Fba) (ptable : RTable) (i : Nat) : Option RTable :=
  forUpO F.q (fun d ptable =>
    let p := 0
    let p := forRange F.mtau_min F.mtau_max (fun x1 p =>
      let this_alpha := F.alpha i x1
      let x2min := max F.mtau_min (F.mn_min + x1)
      let x2max := min F.mtau_max (F.mn_max + x1)
      forRange x2min x2max (fun x2 p =>
        let temp := this_alpha
        let temp := temp * F.beta (i + 1) x2
        let temp := temp * F.get_gamma d i x1 (x2 - x1)
        p + temp) p) p
    ptable.put i d p) ptable

/-- A vector of one decoded symbol, with an arbitrary previous value. -/
def exampleDecodedOne : IntVector := { size := 1, val := fun _ => 9 }

/-- A table of one row with two elements, as `libbase::allocate(ptable, 1, 2)` leaves it,
with arbitrary previous values. -/
def exampleAllocatedTable : RTable :=
  { size := 1, val := fun _ => { size := 2, val := fun _ => 9 } }

theorem forUp_succ {σ : Type} (n : Nat) (f : Nat → σ → σ) (s : σ) :
    forUp (n + 1) f s = f n (forUp n f s) := rfl

/-- A loop whose iteration `k` leaves the observation `get · j` alone for `k ≠ j`. -/
theorem forUp_get {σ β : Type} (get : σ → Nat → β) (f : Nat → σ → σ) (j : Nat)
    (hother : ∀ k s, k ≠ j → get (f k s) j = get s j) (n : Nat) (s : σ) :
    get (forUp n f s) j = if j < n then get (f j (forUp j f s)) j else get s j := by
  induction n with
  | zero => simp [forUp]
  | succ n ih =>
    rw [forUp_succ]
    by_cases hj : j = n
    · subst hj; simp
    · rw [hother n _ (Ne.symm hj), ih]
      by_cases hlt : j < n
      · rw [if_pos hlt, if_pos (Nat.lt_succ_of_lt hlt)]
      · rw [if_neg hlt, if_neg (by omega)]

/-- A loop none of whose iterations changes the observation `obs`. -/
theorem forUp_preserve {σ β : Type} (obs : σ → β) (f : Nat → σ → σ)
    (h : ∀ k s, obs (f k s) = obs s) (n : Nat) (s : σ) :
    obs (forUp n f s) = obs s := by
  induction n with
  | zero => rfl
  | succ n ih => rw [forUp_succ, h, ih]

/-- A loop whose first `n` iterations do not change the observation `obs`. -/
theorem forUp_preserve_lt {σ β : Type} (obs : σ → β) (f : Nat → σ → σ) (n : Nat)
    (h : ∀ k s, k < n → obs (f k s) = obs s) (s : σ) :
    obs (forUp n f s) = obs s := by
  induction n with
  | zero => rfl
  | succ n ih =>
    rw [forUp_succ, h n _ (Nat.lt_succ_self n)]
    exact ih (fun k s hk => h k s (Nat.lt_succ_of_lt hk))

theorem forUp_congr {σ : Type} (f g : Nat → σ → σ) (n : Nat)
    (h : ∀ k s, k < n → f k s = g k s) (s : σ) : forUp n f s = forUp n g s := by
  induction n with
  | zero => rfl
  | succ n ih =>
    rw [forUp_succ, forUp_succ, ih (fun k s hk => h k s (Nat.lt_succ_of_lt hk)),
      h n _ (Nat.lt_succ_self n)]

/-- A loop whose body, on the states of an invariant, succeeds with the result of `g`. -/
theorem forUpO_eq_forUp {σ : Type} (Inv : σ → Prop) (f : Nat → σ → Option σ)
    (g : Nat → σ → σ) (n : Nat) (s : σ) (h0 : Inv s)
    (hstep : ∀ k s, k < n → Inv s → f k s = some (g k s) ∧ Inv (g k s)) :
    forUpO n f s = some (forUp n g s) ∧ Inv (forUp n g s) := by
  induction n with
  | zero => exact ⟨rfl, h0⟩
  | succ n ih =>
    obtain ⟨e, i⟩ := ih (fun k s hk => hstep k s (Nat.lt_succ_of_lt hk))
    obtain ⟨e2, i2⟩ := hstep n _ (Nat.lt_succ_self n) i
    refine ⟨?_, i2⟩
    show (forUpO n f s).bind (f n) = some (g n (forUp n g s))
    rw [e, Option.some_bind, e2]

/-- A loop that has failed after `n` rounds has failed after any larger number of rounds. -/
theorem forUpO_none_mono {σ : Type} (f : Nat → σ → Option σ) (n m : Nat) (s : σ)
    (h : forUpO n f s = none) (hm : n ≤ m) : forUpO m f s = none := by
  induction m with
  | zero =>
    obtain rfl : n = 0 := by omega
    exact h
  | succ m ih =>
    by_cases e : n = m + 1
    · subst e
      exact h
    · show (forUpO m f s).bind (f m) = none
      rw [ih (by omega)]
      rfl

/-! ## Running maximum and argmax -/

theorem maxLoop_succ (f : Nat → ℚ) (n : Nat) :
    maxLoop f (n + 1) = if f (n + 1) > maxLoop f n then f (n + 1) else maxLoop f n := rfl

theorem maxLoop_ge (f : Nat → ℚ) (n : Nat) : ∀ m, m ≤ n → f m ≤ maxLoop f n := by
  induction n with
  | zero => intro m hm; have : m = 0 := by omega
            subst this; exact le_refl _
  | succ n ih =>
    intro m hm
    rw [maxLoop_succ]
    by_cases hlt : f (n + 1) > maxLoop f n
    · rw [if_pos hlt]
      by_cases hmn : m = n + 1
      · subst hmn; exact le_refl _
      · exact le_trans (ih m (by omega)) (le_of_lt hlt)
    · rw [if_neg hlt]
      by_cases hmn : m = n + 1
      · subst hmn; exact not_lt.mp hlt
      · exact ih m (by omega)

theorem maxLoop_mem (f : Nat → ℚ) (n : Nat) : ∃ m, m ≤ n ∧ maxLoop f n = f m := by
  induction n with
  | zero => exact ⟨0, le_refl _, rfl⟩
  | succ n ih =>
    rw [maxLoop_succ]
    by_cases hlt : f (n + 1) > maxLoop f n
    · rw [if_pos hlt]; exact ⟨n + 1, le_refl _, rfl⟩
    · rw [if_neg hlt]
      obtain ⟨m, hm, he⟩ := ih
      exact ⟨m, by omega, he⟩

theorem maxLoop_eq_of (f : Nat → ℚ) (n : Nat) (v : ℚ) (hge : ∀ m, m ≤ n → f m ≤ v)
    (hmem : ∃ m, m ≤ n ∧ v = f m) : maxLoop f n = v := by
  obtain ⟨m, hm, he⟩ := hmem
  obtain ⟨m', hm', he'⟩ := maxLoop_mem f n
  apply le_antisymm
  · rw [he']; exact hge m' hm'
  · rw [he]; exact maxLoop_ge f n m hm

theorem maxLoop_congr (f g : Nat → ℚ) (n : Nat) (h : ∀ m, m ≤ n → f m = g m) :
    maxLoop f n = maxLoop g n := by
  apply maxLoop_eq_of
  · intro m hm; rw [h m hm]; exact maxLoop_ge g n m hm
  · obtain ⟨m, hm, he⟩ := maxLoop_mem g n
    exact ⟨m, hm, by rw [he, h m hm]⟩

theorem maxLoop_mul (f : Nat → ℚ) (n : Nat) (c : ℚ) (hc : 0 ≤ c) :
    maxLoop (fun m => f m * c) n = maxLoop f n * c := by
  apply maxLoop_eq_of
  · intro m hm; exact mul_le_mul_of_nonneg_right (maxLoop_ge f n m hm) hc
  · obtain ⟨m, hm, he⟩ := maxLoop_mem f n
    exact ⟨m, hm, by rw [he]⟩

theorem maxLoop_nonneg (f : Nat → ℚ) (n : Nat) (h : ∀ m, m ≤ n → 0 ≤ f m) :
    0 ≤ maxLoop f n := le_trans (h 0 (Nat.zero_le n)) (maxLoop_ge f n 0 (Nat.zero_le n))

theorem maxLoop_pos (f : Nat → ℚ) (n : Nat) (m : Nat) (hm : m ≤ n) (h : 0 < f m) :
    0 < maxLoop f n := lt_of_lt_of_le h (maxLoop_ge f n m hm)

theorem argLoop_succ (f : Nat → ℚ) (n : Nat) :
    argLoop f (n + 1) = if f (n + 1) > f (argLoop f n) then n + 1 else argLoop f n := rfl

theorem argLoop_le (f : Nat → ℚ) (n : Nat) : argLoop f n ≤ n := by
  induction n with
  | zero => exact le_refl _
  | succ n ih =>
    rw [argLoop_succ]
    split_ifs
    · exact le_refl _
    · omega

theorem argLoop_ge (f : Nat → ℚ) (n : Nat) : ∀ i, i ≤ n → f i ≤ f (argLoop f n) := by
  induction n with
  | zero => intro i hi; have : i = 0 := by omega
            subst this; exact le_refl _
  | succ n ih =>
    intro i hi
    rw [argLoop_succ]
    by_cases hlt : f (n + 1) > f (argLoop f n)
    · rw [if_pos hlt]
      by_cases hin : i = n + 1
      · subst hin; exact le_refl _
      · exact le_trans (ih i (by omega)) (le_of_lt hlt)
    · rw [if_neg hlt]
      by_cases hin : i = n + 1
      · subst hin; exact not_lt.mp hlt
      · exact ih i (by omega)

theorem argLoop_first (f : Nat → ℚ) (n : Nat) : ∀ i, i < argLoop f n → f i < f (argLoop f n) := by
  induction n with
  | zero => intro i hi; exact absurd hi (Nat.not_lt_zero i)
  | succ n ih =>
    intro i
    rw [argLoop_succ]
    by_cases hlt : f (n + 1) > f (argLoop f n)
    · rw [if_pos hlt]
      intro hi
      exact lt_of_le_of_lt (argLoop_ge f n i (by omega)) hlt
    · rw [if_neg hlt]
      exact ih i

/-! ## The exact definitions as instances of the rounding ones -/

/-- With the identity for rounding, `normalize_fl` is `bcjr::normalize` in exact
arithmetic. -/
theorem normalize_fl_exact : Bcjr.normalize_fl id = Bcjr.normalize := rfl

/-- With the identity for rounding, `work_alpha_fl` is `bcjr::work_alpha` in exact
arithmetic. -/
theorem work_alpha_fl_exact (b : Bcjr) : b.work_alpha_fl id = b.work_alpha := rfl

/-- With the identity for rounding, the divisor of `work_alpha_fl` is the one of
`bcjr::work_alpha` in exact arithmetic. -/
theorem work_alpha_scale_fl_exact (b : Bcjr) (t : Nat) (alpha : Matrix) :
    b.work_alpha_scale_fl id t alpha = b.work_alpha_scale t alpha := rfl

/-- With the identity for rounding, `work_beta_fl` is `bcjr::work_beta` in exact
arithmetic. -/
theorem work_beta_fl_exact (b : Bcjr) : b.work_beta_fl id = b.work_beta := rfl

/-- With the identity for rounding, `Fba.normalize_fl` is `fba2_fss::normalize` in exact
arithmetic. -/
theorem fba_normalize_fl_exact : Fba.normalize_fl id = Fba.normalize := rfl

/-- With the identity for rounding, `Dminner2.normalize_fl` is `dminner2::normalize` in exact
arithmetic. -/
theorem dminner2_normalize_fl_exact : Dminner2.normalize_fl id = Dminner2.normalize := rfl

/-! ## Rounding at work -/

/-- The reciprocal of 49 in `double`, and its product with 49 and with 7. -/
theorem roundDouble_sevens :
    roundDouble (1 / 49) = 5882252574524729 / 2 ^ 58 ∧
    roundDouble (49 * roundDouble (1 / 49)) = 1 - 1 / 2 ^ 53 ∧
    roundDouble (7 * roundDouble (1 / 49)) = 2573485501354569 / 2 ^ 54 := by
  decide!

/-- Numbers that a `double` holds are left as they are, and half of the least positive
`double` is rounded to zero. -/
theorem roundDouble_fixed :
    roundDouble 49 = 49 ∧ roundDouble (1 - 1 / 2 ^ 53) = 1 - 1 / 2 ^ 53 ∧
    roundDouble (1 / 2 ^ 1074) = 1 / 2 ^ 1074 ∧ roundDouble (1 / 2 * (1 / 2 ^ 1074)) = 0 := by
  decide!

/-- Over the `double` backend the backward pass of the BCJR decoder on the one-state trellis
with the channel table `(49)` leaves `beta(0, 0) = 1 - 2 ^ (-53)`: the row maximum after the
normalisation is not 1. -/
theorem work_beta_rounding :
    ((((exampleSingleState.setstart 0).setend 0).work_gamma exampleR49).work_beta_fl
      roundDouble).beta.val 0 0 = 1 - 1 / 2 ^ 53 := by
  decide!

/-- Over the `double` backend `fba2_fss::normalize` turns the row `(1, 5)` into two numbers
whose sum is `1 - 3 / 2 ^ 55`, not 1. -/
theorem fba_normalize_rounding :
    (Fba.normalize_fl roundDouble exampleOneFive 0 0 1).map
      (fun m => (m 0 0, m 0 1, m 0 0 + m 0 1)) =
      some (6004799503160661 / 2 ^ 55, 3752999689475413 / 2 ^ 52, 1 - 3 / 2 ^ 55) := by
  decide!

theorem intVector_set_val (v : IntVector) (t x j : Nat) :
    (v.set t x).val j = if j = t then x else v.val j := by
  simp [IntVector.set, Function.update_apply]

theorem hard_decision_inner_other (ri : Matrix) (t j : Nat) (hj : j ≠ t) (n : Nat)
    (d : IntVector) :
    (forUp n (fun j decoded =>
      let i := j + 1
      if ri.val t i > ri.val t (decoded.val t) then decoded.set t i else decoded) d).val j
      = d.val j := by
  apply forUp_preserve (fun d : IntVector => d.val j)
  intro k s
  dsimp only
  split_ifs
  · rw [intVector_set_val, if_neg hj]
  · rfl

theorem hard_decision_inner_self (ri : Matrix) (t : Nat) (n : Nat) (d : IntVector)
    (hd : d.val t = 0) :
    (forUp n (fun j decoded =>
      let i := j + 1
      if ri.val t i > ri.val t (decoded.val t) then decoded.set t i else decoded) d).val t
      = argLoop (ri.val t) n := by
  induction n with
  | zero => exact hd
  | succ n ih =>
    rw [forUp_succ, argLoop_succ]
    dsimp only
    rw [ih]
    split_ifs
    · rw [intVector_set_val, if_pos rfl]
    · exact ih

theorem hard_decision_val (T : Turbo) (ri : Matrix) (decoded : IntVector) (t : Nat)
    (ht : t < T.tau) :
    (T.hard_decision ri decoded).val t = argLoop (ri.val t) (T.num_inputs - 1) := by
  unfold Turbo.hard_decision
  rw [forUp_get (fun d : IntVector => d.val) _ t _ T.tau decoded, if_pos ht]
  · dsimp only
    apply hard_decision_inner_self
    rw [intVector_set_val, if_pos rfl]
  · intro k s hk
    dsimp only
    rw [hard_decision_inner_other ri k t (Ne.symm hk), intVector_set_val, if_neg (Ne.symm hk)]

theorem intVector_set_size (v : IntVector) (t x : Nat) : (v.set t x).size = v.size := rfl

/-- The inner loop of `hard_decision` with the index assertions, on a vector that holds the
element `t`. -/
theorem hard_decision_inner_checked (ri : Matrix) (t n : Nat) (d : IntVector)
    (hd : t < d.size) :
    forUpO n (fun j (decoded : IntVector) =>
        let i := j + 1
        (decoded.get t).bind (fun d =>
          if ri.val t i > ri.val t d then decoded.put t i else some decoded)) d =
      some (forUp n (fun j decoded =>
        let i := j + 1
        if ri.val t i > ri.val t (decoded.val t) then decoded.set t i else decoded) d) ∧
    (forUp n (fun j decoded =>
        let i := j + 1
        if ri.val t i > ri.val t (decoded.val t) then decoded.set t i else decoded) d).size =
      d.size := by
  have h := forUpO_eq_forUp (fun v : IntVector => v.size = d.size)
    (fun j (decoded : IntVector) =>
      let i := j + 1
      (decoded.get t).bind (fun d =>
        if ri.val t i > ri.val t d then decoded.put t i else some decoded))
    (fun j decoded =>
      let i := j + 1
      if ri.val t i > ri.val t (decoded.val t) then decoded.set t i else decoded) n d rfl
    (fun j v _ hv => by
      have ht : t < v.size := by rw [hv]; exact hd
      dsimp only
      unfold IntVector.get IntVector.put
      rw [if_pos ht, Option.some_bind]
      by_cases c : ri.val t (j + 1) > ri.val t (v.val t)
      · rw [if_pos c, if_pos c, if_pos ht]
        exact ⟨rfl, hv⟩
      · rw [if_neg c, if_neg c]
        exact ⟨rfl, hv⟩)
  exact h

/-- The first `n` rounds of `hard_decision` with the index assertions, on a vector of at
least `n` elements. -/
theorem hard_decision_loop_checked (T : Turbo) (ri : Matrix) (decoded : IntVector) (n : Nat)
    (h : n ≤ decoded.size) :
    forUpO n (fun t (decoded : IntVector) =>
        (decoded.put t 0).bind (fun decoded =>
          forUpO (T.num_inputs - 1) (fun j decoded =>
            let i := j + 1
            (decoded.get t).bind (fun d =>
              if ri.val t i > ri.val t d then decoded.put t i else some decoded)) decoded))
        decoded =
      some (forUp n (fun t decoded =>
        let decoded := decoded.set t 0
        forUp (T.num_inputs - 1) (fun j decoded =>
          let i := j + 1
          if ri.val t i > ri.val t (decoded.val t) then decoded.set t i else decoded) decoded)
        decoded) ∧
    (forUp n (fun t decoded =>
        let decoded := decoded.set t 0
        forUp (T.num_inputs - 1) (fun j decoded =>
          let i := j + 1
          if ri.val t i > ri.val t (decoded.val t) then decoded.set t i else decoded) decoded)
        decoded).size = decoded.size := by
  refine forUpO_eq_forUp (fun v : IntVector => v.size = decoded.size) _ _ n decoded rfl
    (fun t v ht hv => ?_)
  have hts : t < (v.set t 0).size := by
    rw [intVector_set_size, hv]
    omega
  obtain ⟨e1, e2⟩ := hard_decision_inner_checked ri t (T.num_inputs - 1) (v.set t 0) hts
  dsimp only
  unfold IntVector.put
  rw [if_pos (by rw [hv]; omega), Option.some_bind]
  exact ⟨e1, e2.trans hv⟩

/-- On a vector of at least `tau` elements no index assertion of `hard_decision` fails: the
function returns what the plain assignments give. -/
theorem hard_decision_checked_eq (T : Turbo) (ri : Matrix) (decoded : IntVector)
    (h : T.tau ≤ decoded.size) :
    T.hard_decision_checked ri decoded = some (T.hard_decision ri decoded) ∧
      (T.hard_decision ri decoded).size = decoded.size :=
  hard_decision_loop_checked T ri decoded T.tau h

/-- On a vector of fewer than `tau` elements the assignment `decoded(t) = 0` fails its index
assertion at `t = decoded.size()`. -/
theorem hard_decision_checked_fails (T : Turbo) (ri : Matrix) (decoded : IntVector)
    (h : decoded.size < T.tau) : T.hard_decision_checked ri decoded = none := by
  obtain ⟨e1, e2⟩ := hard_decision_loop_checked T ri decoded decoded.size (le_refl _)
  unfold Turbo.hard_decision_checked
  refine forUpO_none_mono _ (decoded.size + 1) T.tau decoded ?_ h
  show (forUpO decoded.size _ decoded).bind _ = none
  rw [e1, Option.some_bind]
  dsimp only
  unfold IntVector.put
  rw [if_neg (by rw [e2]; exact lt_irrefl _)]
  rfl

/-- C4: `turbo::hard_decision` returns, at every time step `t < tau`, the least index attaining
the maximum posterior of row `t`: the decided symbol is a valid input, no input has a larger
posterior, every smaller index has a strictly smaller posterior, and a row of equal posteriors
is decided as symbol 0. The function returns when `decoded` holds at least `tau` elements
(it does not give the vector a size); on a shorter vector the index assertion of
`decoded(t)` fails. -/
theorem hard_decision_least_argmax (T : Turbo) (ri : Matrix) (decoded : IntVector) :
    (T.tau ≤ decoded.size →
      ∃ d, T.hard_decision_checked ri decoded = some d ∧ d.size = decoded.size ∧
        ∀ t, t < T.tau →
          (0 < T.num_inputs → d.val t < T.num_inputs) ∧
          (∀ i, i < T.num_inputs → ri.val t i ≤ ri.val t (d.val t)) ∧
          (∀ i, i < d.val t → ri.val t i < ri.val t (d.val t)) ∧
          ((∀ i, i < T.num_inputs → ri.val t i = ri.val t 0) → d.val t = 0)) ∧
    (decoded.size < T.tau → T.hard_decision_checked ri decoded = none) := by
  refine ⟨fun hsize => ?_, hard_decision_checked_fails T ri decoded⟩
  obtain ⟨e, hs⟩ := hard_decision_checked_eq T ri decoded hsize
  refine ⟨_, e, hs, fun t ht => ?_⟩
  rw [hard_decision_val T ri decoded t ht]
  have hle := argLoop_le (ri.val t) (T.num_inputs - 1)
  refine ⟨fun h => by omega, fun i hi => argLoop_ge _ _ i (by omega), argLoop_first _ _, ?_⟩
  intro hall
  by_contra hne
  have hpos : 0 < argLoop (ri.val t) (T.num_inputs - 1) := Nat.pos_of_ne_zero hne
  have h1 := argLoop_first (ri.val t) (T.num_inputs - 1) 0 hpos
  have h2 := hall (argLoop (ri.val t) (T.num_inputs - 1)) (by omega)
  rw [h2] at h1
  exact lt_irrefl _ h1

/-! ## Element assignment -/

theorem Matrix.set_val (a : Matrix) (t i : Nat) (v : ℚ) (t' i' : Nat) :
    (a.set t i v).val t' i' = if t' = t ∧ i' = i then v else a.val t' i' := by
  unfold Matrix.set
  by_cases ht : t' = t
  · subst ht
    by_cases hi : i' = i
    · subst hi; simp
    · simp [Function.update_apply, hi]
  · simp [Function.update_apply, ht]

theorem Matrix.set_xsize (a : Matrix) (t i : Nat) (v : ℚ) : (a.set t i v).xsize = a.xsize := rfl

theorem Matrix.set_ysize (a : Matrix) (t i : Nat) (v : ℚ) : (a.set t i v).ysize = a.ysize := rfl

theorem Turbo.store_mem_same (T : Turbo) (x : MRef) (a : Matrix) : (T.store x a).mem x = a := by
  simp [Turbo.store]

theorem Turbo.store_mem_other (T : Turbo) (x y : MRef) (a : Matrix) (h : y ≠ x) :
    (T.store x a).mem y = T.mem y := by
  simp [Turbo.store, Function.update_apply, h]

/-! ## `turbo::work_extrinsic` -/

theorem extrinsicBody_mem_other (ra ri r re : MRef) (t x : Nat) (T : Turbo) (y : MRef)
    (hy : y ≠ re) : (extrinsicBody ra ri r re t x T).mem y = T.mem y := by
  unfold extrinsicBody
  split_ifs <;> exact Turbo.store_mem_other _ _ _ _ hy

theorem extrinsicBody_mem_re (ra ri r re : MRef) (t x : Nat) (T : Turbo) (t' x' : Nat) :
    ((extrinsicBody ra ri r re t x T).mem re).val t' x' =
      if t' = t ∧ x' = x then extrinsicValue T ra ri r t x else (T.mem re).val t' x' := by
  unfold extrinsicBody extrinsicValue
  split_ifs <;> simp_all [Turbo.store_mem_same, Matrix.set_val]

theorem extrinsicBody_num_inputs (ra ri r re : MRef) (t x : Nat) (T : Turbo) :
    (extrinsicBody ra ri r re t x T).num_inputs = T.num_inputs := by
  unfold extrinsicBody
  split_ifs <;> rfl

theorem extrinsicBody_tau (ra ri r re : MRef) (t x : Nat) (T : Turbo) :
    (extrinsicBody ra ri r re t x T).tau = T.tau := by
  unfold extrinsicBody
  split_ifs <;> rfl

/-- The inner loop of `work_extrinsic` at row `t`, after `n` iterations. -/
theorem extrinsic_inner (ra ri r re : MRef) (hri : re ≠ ri) (hr : re ≠ r) (t : Nat) (T : Turbo)
    (n : Nat) :
    (forUp n (extrinsicBody ra ri r re t) T).num_inputs = T.num_inputs ∧
    (∀ y, y ≠ re → (forUp n (extrinsicBody ra ri r re t) T).mem y = T.mem y) ∧
    (∀ t' x', ((forUp n (extrinsicBody ra ri r re t) T).mem re).val t' x' =
      if t' = t ∧ x' < n then extrinsicValue T ra ri r t x' else (T.mem re).val t' x') := by
  induction n with
  | zero => exact ⟨rfl, fun _ _ => rfl, fun t' x' => by simp [forUp]⟩
  | succ n ih =>
    obtain ⟨h1, h2, h3⟩ := ih
    rw [forUp_succ]
    refine ⟨by rw [extrinsicBody_num_inputs, h1], ?_, ?_⟩
    · intro y hy
      rw [extrinsicBody_mem_other _ _ _ _ _ _ _ _ hy, h2 y hy]
    · intro t' x'
      rw [extrinsicBody_mem_re]
      have hv : extrinsicValue (forUp n (extrinsicBody ra ri r re t) T) ra ri r t n
          = extrinsicValue T ra ri r t n := by
        unfold extrinsicValue
        rw [h2 ri (Ne.symm hri), h2 r (Ne.symm hr)]
        by_cases hra : ra = re
        · subst hra
          have e : ((forUp n (extrinsicBody ra ri r ra t) T).mem ra).val t n
              = (T.mem ra).val t n := by
            rw [h3 t n]; exact if_neg (fun h => Nat.lt_irrefl _ h.2)
          rw [e]
        · rw [h2 ra hra]
      rw [hv, h3]
      by_cases hc : t' = t ∧ x' = n
      · obtain ⟨rfl, rfl⟩ := hc
        simp
      · rw [if_neg hc]
        by_cases hc2 : t' = t ∧ x' < n
        · rw [if_pos hc2, if_pos ⟨hc2.1, by omega⟩]
        · rw [if_neg hc2, if_neg]
          intro h
          rcases h with ⟨h4, h5⟩
          have : x' ≠ n := fun h6 => hc ⟨h4, h6⟩
          exact hc2 ⟨h4, by omega⟩

/-- The outer loop of `work_extrinsic`, after `n` iterations. -/
theorem extrinsic_outer (ra ri r re : MRef) (hri : re ≠ ri) (hr : re ≠ r) (T : Turbo)
    (n : Nat) :
    (forUp n (fun t T => forUp T.num_inputs (extrinsicBody ra ri r re t) T) T).num_inputs
      = T.num_inputs ∧
    (∀ y, y ≠ re →
      (forUp n (fun t T => forUp T.num_inputs (extrinsicBody ra ri r re t) T) T).mem y
        = T.mem y) ∧
    (∀ t' x',
      ((forUp n (fun t T => forUp T.num_inputs (extrinsicBody ra ri r re t) T) T).mem re).val
          t' x' =
        if t' < n ∧ x' < T.num_inputs then extrinsicValue T ra ri r t' x'
        else (T.mem re).val t' x') := by
  induction n with
  | zero => exact ⟨rfl, fun _ _ => rfl, fun t' x' => by simp [forUp]⟩
  | succ n ih =>
    obtain ⟨h1, h2, h3⟩ := ih
    rw [forUp_succ]
    obtain ⟨k1, k2, k3⟩ := extrinsic_inner ra ri r re hri hr n
      (forUp n (fun t T => forUp T.num_inputs (extrinsicBody ra ri r re t) T) T)
      (forUp n (fun t T => forUp T.num_inputs (extrinsicBody ra ri r re t) T) T).num_inputs
    refine ⟨by rw [k1, h1], ?_, ?_⟩
    · intro y hy
      rw [k2 y hy, h2 y hy]
    · intro t' x'
      rw [k3, h1, h3]
      by_cases hc : t' = n ∧ x' < T.num_inputs
      · rw [if_pos hc, if_pos ⟨by omega, hc.2⟩]
        obtain ⟨rfl, hx⟩ := hc
        unfold extrinsicValue
        rw [h2 ri (Ne.symm hri), h2 r (Ne.symm hr)]
        by_cases hra : ra = re
        · subst hra
          have e := h3 t' x'
          rw [if_neg (fun h => Nat.lt_irrefl _ h.1)] at e
          rw [e]
        · rw [h2 ra hra]
      · rw [if_neg hc]
        by_cases hc2 : t' < n ∧ x' < T.num_inputs
        · rw [if_pos hc2, if_pos ⟨by omega, hc2.2⟩]
        · rw [if_neg hc2, if_neg]
          intro h
          rcases h with ⟨h4, h5⟩
          have : t' ≠ n := fun h6 => hc ⟨h6, h5⟩
          exact hc2 ⟨by omega, h5⟩

theorem work_extrinsic_eq (T : Turbo) (ra ri r re : MRef) :
    T.work_extrinsic ra ri r re =
      forUp T.tau (fun t T => forUp T.num_inputs (extrinsicBody ra ri r re t) T) T := rfl

/-- C5: `turbo::work_extrinsic` leaves in `re(t, x)`, for every `t < tau` and every input `x`,
the quotient `ri(t,x) / (ra(t,x) * r(t,x))` if `ri(t,x) > 0` and `0` otherwise, the operands
being the contents before the call. The quotient is taken with a divisor that is not zero
(with a zero divisor the `double` code stores an infinity, which the rationals do not
have), so that the stored value times the divisor gives back `ri(t,x)`. The output `re` may
be the same object as the input `ra` (as in `bcjr_wrap`): the result is then the one
obtained with a separate input `ra2` of the same contents. -/
theorem work_extrinsic_spec (T : Turbo) (ra ri r re : MRef) (hri : re ≠ ri) (hr : re ≠ r)
    (t x : Nat) (ht : t < T.tau) (hx : x < T.num_inputs)
    (hdiv : (T.mem ri).val t x > 0 → (T.mem ra).val t x * (T.mem r).val t x ≠ 0) :
    ((T.work_extrinsic ra ri r re).mem re).val t x =
      (if (T.mem ri).val t x > 0 then
        (T.mem ri).val t x / ((T.mem ra).val t x * (T.mem r).val t x)
      else 0) ∧
    ((T.mem ri).val t x > 0 →
      ((T.work_extrinsic ra ri r re).mem re).val t x *
        ((T.mem ra).val t x * (T.mem r).val t x) = (T.mem ri).val t x) ∧
    ∀ ra2, (T.mem ra2).val t x = (T.mem re).val t x →
      ((T.work_extrinsic re ri r re).mem re).val t x =
        ((T.work_extrinsic ra2 ri r re).mem re).val t x := by
  have key : ∀ ra, ((T.work_extrinsic ra ri r re).mem re).val t x =
      extrinsicValue T ra ri r t x := by
    intro ra
    rw [work_extrinsic_eq, (extrinsic_outer ra ri r re hri hr T T.tau).2.2, if_pos ⟨ht, hx⟩]
  refine ⟨key ra, fun hpos => ?_, ?_⟩
  · rw [key ra]
    unfold extrinsicValue
    rw [if_pos hpos]
    exact div_mul_cancel₀ _ (hdiv hpos)
  · intro ra2 h
    rw [key, key]
    unfold extrinsicValue
    rw [h]

/-! ## `bcjr::normalize` -/

/-- The loop `for (i = 0; i < n; i++) r(t, i) *= c`. -/
theorem scaleLoop_spec (t : Nat) (c : ℚ) (r : Matrix) (n : Nat) :
    (forUp n (fun i r => r.set t i (r.val t i * c)) r).xsize = r.xsize ∧
    (forUp n (fun i r => r.set t i (r.val t i * c)) r).ysize = r.ysize ∧
    ∀ t' i', (forUp n (fun i r => r.set t i (r.val t i * c)) r).val t' i' =
      if t' = t ∧ i' < n then r.val t i' * c else r.val t' i' := by
  induction n with
  | zero => exact ⟨rfl, rfl, fun t' i' => by simp [forUp]⟩
  | succ n ih =>
    obtain ⟨h1, h2, h3⟩ := ih
    rw [forUp_succ]
    refine ⟨by rw [Matrix.set_xsize, h1], by rw [Matrix.set_ysize, h2], ?_⟩
    intro t' i'
    rw [Matrix.set_val, h3, h3]
    by_cases hc : t' = t ∧ i' = n
    · obtain ⟨rfl, rfl⟩ := hc
      simp
    · rw [if_neg hc]
      by_cases hc2 : t' = t ∧ i' < n
      · rw [if_pos hc2, if_pos ⟨hc2.1, by omega⟩]
      · rw [if_neg hc2, if_neg]
        intro h
        rcases h with ⟨h4, h5⟩
        have : i' ≠ n := fun h6 => hc ⟨h4, h6⟩
        exact hc2 ⟨h4, by omega⟩

theorem normalizeBody_spec (t : Nat) (r : Matrix) :
    (normalizeBody t r).xsize = r.xsize ∧ (normalizeBody t r).ysize = r.ysize ∧
    ∀ t' i', (normalizeBody t r).val t' i' =
      if t' = t ∧ i' < r.ysize ∧ 0 < r.rowMax t then r.val t i' * (1 / r.rowMax t)
      else r.val t' i' := by
  have hdef : normalizeBody t r =
      if r.rowMax t > 0 then
        forUp r.ysize (fun i r' => r'.set t i (r'.val t i * (1 / r.rowMax t))) r
      else r := rfl
  rw [hdef]
  by_cases hpos : r.rowMax t > 0
  · rw [if_pos hpos]
    obtain ⟨h1, h2, h3⟩ := scaleLoop_spec t (1 / r.rowMax t) r r.ysize
    refine ⟨h1, h2, ?_⟩
    intro t' i'
    rw [h3]
    by_cases hc : t' = t ∧ i' < r.ysize
    · rw [if_pos hc, if_pos ⟨hc.1, hc.2, hpos⟩]
    · rw [if_neg hc, if_neg (fun h => hc ⟨h.1, h.2.1⟩)]
  · rw [if_neg hpos]
    refine ⟨rfl, rfl, ?_⟩
    intro t' i'
    rw [if_neg (fun h => hpos h.2.2)]

theorem normalize_eq (r : Matrix) : Bcjr.normalize r = forUp r.xsize normalizeBody r := rfl

theorem normalize_loop (r : Matrix) (n : Nat) :
    (forUp n normalizeBody r).xsize = r.xsize ∧ (forUp n normalizeBody r).ysize = r.ysize ∧
    ∀ t' i', (forUp n normalizeBody r).val t' i' =
      if t' < n ∧ i' < r.ysize ∧ 0 < r.rowMax t' then r.val t' i' * (1 / r.rowMax t')
      else r.val t' i' := by
  induction n with
  | zero => exact ⟨rfl, rfl, fun t' i' => by simp [forUp]⟩
  | succ n ih =>
    obtain ⟨h1, h2, h3⟩ := ih
    rw [forUp_succ]
    obtain ⟨k1, k2, k3⟩ := normalizeBody_spec n (forUp n normalizeBody r)
    have hrow : (forUp n normalizeBody r).val n = r.val n := by
      funext i
      rw [h3, if_neg (fun h => Nat.lt_irrefl _ h.1)]
    have hmax : (forUp n normalizeBody r).rowMax n = r.rowMax n := by
      unfold Matrix.rowMax
      rw [hrow, h2]
    refine ⟨by rw [k1, h1], by rw [k2, h2], ?_⟩
    intro t' i'
    rw [k3, h2, hmax, hrow]
    by_cases hc : t' = n
    · subst hc
      by_cases hc2 : i' < r.ysize ∧ 0 < r.rowMax t'
      · rw [if_pos ⟨rfl, hc2⟩, if_pos ⟨Nat.lt_succ_self _, hc2⟩]
      · rw [if_neg (fun h => hc2 h.2), if_neg (fun h => hc2 h.2), h3]
        exact if_neg (fun h => Nat.lt_irrefl _ h.1)
    · rw [if_neg (fun h => hc h.1), h3]
      by_cases hc2 : t' < n ∧ i' < r.ysize ∧ 0 < r.rowMax t'
      · rw [if_pos hc2, if_pos ⟨by omega, hc2.2⟩]
      · rw [if_neg hc2, if_neg]
        intro h
        exact hc2 ⟨by omega, h.2⟩

theorem normalize_xsize (r : Matrix) : (Bcjr.normalize r).xsize = r.xsize :=
  (normalize_loop r r.xsize).1

theorem normalize_ysize (r : Matrix) : (Bcjr.normalize r).ysize = r.ysize :=
  (normalize_loop r r.xsize).2.1

theorem normalize_val (r : Matrix) (t i : Nat) :
    (Bcjr.normalize r).val t i =
      if t < r.xsize ∧ i < r.ysize ∧ 0 < r.rowMax t then r.val t i * (1 / r.rowMax t)
      else r.val t i :=
  (normalize_loop r r.xsize).2.2 t i

/-- A row of positive maximum has maximum 1 after normalisation. -/
theorem normalize_rowMax_pos (r : Matrix) (t : Nat) (ht : t < r.xsize) (hy : 0 < r.ysize)
    (hpos : 0 < r.rowMax t) : (Bcjr.normalize r).rowMax t = 1 := by
  have h : (Bcjr.normalize r).rowMax t
      = maxLoop (fun i => r.val t i * (1 / r.rowMax t)) (r.ysize - 1) := by
    unfold Matrix.rowMax
    rw [normalize_ysize]
    apply maxLoop_congr
    intro m hm
    rw [normalize_val, if_pos ⟨ht, by omega, hpos⟩]
    rfl
  rw [h, maxLoop_mul _ _ _ (le_of_lt (one_div_pos.mpr hpos))]
  exact mul_one_div_cancel (ne_of_gt hpos)

/-- A row whose maximum is not positive is left as it is. -/
theorem normalize_row_nonpos (r : Matrix) (t : Nat) (hpos : ¬ 0 < r.rowMax t) (i : Nat) :
    (Bcjr.normalize r).val t i = r.val t i := by
  rw [normalize_val, if_neg (fun h => hpos h.2.2)]

/-- C8 (counterexample): over the `double` backend `bcjr::normalize` is not idempotent. The
row `(49, 7)` has the positive maximum 49; one pass multiplies by the rounded reciprocal of 49
and leaves `(1 - 2 ^ (-53), 2573485501354569 / 2 ^ 54)`, whose maximum is not 1, and a second
pass changes the row to `(1, 5146971002709139 / 2 ^ 55)`. -/
theorem normalize_idempotent_counterexample :
    0 < exampleSevens.rowMax 0 ∧
    (Bcjr.normalize_fl roundDouble exampleSevens).rowMax 0 = 1 - 1 / 2 ^ 53 ∧
    (Bcjr.normalize_fl roundDouble exampleSevens).val 0 0 = 1 - 1 / 2 ^ 53 ∧
    (Bcjr.normalize_fl roundDouble exampleSevens).val 0 1 = 2573485501354569 / 2 ^ 54 ∧
    (Bcjr.normalize_fl roundDouble (Bcjr.normalize_fl roundDouble exampleSevens)).val 0 0 = 1 ∧
    (Bcjr.normalize_fl roundDouble (Bcjr.normalize_fl roundDouble exampleSevens)).val 0 1 =
      5146971002709139 / 2 ^ 55 ∧
    Bcjr.normalize_fl roundDouble (Bcjr.normalize_fl roundDouble exampleSevens) ≠
      Bcjr.normalize_fl roundDouble exampleSevens := by
  have h1 : (Bcjr.normalize_fl roundDouble
      (Bcjr.normalize_fl roundDouble exampleSevens)).val 0 0 = 1 := by decide!
  have h2 : (Bcjr.normalize_fl roundDouble exampleSevens).val 0 0 = 1 - 1 / 2 ^ 53 := by decide!
  refine ⟨by decide!, by decide!, h2, by decide!, h1, by decide!, fun e => ?_⟩
  rw [e, h2] at h1
  norm_num at h1

/-- C8 (amended): in exact arithmetic the row-max normaliser `bcjr::normalize` is idempotent:
applying it twice gives the same matrix as applying it once. Every row (of a matrix with at
least one column) whose maximum is positive ends with maximum exactly 1, and every row whose
maximum is not positive is left unchanged. -/
theorem normalize_idempotent (r : Matrix) :
    Bcjr.normalize (Bcjr.normalize r) = Bcjr.normalize r ∧
    ∀ t, t < r.xsize → 0 < r.ysize →
      (0 < r.rowMax t → (Bcjr.normalize r).rowMax t = 1) ∧
      (¬ 0 < r.rowMax t → ∀ i, (Bcjr.normalize r).val t i = r.val t i) := by
  refine ⟨?_, fun t ht hy => ⟨normalize_rowMax_pos r t ht hy, normalize_row_nonpos r t⟩⟩
  have hval : (Bcjr.normalize (Bcjr.normalize r)).val = (Bcjr.normalize r).val := by
    funext t i
    rw [normalize_val (Bcjr.normalize r), normalize_xsize, normalize_ysize]
    by_cases hc : t < r.xsize ∧ i < r.ysize ∧ 0 < (Bcjr.normalize r).rowMax t
    · rw [if_pos hc]
      obtain ⟨ht, hi, hm⟩ := hc
      by_cases hpos : 0 < r.rowMax t
      · rw [normalize_rowMax_pos r t ht (by omega) hpos]
        simp
      · exfalso
        apply hpos
        have : (Bcjr.normalize r).rowMax t = r.rowMax t := by
          unfold Matrix.rowMax
          rw [normalize_ysize]
          apply maxLoop_congr
          intro m _
          exact normalize_row_nonpos r t hpos m
        rw [this] at hm
        exact hm
    · rw [if_neg hc]
  have hx := normalize_xsize (Bcjr.normalize r)
  have hy := normalize_ysize (Bcjr.normalize r)
  revert hval hx hy
  generalize Bcjr.normalize (Bcjr.normalize r) = a
  generalize Bcjr.normalize r = b
  intro hval hx hy
  cases a; cases b
  simp only at hval hx hy
  subst hval hx hy
  rfl

theorem exampleMatrix_rowMax_zero : exampleMatrix.rowMax 0 = 1 / 2 := by
  norm_num [Matrix.rowMax, maxLoop, exampleMatrix, forUp]

theorem exampleMatrix_rowMax_one : exampleMatrix.rowMax 1 = 0 := by
  norm_num [Matrix.rowMax, maxLoop, exampleMatrix, forUp]

/-- The statement of `normalize_idempotent` at `exampleMatrix`, row 0 (positive maximum) and
row 1 (maximum zero). -/
theorem normalize_idempotent_witness :
    (0 < exampleMatrix.rowMax 0 ∧ (Bcjr.normalize exampleMatrix).rowMax 0 = 1) ∧
    (¬ 0 < exampleMatrix.rowMax 1 ∧
      ∀ i, (Bcjr.normalize exampleMatrix).val 1 i = exampleMatrix.val 1 i) :=
  have h0 : 0 < exampleMatrix.rowMax 0 := by rw [exampleMatrix_rowMax_zero]; norm_num
  have h1 : ¬ 0 < exampleMatrix.rowMax 1 := by rw [exampleMatrix_rowMax_one]; norm_num
  ⟨⟨h0, ((normalize_idempotent exampleMatrix).2 0 (by decide) (by decide)).1 h0⟩,
   ⟨h1, ((normalize_idempotent exampleMatrix).2 1 (by decide) (by decide)).2 h1⟩⟩

/-! ## `bcjr::work_gamma` -/

theorem matrix3_set_val (g : Matrix3) (t m i : Nat) (v : ℚ) (t' m' i' : Nat) :
    (g.set t m i v).val t' m' i' = if t' = t ∧ m' = m ∧ i' = i then v else g.val t' m' i' := by
  unfold Matrix3.set
  by_cases ht : t' = t
  · subst ht
    by_cases hm : m' = m
    · subst hm
      by_cases hi : i' = i
      · subst hi; simp
      · simp [Function.update_apply, hi]
    · simp [Function.update_apply, hm]
  · simp [Function.update_apply, ht]

/-- A loop that assigns `v i` to the elements `(t, m, i)`, `i < n`, of a three-dimensional
matrix. -/
theorem gammaLoop_inner (t m : Nat) (v : Nat → ℚ) (g : Matrix3) (n : Nat) (t' m' i' : Nat) :
    (forUp n (fun i g => g.set t m i (v i)) g).val t' m' i' =
      if t' = t ∧ m' = m ∧ i' < n then v i' else g.val t' m' i' := by
  induction n with
  | zero => simp [forUp]
  | succ n ih =>
    rw [forUp_succ, matrix3_set_val, ih]
    by_cases hc : t' = t ∧ m' = m ∧ i' = n
    · obtain ⟨rfl, rfl, rfl⟩ := hc
      simp
    · rw [if_neg hc]
      by_cases hc2 : t' = t ∧ m' = m ∧ i' < n
      · rw [if_pos hc2, if_pos ⟨hc2.1, hc2.2.1, by omega⟩]
      · rw [if_neg hc2, if_neg]
        intro h
        have : i' ≠ n := fun h6 => hc ⟨h.1, h.2.1, h6⟩
        exact hc2 ⟨h.1, h.2.1, by omega⟩

theorem gammaLoop_middle (t K : Nat) (v : Nat → Nat → ℚ) (g : Matrix3) (n : Nat)
    (t' m' i' : Nat) :
    (forUp n (fun m g => forUp K (fun i g => g.set t m i (v m i)) g) g).val t' m' i' =
      if t' = t ∧ m' < n ∧ i' < K then v m' i' else g.val t' m' i' := by
  induction n with
  | zero => simp [forUp]
  | succ n ih =>
    rw [forUp_succ, gammaLoop_inner, ih]
    by_cases hc : t' = t ∧ m' = n ∧ i' < K
    · rw [if_pos hc, if_pos ⟨hc.1, by omega, hc.2.2⟩, hc.2.1]
    · rw [if_neg hc]
      by_cases hc2 : t' = t ∧ m' < n ∧ i' < K
      · rw [if_pos hc2, if_pos ⟨hc2.1, by omega, hc2.2.2⟩]
      · rw [if_neg hc2, if_neg]
        intro h
        have : m' ≠ n := fun h6 => hc ⟨h.1, h6, h.2.2⟩
        exact hc2 ⟨h.1, by omega, h.2.2⟩

theorem gammaLoop_outer (M K : Nat) (v : Nat → Nat → Nat → ℚ) (g : Matrix3) (n : Nat)
    (t' m' i' : Nat) :
    (forUp n (fun k g => forUp M (fun m g => forUp K (fun i g => g.set k m i (v k m i)) g) g)
      g).val t' m' i' =
      if t' < n ∧ m' < M ∧ i' < K then v t' m' i' else g.val t' m' i' := by
  induction n with
  | zero => simp [forUp]
  | succ n ih =>
    rw [forUp_succ, gammaLoop_middle, ih]
    by_cases hc : t' = n ∧ m' < M ∧ i' < K
    · rw [if_pos hc, if_pos ⟨by omega, hc.2⟩, hc.1]
    · rw [if_neg hc]
      by_cases hc2 : t' < n ∧ m' < M ∧ i' < K
      · rw [if_pos hc2, if_pos ⟨by omega, hc2.2⟩]
      · rw [if_neg hc2, if_neg]
        intro h
        have : t' ≠ n := fun h6 => hc ⟨h6, h.2⟩
        exact hc2 ⟨by omega, h.2⟩

theorem work_gamma_val (b : Bcjr) (R : Matrix) (t m i : Nat) :
    (b.work_gamma R).gamma.val t m i =
      if t < b.tau ∧ m < b.M ∧ i < b.K then R.val t (b.lut_X m i) else b.gamma.val t m i :=
  gammaLoop_outer b.M b.K (fun t m i => R.val t (b.lut_X m i)) b.gamma b.tau t m i

theorem work_gamma_app_val (b : Bcjr) (R app : Matrix) (t m i : Nat) :
    (b.work_gamma_app R app).gamma.val t m i =
      if t < b.tau ∧ m < b.M ∧ i < b.K then R.val t (b.lut_X m i) * app.val t i
      else b.gamma.val t m i :=
  gammaLoop_outer b.M b.K (fun t m i => R.val t (b.lut_X m i) * app.val t i) b.gamma b.tau t m i

/-- With an a-priori table that is 1 on `[0,tau) x [0,K)`, both overloads of `work_gamma` leave
the decoder in the same state. -/
theorem work_gamma_app_one (b : Bcjr) (R app : Matrix)
    (happ : ∀ t i, t < b.tau → i < b.K → app.val t i = 1) :
    b.work_gamma_app R app = b.work_gamma R := by
  unfold Bcjr.work_gamma_app Bcjr.work_gamma
  congr 1
  apply forUp_congr
  intro k g hk
  apply forUp_congr
  intro m g _
  apply forUp_congr
  intro i g hi
  dsimp only
  rw [Nat.add_sub_cancel, happ k i hk hi, mul_one]

/-- C7: the a-priori table defaults to one. With `app(t,i) = 1` on `[0,tau) x [0,K)`,
`decode(R, ri, ro)` and `decode(R, app, ri, ro)` give the same result (decoder state, hence
gamma, alpha and beta, and the matrices `ri` and `ro`); and an allocated decoder returns from
`decode(R, app, ri, ro)`, for any `app`, with `gamma(t,m,i) = R(t, lut_X(m,i)) * app(t,i)`. -/
theorem decode_app_default (b : Bcjr) (R app ri ro : Matrix) :
    ((∀ t i, t < b.tau → i < b.K → app.val t i = 1) →
      b.decode R ri ro = b.decode_app R app ri ro) ∧
    (b.initialised = true →
      ∃ r, b.decode_app R app ri ro = some r ∧
        ∀ t m i, t < b.tau → m < b.M → i < b.K →
          r.1.gamma.val t m i = R.val t (b.lut_X m i) * app.val t i) := by
  constructor
  · intro happ
    unfold Bcjr.decode Bcjr.decode_app
    rw [work_gamma_app_one b R app happ]
  · intro hinit
    unfold Bcjr.decode_app
    rw [if_pos hinit]
    refine ⟨_, rfl, ?_⟩
    intro t m i ht hm hi
    show (b.work_gamma_app R app).gamma.val t m i = _
    rw [work_gamma_app_val, if_pos ⟨ht, hm, hi⟩]

/-! ## `bcjr::work_results` -/

theorem forUp_fst {α β : Type} (f : Nat → α × β → α × β) (g : Nat → α → α)
    (h : ∀ k s, (f k s).1 = g k s.1) (n : Nat) (s : α × β) :
    (forUp n f s).1 = forUp n g s.1 := by
  induction n with
  | zero => rfl
  | succ n ih => rw [forUp_succ, forUp_succ, h, ih]

/-- The summation loop `d = d0; for (m = 0; m < n; m++) d += f(m)`. -/
theorem sumLoop_eq (f : Nat → ℚ) (d0 : ℚ) (n : Nat) :
    forUp n (fun m d => d + f m) d0 = d0 + ∑ m in Finset.range n, f m := by
  induction n with
  | zero => simp [forUp]
  | succ n ih => rw [forUp_succ, ih, Finset.sum_range_succ, add_assoc]

/-- A loop `for (i = 0; i < n; i++) a(t, i) = v(i)`. -/
theorem assignLoop_inner (t : Nat) (v : Nat → ℚ) (a : Matrix) (n : Nat) :
    (forUp n (fun i a => a.set t i (v i)) a).xsize = a.xsize ∧
    (forUp n (fun i a => a.set t i (v i)) a).ysize = a.ysize ∧
    ∀ t' i', (forUp n (fun i a => a.set t i (v i)) a).val t' i' =
      if t' = t ∧ i' < n then v i' else a.val t' i' := by
  induction n with
  | zero => exact ⟨rfl, rfl, fun t' i' => by simp [forUp]⟩
  | succ n ih =>
    obtain ⟨h1, h2, h3⟩ := ih
    rw [forUp_succ]
    refine ⟨by rw [Matrix.set_xsize, h1], by rw [Matrix.set_ysize, h2], ?_⟩
    intro t' i'
    rw [Matrix.set_val, h3]
    by_cases hc : t' = t ∧ i' = n
    · obtain ⟨rfl, rfl⟩ := hc
      simp
    · rw [if_neg hc]
      by_cases hc2 : t' = t ∧ i' < n
      · rw [if_pos hc2, if_pos ⟨hc2.1, by omega⟩]
      · rw [if_neg hc2, if_neg]
        intro h
        have : i' ≠ n := fun h6 => hc ⟨h.1, h6⟩
        exact hc2 ⟨h.1, by omega⟩

/-- A loop `for (t = 0; t < n; t++) for (i = 0; i < K; i++) a(t, i) = v(t, i)`. -/
theorem assignLoop_outer (K : Nat) (v : Nat → Nat → ℚ) (a : Matrix) (n : Nat) :
    (forUp n (fun t a => forUp K (fun i a => a.set t i (v t i)) a) a).xsize = a.xsize ∧
    (forUp n (fun t a => forUp K (fun i a => a.set t i (v t i)) a) a).ysize = a.ysize ∧
    ∀ t' i', (forUp n (fun t a => forUp K (fun i a => a.set t i (v t i)) a) a).val t' i' =
      if t' < n ∧ i' < K then v t' i' else a.val t' i' := by
  induction n with
  | zero => exact ⟨rfl, rfl, fun t' i' => by simp [forUp]⟩
  | succ n ih =>
    obtain ⟨h1, h2, h3⟩ := ih
    rw [forUp_succ]
    obtain ⟨k1, k2, k3⟩ := assignLoop_inner n (v n) _ K
    refine ⟨by rw [k1, h1], by rw [k2, h2], ?_⟩
    intro t' i'
    rw [k3, h3]
    by_cases hc : t' = n ∧ i' < K
    · rw [if_pos hc, if_pos ⟨by omega, hc.2⟩, hc.1]
    · rw [if_neg hc]
      by_cases hc2 : t' < n ∧ i' < K
      · rw [if_pos hc2, if_pos ⟨by omega, hc2.2⟩]
      · rw [if_neg hc2, if_neg]
        intro h
        have : t' ≠ n := fun h6 => hc ⟨h6, h.2⟩
        exact hc2 ⟨by omega, h.2⟩

/-- A loop `for (i = 0; i < n; i++) a(t, i) += d(i)`. -/
theorem addLoop_inner (t : Nat) (d : Nat → ℚ) (a : Matrix) (n : Nat) :
    (forUp n (fun i a => a.set t i (a.val t i + d i)) a).xsize = a.xsize ∧
    (forUp n (fun i a => a.set t i (a.val t i + d i)) a).ysize = a.ysize ∧
    ∀ t' i', (forUp n (fun i a => a.set t i (a.val t i + d i)) a).val t' i' =
      if t' = t ∧ i' < n then a.val t i' + d i' else a.val t' i' := by
  induction n with
  | zero => exact ⟨rfl, rfl, fun t' i' => by simp [forUp]⟩
  | succ n ih =>
    obtain ⟨h1, h2, h3⟩ := ih
    rw [forUp_succ]
    refine ⟨by rw [Matrix.set_xsize, h1], by rw [Matrix.set_ysize, h2], ?_⟩
    intro t' i'
    rw [Matrix.set_val, h3, h3]
    by_cases hc : t' = t ∧ i' = n
    · obtain ⟨rfl, rfl⟩ := hc
      simp
    · rw [if_neg hc]
      by_cases hc2 : t' = t ∧ i' < n
      · rw [if_pos hc2, if_pos ⟨hc2.1, by omega⟩]
      · rw [if_neg hc2, if_neg]
        intro h
        have : i' ≠ n := fun h6 => hc ⟨h.1, h6⟩
        exact hc2 ⟨h.1, by omega⟩

/-- A loop `for (m = 0; m < n; m++) for (i = 0; i < K; i++) a(t, i) += d(m, i)`. -/
theorem addLoop_middle (t K : Nat) (d : Nat → Nat → ℚ) (a : Matrix) (n : Nat) :
    (forUp n (fun m a => forUp K (fun i a => a.set t i (a.val t i + d m i)) a) a).xsize
      = a.xsize ∧
    (forUp n (fun m a => forUp K (fun i a => a.set t i (a.val t i + d m i)) a) a).ysize
      = a.ysize ∧
    ∀ t' i',
      (forUp n (fun m a => forUp K (fun i a => a.set t i (a.val t i + d m i)) a) a).val t' i' =
        if t' = t ∧ i' < K then a.val t i' + ∑ m in Finset.range n, d m i' else a.val t' i' := by
  induction n with
  | zero =>
    refine ⟨rfl, rfl, fun t' i' => ?_⟩
    by_cases hc : t' = t ∧ i' < K
    · rw [if_pos hc, hc.1]; simp [forUp]
    · rw [if_neg hc]; rfl
  | succ n ih =>
    obtain ⟨h1, h2, h3⟩ := ih
    rw [forUp_succ]
    obtain ⟨k1, k2, k3⟩ := addLoop_inner t (d n) _ K
    refine ⟨by rw [k1, h1], by rw [k2, h2], ?_⟩
    intro t' i'
    rw [k3]
    by_cases hc : t' = t ∧ i' < K
    · rw [if_pos hc, if_pos hc, h3, if_pos ⟨rfl, hc.2⟩, Finset.sum_range_succ, add_assoc]
    · rw [if_neg hc, if_neg hc, h3, if_neg hc]

/-- The three nested loops of `work_results`, for the input posteriors. -/
theorem addLoop_outer (M K : Nat) (d : Nat → Nat → Nat → ℚ) (a : Matrix) (n : Nat) :
    (forUp n (fun t a => forUp M (fun m a =>
      forUp K (fun i a => a.set t i (a.val t i + d t m i)) a) a) a).xsize = a.xsize ∧
    (forUp n (fun t a => forUp M (fun m a =>
      forUp K (fun i a => a.set t i (a.val t i + d t m i)) a) a) a).ysize = a.ysize ∧
    ∀ t' i', (forUp n (fun t a => forUp M (fun m a =>
      forUp K (fun i a => a.set t i (a.val t i + d t m i)) a) a) a).val t' i' =
        if t' < n ∧ i' < K then a.val t' i' + ∑ m in Finset.range M, d t' m i'
        else a.val t' i' := by
  induction n with
  | zero => exact ⟨rfl, rfl, fun t' i' => by simp [forUp]⟩
  | succ n ih =>
    obtain ⟨h1, h2, h3⟩ := ih
    rw [forUp_succ]
    obtain ⟨k1, k2, k3⟩ := addLoop_middle n K (d n) _ M
    refine ⟨by rw [k1, h1], by rw [k2, h2], ?_⟩
    intro t' i'
    rw [k3]
    by_cases hc : t' = n
    · subst hc
      by_cases hi : i' < K
      · rw [if_pos ⟨rfl, hi⟩, if_pos ⟨Nat.lt_succ_self _, hi⟩, h3]
        rw [if_neg (fun h => Nat.lt_irrefl _ h.1)]
      · rw [if_neg (fun h => hi h.2), if_neg (fun h => hi h.2), h3]
        rw [if_neg (fun h => hi h.2)]
    · rw [if_neg (fun h => hc h.1), h3]
      by_cases hc2 : t' < n ∧ i' < K
      · rw [if_pos hc2, if_pos ⟨by omega, hc2.2⟩]
      · rw [if_neg hc2, if_neg]
        intro h
        exact hc2 ⟨by omega, h.2⟩

/-- The input posteriors written by `work_results(ri, ro)`. -/
theorem work_results_fst (b : Bcjr) (ri ro : Matrix) :
    (b.work_results ri ro).1 =
      forUp b.tau (fun t a => forUp b.M (fun m a =>
        forUp b.K (fun i a =>
          a.set t i (a.val t i + b.sigma (t + 1) m i / b.work_results_Py)) a) a)
        (ri.fill 0) := by
  unfold Bcjr.work_results
  dsimp only
  rw [forUp_fst _ (fun t a => forUp b.M (fun m a =>
        forUp b.K (fun i a =>
          a.set t i (a.val t i + b.sigma (t + 1) m i / b.work_results_Py)) a) a)]
  intro k s
  rw [forUp_fst _ (fun m a =>
        forUp b.K (fun i a =>
          a.set k i (a.val k i + b.sigma (k + 1) m i / b.work_results_Py)) a)]
  intro m s
  rw [forUp_fst _ (fun i a =>
          a.set k i (a.val k i + b.sigma (k + 1) m i / b.work_results_Py))]
  intro i s
  rfl

theorem Matrix.ext_of (a c : Matrix) (hx : a.xsize = c.xsize) (hy : a.ysize = c.ysize)
    (hv : ∀ t i, a.val t i = c.val t i) : a = c := by
  obtain ⟨ax, ay, av⟩ := a
  obtain ⟨cx, cy, cv⟩ := c
  simp only at hx hy hv
  have h : av = cv := by
    funext t i; exact hv t i
  subst hx; subst hy; subst h
  rfl

theorem work_results_val (b : Bcjr) (ri ro : Matrix) (t i : Nat) :
    (b.work_results ri ro).1.val t i =
      if t < b.tau ∧ i < b.K then
        (ri.fill 0).val t i + ∑ m in Finset.range b.M, b.sigma (t + 1) m i / b.work_results_Py
      else (ri.fill 0).val t i := by
  rw [work_results_fst]
  exact (addLoop_outer b.M b.K (fun t m i => b.sigma (t + 1) m i / b.work_results_Py)
    (ri.fill 0) b.tau).2.2 t i

theorem work_results_ri_val (b : Bcjr) (ri : Matrix) (t i : Nat) :
    (b.work_results_ri ri).val t i =
      if t < b.tau ∧ i < b.K then
        ∑ m in Finset.range b.M, b.sigma (t + 1) m i / b.work_results_Py
      else ri.val t i := by
  have h : b.work_results_ri ri =
      forUp b.tau (fun t a => forUp b.K (fun i a => a.set t i
        (forUp b.M (fun m d => d + b.sigma (t + 1) m i / b.work_results_Py) 0)) a) ri := rfl
  rw [h, (assignLoop_outer b.K _ ri b.tau).2.2 t i, sumLoop_eq, zero_add]

/-- On a `tau x K` matrix, both overloads of `work_results` write the same input posteriors. -/
theorem work_results_agree (b : Bcjr) (ri ro : Matrix) (hx : ri.xsize = b.tau)
    (hy : ri.ysize = b.K) : b.work_results_ri ri = (b.work_results ri ro).1 := by
  apply Matrix.ext_of
  · have h : b.work_results_ri ri =
      forUp b.tau (fun t a => forUp b.K (fun i a => a.set t i
        (forUp b.M (fun m d => d + b.sigma (t + 1) m i / b.work_results_Py) 0)) a) ri := rfl
    rw [h, (assignLoop_outer b.K _ ri b.tau).1, work_results_fst, (addLoop_outer _ _ _ _ _).1]
    rfl
  · have h : b.work_results_ri ri =
      forUp b.tau (fun t a => forUp b.K (fun i a => a.set t i
        (forUp b.M (fun m d => d + b.sigma (t + 1) m i / b.work_results_Py) 0)) a) ri := rfl
    rw [h, (assignLoop_outer b.K _ ri b.tau).2.1, work_results_fst, (addLoop_outer _ _ _ _ _).2.1]
    rfl
  · intro t i
    rw [work_results_ri_val, work_results_val]
    have hfill : (ri.fill 0).val t i = if t < b.tau ∧ i < b.K then 0 else ri.val t i := by
      unfold Matrix.fill
      rw [hx, hy]
    rw [hfill]
    by_cases hc : t < b.tau ∧ i < b.K
    · rw [if_pos hc, if_pos hc, if_pos hc, zero_add]
    · rw [if_neg hc, if_neg hc, if_neg hc]

/-- C6: the fast path agrees with the full decode. On an allocated decoder and a `tau x K`
matrix `ri` of any contents, `fdecode(R, app, ri)` and `decode(R, app, ri, ro)` both return,
with the same decoder state and the same matrix `ri`; likewise for the overloads without
`app`. -/
theorem fdecode_agrees_with_decode (b : Bcjr) (R app ri ro : Matrix)
    (hinit : b.initialised = true) (hx : ri.xsize = b.tau) (hy : ri.ysize = b.K) :
    (∃ r, b.decode_app R app ri ro = some r ∧ b.fdecode_app R app ri = some (r.1, r.2.1)) ∧
    (∃ r, b.decode R ri ro = some r ∧ b.fdecode R ri = some (r.1, r.2.1)) := by
  constructor
  · unfold Bcjr.decode_app Bcjr.fdecode_app
    rw [if_pos hinit, if_pos hinit]
    refine ⟨_, rfl, ?_⟩
    dsimp only
    rw [work_results_agree ((b.work_gamma_app R app).work_alpha.work_beta) ri ro hx hy]
  · unfold Bcjr.decode Bcjr.fdecode
    rw [if_pos hinit, if_pos hinit]
    refine ⟨_, rfl, ?_⟩
    dsimp only
    rw [work_results_agree ((b.work_gamma R).work_alpha.work_beta) ri ro hx hy]

/-! ## `bcjr::work_alpha` -/

/-- The inner accumulation loop of `work_alpha`: the products of the entry `(p, mdash)` of
another row are added to the entries `key i` of row `t`. -/
theorem accLoop_inner (t p : Nat) (hp : p ≠ t) (mdash : Nat) (key : Nat → Nat) (w : Nat → ℚ)
    (a : Matrix) (n : Nat) (t' m' : Nat) :
    (forUp n (fun i a => a.set t (key i) (a.val t (key i) + a.val p mdash * w i)) a).val t' m' =
      if t' = t then
        a.val t m' + ∑ i in Finset.range n, (if key i = m' then a.val p mdash * w i else 0)
      else a.val t' m' := by
  induction n generalizing t' m' with
  | zero =>
    by_cases hc : t' = t
    · rw [if_pos hc, hc]; simp [forUp]
    · rw [if_neg hc]; rfl
  | succ n ih =>
    have e1 : (forUp n (fun i a =>
        a.set t (key i) (a.val t (key i) + a.val p mdash * w i)) a).val p mdash
        = a.val p mdash := by
      rw [ih]; exact if_neg hp
    have e2 : ∀ x, (forUp n (fun i a =>
        a.set t (key i) (a.val t (key i) + a.val p mdash * w i)) a).val t x
        = a.val t x + ∑ i in Finset.range n, (if key i = x then a.val p mdash * w i else 0) := by
      intro x
      rw [ih]; exact if_pos rfl
    rw [forUp_succ, Matrix.set_val, e1]
    by_cases hc : t' = t
    · rw [hc, if_pos rfl, Finset.sum_range_succ]
      by_cases hk : m' = key n
      · rw [hk, if_pos ⟨rfl, rfl⟩, e2, if_pos rfl]
        ring
      · rw [if_neg (fun h => hk h.2), e2, if_neg (fun h => hk h.symm), add_zero]
    · rw [if_neg (fun h => hc h.1), ih, if_neg hc, if_neg hc]

/-- The accumulation loops of `work_alpha` at row `t`, reading row `p`. -/
theorem accLoop_outer (t p : Nat) (hp : p ≠ t) (K : Nat) (lm : Nat → Nat → Nat)
    (g : Nat → Nat → ℚ) (a : Matrix) (n : Nat) (t' m' : Nat) :
    (forUp n (fun mdash a => forUp K (fun i a =>
      a.set t (lm mdash i) (a.val t (lm mdash i) + a.val p mdash * g mdash i)) a) a).val t' m' =
      if t' = t then
        a.val t m' + ∑ mdash in Finset.range n, ∑ i in Finset.range K,
          (if lm mdash i = m' then a.val p mdash * g mdash i else 0)
      else a.val t' m' := by
  induction n generalizing t' m' with
  | zero =>
    by_cases hc : t' = t
    · rw [if_pos hc, hc]; simp [forUp]
    · rw [if_neg hc]; rfl
  | succ n ih =>
    have e1 : (forUp n (fun mdash a => forUp K (fun i a =>
        a.set t (lm mdash i) (a.val t (lm mdash i) + a.val p mdash * g mdash i)) a) a).val p n
        = a.val p n := by
      rw [ih]; exact if_neg hp
    rw [forUp_succ, accLoop_inner t p hp n (lm n) (g n), e1]
    by_cases hc : t' = t
    · rw [hc, if_pos rfl, if_pos rfl, ih, if_pos rfl, Finset.sum_range_succ, add_assoc]
    · rw [if_neg hc, if_neg hc, ih, if_neg hc]

theorem work_alpha_sum_val (b : Bcjr) (k : Nat) (alpha : Matrix) (t' m' : Nat) :
    (b.work_alpha_sum (k + 1) alpha).val t' m' =
      if t' = k + 1 then
        (if m' < b.M then 0 else alpha.val (k + 1) m') +
          trStep b.M b.K b.lut_m (b.gamma.val k) (alpha.val k) m'
      else alpha.val t' m' := by
  have h := accLoop_outer (k + 1) k (Nat.ne_of_lt (Nat.lt_succ_self k)) b.K b.lut_m
    (b.gamma.val k) (forUp b.M (fun m alpha => alpha.set (k + 1) m 0) alpha) b.M t' m'
  have hz := assignLoop_inner (k + 1) (fun _ => (0 : ℚ)) alpha b.M
  rw [hz.2.2 (k + 1) m', hz.2.2 t' m'] at h
  have hrow : ∀ x, (forUp b.M (fun m alpha => alpha.set (k + 1) m 0) alpha).val k x
      = alpha.val k x := by
    intro x
    rw [hz.2.2 k x, if_neg (fun h => absurd h.1 (Nat.ne_of_lt (Nat.lt_succ_self k)))]
  have hdef : b.work_alpha_sum (k + 1) alpha =
      forUp b.M (fun mdash a => forUp b.K (fun i a =>
        a.set (k + 1) (b.lut_m mdash i)
          (a.val (k + 1) (b.lut_m mdash i) + a.val k mdash * b.gamma.val k mdash i)) a)
        (forUp b.M (fun m alpha => alpha.set (k + 1) m 0) alpha) := rfl
  rw [hdef, h]
  by_cases hc : t' = k + 1
  · rw [if_pos hc, if_pos hc]
    unfold trStep
    congr 1
    · by_cases hm : m' < b.M
      · rw [if_pos ⟨rfl, hm⟩, if_pos hm]
      · rw [if_neg (fun h => hm h.2), if_neg hm]
    · apply Finset.sum_congr rfl
      intro m _
      apply Finset.sum_congr rfl
      intro i _
      rw [hrow]
  · rw [if_neg hc, if_neg hc, if_neg (fun h => hc h.1)]

theorem work_alpha_scale_eq (b : Bcjr) (k : Nat) (alpha : Matrix) (hM : 0 < b.M) :
    b.work_alpha_scale (k + 1) alpha =
      maxLoop (trStep b.M b.K b.lut_m (b.gamma.val k) (alpha.val k)) (b.M - 1) := by
  have hdef : b.work_alpha_scale (k + 1) alpha =
      maxLoop ((b.work_alpha_sum (k + 1) alpha).val (k + 1)) (b.M - 1) := rfl
  rw [hdef]
  apply maxLoop_congr
  intro m hm
  rw [work_alpha_sum_val, if_pos rfl, if_pos (by omega), zero_add]

theorem work_alpha_step_val (b : Bcjr) (k : Nat) (alpha : Matrix) (t' m' : Nat) :
    (b.work_alpha_step (k + 1) alpha).val t' m' =
      if t' = k + 1 then
        (if m' < b.M then
          trStep b.M b.K b.lut_m (b.gamma.val k) (alpha.val k) m' *
            (1 / b.work_alpha_scale (k + 1) alpha)
        else alpha.val (k + 1) m' + trStep b.M b.K b.lut_m (b.gamma.val k) (alpha.val k) m')
      else alpha.val t' m' := by
  have hdef : b.work_alpha_step (k + 1) alpha =
      forUp b.M (fun m a => a.set (k + 1) m
        (a.val (k + 1) m * (1 / b.work_alpha_scale (k + 1) alpha)))
        (b.work_alpha_sum (k + 1) alpha) := rfl
  rw [hdef, (scaleLoop_spec (k + 1) _ _ b.M).2.2 t' m']
  by_cases hc : t' = k + 1
  · subst hc
    by_cases hm : m' < b.M
    · rw [if_pos ⟨rfl, hm⟩, if_pos rfl, if_pos hm, work_alpha_sum_val, if_pos rfl, if_pos hm,
        zero_add]
    · rw [if_neg (fun h => hm h.2), if_pos rfl, if_neg hm, work_alpha_sum_val, if_pos rfl,
        if_neg hm]
  · rw [if_neg (fun h => hc h.1), if_neg hc, work_alpha_sum_val, if_neg hc]

/-- Later iterations of `work_alpha` leave the rows already computed alone. -/
theorem work_alpha_stable (b : Bcjr) (a0 : Matrix) (j n : Nat) (hjn : j ≤ n) :
    (forUp n (fun k a => b.work_alpha_step (k + 1) a) a0).val j =
      (forUp j (fun k a => b.work_alpha_step (k + 1) a) a0).val j := by
  induction n with
  | zero =>
    have : j = 0 := by omega
    subst this; rfl
  | succ n ih =>
    by_cases hj : j = n + 1
    · subst hj; rfl
    · rw [forUp_succ, ← ih (by omega)]
      funext m
      rw [work_alpha_step_val b n _, if_neg hj]

/-- The rows of alpha after `work_alpha`: row 0 is the start vector, and row `k + 1` is one
forward step from row `k`, divided by `alpha_divisor k`. -/
theorem work_alpha_rows (b : Bcjr) (hM : 0 < b.M) :
    b.work_alpha.alpha.val 0 = b.alpha.val 0 ∧
    ∀ k, k < b.tau →
      b.alpha_divisor k =
        maxLoop (trStep b.M b.K b.lut_m (b.gamma.val k) (b.work_alpha.alpha.val k)) (b.M - 1) ∧
      ∀ m, m < b.M → b.work_alpha.alpha.val (k + 1) m =
        trStep b.M b.K b.lut_m (b.gamma.val k) (b.work_alpha.alpha.val k) m *
          (1 / b.alpha_divisor k) := by
  have hfin : b.work_alpha.alpha = forUp b.tau (fun k a => b.work_alpha_step (k + 1) a) b.alpha :=
    rfl
  constructor
  · rw [hfin, work_alpha_stable b b.alpha 0 b.tau (Nat.zero_le _)]
    rfl
  · intro k hk
    have hrow : b.work_alpha.alpha.val k
        = (forUp k (fun j a => b.work_alpha_step (j + 1) a) b.alpha).val k := by
      rw [hfin, work_alpha_stable b b.alpha k b.tau (by omega)]
    constructor
    · unfold Bcjr.alpha_divisor
      rw [work_alpha_scale_eq b k _ hM, hrow]
    · intro m hm
      rw [hrow, hfin, work_alpha_stable b b.alpha (k + 1) b.tau (by omega), forUp_succ,
        work_alpha_step_val b k _, if_pos rfl, if_pos hm]
      rfl

/-! ## `bcjr::work_beta` -/

theorem forDown_succ {σ : Type} (n : Nat) (f : Nat → σ → σ) (s : σ) :
    forDown (n + 1) f s = forDown n f (f n s) := rfl

/-- The inner accumulation loop of `work_beta`: products read from row `t + 1` are added to
the entry `(t, m)`. -/
theorem bAcc_inner (t m : Nat) (key : Nat → Nat) (w : Nat → ℚ) (a : Matrix) (n : Nat)
    (t' m' : Nat) :
    (forUp n (fun i a => a.set t m (a.val t m + a.val (t + 1) (key i) * w i)) a).val t' m' =
      if t' = t ∧ m' = m then
        a.val t m + ∑ i in Finset.range n, a.val (t + 1) (key i) * w i
      else a.val t' m' := by
  induction n generalizing t' m' with
  | zero =>
    by_cases hc : t' = t ∧ m' = m
    · rw [if_pos hc, hc.1, hc.2]; simp [forUp]
    · rw [if_neg hc]; rfl
  | succ n ih =>
    have e1 : (forUp n (fun i a =>
        a.set t m (a.val t m + a.val (t + 1) (key i) * w i)) a).val (t + 1) (key n)
        = a.val (t + 1) (key n) := by
      rw [ih]; exact if_neg (fun h => absurd h.1 (Nat.succ_ne_self t))
    have e2 : (forUp n (fun i a =>
        a.set t m (a.val t m + a.val (t + 1) (key i) * w i)) a).val t m
        = a.val t m + ∑ i in Finset.range n, a.val (t + 1) (key i) * w i := by
      rw [ih]; exact if_pos ⟨rfl, rfl⟩
    rw [forUp_succ, Matrix.set_val, e1, e2]
    by_cases hc : t' = t ∧ m' = m
    · rw [if_pos hc, if_pos hc, Finset.sum_range_succ, add_assoc]
    · rw [if_neg hc, if_neg hc, ih, if_neg hc]

/-- The accumulation loops of `work_beta` at row `t`. -/
theorem bAcc_outer (t K : Nat) (lm : Nat → Nat → Nat) (g : Nat → Nat → ℚ) (a : Matrix)
    (n : Nat) (t' m' : Nat) :
    (forUp n (fun m a => forUp K (fun i a =>
      a.set t m (a.val t m + a.val (t + 1) (lm m i) * g m i)) (a.set t m 0)) a).val t' m' =
      if t' = t ∧ m' < n then bkStep K lm g (a.val (t + 1)) m' else a.val t' m' := by
  induction n generalizing t' m' with
  | zero =>
    rw [if_neg (fun h => Nat.not_lt_zero _ h.2)]; rfl
  | succ n ih =>
    have e1 : ∀ x, (forUp n (fun m a => forUp K (fun i a =>
        a.set t m (a.val t m + a.val (t + 1) (lm m i) * g m i)) (a.set t m 0)) a).val (t + 1) x
        = a.val (t + 1) x := by
      intro x
      rw [ih]; exact if_neg (fun h => absurd h.1 (Nat.succ_ne_self t))
    have e0 : ∀ A : Matrix, (A.set t n 0).val t n = 0 := by
      intro A
      rw [Matrix.set_val]; exact if_pos ⟨rfl, rfl⟩
    rw [forUp_succ, bAcc_inner t n (lm n) (g n)]
    by_cases hc : t' = t ∧ m' = n
    · rw [if_pos hc, if_pos ⟨hc.1, by omega⟩, hc.2, e0, zero_add]
      unfold bkStep
      apply Finset.sum_congr rfl
      intro i _
      rw [Matrix.set_val, if_neg (fun h => absurd h.1 (Nat.succ_ne_self t)), e1]
    · rw [if_neg hc, Matrix.set_val, if_neg hc, ih]
      by_cases hc2 : t' = t ∧ m' < n
      · rw [if_pos hc2, if_pos ⟨hc2.1, by omega⟩]
      · rw [if_neg hc2, if_neg]
        intro h
        have : m' ≠ n := fun h6 => hc ⟨h.1, h6⟩
        exact hc2 ⟨h.1, by omega⟩

theorem work_beta_sum_val (b : Bcjr) (t : Nat) (beta : Matrix) (t' m' : Nat) :
    (b.work_beta_sum t beta).val t' m' =
      if t' = t ∧ m' < b.M then bkStep b.K b.lut_m (b.gamma.val t) (beta.val (t + 1)) m'
      else beta.val t' m' :=
  bAcc_outer t b.K b.lut_m (b.gamma.val t) beta b.M t' m'

theorem work_beta_scale_eq (b : Bcjr) (t : Nat) (beta : Matrix) (hM : 0 < b.M) :
    b.work_beta_scale t beta =
      maxLoop (bkStep b.K b.lut_m (b.gamma.val t) (beta.val (t + 1))) (b.M - 1) := by
  have hdef : b.work_beta_scale t beta =
      maxLoop ((b.work_beta_sum t beta).val t) (b.M - 1) := rfl
  rw [hdef]
  apply maxLoop_congr
  intro m hm
  rw [work_beta_sum_val, if_pos ⟨rfl, by omega⟩]

theorem work_beta_step_val (b : Bcjr) (t : Nat) (beta : Matrix) (t' m' : Nat) :
    (b.work_beta_step t beta).val t' m' =
      if t' = t ∧ m' < b.M then
        bkStep b.K b.lut_m (b.gamma.val t) (beta.val (t + 1)) m' *
          (1 / b.work_beta_scale t beta)
      else beta.val t' m' := by
  have hdef : b.work_beta_step t beta =
      forUp b.M (fun m a => a.set t m (a.val t m * (1 / b.work_beta_scale t beta)))
        (b.work_beta_sum t beta) := rfl
  rw [hdef, (scaleLoop_spec t _ _ b.M).2.2 t' m']
  by_cases hc : t' = t ∧ m' < b.M
  · rw [if_pos hc, if_pos hc, work_beta_sum_val, if_pos ⟨rfl, hc.2⟩]
  · rw [if_neg hc, if_neg hc, work_beta_sum_val, if_neg hc]

/-- The backward loop leaves the rows from `n` on alone. -/
theorem work_beta_frame (b : Bcjr) (n : Nat) (s : Matrix) (t' : Nat) (ht : n ≤ t') :
    (forDown n (fun t beta => b.work_beta_step t beta) s).val t' = s.val t' := by
  induction n generalizing s with
  | zero => rfl
  | succ n ih =>
    rw [forDown_succ, ih _ (by omega)]
    funext m
    rw [work_beta_step_val, if_neg (fun h => by omega)]

/-- The rows below `n` after the backward loop over `t = n - 1, ..., 0`. -/
theorem work_beta_loop (b : Bcjr) (hM : 0 < b.M) (n : Nat) (s : Matrix) (t : Nat) (ht : t < n) :
    b.work_beta_scale t
        (forDown (n - 1 - t) (fun j beta => b.work_beta_step (t + 1 + j) beta) s) =
      maxLoop (bkStep b.K b.lut_m (b.gamma.val t)
        ((forDown n (fun t beta => b.work_beta_step t beta) s).val (t + 1))) (b.M - 1) ∧
    ∀ m, m < b.M →
      (forDown n (fun t beta => b.work_beta_step t beta) s).val t m =
        bkStep b.K b.lut_m (b.gamma.val t)
          ((forDown n (fun t beta => b.work_beta_step t beta) s).val (t + 1)) m *
        (1 / b.work_beta_scale t
          (forDown (n - 1 - t) (fun j beta => b.work_beta_step (t + 1 + j) beta) s)) := by
  induction n generalizing s with
  | zero => exact absurd ht (Nat.not_lt_zero t)
  | succ n ih =>
    rw [forDown_succ]
    by_cases htn : t = n
    · subst htn
      have h0 : t + 1 - 1 - t = 0 := by omega
      rw [h0]
      have hnext : (forDown t (fun t beta => b.work_beta_step t beta)
          (b.work_beta_step t s)).val (t + 1) = s.val (t + 1) := by
        rw [work_beta_frame b t _ (t + 1) (by omega)]
        funext m
        rw [work_beta_step_val, if_neg (fun h => absurd h.1 (Nat.succ_ne_self t))]
      rw [hnext]
      refine ⟨work_beta_scale_eq b t s hM, ?_⟩
      intro m hm
      rw [work_beta_frame b t _ t (le_refl _), work_beta_step_val, if_pos ⟨rfl, hm⟩]
      rfl
    · have hlt : t < n := by omega
      have hshift : forDown (n + 1 - 1 - t) (fun j beta => b.work_beta_step (t + 1 + j) beta) s
          = forDown (n - 1 - t) (fun j beta => b.work_beta_step (t + 1 + j) beta)
              (b.work_beta_step n s) := by
        have h1 : n + 1 - 1 - t = (n - 1 - t) + 1 := by omega
        have h2 : t + 1 + (n - 1 - t) = n := by omega
        rw [h1, forDown_succ, h2]
      rw [hshift]
      exact ih (b.work_beta_step n s) hlt

/-- The rows of beta after `work_beta`: row `tau` is the end vector, and row `t` is one
backward step from row `t + 1`, divided by `beta_divisor t`. -/
theorem work_beta_rows (b : Bcjr) (hM : 0 < b.M) :
    b.work_beta.beta.val b.tau = b.beta.val b.tau ∧
    ∀ t, t < b.tau →
      b.beta_divisor t =
        maxLoop (bkStep b.K b.lut_m (b.gamma.val t) (b.work_beta.beta.val (t + 1))) (b.M - 1) ∧
      ∀ m, m < b.M → b.work_beta.beta.val t m =
        bkStep b.K b.lut_m (b.gamma.val t) (b.work_beta.beta.val (t + 1)) m *
          (1 / b.beta_divisor t) :=
  ⟨work_beta_frame b b.tau b.beta b.tau (le_refl _),
    fun t ht => work_beta_loop b hM b.tau b.beta t ht⟩

/-! ## Algebra of the forward and backward steps -/

theorem trStep_congr (M K : Nat) (lm : Nat → Nat → Nat) (g : Nat → Nat → ℚ) (f f' : Nat → ℚ)
    (h : ∀ m, m < M → f m = f' m) (m' : Nat) :
    trStep M K lm g f m' = trStep M K lm g f' m' := by
  unfold trStep
  apply Finset.sum_congr rfl
  intro m hm
  rw [h m (Finset.mem_range.mp hm)]

theorem trStep_smul (M K : Nat) (lm : Nat → Nat → Nat) (g : Nat → Nat → ℚ) (f : Nat → ℚ)
    (a : ℚ) (m' : Nat) :
    trStep M K lm g (fun m => a * f m) m' = a * trStep M K lm g f m' := by
  unfold trStep
  rw [Finset.mul_sum]
  apply Finset.sum_congr rfl
  intro m _
  rw [Finset.mul_sum]
  apply Finset.sum_congr rfl
  intro i _
  split_ifs
  · ring
  · ring

theorem trStep_nonneg (M K : Nat) (lm : Nat → Nat → Nat) (g : Nat → Nat → ℚ) (f : Nat → ℚ)
    (hf : ∀ m, m < M → 0 ≤ f m) (hg : ∀ m i, m < M → i < K → 0 ≤ g m i) (m' : Nat) :
    0 ≤ trStep M K lm g f m' := by
  unfold trStep
  apply Finset.sum_nonneg
  intro m hm
  apply Finset.sum_nonneg
  intro i hi
  split_ifs
  · exact mul_nonneg (hf m (Finset.mem_range.mp hm))
      (hg m i (Finset.mem_range.mp hm) (Finset.mem_range.mp hi))
  · exact le_refl _

theorem bkStep_congr (M K : Nat) (lm : Nat → Nat → Nat) (g : Nat → Nat → ℚ) (f f' : Nat → ℚ)
    (h : ∀ m, m < M → f m = f' m) (m : Nat) (hwf : ∀ i, i < K → lm m i < M) :
    bkStep K lm g f m = bkStep K lm g f' m := by
  unfold bkStep
  apply Finset.sum_congr rfl
  intro i hi
  rw [h _ (hwf i (Finset.mem_range.mp hi))]

theorem bkStep_smul (K : Nat) (lm : Nat → Nat → Nat) (g : Nat → Nat → ℚ) (f : Nat → ℚ)
    (a : ℚ) (m : Nat) :
    bkStep K lm g (fun m => a * f m) m = a * bkStep K lm g f m := by
  unfold bkStep
  rw [Finset.mul_sum]
  apply Finset.sum_congr rfl
  intro i _
  ring

theorem bkStep_nonneg (M K : Nat) (lm : Nat → Nat → Nat) (g : Nat → Nat → ℚ) (f : Nat → ℚ)
    (hf : ∀ m, m < M → 0 ≤ f m) (m : Nat) (hm : m < M) (hwf : ∀ i, i < K → lm m i < M)
    (hg : ∀ m i, m < M → i < K → 0 ≤ g m i) :
    0 ≤ bkStep K lm g f m := by
  unfold bkStep
  apply Finset.sum_nonneg
  intro i hi
  exact mul_nonneg (hf _ (hwf i (Finset.mem_range.mp hi))) (hg m i hm (Finset.mem_range.mp hi))

/-- The forward and the backward step are adjoint. -/
theorem trStep_adjoint (M K : Nat) (lm : Nat → Nat → Nat)
    (hwf : ∀ m i, m < M → i < K → lm m i < M) (g : Nat → Nat → ℚ) (f h : Nat → ℚ) :
    ∑ m' in Finset.range M, trStep M K lm g f m' * h m' =
      ∑ m in Finset.range M, f m * bkStep K lm g h m := by
  unfold trStep bkStep
  have e1 : ∀ m', m' ∈ Finset.range M →
      (∑ m in Finset.range M, ∑ i in Finset.range K,
        if lm m i = m' then f m * g m i else 0) * h m' =
      ∑ m in Finset.range M, ∑ i in Finset.range K,
        if lm m i = m' then f m * g m i * h m' else 0 := by
    intro m' _
    rw [Finset.sum_mul]
    apply Finset.sum_congr rfl
    intro m _
    rw [Finset.sum_mul]
    apply Finset.sum_congr rfl
    intro i _
    split_ifs
    · rfl
    · exact zero_mul _
  rw [Finset.sum_congr rfl e1, Finset.sum_comm]
  apply Finset.sum_congr rfl
  intro m hm
  rw [Finset.sum_comm, Finset.mul_sum]
  apply Finset.sum_congr rfl
  intro i hi
  have hmem : lm m i ∈ Finset.range M :=
    Finset.mem_range.mpr (hwf m i (Finset.mem_range.mp hm) (Finset.mem_range.mp hi))
  have e2 : ∀ m', m' ∈ Finset.range M →
      (if lm m i = m' then f m * g m i * h m' else 0) =
      if lm m i = m' then f m * g m i * h (lm m i) else 0 := by
    intro m' _
    split_ifs with hc
    · rw [hc]
    · rfl
  rw [Finset.sum_congr rfl e2, Finset.sum_ite_eq, if_pos hmem]
  ring

theorem fwd_succ (M K : Nat) (lm : Nat → Nat → Nat) (g : Nat → Nat → Nat → ℚ) (a0 : Nat → ℚ)
    (t : Nat) : fwd M K lm g a0 (t + 1) = trStep M K lm (g t) (fwd M K lm g a0 t) := rfl

theorem bwd_succ (K : Nat) (lm : Nat → Nat → Nat) (g : Nat → Nat → Nat → ℚ) (bEnd : Nat → ℚ)
    (n t : Nat) : bwd K lm g bEnd (n + 1) t = bkStep K lm (g t) (bwd K lm g bEnd n (t + 1)) := rfl

theorem fwd_nonneg (M K tau : Nat) (lm : Nat → Nat → Nat) (g : Nat → Nat → Nat → ℚ)
    (a0 : Nat → ℚ) (ha0 : ∀ m, m < M → 0 ≤ a0 m)
    (hg : ∀ t m i, t < tau → m < M → i < K → 0 ≤ g t m i) (t : Nat) (ht : t ≤ tau) (m : Nat)
    (hm : m < M) : 0 ≤ fwd M K lm g a0 t m := by
  induction t generalizing m with
  | zero => exact ha0 m hm
  | succ t ih =>
    rw [fwd_succ]
    exact trStep_nonneg M K lm (g t) _ (fun m hm => ih (by omega) m hm)
      (fun m i hm hi => hg t m i (by omega) hm hi) m

theorem bwd_nonneg (M K tau : Nat) (lm : Nat → Nat → Nat)
    (hwf : ∀ m i, m < M → i < K → lm m i < M) (g : Nat → Nat → Nat → ℚ)
    (bEnd : Nat → ℚ) (hb : ∀ m, m < M → 0 ≤ bEnd m)
    (hg : ∀ t m i, t < tau → m < M → i < K → 0 ≤ g t m i) (n t : Nat) (ht : t + n ≤ tau)
    (m : Nat) (hm : m < M) : 0 ≤ bwd K lm g bEnd n t m := by
  induction n generalizing t m with
  | zero => exact hb m hm
  | succ n ih =>
    rw [bwd_succ]
    exact bkStep_nonneg M K lm (g t) _ (fun m hm => ih (t + 1) (by omega) m hm) m hm
      (fun i hi => hwf m i hm hi) (fun m i hm hi => hg t m i (by omega) hm hi)

/-- The total mass `sum_m fwd t m * bwd (tau - t) t m` is the same at every time. -/
theorem fwd_bwd_invariant (M K : Nat) (lm : Nat → Nat → Nat)
    (hwf : ∀ m i, m < M → i < K → lm m i < M) (g : Nat → Nat → Nat → ℚ) (a0 bEnd : Nat → ℚ)
    (n t : Nat) :
    ∑ m in Finset.range M, fwd M K lm g a0 t m * bwd K lm g bEnd n t m =
      ∑ m in Finset.range M, a0 m * bwd K lm g bEnd (n + t) 0 m := by
  induction t generalizing n with
  | zero => rfl
  | succ t ih =>
    rw [fwd_succ, trStep_adjoint M K lm hwf, ← bwd_succ, ih (n + 1)]
    have : n + 1 + t = n + (t + 1) := by omega
    rw [this]

/-! ## Normalised rows are positive multiples of the plain recursions -/

theorem maxLoop_smul (f : Nat → ℚ) (n : Nat) (c : ℚ) (hc : 0 ≤ c) :
    maxLoop (fun m => c * f m) n = maxLoop f n * c := by
  rw [← maxLoop_mul f n c hc]
  apply maxLoop_congr
  intro m _
  exact mul_comm _ _

/-- One normalised forward step applied to a positive multiple of a row `F`. -/
theorem forward_step_scaled (M K : Nat) (lm : Nat → Nat → Nat) (gk : Nat → Nat → ℚ)
    (A A1 F : Nat → ℚ) (D a : ℚ) (ha : 0 < a) (hA : ∀ m, m < M → A m = a * F m)
    (hD : D = maxLoop (trStep M K lm gk A) (M - 1))
    (hstep : ∀ m, m < M → A1 m = trStep M K lm gk A m * (1 / D)) :
    D = maxLoop (trStep M K lm gk F) (M - 1) * a ∧
    ∀ m, m < M → A1 m = a / D * trStep M K lm gk F m := by
  have hT : ∀ m', trStep M K lm gk A m' = a * trStep M K lm gk F m' := by
    intro m'
    rw [trStep_congr M K lm gk A (fun m => a * F m) hA, trStep_smul]
  constructor
  · rw [hD, ← maxLoop_smul _ _ a (le_of_lt ha)]
    apply maxLoop_congr
    intro m _
    exact hT m
  · intro m hm
    rw [hstep m hm, hT]
    ring

/-- One normalised backward step applied to a positive multiple of a row `F`. -/
theorem backward_step_scaled (M K : Nat) (lm : Nat → Nat → Nat)
    (hwf : ∀ m i, m < M → i < K → lm m i < M) (gk : Nat → Nat → ℚ)
    (B B0 F : Nat → ℚ) (E c : ℚ) (hc : 0 < c) (hB : ∀ m, m < M → B m = c * F m)
    (hE : E = maxLoop (bkStep K lm gk B) (M - 1)) (hM : 0 < M)
    (hstep : ∀ m, m < M → B0 m = bkStep K lm gk B m * (1 / E)) :
    E = maxLoop (bkStep K lm gk F) (M - 1) * c ∧
    ∀ m, m < M → B0 m = c / E * bkStep K lm gk F m := by
  have hT : ∀ m, m < M → bkStep K lm gk B m = c * bkStep K lm gk F m := by
    intro m hm
    rw [bkStep_congr M K lm gk B (fun m => c * F m) hB m (fun i hi => hwf m i hm hi),
      bkStep_smul]
  constructor
  · rw [hE, ← maxLoop_smul _ _ c (le_of_lt hc)]
    apply maxLoop_congr
    intro m hm
    exact hT m (by omega)
  · intro m hm
    rw [hstep m hm, hT m hm]
    ring

theorem pos_of_mul_pos_nonneg (x y : ℚ) (hx : 0 ≤ x) (hy : 0 ≤ y) (h : 0 < x * y) :
    0 < x ∧ 0 < y := by
  constructor
  · rcases eq_or_lt_of_le hx with h0 | h0
    · rw [← h0, zero_mul] at h; exact absurd h (lt_irrefl _)
    · exact h0
  · rcases eq_or_lt_of_le hy with h0 | h0
    · rw [← h0, mul_zero] at h; exact absurd h (lt_irrefl _)
    · exact h0

theorem exists_pos_of_sum_pos (M : Nat) (f : Nat → ℚ)
    (h : 0 < ∑ m in Finset.range M, f m) : ∃ m, m < M ∧ 0 < f m := by
  by_contra hne
  have hle : ∑ m in Finset.range M, f m ≤ 0 := by
    apply Finset.sum_nonpos
    intro m hm
    by_contra hlt
    exact hne ⟨m, Finset.mem_range.mp hm, not_le.mp hlt⟩
  exact absurd h (not_lt.mpr hle)

namespace Normalised

variable {M K tau : Nat} {lm : Nat → Nat → Nat} {g : Nat → Nat → Nat → ℚ}
  {a0 bEnd : Nat → ℚ} {A B : Nat → Nat → ℚ} {D E : Nat → ℚ}

theorem maxFwd_nonneg (h : Normalised M K tau lm g a0 bEnd A B D E) (t : Nat) (ht : t ≤ tau) :
    0 ≤ maxLoop (fwd M K lm g a0 t) (M - 1) :=
  maxLoop_nonneg _ _ (fun m hm =>
    fwd_nonneg M K tau lm g a0 h.ha0 h.hg t ht m (by have := h.hM; omega))

theorem maxBwd_nonneg (h : Normalised M K tau lm g a0 bEnd A B D E) (n t : Nat)
    (ht : t + n ≤ tau) : 0 ≤ maxLoop (bwd K lm g bEnd n t) (M - 1) :=
  maxLoop_nonneg _ _ (fun m hm =>
    bwd_nonneg M K tau lm h.hwf g bEnd h.hb h.hg n t ht m (by have := h.hM; omega))

/-- The rows of alpha are positive multiples of the plain forward recursion, and the divisors
of `work_alpha` are positive, as soon as each divisor is non-zero or the plain forward row has
a positive entry. -/
theorem alpha_scaled (h : Normalised M K tau lm g a0 bEnd A B D E)
    (H : ∀ k, k < tau → D k ≠ 0 ∨ ∃ m, m < M ∧ 0 < fwd M K lm g a0 (k + 1) m) (t : Nat)
    (ht : t ≤ tau) :
    (∃ a, 0 < a ∧ ∀ m, m < M → A t m = a * fwd M K lm g a0 t m) ∧ ∀ k, k < t → 0 < D k := by
  induction t with
  | zero =>
    exact ⟨⟨1, one_pos, fun m hm => by rw [h.hA0 m hm, one_mul]; rfl⟩,
      fun k hk => absurd hk (Nat.not_lt_zero k)⟩
  | succ t ih =>
    obtain ⟨⟨a, ha, hA⟩, hDs⟩ := ih (by omega)
    have htl : t < tau := by omega
    obtain ⟨hD, hstep⟩ := forward_step_scaled M K lm (g t) (A t) (A (t + 1))
      (fwd M K lm g a0 t) (D t) a ha hA (h.hAD t htl) (h.hAstep t htl)
    rw [← fwd_succ] at hD
    have hmax := h.maxFwd_nonneg (t + 1) ht
    have hDpos : 0 < D t := by
      rcases H t htl with hne | ⟨m, hm, hpos⟩
      · have : 0 ≤ D t := by rw [hD]; exact mul_nonneg hmax (le_of_lt ha)
        exact lt_of_le_of_ne this (Ne.symm hne)
      · rw [hD]
        exact mul_pos (maxLoop_pos _ _ m (by omega) hpos) ha
    refine ⟨⟨a / D t, div_pos ha hDpos, fun m hm => ?_⟩, fun k hk => ?_⟩
    · rw [hstep m hm]; rfl
    · by_cases hkt : k = t
      · rw [hkt]; exact hDpos
      · exact hDs k (by omega)

/-- The rows of beta are positive multiples of the plain backward recursion, and the divisors
of `work_beta` are positive, as soon as each divisor is non-zero or the plain backward row has
a positive entry. -/
theorem beta_scaled (h : Normalised M K tau lm g a0 bEnd A B D E)
    (H : ∀ t, t < tau → E t ≠ 0 ∨ ∃ m, m < M ∧ 0 < bwd K lm g bEnd (tau - t) t m) (n : Nat)
    (hn : n ≤ tau) :
    (∃ c, 0 < c ∧ ∀ m, m < M → B (tau - n) m = c * bwd K lm g bEnd n (tau - n) m) ∧
    ∀ t, t < tau → tau - n ≤ t → 0 < E t := by
  induction n with
  | zero =>
    exact ⟨⟨1, one_pos, fun m hm => by rw [Nat.sub_zero, h.hBend m hm, one_mul]; rfl⟩,
      fun t ht1 ht2 => by omega⟩
  | succ n ih =>
    obtain ⟨⟨c, hc, hB⟩, hEs⟩ := ih (by omega)
    have htl : tau - (n + 1) < tau := by omega
    have hnext : tau - (n + 1) + 1 = tau - n := by omega
    have hBE := h.hBE (tau - (n + 1)) htl
    have hBstep := h.hBstep (tau - (n + 1)) htl
    rw [hnext] at hBE hBstep
    obtain ⟨hE, hstep⟩ := backward_step_scaled M K lm h.hwf (g (tau - (n + 1))) (B (tau - n))
      (B (tau - (n + 1))) (bwd K lm g bEnd n (tau - n)) (E (tau - (n + 1))) c hc hB hBE h.hM
      hBstep
    have hbw : bkStep K lm (g (tau - (n + 1))) (bwd K lm g bEnd n (tau - n))
        = bwd K lm g bEnd (n + 1) (tau - (n + 1)) := by
      rw [bwd_succ, hnext]
    rw [hbw] at hE hstep
    have hmax := h.maxBwd_nonneg (n + 1) (tau - (n + 1)) (by omega)
    have hEpos : 0 < E (tau - (n + 1)) := by
      rcases H (tau - (n + 1)) htl with hne | ⟨m, hm, hpos⟩
      · have : 0 ≤ E (tau - (n + 1)) := by rw [hE]; exact mul_nonneg hmax (le_of_lt hc)
        exact lt_of_le_of_ne this (Ne.symm hne)
      · have hsub : tau - (tau - (n + 1)) = n + 1 := by omega
        rw [hsub] at hpos
        rw [hE]
        exact mul_pos (maxLoop_pos _ _ m (by omega) hpos) hc
    refine ⟨⟨c / E (tau - (n + 1)), div_pos hc hEpos, fun m hm => hstep m hm⟩,
      fun t ht1 ht2 => ?_⟩
    by_cases htt : t = tau - (n + 1)
    · rw [htt]; exact hEpos
    · exact hEs t ht1 (by omega)

/-- The total mass `sum_m a0 m * bwd tau 0 m` of all paths. -/
theorem total_eq (h : Normalised M K tau lm g a0 bEnd A B D E) (t : Nat) (ht : t ≤ tau) :
    ∑ m in Finset.range M, fwd M K lm g a0 t m * bwd K lm g bEnd (tau - t) t m =
      ∑ m in Finset.range M, a0 m * bwd K lm g bEnd tau 0 m := by
  rw [fwd_bwd_invariant M K lm h.hwf g a0 bEnd (tau - t) t]
  have : tau - t + t = tau := by omega
  rw [this]

/-- If the total mass is positive, every plain forward and backward row has a positive
entry. -/
theorem pos_of_total (h : Normalised M K tau lm g a0 bEnd A B D E)
    (hP : 0 < ∑ m in Finset.range M, a0 m * bwd K lm g bEnd tau 0 m) (t : Nat) (ht : t ≤ tau) :
    ∃ m, m < M ∧ 0 < fwd M K lm g a0 t m ∧ 0 < bwd K lm g bEnd (tau - t) t m := by
  rw [← h.total_eq t ht] at hP
  obtain ⟨m, hm, hpos⟩ := exists_pos_of_sum_pos M _ hP
  exact ⟨m, hm, pos_of_mul_pos_nonneg _ _
    (fwd_nonneg M K tau lm g a0 h.ha0 h.hg t ht m hm)
    (bwd_nonneg M K tau lm h.hwf g bEnd h.hb h.hg (tau - t) t (by omega) m hm) hpos⟩

/-- The posteriors `sum_m A t m * g t m i * B (t+1) (lm m i) / Py` are, at each time `t`, a
positive multiple of the plain forward-backward sums. -/
theorem posterior_scaled (h : Normalised M K tau lm g a0 bEnd A B D E)
    (HA : ∀ k, k < tau → D k ≠ 0 ∨ ∃ m, m < M ∧ 0 < fwd M K lm g a0 (k + 1) m)
    (HB : ∀ t, t < tau → E t ≠ 0 ∨ ∃ m, m < M ∧ 0 < bwd K lm g bEnd (tau - t) t m)
    (Py : ℚ) (hPy : Py = ∑ m in Finset.range M, A tau m * B tau m) (hPy0 : Py ≠ 0)
    (t : Nat) (ht : t < tau) :
    ∃ c, 0 < c ∧ ∀ i, i < K →
      ∑ m in Finset.range M, A t m * g t m i * B (t + 1) (lm m i) / Py =
        c * ∑ m in Finset.range M,
          fwd M K lm g a0 t m * g t m i * bwd K lm g bEnd (tau - t - 1) (t + 1) (lm m i) := by
  obtain ⟨a, ha, hA⟩ := (h.alpha_scaled HA t (by omega)).1
  obtain ⟨c, hc, hB⟩ := (h.beta_scaled HB (tau - t - 1) (by omega)).1
  obtain ⟨e, he, hAe⟩ := (h.alpha_scaled HA tau (le_refl _)).1
  have hsub : tau - (tau - t - 1) = t + 1 := by omega
  rw [hsub] at hB
  have hPyeq : Py = e * ∑ m in Finset.range M, fwd M K lm g a0 tau m * bEnd m := by
    rw [hPy, Finset.mul_sum]
    apply Finset.sum_congr rfl
    intro m hm
    rw [hAe m (Finset.mem_range.mp hm), h.hBend m (Finset.mem_range.mp hm)]
    ring
  have hsum : 0 ≤ ∑ m in Finset.range M, fwd M K lm g a0 tau m * bEnd m := by
    apply Finset.sum_nonneg
    intro m hm
    exact mul_nonneg (fwd_nonneg M K tau lm g a0 h.ha0 h.hg tau (le_refl _) m
      (Finset.mem_range.mp hm)) (h.hb m (Finset.mem_range.mp hm))
  have hPypos : 0 < Py := by
    have : 0 ≤ Py := by rw [hPyeq]; exact mul_nonneg (le_of_lt he) hsum
    exact lt_of_le_of_ne this (Ne.symm hPy0)
  refine ⟨a * c / Py, div_pos (mul_pos ha hc) hPypos, ?_⟩
  intro i hi
  rw [Finset.mul_sum]
  apply Finset.sum_congr rfl
  intro m hm
  rw [hA m (Finset.mem_range.mp hm), hB _ (h.hwf m i (Finset.mem_range.mp hm) hi)]
  field_simp
  ring

end Normalised

/-! ## Sums over input sequences -/

theorem sum_map_range (f : Nat → ℚ) (n : Nat) :
    ((List.range n).map f).sum = ∑ i in Finset.range n, f i := by
  induction n with
  | zero => rfl
  | succ n ih =>
    rw [List.range_succ, List.map_append, List.sum_append, ih, Finset.sum_range_succ]
    simp

theorem sum_map_flatMap {α β : Type} (l : List α) (F : α → List β) (w : β → ℚ) :
    ((l.flatMap F).map w).sum = (l.map (fun a => ((F a).map w).sum)).sum := by
  induction l with
  | nil => rfl
  | cons x xs ih =>
    rw [List.flatMap_cons, List.map_append, List.sum_append, ih]
    rfl

theorem inputSeqs_succ (K n : Nat) :
    inputSeqs K (n + 1) =
      (List.range K).flatMap (fun i => (inputSeqs K n).map (fun u => i :: u)) := rfl

theorem pathW_cons (lm : Nat → Nat → Nat) (g : Nat → Nat → Nat → ℚ) (bEnd : Nat → ℚ)
    (k s i : Nat) (u : List Nat) :
    pathW lm g bEnd k s (i :: u) = g k s i * pathW lm g bEnd (k + 1) (lm s i) u := rfl

/-- The weights of all paths of length `n` from a state sum to the plain backward metric of
that state. -/
theorem sum_pathW (K : Nat) (lm : Nat → Nat → Nat) (g : Nat → Nat → Nat → ℚ) (bEnd : Nat → ℚ)
    (n k s : Nat) :
    ((inputSeqs K n).map (pathW lm g bEnd k s)).sum = bwd K lm g bEnd n k s := by
  induction n generalizing k s with
  | zero => simp [inputSeqs, pathW, bwd]
  | succ n ih =>
    rw [inputSeqs_succ, sum_map_flatMap, sum_map_range, bwd_succ]
    unfold bkStep
    apply Finset.sum_congr rfl
    intro i _
    rw [List.map_map]
    have : (pathW lm g bEnd k s ∘ fun u => i :: u)
        = fun u => g k s i * pathW lm g bEnd (k + 1) (lm s i) u := by
      funext u; rfl
    rw [this, List.sum_map_mul_left, ih, mul_comm]

theorem pathSumAt_zero (K : Nat) (lm : Nat → Nat → Nat) (g : Nat → Nat → Nat → ℚ)
    (bEnd : Nat → ℚ) (n k s i : Nat) :
    pathSumAt K lm g bEnd (n + 1) k s 0 i =
      if i < K then g k s i * bwd K lm g bEnd n (k + 1) (lm s i) else 0 := by
  unfold pathSumAt
  rw [inputSeqs_succ, List.filter_flatMap, sum_map_flatMap, sum_map_range]
  have e : ∀ j, j ∈ Finset.range K →
      ((List.filter (fun u => decide (u[0]? = some i))
        ((inputSeqs K n).map (fun u => j :: u))).map (pathW lm g bEnd k s)).sum =
      if i = j then g k s i * bwd K lm g bEnd n (k + 1) (lm s i) else 0 := by
    intro j _
    rw [List.filter_map]
    by_cases hji : i = j
    · subst hji
      rw [if_pos rfl]
      have hf : ((fun u : List Nat => decide (u[0]? = some i)) ∘ fun u => i :: u)
          = fun _ => true := by
        funext u; simp
      rw [hf, List.filter_true, List.map_map]
      have : (pathW lm g bEnd k s ∘ fun u => i :: u)
          = fun u => g k s i * pathW lm g bEnd (k + 1) (lm s i) u := by
        funext u; rfl
      rw [this, List.sum_map_mul_left, sum_pathW]
    · rw [if_neg hji]
      have hf : ((fun u : List Nat => decide (u[0]? = some i)) ∘ fun u => j :: u)
          = fun _ => false := by
        funext u
        simp
        exact fun h => hji h.symm
      rw [hf, List.filter_false]
      rfl
  rw [Finset.sum_congr rfl e, Finset.sum_ite_eq]
  simp [Finset.mem_range]

theorem pathSumAt_succ (K : Nat) (lm : Nat → Nat → Nat) (g : Nat → Nat → Nat → ℚ)
    (bEnd : Nat → ℚ) (n k s t i : Nat) :
    pathSumAt K lm g bEnd (n + 1) k s (t + 1) i =
      ∑ j in Finset.range K, g k s j * pathSumAt K lm g bEnd n (k + 1) (lm s j) t i := by
  unfold pathSumAt
  rw [inputSeqs_succ, List.filter_flatMap, sum_map_flatMap, sum_map_range]
  apply Finset.sum_congr rfl
  intro j _
  rw [List.filter_map]
  have hf : ((fun u : List Nat => decide (u[t + 1]? = some i)) ∘ fun u => j :: u)
      = fun u => decide (u[t]? = some i) := by
    funext u; simp
  rw [hf, List.map_map]
  have : (pathW lm g bEnd k s ∘ fun u => j :: u)
      = fun u => g k s j * pathW lm g bEnd (k + 1) (lm s j) u := by
    funext u; rfl
  rw [this, List.sum_map_mul_left]

theorem fwdFrom_succ (M K : Nat) (lm : Nat → Nat → Nat) (g : Nat → Nat → Nat → ℚ) (k : Nat)
    (f : Nat → ℚ) (t : Nat) :
    fwdFrom M K lm g k f (t + 1) = fwdFrom M K lm g (k + 1) (trStep M K lm (g k) f) t := rfl

theorem fwdFrom_step (M K : Nat) (lm : Nat → Nat → Nat) (g : Nat → Nat → Nat → ℚ) (k : Nat)
    (f : Nat → ℚ) (t : Nat) :
    fwdFrom M K lm g k f (t + 1) = trStep M K lm (g (k + t)) (fwdFrom M K lm g k f t) := by
  induction t generalizing k f with
  | zero => rfl
  | succ t ih =>
    rw [fwdFrom_succ, ih (k + 1), fwdFrom_succ]
    have : k + 1 + t = k + (t + 1) := by omega
    rw [this]

theorem fwdFrom_zero_eq (M K : Nat) (lm : Nat → Nat → Nat) (g : Nat → Nat → Nat → ℚ)
    (a0 : Nat → ℚ) (t : Nat) : fwdFrom M K lm g 0 a0 t = fwd M K lm g a0 t := by
  induction t with
  | zero => rfl
  | succ t ih => rw [fwdFrom_step, ih, Nat.zero_add, fwd_succ]

/-- Forward-backward decomposition of the sum over the paths with input `i` at step `t`. -/
theorem path_decomposition (M K : Nat) (lm : Nat → Nat → Nat)
    (hwf : ∀ m i, m < M → i < K → lm m i < M) (g : Nat → Nat → Nat → ℚ) (bEnd : Nat → ℚ)
    (i : Nat) (hi : i < K) (t : Nat) (n k : Nat) (f : Nat → ℚ) (ht : t < n) :
    ∑ s in Finset.range M, f s * pathSumAt K lm g bEnd n k s t i =
      ∑ m in Finset.range M, fwdFrom M K lm g k f t m * g (k + t) m i *
        bwd K lm g bEnd (n - t - 1) (k + t + 1) (lm m i) := by
  induction t generalizing n k f with
  | zero =>
    obtain ⟨n', rfl⟩ : ∃ n', n = n' + 1 := ⟨n - 1, by omega⟩
    apply Finset.sum_congr rfl
    intro s _
    rw [pathSumAt_zero, if_pos hi]
    have h1 : n' + 1 - 0 - 1 = n' := by omega
    rw [h1]
    show f s * (g k s i * bwd K lm g bEnd n' (k + 1) (lm s i)) =
      f s * g k s i * bwd K lm g bEnd n' (k + 1) (lm s i)
    ring
  | succ t ih =>
    obtain ⟨n', rfl⟩ : ∃ n', n = n' + 1 := ⟨n - 1, by omega⟩
    have e : ∀ s, s ∈ Finset.range M →
        f s * pathSumAt K lm g bEnd (n' + 1) k s (t + 1) i =
        f s * bkStep K lm (g k) (fun m' => pathSumAt K lm g bEnd n' (k + 1) m' t i) s := by
      intro s _
      rw [pathSumAt_succ]
      unfold bkStep
      congr 1
      apply Finset.sum_congr rfl
      intro j _
      exact mul_comm _ _
    rw [Finset.sum_congr rfl e, ← trStep_adjoint M K lm hwf, ih n' (k + 1) _ (by omega)]
    have h1 : n' + 1 - (t + 1) - 1 = n' - t - 1 := by omega
    have h2 : k + 1 + t = k + (t + 1) := by omega
    rw [h1, h2]
    rfl

theorem pathWeight_eq_pathW (b : Bcjr) (R : Matrix) (bEnd : Nat → ℚ) (k s : Nat)
    (u : List Nat) :
    pathWeight b R bEnd k s u =
      pathW b.lut_m (fun t m i => R.val t (b.lut_X m i)) bEnd k s u := by
  induction u generalizing k s with
  | nil => rfl
  | cons i u ih =>
    show R.val k (b.lut_X s i) * pathWeight b R bEnd (k + 1) (b.lut_m s i) u = _
    rw [ih]
    rfl

/-- The MAP path sum in forward-backward form. -/
theorem mapSum_eq (b : Bcjr) (R : Matrix) (a0 bEnd : Nat → ℚ)
    (hwf : ∀ m i, m < b.M → i < b.K → b.lut_m m i < b.M) (t i : Nat) (ht : t < b.tau)
    (hi : i < b.K) :
    mapSum b R a0 bEnd t i =
      ∑ m in Finset.range b.M,
        fwd b.M b.K b.lut_m (fun t m i => R.val t (b.lut_X m i)) a0 t m *
          R.val t (b.lut_X m i) *
          bwd b.K b.lut_m (fun t m i => R.val t (b.lut_X m i)) bEnd (b.tau - t - 1) (t + 1)
            (b.lut_m m i) := by
  unfold mapSum
  rw [sum_map_range]
  have e : ∀ s0, s0 ∈ Finset.range b.M →
      (((inputSeqs b.K b.tau).filter (fun u => decide (u[t]? = some i))).map
        (fun u => a0 s0 * pathWeight b R bEnd 0 s0 u)).sum =
      a0 s0 * pathSumAt b.K b.lut_m (fun t m i => R.val t (b.lut_X m i)) bEnd b.tau 0 s0 t i := by
    intro s0 _
    rw [List.sum_map_mul_left]
    unfold pathSumAt
    congr 2
    apply List.map_congr_left
    intro u _
    exact pathWeight_eq_pathW b R bEnd 0 s0 u
  rw [Finset.sum_congr rfl e, path_decomposition b.M b.K b.lut_m hwf _ bEnd i hi t b.tau 0 a0 ht]
  apply Finset.sum_congr rfl
  intro m _
  rw [fwdFrom_zero_eq, Nat.zero_add]

/-! ## The decoder computes the MAP posteriors up to scale -/

theorem trStep_gcongr (M K : Nat) (lm : Nat → Nat → Nat) (g g' : Nat → Nat → ℚ) (f : Nat → ℚ)
    (h : ∀ m i, m < M → i < K → g m i = g' m i) (m' : Nat) :
    trStep M K lm g f m' = trStep M K lm g' f m' := by
  unfold trStep
  apply Finset.sum_congr rfl
  intro m hm
  apply Finset.sum_congr rfl
  intro i hi
  rw [h m i (Finset.mem_range.mp hm) (Finset.mem_range.mp hi)]

theorem bkStep_gcongr (M K : Nat) (lm : Nat → Nat → Nat) (g g' : Nat → Nat → ℚ) (f : Nat → ℚ)
    (h : ∀ m i, m < M → i < K → g m i = g' m i) (m : Nat) (hm : m < M) :
    bkStep K lm g f m = bkStep K lm g' f m := by
  unfold bkStep
  apply Finset.sum_congr rfl
  intro i hi
  rw [h m i hm (Finset.mem_range.mp hi)]

theorem work_results_Py_eq (b : Bcjr) :
    b.work_results_Py = ∑ m in Finset.range b.M, b.alpha.val b.tau m * b.beta.val b.tau m := by
  unfold Bcjr.work_results_Py
  rw [sumLoop_eq, zero_add]
  rfl

/-- The rows and divisors left by `work_alpha` and `work_beta`, run on branch metrics that are
`g` on the trellis, satisfy the recurrences of `Normalised`. -/
theorem normalised_of_work (b : Bcjr) (g : Nat → Nat → Nat → ℚ) (hM : 0 < b.M)
    (hwf : ∀ m i, m < b.M → i < b.K → b.lut_m m i < b.M)
    (hgam : ∀ t m i, t < b.tau → m < b.M → i < b.K → b.gamma.val t m i = g t m i)
    (hg : ∀ t m i, t < b.tau → m < b.M → i < b.K → 0 ≤ g t m i)
    (ha0 : ∀ m, m < b.M → 0 ≤ b.alpha.val 0 m)
    (hbE : ∀ m, m < b.M → 0 ≤ b.beta.val b.tau m) :
    Normalised b.M b.K b.tau b.lut_m g (b.alpha.val 0) (b.beta.val b.tau)
      b.work_alpha.work_beta.alpha.val b.work_alpha.work_beta.beta.val
      b.alpha_divisor b.work_alpha.beta_divisor := by
  have hA0 : b.work_alpha.work_beta.alpha.val 0 = b.alpha.val 0 := (work_alpha_rows b hM).1
  have hAk : ∀ k, k < b.tau →
      b.alpha_divisor k =
        maxLoop (trStep b.M b.K b.lut_m (b.gamma.val k) (b.work_alpha.work_beta.alpha.val k))
          (b.M - 1) ∧
      ∀ m, m < b.M → b.work_alpha.work_beta.alpha.val (k + 1) m =
        trStep b.M b.K b.lut_m (b.gamma.val k) (b.work_alpha.work_beta.alpha.val k) m *
          (1 / b.alpha_divisor k) := (work_alpha_rows b hM).2
  have hBe : b.work_alpha.work_beta.beta.val b.tau = b.beta.val b.tau :=
    (work_beta_rows b.work_alpha hM).1
  have hBt : ∀ t, t < b.tau →
      b.work_alpha.beta_divisor t =
        maxLoop (bkStep b.K b.lut_m (b.gamma.val t) (b.work_alpha.work_beta.beta.val (t + 1)))
          (b.M - 1) ∧
      ∀ m, m < b.M → b.work_alpha.work_beta.beta.val t m =
        bkStep b.K b.lut_m (b.gamma.val t) (b.work_alpha.work_beta.beta.val (t + 1)) m *
          (1 / b.work_alpha.beta_divisor t) := (work_beta_rows b.work_alpha hM).2
  have hMl : ∀ m, m ≤ b.M - 1 → m < b.M := fun m hm => by omega
  refine ⟨hM, hwf, hg, ha0, hbE, ?_, ?_, ?_, ?_, ?_, ?_⟩
  · intro m _
    rw [hA0]
  · intro k hk
    rw [(hAk k hk).1]
    apply maxLoop_congr
    intro m _
    exact trStep_gcongr _ _ _ _ _ _ (fun m i hm hi => hgam k m i hk hm hi) m
  · intro k hk m hm
    rw [(hAk k hk).2 m hm,
      trStep_gcongr _ _ _ _ _ _ (fun m i hm hi => hgam k m i hk hm hi) m]
  · intro m _
    rw [hBe]
  · intro t ht
    rw [(hBt t ht).1]
    apply maxLoop_congr
    intro m hm
    exact bkStep_gcongr b.M _ _ _ _ _ (fun m i hm hi => hgam t m i ht hm hi) m (hMl m hm)
  · intro t ht m hm
    rw [(hBt t ht).2 m hm,
      bkStep_gcongr b.M _ _ _ _ _ (fun m i hm hi => hgam t m i ht hm hi) m hm]

/-- The input posteriors written by `decode(R, ri, ro)`. -/
theorem decode_ri_val (b : Bcjr) (R ri ro : Matrix) (hinit : b.initialised = true)
    (hx : b.tau ≤ ri.xsize) (hy : b.K ≤ ri.ysize) :
    ∃ r, b.decode R ri ro = some r ∧
      r.1 = (b.work_gamma R).work_alpha.work_beta ∧
      ∀ t i, t < b.tau → i < b.K →
        r.2.1.val t i = ∑ m in Finset.range b.M,
          r.1.alpha.val t m * R.val t (b.lut_X m i) * r.1.beta.val (t + 1) (b.lut_m m i) /
            r.1.work_results_Py := by
  unfold Bcjr.decode
  rw [if_pos hinit]
  refine ⟨_, rfl, rfl, ?_⟩
  intro t i ht hi
  dsimp only
  rw [work_results_val]
  have hti : t < (b.work_gamma R).work_alpha.work_beta.tau ∧
      i < (b.work_gamma R).work_alpha.work_beta.K := ⟨ht, hi⟩
  rw [if_pos hti]
  have hfill : (ri.fill 0).val t i = 0 := by
    unfold Matrix.fill
    exact if_pos ⟨by omega, by omega⟩
  rw [hfill, zero_add]
  apply Finset.sum_congr rfl
  intro m hm
  have hgam : (b.work_gamma R).work_alpha.work_beta.gamma.val t m i = R.val t (b.lut_X m i) := by
    show (b.work_gamma R).gamma.val t m i = _
    rw [work_gamma_val, if_pos ⟨ht, Finset.mem_range.mp hm, hi⟩]
  unfold Bcjr.sigma
  dsimp only
  rw [Nat.add_sub_cancel, hgam]
  rfl

/-- The hypotheses of `Normalised` hold for the rows and divisors computed by `decode`. -/
theorem normalised_of_decode (b : Bcjr) (R : Matrix) (hM : 0 < b.M)
    (hwf : ∀ m i, m < b.M → i < b.K → b.lut_m m i < b.M)
    (hwfX : ∀ m i, m < b.M → i < b.K → b.lut_X m i < b.N)
    (hR : ∀ t x, t < b.tau → x < b.N → 0 ≤ R.val t x)
    (ha0 : ∀ m, m < b.M → 0 ≤ b.alpha.val 0 m)
    (hbE : ∀ m, m < b.M → 0 ≤ b.beta.val b.tau m) :
    Normalised b.M b.K b.tau b.lut_m (fun t m i => R.val t (b.lut_X m i))
      (b.alpha.val 0) (b.beta.val b.tau)
      (b.work_gamma R).work_alpha.work_beta.alpha.val
      (b.work_gamma R).work_alpha.work_beta.beta.val
      (b.work_gamma R).alpha_divisor (b.work_gamma R).work_alpha.beta_divisor :=
  normalised_of_work (b.work_gamma R) (fun t m i => R.val t (b.lut_X m i)) hM hwf
    (fun t m i ht hm hi => by rw [work_gamma_val, if_pos ⟨ht, hm, hi⟩])
    (fun t m i ht hm hi => hR t _ ht (hwfX m i hm hi)) ha0 hbE

/-- The input posteriors of `decode` are, at each time, a positive multiple of the MAP path
sums, as soon as each divisor is non-zero or the corresponding plain row has a positive
entry. -/
theorem decode_posterior_core (b : Bcjr) (R ri ro : Matrix) (hinit : b.initialised = true)
    (hM : 0 < b.M)
    (hwf : ∀ m i, m < b.M → i < b.K → b.lut_m m i < b.M)
    (hwfX : ∀ m i, m < b.M → i < b.K → b.lut_X m i < b.N)
    (hR : ∀ t x, t < b.tau → x < b.N → 0 ≤ R.val t x)
    (ha0 : ∀ m, m < b.M → 0 ≤ b.alpha.val 0 m)
    (hbE : ∀ m, m < b.M → 0 ≤ b.beta.val b.tau m)
    (hx : b.tau ≤ ri.xsize) (hy : b.K ≤ ri.ysize)
    (HA : ∀ k, k < b.tau → (b.work_gamma R).alpha_divisor k ≠ 0 ∨
      ∃ m, m < b.M ∧
        0 < fwd b.M b.K b.lut_m (fun t m i => R.val t (b.lut_X m i)) (b.alpha.val 0) (k + 1) m)
    (HB : ∀ t, t < b.tau → (b.work_gamma R).work_alpha.beta_divisor t ≠ 0 ∨
      ∃ m, m < b.M ∧
        0 < bwd b.K b.lut_m (fun t m i => R.val t (b.lut_X m i)) (b.beta.val b.tau)
          (b.tau - t) t m)
    (hPy : (b.work_gamma R).work_alpha.work_beta.work_results_Py ≠ 0) :
    ∃ r, b.decode R ri ro = some r ∧
      ∀ t, t < b.tau → ∃ c, 0 < c ∧ ∀ i, i < b.K →
        r.2.1.val t i = c * mapSum b R (b.alpha.val 0) (b.beta.val b.tau) t i := by
  obtain ⟨r, hr, hr1, hval⟩ := decode_ri_val b R ri ro hinit hx hy
  refine ⟨r, hr, ?_⟩
  intro t ht
  have hN := normalised_of_decode b R hM hwf hwfX hR ha0 hbE
  obtain ⟨c, hc, hsum⟩ := hN.posterior_scaled HA HB _ (work_results_Py_eq _) hPy t ht
  refine ⟨c, hc, ?_⟩
  intro i hi
  rw [hval t i ht hi, hr1, mapSum_eq b R _ _ hwf t i ht hi]
  exact hsum i hi

/-- The decoder has at least one state if `Py` is not zero. -/
theorem states_pos_of_Py (b : Bcjr) (hPy : b.work_results_Py ≠ 0) : 0 < b.M := by
  by_contra h0
  have : b.M = 0 := by omega
  apply hPy
  rw [work_results_Py_eq, this]
  rfl

/-- C1: BCJR decode computes the MAP input posteriors up to a per-time-step scale. For a
trellis whose tables map into the state and output ranges, non-negative `R`, start vector
`alpha[0]` and end vector `beta[tau]`, and whenever no normalisation divisor (of a row of alpha,
of a row of beta, or `Py`) is zero, `decode(R, ri, ro)` returns and for every `t < tau` there is
a constant `c > 0` with `ri[t][i] = c * mapSum t i` for every input `i`, where `mapSum t i` is
the sum over all start states and all input sequences `u` with `u_t = i` of
`alpha[0][s_0] * prod_k R[k][lut_X(s_k,u_k)] * beta[tau][s_tau]`. -/
theorem decode_map_posterior (b : Bcjr) (R ri ro : Matrix) (hinit : b.initialised = true)
    (hwf : ∀ m i, m < b.M → i < b.K → b.lut_m m i < b.M)
    (hwfX : ∀ m i, m < b.M → i < b.K → b.lut_X m i < b.N)
    (hR : ∀ t x, t < b.tau → x < b.N → 0 ≤ R.val t x)
    (ha0 : ∀ m, m < b.M → 0 ≤ b.alpha.val 0 m)
    (hbE : ∀ m, m < b.M → 0 ≤ b.beta.val b.tau m)
    (hx : b.tau ≤ ri.xsize) (hy : b.K ≤ ri.ysize)
    (hA : ∀ k, k < b.tau → (b.work_gamma R).alpha_divisor k ≠ 0)
    (hB : ∀ t, t < b.tau → (b.work_gamma R).work_alpha.beta_divisor t ≠ 0)
    (hPy : (b.work_gamma R).work_alpha.work_beta.work_results_Py ≠ 0) :
    ∃ r, b.decode R ri ro = some r ∧
      ∀ t, t < b.tau → ∃ c, 0 < c ∧ ∀ i, i < b.K →
        r.2.1.val t i = c * mapSum b R (b.alpha.val 0) (b.beta.val b.tau) t i :=
  decode_posterior_core b R ri ro hinit (states_pos_of_Py (b.work_gamma R).work_alpha.work_beta hPy) hwf hwfX hR ha0 hbE hx hy
    (fun k hk => Or.inl (hA k hk)) (fun t ht => Or.inl (hB t ht)) hPy

/-! ## The total mass and the normalised posteriors -/

namespace Normalised

variable {M K tau : Nat} {lm : Nat → Nat → Nat} {g : Nat → Nat → Nat → ℚ}
  {a0 bEnd : Nat → ℚ} {A B : Nat → Nat → ℚ} {D E : Nat → ℚ}

theorem bwd_pred (K : Nat) (lm : Nat → Nat → Nat) (g : Nat → Nat → Nat → ℚ) (bEnd : Nat → ℚ)
    (n t : Nat) (hn : 0 < n) :
    bwd K lm g bEnd n t = bkStep K lm (g t) (bwd K lm g bEnd (n - 1) (t + 1)) := by
  obtain ⟨n', rfl⟩ : ∃ n', n = n' + 1 := ⟨n - 1, by omega⟩
  rfl

theorem total_nonneg (h : Normalised M K tau lm g a0 bEnd A B D E) :
    0 ≤ ∑ m in Finset.range M, a0 m * bwd K lm g bEnd tau 0 m := by
  apply Finset.sum_nonneg
  intro m hm
  exact mul_nonneg (h.ha0 m (Finset.mem_range.mp hm))
    (bwd_nonneg M K tau lm h.hwf g bEnd h.hb h.hg tau 0 (by omega) m (Finset.mem_range.mp hm))

/-- The divisor `Py` is a positive multiple of the total mass of all paths. -/
theorem Py_eq_total (h : Normalised M K tau lm g a0 bEnd A B D E)
    (HA : ∀ k, k < tau → D k ≠ 0 ∨ ∃ m, m < M ∧ 0 < fwd M K lm g a0 (k + 1) m) :
    ∃ e, 0 < e ∧ ∑ m in Finset.range M, A tau m * B tau m =
      e * ∑ m in Finset.range M, a0 m * bwd K lm g bEnd tau 0 m := by
  obtain ⟨e, he, hAe⟩ := (h.alpha_scaled HA tau (le_refl _)).1
  refine ⟨e, he, ?_⟩
  rw [← h.total_eq tau (le_refl _), Nat.sub_self, Finset.mul_sum]
  apply Finset.sum_congr rfl
  intro m hm
  rw [hAe m (Finset.mem_range.mp hm), h.hBend m (Finset.mem_range.mp hm)]
  show _ = e * (fwd M K lm g a0 tau m * bEnd m)
  ring

/-- Summed over the inputs, the plain forward-backward sums give the total mass. -/
theorem sum_inputs_total (h : Normalised M K tau lm g a0 bEnd A B D E) (t : Nat)
    (ht : t < tau) :
    ∑ i in Finset.range K, ∑ m in Finset.range M,
        fwd M K lm g a0 t m * g t m i * bwd K lm g bEnd (tau - t - 1) (t + 1) (lm m i) =
      ∑ m in Finset.range M, a0 m * bwd K lm g bEnd tau 0 m := by
  rw [Finset.sum_comm, ← h.total_eq t (by omega)]
  apply Finset.sum_congr rfl
  intro m _
  rw [bwd_pred K lm g bEnd (tau - t) t (by omega)]
  unfold bkStep
  rw [Finset.mul_sum]
  apply Finset.sum_congr rfl
  intro i _
  ring

theorem fb_nonneg (h : Normalised M K tau lm g a0 bEnd A B D E) (t : Nat) (ht : t < tau)
    (i : Nat) (hi : i < K) :
    0 ≤ ∑ m in Finset.range M,
        fwd M K lm g a0 t m * g t m i * bwd K lm g bEnd (tau - t - 1) (t + 1) (lm m i) := by
  apply Finset.sum_nonneg
  intro m hm
  have hm' := Finset.mem_range.mp hm
  exact mul_nonneg (mul_nonneg (fwd_nonneg M K tau lm g a0 h.ha0 h.hg t (by omega) m hm')
    (h.hg t m i ht hm' hi))
    (bwd_nonneg M K tau lm h.hwf g bEnd h.hb h.hg (tau - t - 1) (t + 1) (by omega) _
      (h.hwf m i hm' hi))

end Normalised

theorem work_results_shape (b : Bcjr) (ri ro : Matrix) :
    (b.work_results ri ro).1.xsize = ri.xsize ∧ (b.work_results ri ro).1.ysize = ri.ysize := by
  rw [work_results_fst]
  exact ⟨(addLoop_outer _ _ _ _ _).1, (addLoop_outer _ _ _ _ _).2.1⟩

/-- The claim of C2 fails on the example decoder: with a strictly positive channel table, the
normalised input posteriors of time 0 are `5/16` and `1`, which sum to `21/16`. -/
theorem normalised_posteriors_sum_counterexample :
    (exampleBcjr.decode exampleRpos exampleRi exampleRo).map
        (fun r => ∑ i in Finset.range 2, (Bcjr.normalize r.2.1).val 0 i) = some (21 / 16) ∧
      (21 / 16 : ℚ) ≠ 1 := by
  constructor
  · decide!
  · norm_num

/-- C2, amended: in exact arithmetic, for a trellis whose tables map into the state and output
ranges, non-negative start and end vectors, a channel table `R` with strictly positive
entries and a `tau x K` matrix `ri`, whenever no normalisation divisor is zero, the input posteriors produced by
`decode` and then normalised by `bcjr::normalize` have, in every row `t < tau`, maximum 1:
every entry lies in `[0, 1]`, and the row sum is at least 1 (the normaliser divides by the row
maximum, not by the row sum). -/
theorem decode_normalised_rowmax (b : Bcjr) (R ri ro : Matrix) (hinit : b.initialised = true)
    (hwf : ∀ m i, m < b.M → i < b.K → b.lut_m m i < b.M)
    (hwfX : ∀ m i, m < b.M → i < b.K → b.lut_X m i < b.N)
    (hR : ∀ t x, t < b.tau → x < b.N → 0 < R.val t x)
    (ha0 : ∀ m, m < b.M → 0 ≤ b.alpha.val 0 m)
    (hbE : ∀ m, m < b.M → 0 ≤ b.beta.val b.tau m)
    (hx : ri.xsize = b.tau) (hy : ri.ysize = b.K)
    (hA : ∀ k, k < b.tau → (b.work_gamma R).alpha_divisor k ≠ 0)
    (hB : ∀ t, t < b.tau → (b.work_gamma R).work_alpha.beta_divisor t ≠ 0)
    (hPy : (b.work_gamma R).work_alpha.work_beta.work_results_Py ≠ 0) :
    ∃ r, b.decode R ri ro = some r ∧
      ∀ t, t < b.tau →
        (Bcjr.normalize r.2.1).rowMax t = 1 ∧
        (∀ i, i < b.K → 0 ≤ (Bcjr.normalize r.2.1).val t i ∧
          (Bcjr.normalize r.2.1).val t i ≤ 1) ∧
        1 ≤ ∑ i in Finset.range b.K, (Bcjr.normalize r.2.1).val t i := by
  have hRnn : ∀ t x, t < b.tau → x < b.N → 0 ≤ R.val t x :=
    fun t x ht hx => le_of_lt (hR t x ht hx)
  have hM : 0 < b.M := states_pos_of_Py (b.work_gamma R).work_alpha.work_beta hPy
  obtain ⟨r, hr, hval⟩ := decode_posterior_core b R ri ro hinit hM hwf hwfX hRnn ha0 hbE
    (le_of_eq hx.symm) (le_of_eq hy.symm) (fun k hk => Or.inl (hA k hk))
    (fun t ht => Or.inl (hB t ht)) hPy
  refine ⟨r, hr, ?_⟩
  have hshape : r.2.1.xsize = b.tau ∧ r.2.1.ysize = b.K := by
    unfold Bcjr.decode at hr
    rw [if_pos hinit] at hr
    have := Option.some.inj hr
    rw [← this]
    dsimp only
    rw [(work_results_shape _ ri ro).1, (work_results_shape _ ri ro).2]
    exact ⟨hx, hy⟩
  have hN := normalised_of_decode b R hM hwf hwfX hRnn ha0 hbE
  obtain ⟨e, he, hPyE⟩ := hN.Py_eq_total (fun k hk => Or.inl (hA k hk))
  have hPpos : 0 < ∑ m in Finset.range b.M,
      b.alpha.val 0 m * bwd b.K b.lut_m (fun t m i => R.val t (b.lut_X m i))
        (b.beta.val b.tau) b.tau 0 m := by
    apply lt_of_le_of_ne hN.total_nonneg
    intro h0
    apply hPy
    rw [work_results_Py_eq]
    have h1 := hPyE
    rw [← h0, mul_zero] at h1
    exact h1
  intro t ht
  obtain ⟨c, hc, hci⟩ := hval t ht
  have hms : ∀ i, i < b.K → 0 ≤ mapSum b R (b.alpha.val 0) (b.beta.val b.tau) t i := by
    intro i hi
    rw [mapSum_eq b R _ _ hwf t i ht hi]
    exact hN.fb_nonneg t ht i hi
  have hnn : ∀ i, i < b.K → 0 ≤ r.2.1.val t i := by
    intro i hi
    rw [hci i hi]
    exact mul_nonneg (le_of_lt hc) (hms i hi)
  have hex : ∃ i, i < b.K ∧ 0 < r.2.1.val t i := by
    have hsum : 0 < ∑ i in Finset.range b.K,
        mapSum b R (b.alpha.val 0) (b.beta.val b.tau) t i := by
      have e1 : ∀ i, i ∈ Finset.range b.K →
          mapSum b R (b.alpha.val 0) (b.beta.val b.tau) t i = _ :=
        fun i hi => mapSum_eq b R _ _ hwf t i ht (Finset.mem_range.mp hi)
      rw [Finset.sum_congr rfl e1]
      have := hN.sum_inputs_total t ht
      rw [this]
      exact hPpos
    obtain ⟨i, hi, hpos⟩ := exists_pos_of_sum_pos b.K _ hsum
    exact ⟨i, hi, by rw [hci i hi]; exact mul_pos hc hpos⟩
  obtain ⟨i0, hi0, hpos0⟩ := hex
  have hrm : 0 < r.2.1.rowMax t := by
    unfold Matrix.rowMax
    rw [hshape.2]
    exact maxLoop_pos _ _ i0 (by omega) hpos0
  have htx : t < r.2.1.xsize := by rw [hshape.1]; exact ht
  have hone := normalize_rowMax_pos r.2.1 t htx (by rw [hshape.2]; omega) hrm
  have hentry : ∀ i, i < b.K →
      (Bcjr.normalize r.2.1).val t i = r.2.1.val t i * (1 / r.2.1.rowMax t) := by
    intro i hi
    rw [normalize_val, if_pos ⟨htx, by rw [hshape.2]; exact hi, hrm⟩]
  have hentry_nn : ∀ i, i < b.K → 0 ≤ (Bcjr.normalize r.2.1).val t i := by
    intro i hi
    rw [hentry i hi]
    exact mul_nonneg (hnn i hi) (le_of_lt (one_div_pos.mpr hrm))
  refine ⟨hone, ?_, ?_⟩
  · intro i hi
    refine ⟨hentry_nn i hi, ?_⟩
    rw [← hone]
    unfold Matrix.rowMax
    rw [normalize_ysize, hshape.2]
    exact maxLoop_ge _ _ i (by omega)
  · obtain ⟨j, hj, hjv⟩ := maxLoop_mem ((Bcjr.normalize r.2.1).val t)
      ((Bcjr.normalize r.2.1).ysize - 1)
    have hj1 : (Bcjr.normalize r.2.1).val t j = 1 := by
      rw [← hjv]; exact hone
    rw [normalize_ysize, hshape.2] at hj
    have hjK : j ∈ Finset.range b.K := Finset.mem_range.mpr (by omega)
    rw [← hj1]
    exact Finset.single_le_sum (fun i hi => hentry_nn i (Finset.mem_range.mp hi)) hjK

/-! ## Noiseless decoding -/

theorem mem_inputSeqs (K : Nat) (n : Nat) (v : List Nat) :
    v ∈ inputSeqs K n ↔ v.length = n ∧ ∀ i, i ∈ v → i < K := by
  induction n generalizing v with
  | zero =>
    constructor
    · intro h
      have : v = [] := by simpa [inputSeqs] using h
      subst this
      exact ⟨rfl, fun i hi => absurd hi (List.not_mem_nil i)⟩
    · intro h
      have : v = [] := List.length_eq_zero.mp h.1
      subst this
      simp [inputSeqs]
  | succ n ih =>
    rw [inputSeqs_succ, List.mem_flatMap]
    constructor
    · rintro ⟨i, hi, hv⟩
      rw [List.mem_map] at hv
      obtain ⟨w, hw, rfl⟩ := hv
      obtain ⟨hl, hK⟩ := (ih w).mp hw
      refine ⟨by rw [List.length_cons, hl], ?_⟩
      intro j hj
      rcases List.mem_cons.mp hj with h | h
      · rw [h]; exact List.mem_range.mp hi
      · exact hK j h
    · rintro ⟨hl, hK⟩
      cases v with
      | nil => exact absurd hl (by simp)
      | cons i w =>
        refine ⟨i, List.mem_range.mpr (hK i (List.mem_cons_self i w)), ?_⟩
        rw [List.mem_map]
        refine ⟨w, (ih w).mpr ⟨?_, fun j hj => hK j (List.mem_cons_of_mem i hj)⟩, rfl⟩
        rw [List.length_cons] at hl
        omega

theorem encOutputs_length (b : Bcjr) (s : Nat) (u : List Nat) :
    (encOutputs b s u).length = u.length := by
  induction u generalizing s with
  | nil => rfl
  | cons i u ih =>
    show (b.lut_X s i :: encOutputs b (b.lut_m s i) u).length = _
    rw [List.length_cons, ih, List.length_cons]

/-- With a noiseless channel table for the codeword `xs` and the end state `e` known, the
weight of a path is 1 if it produces the rest of `xs` and ends in `e`, and 0 otherwise. -/
theorem pathW_noiseless (b : Bcjr) (R : Matrix) (xs : List Nat) (e : Nat) (bE : Nat → ℚ)
    (hxs : xs.length = b.tau)
    (hwf : ∀ m i, m < b.M → i < b.K → b.lut_m m i < b.M)
    (hwfX : ∀ m i, m < b.M → i < b.K → b.lut_X m i < b.N)
    (hR : ∀ t x, t < b.tau → x < b.N → R.val t x = if xs[t]? = some x then 1 else 0)
    (hbE : ∀ m, m < b.M → bE m = if m = e then 1 else 0) (v : List Nat) (k sv : Nat)
    (hk : k + v.length = b.tau) (hsv : sv < b.M) (hv : ∀ i, i ∈ v → i < b.K) :
    pathW b.lut_m (fun t m i => R.val t (b.lut_X m i)) bE k sv v =
      if encOutputs b sv v = xs.drop k ∧ encFinal b sv v = e then 1 else 0 := by
  induction v generalizing k sv with
  | nil =>
    have hk' : xs.length ≤ k := by rw [hxs]; simp at hk; omega
    show bE sv = _
    rw [hbE sv hsv, List.drop_of_length_le hk']
    by_cases hc : sv = e
    · rw [if_pos hc, if_pos ⟨rfl, hc⟩]
    · rw [if_neg hc, if_neg (fun h => hc h.2)]
  | cons i v ih =>
    have hlen : k + 1 + v.length = b.tau := by rw [List.length_cons] at hk; omega
    have hkt : k < b.tau := by omega
    have hkx : k < xs.length := by rw [hxs]; exact hkt
    have hi : i < b.K := hv i (List.mem_cons_self i v)
    rw [pathW_cons, ih (k + 1) (b.lut_m sv i) hlen (hwf sv i hsv hi)
      (fun j hj => hv j (List.mem_cons_of_mem i hj))]
    show R.val k (b.lut_X sv i) * _ = _
    rw [hR k _ hkt (hwfX sv i hsv hi), List.getElem?_eq_getElem hkx,
      List.drop_eq_getElem_cons hkx]
    show _ = if b.lut_X sv i :: encOutputs b (b.lut_m sv i) v = _ ∧
      encFinal b (b.lut_m sv i) v = e then 1 else 0
    by_cases h1 : xs[k] = b.lut_X sv i
    · rw [if_pos (by rw [h1]), one_mul]
      by_cases h2 : encOutputs b (b.lut_m sv i) v = List.drop (k + 1) xs ∧
          encFinal b (b.lut_m sv i) v = e
      · rw [if_pos h2, if_pos ⟨by rw [h1, h2.1], h2.2⟩]
      · rw [if_neg h2, if_neg]
        rintro ⟨h3, h4⟩
        exact h2 ⟨(List.cons.inj h3).2, h4⟩
    · rw [if_neg (fun h => h1 (Option.some.inj h)), zero_mul, if_neg]
      rintro ⟨h3, _⟩
      exact h1 (List.cons.inj h3).1.symm

theorem encOutputs_congr (b c : Bcjr) (hX : b.lut_X = c.lut_X) (hm : b.lut_m = c.lut_m)
    (s : Nat) (v : List Nat) : encOutputs b s v = encOutputs c s v := by
  induction v generalizing s with
  | nil => rfl
  | cons i v ih =>
    show b.lut_X s i :: encOutputs b (b.lut_m s i) v = c.lut_X s i :: encOutputs c (c.lut_m s i) v
    rw [ih, hX, hm]

theorem encFinal_congr (b c : Bcjr) (hm : b.lut_m = c.lut_m) (s : Nat) (v : List Nat) :
    encFinal b s v = encFinal c s v := by
  induction v generalizing s with
  | nil => rfl
  | cons i v ih =>
    show encFinal b (b.lut_m s i) v = encFinal c (c.lut_m s i) v
    rw [ih, hm]

theorem setstart_spec (b : Bcjr) (s : Nat) :
    (b.setstart s).initialised = true ∧ (b.setstart s).tau = b.tau ∧
    (b.setstart s).K = b.K ∧ (b.setstart s).N = b.N ∧ (b.setstart s).M = b.M ∧
    (b.setstart s).lut_X = b.lut_X ∧ (b.setstart s).lut_m = b.lut_m ∧
    ∀ m, m < b.M → (b.setstart s).alpha.val 0 m = if m = s then 1 else 0 := by
  have hval : ∀ (c : Bcjr) m, m < c.M →
      ((forUp c.M (fun m alpha => alpha.set 0 m 0) c.alpha).set 0 s 1).val 0 m
        = if m = s then 1 else 0 := by
    intro c m hm
    rw [Matrix.set_val, (assignLoop_inner 0 (fun _ => (0 : ℚ)) c.alpha c.M).2.2 0 m]
    by_cases hms : m = s
    · rw [if_pos ⟨rfl, hms⟩, if_pos hms]
    · rw [if_neg (fun h => hms h.2), if_neg hms, if_pos ⟨rfl, hm⟩]
  unfold Bcjr.setstart
  cases hb : b.initialised
  · refine ⟨rfl, rfl, rfl, rfl, rfl, rfl, rfl, ?_⟩
    intro m hm
    exact hval b.allocate m hm
  · refine ⟨hb, rfl, rfl, rfl, rfl, rfl, rfl, ?_⟩
    intro m hm
    exact hval b m hm

theorem setend_spec (b : Bcjr) (e : Nat) (hinit : b.initialised = true) :
    (b.setend e).initialised = true ∧ (b.setend e).tau = b.tau ∧
    (b.setend e).K = b.K ∧ (b.setend e).N = b.N ∧ (b.setend e).M = b.M ∧
    (b.setend e).lut_X = b.lut_X ∧ (b.setend e).lut_m = b.lut_m ∧
    (b.setend e).alpha = b.alpha ∧
    ∀ m, m < b.M → (b.setend e).beta.val b.tau m = if m = e then 1 else 0 := by
  unfold Bcjr.setend
  rw [hinit]
  refine ⟨hinit, rfl, rfl, rfl, rfl, rfl, rfl, rfl, ?_⟩
  intro m hm
  show ((forUp b.M (fun m beta => beta.set b.tau m 0) b.beta).set b.tau e 1).val b.tau m = _
  rw [Matrix.set_val, (assignLoop_inner b.tau (fun _ => (0 : ℚ)) b.beta b.M).2.2 b.tau m]
  by_cases hme : m = e
  · rw [if_pos ⟨rfl, hme⟩, if_pos hme]
  · rw [if_neg (fun h => hme h.2), if_neg hme, if_pos ⟨rfl, hm⟩]

/-- Noiseless decoding on an allocated decoder whose start vector is the impulse at `s` and
whose end vector is the impulse at the encoder's final state. -/
theorem noiseless_core (b : Bcjr) (R ri ro : Matrix) (s : Nat) (u : List Nat)
    (hinit : b.initialised = true)
    (hwf : ∀ m i, m < b.M → i < b.K → b.lut_m m i < b.M)
    (hwfX : ∀ m i, m < b.M → i < b.K → b.lut_X m i < b.N)
    (hs : s < b.M) (hu : u.length = b.tau) (huK : ∀ i, i ∈ u → i < b.K)
    (ha0 : ∀ m, m < b.M → b.alpha.val 0 m = if m = s then 1 else 0)
    (hbE : ∀ m, m < b.M → b.beta.val b.tau m = if m = encFinal b s u then 1 else 0)
    (hR : ∀ t x, t < b.tau → x < b.N →
      R.val t x = if (encOutputs b s u)[t]? = some x then 1 else 0)
    (huniq : ∀ v, v.length = b.tau → (∀ i, i ∈ v → i < b.K) →
      encOutputs b s v = encOutputs b s u → encFinal b s v = encFinal b s u → v = u)
    (hx : b.tau ≤ ri.xsize) (hy : b.K ≤ ri.ysize) :
    ∃ r, b.decode R ri ro = some r ∧
      ∀ t ut, u[t]? = some ut →
        (∀ i, i < b.K → i ≠ ut → r.2.1.val t i < r.2.1.val t ut) ∧
        argLoop (r.2.1.val t) (b.K - 1) = ut := by
  have hM : 0 < b.M := by omega
  have hRnn : ∀ t x, t < b.tau → x < b.N → 0 ≤ R.val t x := by
    intro t x ht hx
    rw [hR t x ht hx]
    split_ifs
    · exact zero_le_one
    · exact le_refl _
  have ha0nn : ∀ m, m < b.M → 0 ≤ b.alpha.val 0 m := by
    intro m hm
    rw [ha0 m hm]
    split_ifs
    · exact zero_le_one
    · exact le_refl _
  have hbEnn : ∀ m, m < b.M → 0 ≤ b.beta.val b.tau m := by
    intro m hm
    rw [hbE m hm]
    split_ifs
    · exact zero_le_one
    · exact le_refl _
  have hN := normalised_of_decode b R hM hwf hwfX hRnn ha0nn hbEnn
  -- the weight of a path from `s`
  have hW : ∀ v, v ∈ inputSeqs b.K b.tau →
      pathW b.lut_m (fun t m i => R.val t (b.lut_X m i)) (b.beta.val b.tau) 0 s v =
        if v = u then 1 else 0 := by
    intro v hv
    obtain ⟨hvl, hvK⟩ := (mem_inputSeqs b.K b.tau v).mp hv
    rw [pathW_noiseless b R (encOutputs b s u) (encFinal b s u) (b.beta.val b.tau)
      (by rw [encOutputs_length, hu]) hwf hwfX hR hbE v 0 s (by omega) hs hvK, List.drop_zero]
    by_cases hvu : v = u
    · rw [if_pos hvu, hvu, if_pos ⟨rfl, rfl⟩]
    · rw [if_neg hvu, if_neg (fun h => hvu (huniq v hvl hvK h.1 h.2))]
  have hWnn : ∀ v, v ∈ inputSeqs b.K b.tau →
      0 ≤ pathW b.lut_m (fun t m i => R.val t (b.lut_X m i)) (b.beta.val b.tau) 0 s v := by
    intro v hv
    rw [hW v hv]
    split_ifs
    · exact zero_le_one
    · exact le_refl _
  have humem : u ∈ inputSeqs b.K b.tau := (mem_inputSeqs b.K b.tau u).mpr ⟨hu, huK⟩
  -- sums against the impulse start vector
  have himp : ∀ f : Nat → ℚ, ∑ m in Finset.range b.M, b.alpha.val 0 m * f m = f s := by
    intro f
    rw [Finset.sum_eq_single s]
    · rw [ha0 s hs, if_pos rfl, one_mul]
    · intro m hm hms
      rw [ha0 m (Finset.mem_range.mp hm), if_neg hms, zero_mul]
    · intro h
      exact absurd (Finset.mem_range.mpr hs) h
  -- the total mass is positive
  have hP : 0 < ∑ m in Finset.range b.M, b.alpha.val 0 m *
      bwd b.K b.lut_m (fun t m i => R.val t (b.lut_X m i)) (b.beta.val b.tau) b.tau 0 m := by
    rw [himp, ← sum_pathW]
    have h1 : (1 : ℚ) ≤ ((inputSeqs b.K b.tau).map
        (pathW b.lut_m (fun t m i => R.val t (b.lut_X m i)) (b.beta.val b.tau) 0 s)).sum := by
      have hmem : pathW b.lut_m (fun t m i => R.val t (b.lut_X m i)) (b.beta.val b.tau) 0 s u
          ∈ (inputSeqs b.K b.tau).map
            (pathW b.lut_m (fun t m i => R.val t (b.lut_X m i)) (b.beta.val b.tau) 0 s) :=
        List.mem_map.mpr ⟨u, humem, rfl⟩
      have := List.single_le_sum (fun x hx => by
        obtain ⟨v, hv, rfl⟩ := List.mem_map.mp hx
        exact hWnn v hv) _ hmem
      rw [hW u humem, if_pos rfl] at this
      exact this
    exact lt_of_lt_of_le zero_lt_one h1
  have HA : ∀ k, k < b.tau → (b.work_gamma R).alpha_divisor k ≠ 0 ∨
      ∃ m, m < b.M ∧
        0 < fwd b.M b.K b.lut_m (fun t m i => R.val t (b.lut_X m i)) (b.alpha.val 0) (k + 1) m :=
    fun k hk => Or.inr (by
      obtain ⟨m, hm, h1, _⟩ := hN.pos_of_total hP (k + 1) (by omega)
      exact ⟨m, hm, h1⟩)
  have HB : ∀ t, t < b.tau → (b.work_gamma R).work_alpha.beta_divisor t ≠ 0 ∨
      ∃ m, m < b.M ∧
        0 < bwd b.K b.lut_m (fun t m i => R.val t (b.lut_X m i)) (b.beta.val b.tau)
          (b.tau - t) t m :=
    fun t ht => Or.inr (by
      obtain ⟨m, hm, _, h2⟩ := hN.pos_of_total hP t (by omega)
      exact ⟨m, hm, h2⟩)
  have hPy : (b.work_gamma R).work_alpha.work_beta.work_results_Py ≠ 0 := by
    obtain ⟨e, he, hPyE⟩ := hN.Py_eq_total HA
    rw [work_results_Py_eq]
    have hpos := mul_pos he hP
    rw [← hPyE] at hpos
    exact ne_of_gt hpos
  obtain ⟨r, hr, hval⟩ := decode_posterior_core b R ri ro hinit hM hwf hwfX hRnn ha0nn hbEnn
    hx hy HA HB hPy
  refine ⟨r, hr, ?_⟩
  intro t ut hut
  have htl : t < u.length := (List.getElem?_eq_some_iff.mp hut).1
  have ht : t < b.tau := by omega
  have hutK : ut < b.K := huK ut (List.getElem?_mem hut)
  obtain ⟨c, hc, hci⟩ := hval t ht
  -- the MAP path sums are sums of path weights from `s`
  have hms : ∀ i, i < b.K → mapSum b R (b.alpha.val 0) (b.beta.val b.tau) t i =
      pathSumAt b.K b.lut_m (fun t m i => R.val t (b.lut_X m i)) (b.beta.val b.tau)
        b.tau 0 s t i := by
    intro i hi
    rw [mapSum_eq b R _ _ hwf t i ht hi,
      ← himp (fun m => pathSumAt b.K b.lut_m (fun t m i => R.val t (b.lut_X m i))
        (b.beta.val b.tau) b.tau 0 m t i)]
    rw [path_decomposition b.M b.K b.lut_m hwf _ _ i hi t b.tau 0 (b.alpha.val 0) ht]
    apply Finset.sum_congr rfl
    intro m _
    rw [fwdFrom_zero_eq, Nat.zero_add]
  have hzero : ∀ i, i < b.K → i ≠ ut →
      mapSum b R (b.alpha.val 0) (b.beta.val b.tau) t i = 0 := by
    intro i hi hne
    rw [hms i hi]
    unfold pathSumAt
    apply List.sum_eq_zero
    intro x hx
    obtain ⟨v, hv, rfl⟩ := List.mem_map.mp hx
    obtain ⟨hv1, hv2⟩ := List.mem_filter.mp hv
    rw [hW v hv1, if_neg]
    intro hvu
    rw [hvu] at hv2
    have : u[t]? = some i := of_decide_eq_true hv2
    rw [hut] at this
    exact hne (Option.some.inj this).symm
  have hpos : 0 < mapSum b R (b.alpha.val 0) (b.beta.val b.tau) t ut := by
    rw [hms ut hutK]
    unfold pathSumAt
    have hmem : pathW b.lut_m (fun t m i => R.val t (b.lut_X m i)) (b.beta.val b.tau) 0 s u
        ∈ ((inputSeqs b.K b.tau).filter (fun u => decide (u[t]? = some ut))).map
          (pathW b.lut_m (fun t m i => R.val t (b.lut_X m i)) (b.beta.val b.tau) 0 s) :=
      List.mem_map.mpr ⟨u, List.mem_filter.mpr ⟨humem, decide_eq_true hut⟩, rfl⟩
    have := List.single_le_sum (fun x hx => by
      obtain ⟨v, hv, rfl⟩ := List.mem_map.mp hx
      exact hWnn v (List.mem_filter.mp hv).1) _ hmem
    rw [hW u humem, if_pos rfl] at this
    exact lt_of_lt_of_le zero_lt_one this
  have hlt : ∀ i, i < b.K → i ≠ ut → r.2.1.val t i < r.2.1.val t ut := by
    intro i hi hne
    rw [hci i hi, hci ut hutK, hzero i hi hne, mul_zero]
    exact mul_pos hc hpos
  refine ⟨hlt, ?_⟩
  by_contra hne
  have hle := argLoop_le (r.2.1.val t) (b.K - 1)
  have h1 := hlt _ (by omega) hne
  have h2 := argLoop_ge (r.2.1.val t) (b.K - 1) ut (by omega)
  exact absurd h1 (not_lt.mpr h2)

/-- The claim of C3 fails on a trellis with parallel transitions: after the input `1` is
encoded from state 0 and passed noiselessly, both inputs have posterior 1, and the lowest-index
argmax is `0`, not the encoder's input. -/
theorem noiseless_parallel_counterexample :
    (((parallelTrellis.setstart 0).setend (encFinal parallelTrellis 0 [1])).decode
        (noiselessR 1 (encOutputs parallelTrellis 0 [1])) exampleRi exampleRo).map
      (fun r => (r.2.1.val 0 0, r.2.1.val 0 1, argLoop (r.2.1.val 0) 1)) = some (1, 1, 0) ∧
    [1][0]? = some 1 := by
  constructor
  · decide!
  · rfl

/-- C3, amended: noiseless BCJR decoding recovers the encoder input when the codeword
determines it. For a trellis whose tables map into the state and output ranges, a start state
`s`, and an input sequence `u` of length `tau` that is the only one driving the encoder from
`s` through the outputs `x_0..x_{tau-1}` into the final state `e`: after `setstart(s)`,
`setend(e)` and `decode` with `R[t][x] = 1` if `x = x_t` and `0` otherwise, at every time `t`
the input `u_t` has a strictly larger posterior than every other input, so the argmax is
`u_t`. -/
theorem noiseless_decode_recovers_input (b : Bcjr) (R ri ro : Matrix) (s : Nat) (u : List Nat)
    (hwf : ∀ m i, m < b.M → i < b.K → b.lut_m m i < b.M)
    (hwfX : ∀ m i, m < b.M → i < b.K → b.lut_X m i < b.N)
    (hs : s < b.M) (hu : u.length = b.tau) (huK : ∀ i, i ∈ u → i < b.K)
    (hR : ∀ t x, t < b.tau → x < b.N →
      R.val t x = if (encOutputs b s u)[t]? = some x then 1 else 0)
    (huniq : ∀ v, v.length = b.tau → (∀ i, i ∈ v → i < b.K) →
      encOutputs b s v = encOutputs b s u → encFinal b s v = encFinal b s u → v = u)
    (hx : b.tau ≤ ri.xsize) (hy : b.K ≤ ri.ysize) :
    ∃ r, ((b.setstart s).setend (encFinal b s u)).decode R ri ro = some r ∧
      ∀ t ut, u[t]? = some ut →
        (∀ i, i < b.K → i ≠ ut → r.2.1.val t i < r.2.1.val t ut) ∧
        argLoop (r.2.1.val t) (b.K - 1) = ut := by
  obtain ⟨h1, h2, h3, h4, h5, h6, h7, h8⟩ := setstart_spec b s
  obtain ⟨k1, k2, k3, k4, k5, k6, k7, k8, k9⟩ := setend_spec (b.setstart s) (encFinal b s u) h1
  have etau := k2.trans h2
  have eK := k3.trans h3
  have eN := k4.trans h4
  have eM := k5.trans h5
  have eX := k6.trans h6
  have em := k7.trans h7
  have eo := encOutputs_congr _ b eX em
  have ef := encFinal_congr _ b em
  have hcore := noiseless_core ((b.setstart s).setend (encFinal b s u)) R ri ro s u k1
    (by rw [eM, eK, em]; exact hwf) (by rw [eM, eK, eN, eX]; exact hwfX)
    (by rw [eM]; exact hs) (by rw [etau]; exact hu) (by rw [eK]; exact huK)
    (by
      intro m hm
      rw [k8]
      exact h8 m (by rw [← eM]; exact hm))
    (by
      intro m hm
      rw [ef, etau, ← h2]
      exact k9 m (by rw [h5, ← eM]; exact hm))
    (by rw [etau, eN]; intro t x ht hx; rw [eo]; exact hR t x ht hx)
    (by rw [etau, eK]; intro v hv hvK; rw [eo, eo, ef, ef]; exact huniq v hv hvK)
    (by rw [etau]; exact hx) (by rw [eK]; exact hy)
  rw [eK] at hcore
  exact hcore

/-! ## `turbo::bcjr_wrap` -/

theorem setstart_pdf_initialised (b : Bcjr) (p : Nat → ℚ) :
    (b.setstart_pdf p).initialised = true := by
  unfold Bcjr.setstart_pdf
  cases hb : b.initialised
  · rfl
  · exact hb

theorem setend_pdf_initialised (b : Bcjr) (p : Nat → ℚ) :
    (b.setend_pdf p).initialised = true := by
  unfold Bcjr.setend_pdf
  cases hb : b.initialised
  · rfl
  · exact hb

theorem fdecode_app_some (b : Bcjr) (R app ri : Matrix) (hinit : b.initialised = true) :
    ∃ r, b.fdecode_app R app ri = some r ∧ r.1.initialised = true := by
  unfold Bcjr.fdecode_app
  rw [if_pos hinit]
  exact ⟨_, rfl, hinit⟩

namespace Turbo

theorem sameConfig_refl (T : Turbo) : T.sameConfig T := ⟨rfl, rfl, rfl, rfl, rfl, rfl, rfl⟩

theorem sameConfig_trans {T T1 T2 : Turbo} (h1 : T.sameConfig T1) (h2 : T1.sameConfig T2) :
    T.sameConfig T2 := by
  obtain ⟨a1, a2, a3, a4, a5, a6, a7⟩ := h1
  obtain ⟨b1, b2, b3, b4, b5, b6, b7⟩ := h2
  exact ⟨b1.trans a1, b2.trans a2, b3.trans a3, b4.trans a4, b5.trans a5, b6.trans a6,
    b7.trans a7⟩

theorem sameConfig_store (T : Turbo) (x : MRef) (a : Matrix) : T.sameConfig (T.store x a) :=
  ⟨rfl, rfl, rfl, rfl, rfl, rfl, rfl⟩

end Turbo

theorem extrinsicBody_frame (ra ri r re : MRef) (t x : Nat) (S : Turbo) :
    S.sameConfig (extrinsicBody ra ri r re t x S) ∧
      (extrinsicBody ra ri r re t x S).bcjr = S.bcjr := by
  unfold extrinsicBody
  split_ifs
  · exact ⟨Turbo.sameConfig_store _ _ _, rfl⟩
  · exact ⟨Turbo.sameConfig_store _ _ _, rfl⟩

/-- A loop whose body keeps a reflexive and transitive relation to its input keeps it to the
initial state. -/
theorem forUp_rel {σ : Type} (rel : σ → σ → Prop) (hrefl : ∀ s, rel s s)
    (htrans : ∀ a b c, rel a b → rel b c → rel a c) (f : Nat → σ → σ)
    (h : ∀ k s, rel s (f k s)) (n : Nat) (s : σ) : rel s (forUp n f s) := by
  induction n with
  | zero => exact hrefl s
  | succ n ih => exact htrans _ _ _ ih (h n _)

/-- `work_extrinsic` changes nothing but the matrix `re`. -/
theorem work_extrinsic_frame (T : Turbo) (ra ri r re : MRef) :
    T.sameConfig (T.work_extrinsic ra ri r re) ∧
    (T.work_extrinsic ra ri r re).bcjr = T.bcjr ∧
    ∀ y, y ≠ re → (T.work_extrinsic ra ri r re).mem y = T.mem y := by
  rw [work_extrinsic_eq]
  have h := forUp_rel
    (fun S S' : Turbo => S.sameConfig S' ∧ S'.bcjr = S.bcjr ∧ ∀ y, y ≠ re → S'.mem y = S.mem y)
    (fun S => ⟨Turbo.sameConfig_refl S, rfl, fun _ _ => rfl⟩)
    (fun a b c hab hbc => ⟨Turbo.sameConfig_trans hab.1 hbc.1, hbc.2.1.trans hab.2.1,
      fun y hy => (hbc.2.2 y hy).trans (hab.2.2 y hy)⟩)
  apply h
  intro t S
  apply h
  intro x S'
  exact ⟨(extrinsicBody_frame ra ri r re t x S').1, (extrinsicBody_frame ra ri r re t x S').2,
    fun y hy => extrinsicBody_mem_other ra ri r re t x S' y hy⟩

namespace Turbo

theorem bcjr_wrap_eq (T : Turbo) (set : Nat) (ra ri re : MRef) :
    T.bcjr_wrap set ra ri re =
      ((T.bcjr_wrap_prepare set ra).bcjr.fdecode_app
          ((T.bcjr_wrap_prepare set ra).mem (MRef.m_R set))
          ((T.bcjr_wrap_prepare set ra).mem MRef.m_rai)
          ((T.bcjr_wrap_prepare set ra).mem MRef.m_rii)).map
        (fun r => (T.bcjr_wrap_prepare set ra).bcjr_wrap_finish set ri re r.1 r.2) := rfl

theorem bcjr_wrap_prepare_spec (T : Turbo) (set : Nat) (ra : MRef)
    (hinit : T.circular = true ∨ T.bcjr.initialised = true) :
    T.sameConfig (T.bcjr_wrap_prepare set ra) ∧
    (T.bcjr_wrap_prepare set ra).bcjr.initialised = true ∧
    ∀ y, y ≠ MRef.m_rai → (T.bcjr_wrap_prepare set ra).mem y = T.mem y := by
  by_cases hc : T.circular = true
  · have e : T.bcjr_wrap_prepare set ra =
        ({ T with bcjr := (T.bcjr.setstart_pdf (T.ss set)).setend_pdf (T.se set) }).store
          MRef.m_rai ((T.inter set).transform (T.mem ra)) := by
      unfold bcjr_wrap_prepare
      rw [if_pos hc]
    rw [e]
    exact ⟨⟨rfl, rfl, rfl, rfl, rfl, rfl, rfl⟩, setend_pdf_initialised _ _,
      fun y hy => store_mem_other _ _ _ _ hy⟩
  · have e : T.bcjr_wrap_prepare set ra =
        T.store MRef.m_rai ((T.inter set).transform (T.mem ra)) := by
      unfold bcjr_wrap_prepare
      rw [if_neg hc]
    have hb : T.bcjr.initialised = true := by
      rcases hinit with h | h
      · exact absurd h hc
      · exact h
    rw [e]
    exact ⟨⟨rfl, rfl, rfl, rfl, rfl, rfl, rfl⟩, hb, fun y hy => store_mem_other _ _ _ _ hy⟩

theorem bcjr_wrap_finish_spec (T : Turbo) (set : Nat) (ri re : MRef) (b : Bcjr)
    (rii : Matrix) :
    T.sameConfig (T.bcjr_wrap_finish set ri re b rii) ∧
    (T.bcjr_wrap_finish set ri re b rii).bcjr = b ∧
    ∀ y, y ≠ MRef.m_rai → y ≠ MRef.m_rii → y ≠ ri → y ≠ re →
      (T.bcjr_wrap_finish set ri re b rii).mem y = T.mem y := by
  obtain ⟨f1, f2, f3⟩ := work_extrinsic_frame (({ T with bcjr := b }).store MRef.m_rii rii)
    MRef.m_rai MRef.m_rii (MRef.m_r set) MRef.m_rai
  have hmem : ∀ (S : Turbo) (A B : Matrix) y, y ≠ ri → y ≠ re →
      ((S.store ri A).store re B).mem y = S.mem y := by
    intro S A B y h3 h4
    rw [store_mem_other _ _ _ _ h4, store_mem_other _ _ _ _ h3]
  have hcfg : T.sameConfig (({ T with bcjr := b }).store MRef.m_rii rii) :=
    ⟨rfl, rfl, rfl, rfl, rfl, rfl, rfl⟩
  have hc2 := sameConfig_trans hcfg f1
  unfold bcjr_wrap_finish
  dsimp only
  split_ifs
  · refine ⟨?_, ?_, ?_⟩
    · exact sameConfig_trans hc2 ⟨rfl, rfl, rfl, rfl, rfl, rfl, rfl⟩
    · exact f2
    · intro y h1 h2 h3 h4
      show ((Turbo.store _ ri _).store re _).mem y = _
      rw [hmem _ _ _ y h3 h4, f3 y h1]
      exact store_mem_other _ _ _ _ h2
  · refine ⟨?_, ?_, ?_⟩
    · exact sameConfig_trans hc2 ⟨rfl, rfl, rfl, rfl, rfl, rfl, rfl⟩
    · exact f2
    · intro y h1 h2 h3 h4
      rw [hmem _ _ _ y h3 h4, f3 y h1]
      exact store_mem_other _ _ _ _ h2

/-- `bcjr_wrap` returns whenever the BCJR decoder is allocated (or the code is circular, in
which case `bcjr_wrap` sets the start and end vectors, which allocates); it leaves alone the
configuration and every matrix other than `rai`, `rii` and its two outputs. -/
theorem bcjr_wrap_spec (T : Turbo) (set : Nat) (ra ri re : MRef)
    (hinit : T.circular = true ∨ T.bcjr.initialised = true) :
    ∃ T', T.bcjr_wrap set ra ri re = some T' ∧ T.sameConfig T' ∧
      T'.bcjr.initialised = true ∧
      ∀ y, y ≠ MRef.m_rai → y ≠ MRef.m_rii → y ≠ ri → y ≠ re → T'.mem y = T.mem y := by
  obtain ⟨p1, p2, p3⟩ := bcjr_wrap_prepare_spec T set ra hinit
  obtain ⟨r, hr, hri⟩ := fdecode_app_some (T.bcjr_wrap_prepare set ra).bcjr
    ((T.bcjr_wrap_prepare set ra).mem (MRef.m_R set))
    ((T.bcjr_wrap_prepare set ra).mem MRef.m_rai)
    ((T.bcjr_wrap_prepare set ra).mem MRef.m_rii) p2
  obtain ⟨q1, q2, q3⟩ := bcjr_wrap_finish_spec (T.bcjr_wrap_prepare set ra) set ri re r.1 r.2
  rw [bcjr_wrap_eq, hr]
  refine ⟨_, rfl, sameConfig_trans p1 q1, by rw [q2]; exact hri, ?_⟩
  intro y h1 h2 h3 h4
  rw [q3 y h1 h2 h3 h4, p3 y h1]

end Turbo

/-! ## `turbo::decode_parallel` -/

theorem forUpO_succ {σ : Type} (n : Nat) (f : Nat → σ → Option σ) (s : σ) :
    forUpO (n + 1) f s = (forUpO n f s).bind (f n) := rfl

theorem multiplyby_val (a x : Matrix) (t i : Nat) :
    (a.multiplyby x).val t i =
      if t < a.xsize ∧ i < a.ysize then a.val t i * x.val t i else a.val t i := rfl

/-- Normalisation only looks at the entries inside the shape of a matrix. -/
theorem normalize_same (a c : Matrix) (h : a.same c) :
    (Bcjr.normalize a).same (Bcjr.normalize c) := by
  obtain ⟨hx, hy, hv⟩ := h
  refine ⟨by rw [normalize_xsize, normalize_xsize, hx],
    by rw [normalize_ysize, normalize_ysize, hy], ?_⟩
  intro t ht i hi
  rw [normalize_xsize] at ht
  rw [normalize_ysize] at hi
  have hmax : a.rowMax t = c.rowMax t := by
    unfold Matrix.rowMax
    rw [← hy]
    apply maxLoop_congr
    intro m hm
    exact hv t ht m (by omega)
  rw [normalize_val, normalize_val, ← hx, ← hy, hmax, hv t ht i hi]

namespace Turbo

/-- The first loop of `decode_parallel` after `n` sets: it has not failed, and every set
decoded so far has left its extrinsic matrix in its own `ra`. -/
theorem parallel_sets_loop (T : Turbo) (hinit : T.circular = true ∨ T.bcjr.initialised = true)
    (n : Nat) :
    ∃ W, forUpO n (fun set T => T.bcjr_wrap set (MRef.m_ra set) MRef.m_ri (MRef.m_ra set)) T
        = some W ∧
      T.sameConfig W ∧ (W.circular = true ∨ W.bcjr.initialised = true) ∧
      W.mem MRef.m_rp = T.mem MRef.m_rp ∧
      ∀ s, s < n → W.mem (MRef.m_ra s) = T.parallel_extrinsic MRef.m_ri s := by
  induction n with
  | zero =>
    exact ⟨T, rfl, sameConfig_refl T, hinit, rfl, fun s hs => absurd hs (Nat.not_lt_zero s)⟩
  | succ n ih =>
    obtain ⟨W, hW, hcfg, hWinit, hrp, hre⟩ := ih
    obtain ⟨W', hW', hcfg', hb', hmem'⟩ :=
      bcjr_wrap_spec W n (MRef.m_ra n) MRef.m_ri (MRef.m_ra n) hWinit
    refine ⟨W', ?_, sameConfig_trans hcfg hcfg', Or.inr hb', ?_, ?_⟩
    · rw [forUpO_succ, hW]
      exact hW'
    · rw [hmem' MRef.m_rp (by decide) (by decide) (by decide) (by simp), hrp]
    · intro s hs
      by_cases hsn : s = n
      · subst hsn
        unfold parallel_extrinsic parallel_before
        rw [hW]
        show _ = ((W.bcjr_wrap s (MRef.m_ra s) MRef.m_ri (MRef.m_ra s)).getD T).mem _
        rw [hW']
        rfl
      · rw [hmem' (MRef.m_ra s) (by simp) (by simp) (by simp) (by simp [hsn]),
          hre s (by omega)]

/-- The product loop of `decode_parallel` after `n` factors. -/
theorem parallel_product_loop (W : Turbo) (n : Nat) :
    (forUp n (fun j T =>
        T.store MRef.m_ri ((T.mem MRef.m_ri).multiplyby (T.mem (MRef.m_ra (j + 1)))))
      (W.store MRef.m_ri (W.mem (MRef.m_ra 0)))).num_sets = W.num_sets ∧
    (∀ y, y ≠ MRef.m_ri →
      (forUp n (fun j T =>
          T.store MRef.m_ri ((T.mem MRef.m_ri).multiplyby (T.mem (MRef.m_ra (j + 1)))))
        (W.store MRef.m_ri (W.mem (MRef.m_ra 0)))).mem y = W.mem y) ∧
    ((forUp n (fun j T =>
          T.store MRef.m_ri ((T.mem MRef.m_ri).multiplyby (T.mem (MRef.m_ra (j + 1)))))
        (W.store MRef.m_ri (W.mem (MRef.m_ra 0)))).mem MRef.m_ri).xsize
      = (W.mem (MRef.m_ra 0)).xsize ∧
    ((forUp n (fun j T =>
          T.store MRef.m_ri ((T.mem MRef.m_ri).multiplyby (T.mem (MRef.m_ra (j + 1)))))
        (W.store MRef.m_ri (W.mem (MRef.m_ra 0)))).mem MRef.m_ri).ysize
      = (W.mem (MRef.m_ra 0)).ysize ∧
    ∀ t x, t < (W.mem (MRef.m_ra 0)).xsize → x < (W.mem (MRef.m_ra 0)).ysize →
      ((forUp n (fun j T =>
          T.store MRef.m_ri ((T.mem MRef.m_ri).multiplyby (T.mem (MRef.m_ra (j + 1)))))
        (W.store MRef.m_ri (W.mem (MRef.m_ra 0)))).mem MRef.m_ri).val t x
        = ∏ s in Finset.range (n + 1), (W.mem (MRef.m_ra s)).val t x := by
  induction n with
  | zero =>
    refine ⟨rfl, fun y hy => store_mem_other _ _ _ _ hy, ?_, ?_, ?_⟩
    · show ((W.store MRef.m_ri (W.mem (MRef.m_ra 0))).mem MRef.m_ri).xsize = _
      rw [store_mem_same]
    · show ((W.store MRef.m_ri (W.mem (MRef.m_ra 0))).mem MRef.m_ri).ysize = _
      rw [store_mem_same]
    · intro t x _ _
      show ((W.store MRef.m_ri (W.mem (MRef.m_ra 0))).mem MRef.m_ri).val t x = _
      rw [store_mem_same]
      simp
  | succ n ih =>
    obtain ⟨h1, h2, h3, h4, h5⟩ := ih
    rw [forUp_succ]
    refine ⟨h1, ?_, ?_, ?_, ?_⟩
    · intro y hy
      rw [store_mem_other _ _ _ _ hy, h2 y hy]
    · rw [store_mem_same]
      exact h3
    · rw [store_mem_same]
      exact h4
    · intro t x ht hx
      rw [store_mem_same, multiplyby_val, h3, h4, if_pos ⟨ht, hx⟩, h5 t x ht hx,
        h2 (MRef.m_ra (n + 1)) (by simp), Finset.prod_range_succ _ (n + 1)]

/-- A loop that only assigns to the matrices `ra(set)`. -/
theorem ra_loop_frame (F : Nat → Turbo → Matrix) (T : Turbo) (n : Nat) :
    (forUp n (fun set T => T.store (MRef.m_ra set) (F set T)) T).num_sets = T.num_sets ∧
    (forUp n (fun set T => T.store (MRef.m_ra set) (F set T)) T).mem MRef.m_ri
      = T.mem MRef.m_ri ∧
    (forUp n (fun set T => T.store (MRef.m_ra set) (F set T)) T).mem MRef.m_rp
      = T.mem MRef.m_rp := by
  have h := forUp_preserve (fun T : Turbo => (T.num_sets, T.mem MRef.m_ri, T.mem MRef.m_rp))
    (fun set T => T.store (MRef.m_ra set) (F set T))
    (fun k s => by
      show ((s.store _ _).num_sets, (s.store _ _).mem MRef.m_ri, (s.store _ _).mem MRef.m_rp)
        = _
      rw [store_mem_other _ _ _ _ (by simp), store_mem_other _ _ _ _ (by simp)]
      rfl) n T
  simp only [Prod.mk.injEq] at h
  exact h

/-- The matrix `ri` left by the second part of `decode_parallel`. -/
theorem parallel_combine_ri (W : Turbo) (hS : 0 < W.num_sets) :
    ∃ X : Matrix, (W.decode_parallel_combine MRef.m_ri).mem MRef.m_ri = Bcjr.normalize X ∧
      X.xsize = (W.mem (MRef.m_ra 0)).xsize ∧ X.ysize = (W.mem (MRef.m_ra 0)).ysize ∧
      ∀ t x, t < X.xsize → x < X.ysize →
        X.val t x =
          (∏ s in Finset.range W.num_sets, (W.mem (MRef.m_ra s)).val t x) *
            (W.mem MRef.m_rp).val t x := by
  obtain ⟨a1, a2, a3, a4, a5⟩ := parallel_product_loop W (W.num_sets - 1)
  have hS1 : W.num_sets - 1 + 1 = W.num_sets := by omega
  rw [hS1] at a5
  -- the state after the product loop
  generalize hT2 : forUp (W.num_sets - 1) (fun j T =>
        T.store MRef.m_ri ((T.mem MRef.m_ri).multiplyby (T.mem (MRef.m_ra (j + 1)))))
      (W.store MRef.m_ri (W.mem (MRef.m_ra 0))) = T2 at a1 a2 a3 a4 a5
  obtain ⟨b1, b2, b3⟩ := ra_loop_frame
    (fun set T => (T.mem MRef.m_ri).divide (T.mem (MRef.m_ra set))) T2 T2.num_sets
  generalize hT3 : forUp T2.num_sets (fun set T =>
      T.store (MRef.m_ra set) ((T.mem MRef.m_ri).divide (T.mem (MRef.m_ra set)))) T2 = T3
    at b1 b2 b3
  obtain ⟨c1, c2, c3⟩ := ra_loop_frame
    (fun set T => Bcjr.normalize (T.mem (MRef.m_ra set)))
    (T3.store MRef.m_ri ((T3.mem MRef.m_ri).multiplyby (T3.mem MRef.m_rp)))
    (T3.store MRef.m_ri ((T3.mem MRef.m_ri).multiplyby (T3.mem MRef.m_rp))).num_sets
  have hdef : W.decode_parallel_combine MRef.m_ri =
      (forUp (T3.store MRef.m_ri ((T3.mem MRef.m_ri).multiplyby (T3.mem MRef.m_rp))).num_sets
        (fun set T => T.store (MRef.m_ra set) (Bcjr.normalize (T.mem (MRef.m_ra set))))
        (T3.store MRef.m_ri ((T3.mem MRef.m_ri).multiplyby (T3.mem MRef.m_rp)))).store
        MRef.m_ri (Bcjr.normalize
          ((forUp (T3.store MRef.m_ri
              ((T3.mem MRef.m_ri).multiplyby (T3.mem MRef.m_rp))).num_sets
            (fun set T => T.store (MRef.m_ra set) (Bcjr.normalize (T.mem (MRef.m_ra set))))
            (T3.store MRef.m_ri ((T3.mem MRef.m_ri).multiplyby (T3.mem MRef.m_rp)))).mem
            MRef.m_ri)) := by
    rw [← hT3, ← hT2]
    rfl
  refine ⟨(T3.mem MRef.m_ri).multiplyby (T3.mem MRef.m_rp), ?_, ?_, ?_, ?_⟩
  · rw [hdef, store_mem_same, c2, store_mem_same]
  · show (T3.mem MRef.m_ri).xsize = _
    rw [b2, a3]
  · show (T3.mem MRef.m_ri).ysize = _
    rw [b2, a4]
  · intro t x ht hx
    have ht' : t < (T3.mem MRef.m_ri).xsize := ht
    have hx' : x < (T3.mem MRef.m_ri).ysize := hx
    rw [multiplyby_val, if_pos ⟨ht', hx'⟩, b2, b3, a2 MRef.m_rp (by decide)]
    rw [b2, a3] at ht'
    rw [b2, a4] at hx'
    rw [a5 t x ht' hx']

end Turbo

/-- C10: parallel schedule posterior. With at least one set and an allocated BCJR decoder (or
a circular code, for which `bcjr_wrap` allocates), `decode_parallel` returns, and the matrix
`ri` it leaves is the row-max normalisation of the element-wise product
`rp * prod_s re_s`, where `re_s` is the de-interleaved extrinsic matrix that `bcjr_wrap` left
in `ra(s)` when it was called for set `s`. -/
theorem decode_parallel_posterior (T : Turbo) (hS : 0 < T.num_sets)
    (hinit : T.circular = true ∨ T.bcjr.initialised = true) :
    ∃ T', T.decode_parallel MRef.m_ri = some T' ∧
      (T'.mem MRef.m_ri).same
        (Bcjr.normalize (productMatrix (T.mem MRef.m_rp) (T.parallel_extrinsic MRef.m_ri)
          T.num_sets)) := by
  obtain ⟨W, hW, hcfg, _, hrp, hre⟩ := Turbo.parallel_sets_loop T hinit T.num_sets
  have hWS : W.num_sets = T.num_sets := hcfg.2.1
  obtain ⟨X, hX, hXx, hXy, hXv⟩ := Turbo.parallel_combine_ri W (by rw [hWS]; exact hS)
  refine ⟨W.decode_parallel_combine MRef.m_ri, ?_, ?_⟩
  · unfold Turbo.decode_parallel Turbo.decode_parallel_sets
    rw [hW]
    rfl
  · rw [hX]
    apply normalize_same
    refine ⟨?_, ?_, ?_⟩
    · rw [hXx, hre 0 hS]; rfl
    · rw [hXy, hre 0 hS]; rfl
    · intro t ht x hx
      rw [hXv t x ht hx, hWS, hrp]
      show _ = (T.mem MRef.m_rp).val t x *
        ∏ s in Finset.range T.num_sets, (T.parallel_extrinsic MRef.m_ri s).val t x
      rw [mul_comm]
      congr 1
      apply Finset.prod_congr rfl
      intro s hs
      rw [hre s (Finset.mem_range.mp hs)]

/-! ## `turbo::decode` -/

theorem forUp_comm {σ : Type} (g : σ → σ) (f : Nat → σ → σ) (h : ∀ k s, g (f k s) = f k (g s))
    (n : Nat) (s : σ) : g (forUp n f s) = forUp n f (g s) := by
  induction n with
  | zero => rfl
  | succ n ih => rw [forUp_succ, forUp_succ, h, ih]

theorem forUpO_comm {σ : Type} (g : σ → σ) (f : Nat → σ → Option σ)
    (h : ∀ k s, (f k s).map g = f k (g s)) (n : Nat) (s : σ) :
    (forUpO n f s).map g = forUpO n f (g s) := by
  induction n with
  | zero => rfl
  | succ n ih =>
    rw [forUpO_succ, forUpO_succ, ← ih]
    cases forUpO n f s with
    | none => rfl
    | some x => exact h n x

theorem comm_comp {σ : Type} (g : σ → σ) {F G : σ → σ} (hF : ∀ s, g (F s) = F (g s))
    (hG : ∀ s, g (G s) = G (g s)) (s : σ) : g (G (F s)) = G (F (g s)) := by
  rw [hG, hF]

namespace Turbo

theorem work_extrinsic_withIter (T : Turbo) (ra ri r re : MRef) (n : Nat) :
    (T.work_extrinsic ra ri r re).withIter n = (T.withIter n).work_extrinsic ra ri r re := by
  show (forUp T.tau (fun t T => forUp T.num_inputs (extrinsicBody ra ri r re t) T) T).withIter n
    = forUp T.tau (fun t T => forUp T.num_inputs (extrinsicBody ra ri r re t) T) (T.withIter n)
  apply forUp_comm (fun T : Turbo => T.withIter n)
  intro t S
  show (forUp S.num_inputs (extrinsicBody ra ri r re t) S).withIter n
    = forUp S.num_inputs (extrinsicBody ra ri r re t) (S.withIter n)
  apply forUp_comm (fun T : Turbo => T.withIter n)
  intro x U
  by_cases hc : (U.mem ri).val t x > 0
  · have hc' : ((U.withIter n).mem ri).val t x > 0 := hc
    unfold extrinsicBody
    rw [if_pos hc, if_pos hc']
    rfl
  · have hc' : ¬ ((U.withIter n).mem ri).val t x > 0 := hc
    unfold extrinsicBody
    rw [if_neg hc, if_neg hc']
    rfl

theorem bcjr_wrap_prepare_withIter (T : Turbo) (set : Nat) (ra : MRef) (n : Nat) :
    (T.bcjr_wrap_prepare set ra).withIter n = (T.withIter n).bcjr_wrap_prepare set ra := by
  unfold bcjr_wrap_prepare
  by_cases hc : T.circular = true
  · have hc' : (T.withIter n).circular = true := hc
    rw [if_pos hc, if_pos hc']
    rfl
  · have hc' : ¬ (T.withIter n).circular = true := hc
    rw [if_neg hc, if_neg hc']
    rfl

theorem bcjr_wrap_finish_withIter (T : Turbo) (set : Nat) (ri re : MRef) (b : Bcjr)
    (rii : Matrix) (n : Nat) :
    (T.bcjr_wrap_finish set ri re b rii).withIter n
      = (T.withIter n).bcjr_wrap_finish set ri re b rii := by
  have h1 := work_extrinsic_withIter ({ T with bcjr := b }.store MRef.m_rii rii)
    MRef.m_rai MRef.m_rii (MRef.m_r set) MRef.m_rai n
  have h2 : ∀ Y : Turbo,
      (let T := Y.store ri ((Y.inter set).inverse (Y.mem MRef.m_rii))
       let T := T.store re ((T.inter set).inverse (T.mem MRef.m_rai))
       if T.circular then
         let T := { T with ss := Function.update T.ss set T.bcjr.getstart }
         { T with se := Function.update T.se set T.bcjr.getend }
       else T).withIter n =
      (let T := (Y.withIter n).store ri (((Y.withIter n).inter set).inverse
          ((Y.withIter n).mem MRef.m_rii))
       let T := T.store re ((T.inter set).inverse (T.mem MRef.m_rai))
       if T.circular then
         let T := { T with ss := Function.update T.ss set T.bcjr.getstart }
         { T with se := Function.update T.se set T.bcjr.getend }
       else T) := by
    intro Y
    dsimp only
    by_cases hc : Y.circular = true
    · have e1 : ((Y.store ri ((Y.inter set).inverse (Y.mem MRef.m_rii))).store re
          (((Y.store ri ((Y.inter set).inverse (Y.mem MRef.m_rii))).inter set).inverse
            ((Y.store ri ((Y.inter set).inverse (Y.mem MRef.m_rii))).mem MRef.m_rai))).circular
          = true := hc
      have e2 : (((Y.withIter n).store ri (((Y.withIter n).inter set).inverse
            ((Y.withIter n).mem MRef.m_rii))).store re
          ((((Y.withIter n).store ri (((Y.withIter n).inter set).inverse
            ((Y.withIter n).mem MRef.m_rii))).inter set).inverse
            (((Y.withIter n).store ri (((Y.withIter n).inter set).inverse
              ((Y.withIter n).mem MRef.m_rii))).mem MRef.m_rai))).circular = true := hc
      rw [if_pos e1, if_pos e2]
      rfl
    · have e1 : ¬ ((Y.store ri ((Y.inter set).inverse (Y.mem MRef.m_rii))).store re
          (((Y.store ri ((Y.inter set).inverse (Y.mem MRef.m_rii))).inter set).inverse
            ((Y.store ri ((Y.inter set).inverse (Y.mem MRef.m_rii))).mem MRef.m_rai))).circular
          = true := hc
      have e2 : ¬ (((Y.withIter n).store ri (((Y.withIter n).inter set).inverse
            ((Y.withIter n).mem MRef.m_rii))).store re
          ((((Y.withIter n).store ri (((Y.withIter n).inter set).inverse
            ((Y.withIter n).mem MRef.m_rii))).inter set).inverse
            (((Y.withIter n).store ri (((Y.withIter n).inter set).inverse
              ((Y.withIter n).mem MRef.m_rii))).mem MRef.m_rai))).circular = true := hc
      rw [if_neg e1, if_neg e2]
      rfl
  have h3 := h2 (({ T with bcjr := b }.store MRef.m_rii rii).work_extrinsic
    MRef.m_rai MRef.m_rii (MRef.m_r set) MRef.m_rai)
  rw [h1] at h3
  exact h3

theorem bcjr_wrap_withIter (T : Turbo) (set : Nat) (ra ri re : MRef) (n : Nat) :
    (T.bcjr_wrap set ra ri re).map (fun T => T.withIter n)
      = (T.withIter n).bcjr_wrap set ra ri re := by
  rw [bcjr_wrap_eq, bcjr_wrap_eq, ← bcjr_wrap_prepare_withIter, Option.map_map]
  show Option.map _ ((T.bcjr_wrap_prepare set ra).bcjr.fdecode_app
      ((T.bcjr_wrap_prepare set ra).mem (MRef.m_R set))
      ((T.bcjr_wrap_prepare set ra).mem MRef.m_rai)
      ((T.bcjr_wrap_prepare set ra).mem MRef.m_rii)) = Option.map _ _
  congr 1
  funext r
  exact bcjr_wrap_finish_withIter _ set ri re r.1 r.2 n

end Turbo

theorem preserve_comp {σ β : Type} (obs : σ → β) {F G : σ → σ} (hF : ∀ s, obs (F s) = obs s)
    (hG : ∀ s, obs (G s) = obs s) (s : σ) : obs (G (F s)) = obs s := by
  rw [hG, hF]

namespace Turbo

theorem decode_serial_withIter (T : Turbo) (ri : MRef) (n : Nat) :
    (T.decode_serial ri).map (fun T => T.withIter n) = (T.withIter n).decode_serial ri := by
  have h := forUpO_comm (fun T : Turbo => T.withIter n)
    (fun set T =>
      (T.bcjr_wrap set (MRef.m_ra 0) ri (MRef.m_ra 0)).map (fun T =>
        T.store (MRef.m_ra 0) (Bcjr.normalize (T.mem (MRef.m_ra 0)))))
    (fun k s => by
      show Option.map _ (Option.map _ _) = Option.map _ _
      rw [← bcjr_wrap_withIter, Option.map_map, Option.map_map]
      rfl) T.num_sets T
  unfold decode_serial
  show _ = Option.map _ (forUpO T.num_sets _ (T.withIter n))
  rw [← h, Option.map_map, Option.map_map]
  rfl

theorem decode_parallel_combine_withIter (W : Turbo) (ri : MRef) (n : Nat) :
    (W.decode_parallel_combine ri).withIter n = (W.withIter n).decode_parallel_combine ri := by
  have h1 : ∀ T : Turbo, (T.store ri (T.mem (MRef.m_ra 0))).withIter n
      = (T.withIter n).store ri ((T.withIter n).mem (MRef.m_ra 0)) := fun _ => rfl
  have h2 : ∀ T : Turbo,
      (forUp (T.num_sets - 1) (fun j T =>
        T.store ri ((T.mem ri).multiplyby (T.mem (MRef.m_ra (j + 1))))) T).withIter n
      = forUp ((T.withIter n).num_sets - 1) (fun j T =>
        T.store ri ((T.mem ri).multiplyby (T.mem (MRef.m_ra (j + 1))))) (T.withIter n) :=
    fun T => forUp_comm (fun T : Turbo => T.withIter n) _ (fun _ _ => rfl) _ T
  have h3 : ∀ T : Turbo,
      (forUp T.num_sets (fun set T =>
        T.store (MRef.m_ra set) ((T.mem ri).divide (T.mem (MRef.m_ra set)))) T).withIter n
      = forUp (T.withIter n).num_sets (fun set T =>
        T.store (MRef.m_ra set) ((T.mem ri).divide (T.mem (MRef.m_ra set)))) (T.withIter n) :=
    fun T => forUp_comm (fun T : Turbo => T.withIter n) _ (fun _ _ => rfl) _ T
  have h4 : ∀ T : Turbo, (T.store ri ((T.mem ri).multiplyby (T.mem MRef.m_rp))).withIter n
      = (T.withIter n).store ri
          (((T.withIter n).mem ri).multiplyby ((T.withIter n).mem MRef.m_rp)) := fun _ => rfl
  have h5 : ∀ T : Turbo,
      (forUp T.num_sets (fun set T =>
        T.store (MRef.m_ra set) (Bcjr.normalize (T.mem (MRef.m_ra set)))) T).withIter n
      = forUp (T.withIter n).num_sets (fun set T =>
        T.store (MRef.m_ra set) (Bcjr.normalize (T.mem (MRef.m_ra set)))) (T.withIter n) :=
    fun T => forUp_comm (fun T : Turbo => T.withIter n) _ (fun _ _ => rfl) _ T
  have h6 : ∀ T : Turbo, (T.store ri (Bcjr.normalize (T.mem ri))).withIter n
      = (T.withIter n).store ri (Bcjr.normalize ((T.withIter n).mem ri)) := fun _ => rfl
  unfold decode_parallel_combine
  dsimp only
  rw [h6, h5, h4, h3, h2, h1]

theorem decode_parallel_withIter (T : Turbo) (ri : MRef) (n : Nat) :
    (T.decode_parallel ri).map (fun T => T.withIter n) = (T.withIter n).decode_parallel ri := by
  have h := forUpO_comm (fun T : Turbo => T.withIter n)
    (fun set T => T.bcjr_wrap set (MRef.m_ra set) ri (MRef.m_ra set))
    (fun k s => bcjr_wrap_withIter s k _ _ _ n) T.num_sets T
  unfold decode_parallel decode_parallel_sets
  show _ = Option.map _ (forUpO T.num_sets _ (T.withIter n))
  rw [← h, Option.map_map, Option.map_map]
  congr 1
  funext W
  exact decode_parallel_combine_withIter W ri n

theorem schedule_withIter (T : Turbo) (n : Nat) :
    T.schedule.map (fun T => T.withIter n) = (T.withIter n).schedule := by
  unfold schedule
  by_cases hp : T.parallel = true
  · have hp' : (T.withIter n).parallel = true := hp
    rw [if_pos hp, if_pos hp']
    exact decode_parallel_withIter T _ n
  · have hp' : ¬ (T.withIter n).parallel = true := hp
    rw [if_neg hp, if_neg hp']
    exact decode_serial_withIter T _ n

theorem allocate_withIter (T : Turbo) (n : Nat) :
    T.allocate.withIter n = (T.withIter n).allocate := by
  have h1 : ∀ T : Turbo,
      (forUp T.num_sets (fun i T =>
        let T := T.store (MRef.m_r i) ((T.mem (MRef.m_r i)).init T.tau T.num_inputs)
        T.store (MRef.m_R i) ((T.mem (MRef.m_R i)).init T.tau T.enc_outputs)) T).withIter n
      = forUp (T.withIter n).num_sets (fun i T =>
        let T := T.store (MRef.m_r i) ((T.mem (MRef.m_r i)).init T.tau T.num_inputs)
        T.store (MRef.m_R i) ((T.mem (MRef.m_R i)).init T.tau T.enc_outputs))
          (T.withIter n) :=
    fun T => forUp_comm (fun T : Turbo => T.withIter n) _ (fun _ _ => rfl) _ T
  have h2 : ∀ (x : MRef) (T : Turbo),
      (T.store x ((T.mem x).init T.tau T.num_inputs)).withIter n
      = (T.withIter n).store x (((T.withIter n).mem x).init (T.withIter n).tau
          (T.withIter n).num_inputs) := fun _ _ => rfl
  have h3 : ∀ T : Turbo,
      (if T.parallel then
        forUp T.num_sets (fun i T =>
          T.store (MRef.m_ra i) ((T.mem (MRef.m_ra i)).init T.tau T.num_inputs)) T
      else T.store (MRef.m_ra 0) ((T.mem (MRef.m_ra 0)).init T.tau T.num_inputs)).withIter n
      = (if (T.withIter n).parallel then
        forUp (T.withIter n).num_sets (fun i T =>
          T.store (MRef.m_ra i) ((T.mem (MRef.m_ra i)).init T.tau T.num_inputs)) (T.withIter n)
      else (T.withIter n).store (MRef.m_ra 0)
        (((T.withIter n).mem (MRef.m_ra 0)).init (T.withIter n).tau
          (T.withIter n).num_inputs)) := by
    intro T
    by_cases hp : T.parallel = true
    · have hp' : (T.withIter n).parallel = true := hp
      rw [if_pos hp, if_pos hp']
      exact forUp_comm (fun T : Turbo => T.withIter n) _ (fun _ _ => rfl) _ T
    · have hp' : ¬ (T.withIter n).parallel = true := hp
      rw [if_neg hp, if_neg hp']
      rfl
  have h4 : ∀ T : Turbo, ({ T with initialised := true } : Turbo).withIter n
      = { T.withIter n with initialised := true } := fun _ => rfl
  exact comm_comp (fun T : Turbo => T.withIter n)
    (comm_comp (fun T : Turbo => T.withIter n)
      (comm_comp (fun T : Turbo => T.withIter n)
        (comm_comp (fun T : Turbo => T.withIter n)
          (comm_comp (fun T : Turbo => T.withIter n)
            (comm_comp (fun T : Turbo => T.withIter n) h1 (h2 MRef.m_rp))
            (h2 MRef.m_ri))
          (h2 MRef.m_rai))
        (h2 MRef.m_rii))
      h3)
    h4 T

/-- `turbo::allocate` touches neither the BCJR decoder nor the configuration. -/
theorem allocate_frame (T : Turbo) :
    T.allocate.bcjr = T.bcjr ∧ T.allocate.circular = T.circular ∧ T.allocate.tau = T.tau := by
  have h1 : ∀ T : Turbo,
      (fun T : Turbo => (T.bcjr, T.circular, T.tau))
        (forUp T.num_sets (fun i T =>
          let T := T.store (MRef.m_r i) ((T.mem (MRef.m_r i)).init T.tau T.num_inputs)
          T.store (MRef.m_R i) ((T.mem (MRef.m_R i)).init T.tau T.enc_outputs)) T)
      = (fun T : Turbo => (T.bcjr, T.circular, T.tau)) T :=
    fun T => forUp_preserve (fun T : Turbo => (T.bcjr, T.circular, T.tau))
      (fun i T =>
        let T := T.store (MRef.m_r i) ((T.mem (MRef.m_r i)).init T.tau T.num_inputs)
        T.store (MRef.m_R i) ((T.mem (MRef.m_R i)).init T.tau T.enc_outputs))
      (fun _ _ => rfl) T.num_sets T
  have h2 : ∀ (x : MRef) (T : Turbo),
      (fun T : Turbo => (T.bcjr, T.circular, T.tau))
        (T.store x ((T.mem x).init T.tau T.num_inputs))
      = (fun T : Turbo => (T.bcjr, T.circular, T.tau)) T := fun _ _ => rfl
  have h3 : ∀ T : Turbo,
      (fun T : Turbo => (T.bcjr, T.circular, T.tau))
        (if T.parallel then
          forUp T.num_sets (fun i T =>
            T.store (MRef.m_ra i) ((T.mem (MRef.m_ra i)).init T.tau T.num_inputs)) T
        else T.store (MRef.m_ra 0) ((T.mem (MRef.m_ra 0)).init T.tau T.num_inputs))
      = (fun T : Turbo => (T.bcjr, T.circular, T.tau)) T := by
    intro T
    by_cases hp : T.parallel = true
    · rw [if_pos hp]
      exact forUp_preserve (fun T : Turbo => (T.bcjr, T.circular, T.tau))
        (fun i T => T.store (MRef.m_ra i) ((T.mem (MRef.m_ra i)).init T.tau T.num_inputs))
        (fun _ _ => rfl) T.num_sets T
    · rw [if_neg hp]
      rfl
  have h4 : ∀ T : Turbo,
      (fun T : Turbo => (T.bcjr, T.circular, T.tau)) ({ T with initialised := true } : Turbo)
      = (fun T : Turbo => (T.bcjr, T.circular, T.tau)) T := fun _ => rfl
  have key : (fun T : Turbo => (T.bcjr, T.circular, T.tau)) T.allocate
      = (fun T : Turbo => (T.bcjr, T.circular, T.tau)) T :=
    preserve_comp (fun T : Turbo => (T.bcjr, T.circular, T.tau))
      (preserve_comp (fun T : Turbo => (T.bcjr, T.circular, T.tau))
        (preserve_comp (fun T : Turbo => (T.bcjr, T.circular, T.tau))
          (preserve_comp (fun T : Turbo => (T.bcjr, T.circular, T.tau))
            (preserve_comp (fun T : Turbo => (T.bcjr, T.circular, T.tau))
              (preserve_comp (fun T : Turbo => (T.bcjr, T.circular, T.tau)) h1
                (h2 MRef.m_rp))
              (h2 MRef.m_ri))
            (h2 MRef.m_rai))
          (h2 MRef.m_rii))
        h3)
      h4 T
  simp only [Prod.mk.injEq] at key
  exact key

/-- The loop of `decode_serial` does not fail. -/
theorem serial_sets_loop (T : Turbo) (ri : MRef)
    (hinit : T.circular = true ∨ T.bcjr.initialised = true) (n : Nat) :
    ∃ W, forUpO n (fun set T =>
        (T.bcjr_wrap set (MRef.m_ra 0) ri (MRef.m_ra 0)).map (fun T =>
          T.store (MRef.m_ra 0) (Bcjr.normalize (T.mem (MRef.m_ra 0))))) T = some W ∧
      T.sameConfig W ∧ (W.circular = true ∨ W.bcjr.initialised = true) := by
  induction n with
  | zero => exact ⟨T, rfl, sameConfig_refl T, hinit⟩
  | succ n ih =>
    obtain ⟨W, hW, hcfg, hWinit⟩ := ih
    obtain ⟨W', hW', hcfg', hb', _⟩ :=
      bcjr_wrap_spec W n (MRef.m_ra 0) ri (MRef.m_ra 0) hWinit
    refine ⟨W'.store (MRef.m_ra 0) (Bcjr.normalize (W'.mem (MRef.m_ra 0))), ?_,
      sameConfig_trans hcfg (sameConfig_trans hcfg' (sameConfig_store _ _ _)), Or.inr hb'⟩
    rw [forUpO_succ, hW]
    show Option.map _ (W.bcjr_wrap n (MRef.m_ra 0) ri (MRef.m_ra 0)) = _
    rw [hW']
    rfl

/-- One outer iteration does not fail when the BCJR decoder is allocated (or the code is
circular, for which `bcjr_wrap` allocates it). -/
theorem schedule_some (T : Turbo) (hinit : T.circular = true ∨ T.bcjr.initialised = true) :
    ∃ T', T.schedule = some T' := by
  unfold schedule
  by_cases hp : T.parallel = true
  · rw [if_pos hp]
    obtain ⟨W, hW, _⟩ := parallel_sets_loop T hinit T.num_sets
    refine ⟨W.decode_parallel_combine MRef.m_ri, ?_⟩
    unfold decode_parallel decode_parallel_sets
    rw [hW]
    rfl
  · rw [if_neg hp]
    obtain ⟨W, hW, _⟩ := serial_sets_loop T MRef.m_ri hinit T.num_sets
    refine ⟨W.store MRef.m_ri (Bcjr.normalize (W.mem MRef.m_ri)), ?_⟩
    unfold decode_serial
    rw [hW]
    rfl

theorem decode_eq (T : Turbo) (decoded : IntVector) :
    T.decode decoded =
      ((if !T.initialised then T.allocate else T).schedule).map
        (fun T' => (T', T'.hard_decision (T'.mem MRef.m_ri) (decoded.init T.tau))) := rfl

theorem prepared_withIter (T : Turbo) (n : Nat) :
    (if !T.initialised then T.allocate else T).withIter n
      = if !(T.withIter n).initialised then (T.withIter n).allocate else T.withIter n := by
  by_cases hi : (!T.initialised) = true
  · have hi' : (!(T.withIter n).initialised) = true := hi
    rw [if_pos hi, if_pos hi']
    exact allocate_withIter T n
  · have hi' : ¬ (!(T.withIter n).initialised) = true := hi
    rw [if_neg hi, if_neg hi']

theorem prepared_frame (T : Turbo) (hinit : T.circular = true ∨ T.bcjr.initialised = true) :
    (if !T.initialised then T.allocate else T).circular = true ∨
      (if !T.initialised then T.allocate else T).bcjr.initialised = true := by
  split_ifs
  · rw [(allocate_frame T).1, (allocate_frame T).2.1]
    exact hinit
  · exact hinit

end Turbo

/-- C9 (amended): a call to `turbo::decode` runs one outer iteration of the (serial or
parallel) schedule over all sets, whatever the configured number of iterations, and
hard-decides the `ri` of that iteration. The call returns when the BCJR decoder is allocated
(or the code is circular), and with any other number `n` of configured iterations the state
and the decoded vector are the same. -/
theorem decode_single_iteration (T : Turbo) (decoded : IntVector) (n : Nat)
    (hinit : T.circular = true ∨ T.bcjr.initialised = true) :
    ∃ T', (if !T.initialised then T.allocate else T).schedule = some T' ∧
      T.decode decoded =
        some (T', T'.hard_decision (T'.mem MRef.m_ri) (decoded.init T.tau)) ∧
      (T.withIter n).decode decoded =
        some (T'.withIter n, T'.hard_decision (T'.mem MRef.m_ri) (decoded.init T.tau)) := by
  obtain ⟨T', hT'⟩ := Turbo.schedule_some _ (Turbo.prepared_frame T hinit)
  refine ⟨T', hT', ?_, ?_⟩
  · rw [Turbo.decode_eq, hT']
    rfl
  · rw [Turbo.decode_eq, ← Turbo.prepared_withIter, ← Turbo.schedule_withIter, hT']
    rfl

/-! ## The theorems at the example decoder -/

/-- `decode_map_posterior` at the example decoder and the strictly positive channel table. -/
theorem decode_map_posterior_witness :
    ∃ r, exampleBcjr.decode exampleRpos exampleRi exampleRo = some r ∧
      ∀ t, t < exampleBcjr.tau → ∃ c, 0 < c ∧ ∀ i, i < exampleBcjr.K →
        r.2.1.val t i =
          c * mapSum exampleBcjr exampleRpos (exampleBcjr.alpha.val 0)
            (exampleBcjr.beta.val exampleBcjr.tau) t i :=
  decode_map_posterior exampleBcjr exampleRpos exampleRi exampleRo rfl
    (fun m i hm hi => (by decide : ∀ m, m < 2 → ∀ i, i < 2 → (m + i) % 2 < 2) m hm i hi)
    (fun m i hm hi =>
      (by decide : ∀ m, m < 2 → ∀ i, i < 2 → i + 2 * ((m + i) % 2) < 4) m hm i hi)
    (fun t x ht hx =>
      (by decide! : ∀ t, t < 2 → ∀ x, x < 4 → 0 ≤ exampleRpos.val t x) t ht x hx)
    (by decide!) (by decide!) (by decide) (by decide) (by decide!) (by decide!) (by decide!)

/-- `decode_normalised_rowmax` at the example decoder and the strictly positive channel
table. -/
theorem decode_normalised_rowmax_witness :
    ∃ r, exampleBcjr.decode exampleRpos exampleRi exampleRo = some r ∧
      ∀ t, t < exampleBcjr.tau →
        (Bcjr.normalize r.2.1).rowMax t = 1 ∧
        (∀ i, i < exampleBcjr.K → 0 ≤ (Bcjr.normalize r.2.1).val t i ∧
          (Bcjr.normalize r.2.1).val t i ≤ 1) ∧
        1 ≤ ∑ i in Finset.range exampleBcjr.K, (Bcjr.normalize r.2.1).val t i :=
  decode_normalised_rowmax exampleBcjr exampleRpos exampleRi exampleRo rfl
    (fun m i hm hi => (by decide : ∀ m, m < 2 → ∀ i, i < 2 → (m + i) % 2 < 2) m hm i hi)
    (fun m i hm hi =>
      (by decide : ∀ m, m < 2 → ∀ i, i < 2 → i + 2 * ((m + i) % 2) < 4) m hm i hi)
    (fun t x ht hx =>
      (by decide! : ∀ t, t < 2 → ∀ x, x < 4 → 0 < exampleRpos.val t x) t ht x hx)
    (by decide!) (by decide!) rfl rfl (by decide!) (by decide!) (by decide!)

/-- `hard_decision_least_argmax` at the example turbo decoder (`tau = 1`), row 0 of
`exampleRi`, with a vector of one element: the decided symbol is 1. -/
theorem hard_decision_least_argmax_witness :
    exampleTurbo.tau ≤ exampleDecodedOne.size ∧
    (exampleTurbo.hard_decision_checked exampleRi exampleDecodedOne).map
      (fun d => (d.size, d.val 0)) = some (1, 1) ∧
    ∃ d, exampleTurbo.hard_decision_checked exampleRi exampleDecodedOne = some d ∧
      d.size = exampleDecodedOne.size ∧
      ∀ t, t < exampleTurbo.tau →
        (0 < exampleTurbo.num_inputs → d.val t < exampleTurbo.num_inputs) ∧
        (∀ i, i < exampleTurbo.num_inputs → exampleRi.val t i ≤ exampleRi.val t (d.val t)) ∧
        (∀ i, i < d.val t → exampleRi.val t i < exampleRi.val t (d.val t)) ∧
        ((∀ i, i < exampleTurbo.num_inputs → exampleRi.val t i = exampleRi.val t 0) →
          d.val t = 0) :=
  ⟨by decide, by decide!,
    (hard_decision_least_argmax exampleTurbo exampleRi exampleDecodedOne).1 (by decide)⟩

/-- `work_extrinsic_spec` at the example turbo decoder, called with the same matrix `ra(0)`
for input and output, on the posteriors `rp = (1, 1/2)` and the intrinsic table
`r(0) = (1, 1/2)`: at `(0, 1)` the divisor is `1 * 1/2` and the extrinsic value is 1. -/
theorem work_extrinsic_spec_witness :
    (exampleTurbo.mem MRef.m_rp).val 0 1 > 0 ∧
    (exampleTurbo.mem (MRef.m_ra 0)).val 0 1 * (exampleTurbo.mem (MRef.m_r 0)).val 0 1 ≠ 0 ∧
    ((exampleTurbo.work_extrinsic (MRef.m_ra 0) MRef.m_rp (MRef.m_r 0) (MRef.m_ra 0)).mem
        (MRef.m_ra 0)).val 0 1 = 1 ∧
    ((exampleTurbo.work_extrinsic (MRef.m_ra 0) MRef.m_rp (MRef.m_r 0) (MRef.m_ra 0)).mem
        (MRef.m_ra 0)).val 0 1 =
      (if (exampleTurbo.mem MRef.m_rp).val 0 1 > 0 then
        (exampleTurbo.mem MRef.m_rp).val 0 1 /
          ((exampleTurbo.mem (MRef.m_ra 0)).val 0 1 * (exampleTurbo.mem (MRef.m_r 0)).val 0 1)
      else 0) ∧
    ((exampleTurbo.mem MRef.m_rp).val 0 1 > 0 →
      ((exampleTurbo.work_extrinsic (MRef.m_ra 0) MRef.m_rp (MRef.m_r 0) (MRef.m_ra 0)).mem
          (MRef.m_ra 0)).val 0 1 *
        ((exampleTurbo.mem (MRef.m_ra 0)).val 0 1 * (exampleTurbo.mem (MRef.m_r 0)).val 0 1) =
        (exampleTurbo.mem MRef.m_rp).val 0 1) ∧
    ∀ ra2, (exampleTurbo.mem ra2).val 0 1 = (exampleTurbo.mem (MRef.m_ra 0)).val 0 1 →
      ((exampleTurbo.work_extrinsic (MRef.m_ra 0) MRef.m_rp (MRef.m_r 0) (MRef.m_ra 0)).mem
          (MRef.m_ra 0)).val 0 1 =
        ((exampleTurbo.work_extrinsic ra2 MRef.m_rp (MRef.m_r 0) (MRef.m_ra 0)).mem
          (MRef.m_ra 0)).val 0 1 :=
  ⟨by decide!, by decide!, by decide!,
    work_extrinsic_spec exampleTurbo (MRef.m_ra 0) MRef.m_rp (MRef.m_r 0) (MRef.m_ra 0)
      (by decide) (by decide) 0 1 (by decide) (by decide) (fun _ => by decide!)⟩

/-- `fdecode_agrees_with_decode` at the example decoder. -/
theorem fdecode_agrees_with_decode_witness :
    (∃ r, exampleBcjr.decode_app exampleRpos exampleOnes exampleRi exampleRo = some r ∧
      exampleBcjr.fdecode_app exampleRpos exampleOnes exampleRi = some (r.1, r.2.1)) ∧
    (∃ r, exampleBcjr.decode exampleRpos exampleRi exampleRo = some r ∧
      exampleBcjr.fdecode exampleRpos exampleRi = some (r.1, r.2.1)) :=
  fdecode_agrees_with_decode exampleBcjr exampleRpos exampleOnes exampleRi exampleRo rfl rfl rfl

/-- `decode_app_default` at the example decoder and the a-priori table of ones. -/
theorem decode_app_default_witness :
    exampleBcjr.decode exampleRpos exampleRi exampleRo =
      exampleBcjr.decode_app exampleRpos exampleOnes exampleRi exampleRo ∧
    ∃ r, exampleBcjr.decode_app exampleRpos exampleOnes exampleRi exampleRo = some r ∧
      ∀ t m i, t < exampleBcjr.tau → m < exampleBcjr.M → i < exampleBcjr.K →
        r.1.gamma.val t m i =
          exampleRpos.val t (exampleBcjr.lut_X m i) * exampleOnes.val t i :=
  ⟨(decode_app_default exampleBcjr exampleRpos exampleOnes exampleRi exampleRo).1
      (fun _ _ _ _ => rfl),
    (decode_app_default exampleBcjr exampleRpos exampleOnes exampleRi exampleRo).2 rfl⟩

/-- On the example trellis, the inputs `1, 0` are the only ones that produce the codeword
`3, 2` from state 0. -/
theorem exampleTrellis_unique (v : List Nat) (hl : v.length = exampleTrellis.tau)
    (hK : ∀ i, i ∈ v → i < exampleTrellis.K)
    (ho : encOutputs exampleTrellis 0 v = encOutputs exampleTrellis 0 [1, 0])
    (_hf : encFinal exampleTrellis 0 v = encFinal exampleTrellis 0 [1, 0]) : v = [1, 0] := by
  match v, hl, hK, ho with
  | [a, c], _, hK, ho =>
    have ha : a < 2 := hK a (by simp)
    have hc : c < 2 := hK c (by simp)
    interval_cases a <;> interval_cases c <;> simp [encOutputs, exampleTrellis] at ho ⊢

/-- `noiseless_decode_recovers_input` at the example trellis: the inputs `1, 0` are encoded
from state 0 and decoded from the noiseless table of their codeword. -/
theorem noiseless_decode_recovers_input_witness :
    ∃ r, ((exampleTrellis.setstart 0).setend (encFinal exampleTrellis 0 [1, 0])).decode
        (noiselessR 4 (encOutputs exampleTrellis 0 [1, 0])) exampleRi exampleRo = some r ∧
      ∀ t ut, [1, 0][t]? = some ut →
        (∀ i, i < exampleTrellis.K → i ≠ ut → r.2.1.val t i < r.2.1.val t ut) ∧
        argLoop (r.2.1.val t) (exampleTrellis.K - 1) = ut :=
  noiseless_decode_recovers_input exampleTrellis
    (noiselessR 4 (encOutputs exampleTrellis 0 [1, 0])) exampleRi exampleRo 0 [1, 0]
    (fun m i hm hi => (by decide : ∀ m, m < 2 → ∀ i, i < 2 → (m + i) % 2 < 2) m hm i hi)
    (fun m i hm hi =>
      (by decide : ∀ m, m < 2 → ∀ i, i < 2 → i + 2 * ((m + i) % 2) < 4) m hm i hi)
    (by decide) rfl (by decide) (fun _ _ _ _ => rfl) exampleTrellis_unique (by decide)
    (by decide)

/-! ## The turbo decoder at the example decoders -/

/-- C9 (counterexample): the example decoder is configured with `iter = 2`. One call of
`decode` decides symbol 0 at time 0, which is the decision after one outer iteration; running
the configured two outer iterations of the schedule and deciding on the last `ri` gives
symbol 1. -/
theorem decode_iterations_counterexample :
    exampleTurbo.iter = 2 ∧
    (exampleTurbo.decode exampleDecoded).map (fun r => r.2.val 0) = some 0 ∧
    (forUpO exampleTurbo.iter (fun _ T => T.schedule) exampleTurbo).map
      (fun T => (T.hard_decision (T.mem MRef.m_ri) (exampleDecoded.init T.tau)).val 0)
      = some 1 := by
  refine ⟨rfl, ?_, ?_⟩
  · decide!
  · decide!

/-- `decode_single_iteration` at the example decoder, configured with 2 and with 8
iterations. -/
theorem decode_single_iteration_witness :
    (exampleTurbo.circular = true ∨ exampleTurbo.bcjr.initialised = true) ∧
    ∃ T', (if !exampleTurbo.initialised then exampleTurbo.allocate
        else exampleTurbo).schedule = some T' ∧
      exampleTurbo.decode exampleDecoded =
        some (T', T'.hard_decision (T'.mem MRef.m_ri)
          (exampleDecoded.init exampleTurbo.tau)) ∧
      (exampleTurbo.withIter 8).decode exampleDecoded =
        some (T'.withIter 8, T'.hard_decision (T'.mem MRef.m_ri)
          (exampleDecoded.init exampleTurbo.tau)) :=
  ⟨Or.inr rfl, decode_single_iteration exampleTurbo exampleDecoded 8 (Or.inr rfl)⟩

/-- `decode_parallel_posterior` at the example decoder with two sets. -/
theorem decode_parallel_posterior_witness :
    0 < exampleParallel.num_sets ∧
    (exampleParallel.circular = true ∨ exampleParallel.bcjr.initialised = true) ∧
    ∃ T', exampleParallel.decode_parallel MRef.m_ri = some T' ∧
      (T'.mem MRef.m_ri).same
        (Bcjr.normalize (productMatrix (exampleParallel.mem MRef.m_rp)
          (exampleParallel.parallel_extrinsic MRef.m_ri) exampleParallel.num_sets)) :=
  ⟨by decide, Or.inr rfl,
    decode_parallel_posterior exampleParallel (by decide) (Or.inr rfl)⟩

/-! ## `bcjr::init` -/

theorem initBody_spec (encoder : Fsm) (mdash i : Nat) (s : Bcjr × Fsm)
    (hs : ∃ st, s.2 = encoder.reset st) :
    (∃ st, (initBody mdash i s).2 = encoder.reset st) ∧
    (∀ m' i', (initBody mdash i s).1.lut_X m' i' =
      if m' = mdash ∧ i' = i then ((encoder.reset mdash).step i).2.2 else s.1.lut_X m' i') ∧
    (∀ m' i', (initBody mdash i s).1.lut_m m' i' =
      if m' = mdash ∧ i' = i then ((encoder.reset mdash).step i).1.state
      else s.1.lut_m m' i') ∧
    (initBody mdash i s).1.tau = s.1.tau ∧ (initBody mdash i s).1.K = s.1.K ∧
    (initBody mdash i s).1.N = s.1.N ∧ (initBody mdash i s).1.M = s.1.M := by
  obtain ⟨st, hst⟩ := hs
  have he : s.2.reset mdash = encoder.reset mdash := by rw [hst]; rfl
  unfold initBody
  dsimp only
  rw [he]
  refine ⟨⟨_, rfl⟩, ?_, ?_, rfl, rfl, rfl, rfl⟩
  · intro m' i'
    by_cases hm : m' = mdash
    · subst hm
      by_cases hi : i' = i
      · subst hi; simp
      · simp [Function.update_apply, hi]
    · simp [Function.update_apply, hm]
  · intro m' i'
    by_cases hm : m' = mdash
    · subst hm
      by_cases hi : i' = i
      · subst hi; simp
      · simp [Function.update_apply, hi]
    · simp [Function.update_apply, hm]

/-- The inner loop of `bcjr::init` at state `mdash`, after `n` inputs. -/
theorem init_inner (encoder : Fsm) (mdash : Nat) (s : Bcjr × Fsm)
    (hs : ∃ st, s.2 = encoder.reset st) (n : Nat) :
    (∃ st, (forUp n (initBody mdash) s).2 = encoder.reset st) ∧
    (∀ m' i', (forUp n (initBody mdash) s).1.lut_X m' i' =
      if m' = mdash ∧ i' < n then ((encoder.reset mdash).step i').2.2 else s.1.lut_X m' i') ∧
    (∀ m' i', (forUp n (initBody mdash) s).1.lut_m m' i' =
      if m' = mdash ∧ i' < n then ((encoder.reset mdash).step i').1.state
      else s.1.lut_m m' i') ∧
    (forUp n (initBody mdash) s).1.tau = s.1.tau ∧ (forUp n (initBody mdash) s).1.K = s.1.K ∧
    (forUp n (initBody mdash) s).1.N = s.1.N ∧ (forUp n (initBody mdash) s).1.M = s.1.M := by
  induction n with
  | zero => exact ⟨hs, fun _ _ => by simp [forUp], fun _ _ => by simp [forUp], rfl, rfl, rfl, rfl⟩
  | succ n ih =>
    obtain ⟨h0, h1, h2, h3, h4, h5, h6⟩ := ih
    obtain ⟨k0, k1, k2, k3, k4, k5, k6⟩ := initBody_spec encoder mdash n _ h0
    rw [forUp_succ]
    refine ⟨k0, ?_, ?_, k3.trans h3, k4.trans h4, k5.trans h5, k6.trans h6⟩
    · intro m' i'
      rw [k1, h1]
      by_cases hc : m' = mdash ∧ i' = n
      · obtain ⟨rfl, rfl⟩ := hc
        simp
      · rw [if_neg hc]
        by_cases hc2 : m' = mdash ∧ i' < n
        · rw [if_pos hc2, if_pos ⟨hc2.1, by omega⟩]
        · rw [if_neg hc2, if_neg]
          intro h
          have : i' ≠ n := fun h6 => hc ⟨h.1, h6⟩
          exact hc2 ⟨h.1, by omega⟩
    · intro m' i'
      rw [k2, h2]
      by_cases hc : m' = mdash ∧ i' = n
      · obtain ⟨rfl, rfl⟩ := hc
        simp
      · rw [if_neg hc]
        by_cases hc2 : m' = mdash ∧ i' < n
        · rw [if_pos hc2, if_pos ⟨hc2.1, by omega⟩]
        · rw [if_neg hc2, if_neg]
          intro h
          have : i' ≠ n := fun h6 => hc ⟨h.1, h6⟩
          exact hc2 ⟨h.1, by omega⟩

/-- The loops of `bcjr::init`, after `n` states. -/
theorem init_outer (encoder : Fsm) (K : Nat) (s : Bcjr × Fsm)
    (hs : ∃ st, s.2 = encoder.reset st) (n : Nat) :
    (∃ st, (forUp n (fun mdash s => forUp K (initBody mdash) s) s).2 = encoder.reset st) ∧
    (∀ m' i', (forUp n (fun mdash s => forUp K (initBody mdash) s) s).1.lut_X m' i' =
      if m' < n ∧ i' < K then ((encoder.reset m').step i').2.2 else s.1.lut_X m' i') ∧
    (∀ m' i', (forUp n (fun mdash s => forUp K (initBody mdash) s) s).1.lut_m m' i' =
      if m' < n ∧ i' < K then ((encoder.reset m').step i').1.state else s.1.lut_m m' i') ∧
    (forUp n (fun mdash s => forUp K (initBody mdash) s) s).1.tau = s.1.tau ∧
    (forUp n (fun mdash s => forUp K (initBody mdash) s) s).1.K = s.1.K ∧
    (forUp n (fun mdash s => forUp K (initBody mdash) s) s).1.N = s.1.N ∧
    (forUp n (fun mdash s => forUp K (initBody mdash) s) s).1.M = s.1.M := by
  induction n with
  | zero => exact ⟨hs, fun _ _ => by simp [forUp], fun _ _ => by simp [forUp], rfl, rfl, rfl, rfl⟩
  | succ n ih =>
    obtain ⟨h0, h1, h2, h3, h4, h5, h6⟩ := ih
    obtain ⟨k0, k1, k2, k3, k4, k5, k6⟩ := init_inner encoder n _ h0 K
    rw [forUp_succ]
    refine ⟨k0, ?_, ?_, k3.trans h3, k4.trans h4, k5.trans h5, k6.trans h6⟩
    · intro m' i'
      rw [k1, h1]
      by_cases hc : m' = n ∧ i' < K
      · obtain ⟨rfl, hi⟩ := hc
        rw [if_pos ⟨rfl, hi⟩, if_pos ⟨Nat.lt_succ_self _, hi⟩]
      · rw [if_neg hc]
        by_cases hc2 : m' < n ∧ i' < K
        · rw [if_pos hc2, if_pos ⟨by omega, hc2.2⟩]
        · rw [if_neg hc2, if_neg]
          intro h
          have : m' ≠ n := fun h6 => hc ⟨h6, h.2⟩
          exact hc2 ⟨by omega, h.2⟩
    · intro m' i'
      rw [k2, h2]
      by_cases hc : m' = n ∧ i' < K
      · obtain ⟨rfl, hi⟩ := hc
        rw [if_pos ⟨rfl, hi⟩, if_pos ⟨Nat.lt_succ_self _, hi⟩]
      · rw [if_neg hc]
        by_cases hc2 : m' < n ∧ i' < K
        · rw [if_pos hc2, if_pos ⟨by omega, hc2.2⟩]
        · rw [if_neg hc2, if_neg]
          intro h
          have : m' ≠ n := fun h6 => hc ⟨h6, h.2⟩
          exact hc2 ⟨by omega, h.2⟩

theorem Bcjr.init_eq (b : Bcjr) (encoder : Fsm) (tau : Int) :
    b.init encoder tau =
      if tau < 1 then none
      else some
        ({ (forUp encoder.num_states (fun mdash s => forUp encoder.num_inputs (initBody mdash) s)
            ({ b with tau := tau.toNat, K := encoder.num_inputs, N := encoder.num_outputs
                      M := encoder.num_states }, encoder)).1 with initialised := false },
          (forUp encoder.num_states (fun mdash s => forUp encoder.num_inputs (initBody mdash) s)
            ({ b with tau := tau.toNat, K := encoder.num_inputs, N := encoder.num_outputs
                      M := encoder.num_states }, encoder)).2) := rfl

/-- What `bcjr::init` leaves behind when the block size is at least 1. -/
theorem Bcjr.init_spec (b : Bcjr) (encoder : Fsm) (tau : Int) (htau : 1 ≤ tau) :
    ∃ r, b.init encoder tau = some r ∧
      r.1.tau = tau.toNat ∧ r.1.K = encoder.num_inputs ∧ r.1.N = encoder.num_outputs ∧
      r.1.M = encoder.num_states ∧ r.1.initialised = false ∧
      (∃ st, r.2 = encoder.reset st) ∧
      ∀ m i, m < encoder.num_states → i < encoder.num_inputs →
        r.1.lut_X m i = ((encoder.reset m).step i).2.2 ∧
        r.1.lut_m m i = ((encoder.reset m).step i).1.state := by
  obtain ⟨k0, k1, k2, k3, k4, k5, k6⟩ := init_outer encoder encoder.num_inputs
    (({ b with tau := tau.toNat, K := encoder.num_inputs, N := encoder.num_outputs
               M := encoder.num_states } : Bcjr), encoder) ⟨encoder.state, rfl⟩
    encoder.num_states
  rw [Bcjr.init_eq, if_neg (by omega)]
  refine ⟨_, rfl, k3, k4, k5, k6, rfl, k0, ?_⟩
  intro m i hm hi
  constructor
  · exact (k1 m i).trans (if_pos ⟨hm, hi⟩)
  · exact (k2 m i).trans (if_pos ⟨hm, hi⟩)

/-- C16: `bcjr::init` builds a correct trellis look-up table. For a block size of at least 1 it
returns, with `K`, `N`, `M` the sizes of the encoder, and for every state `m < M` and input
`i < K` the entries `lut_X(m,i)` and `lut_m(m,i)` are the output symbol and the next state of
the encoder reset to `m` and stepped with `i`. Hence, if these steps give outputs below `N` and
states below `M`, every entry of `lut_m` is below `M` and every entry of `lut_X` below `N`. -/
theorem init_builds_trellis (b : Bcjr) (encoder : Fsm) (tau : Int) (htau : 1 ≤ tau) :
    ∃ r, b.init encoder tau = some r ∧
      r.1.K = encoder.num_inputs ∧ r.1.N = encoder.num_outputs ∧ r.1.M = encoder.num_states ∧
      (∀ m i, m < r.1.M → i < r.1.K →
        r.1.lut_X m i = ((encoder.reset m).step i).2.2 ∧
        r.1.lut_m m i = ((encoder.reset m).step i).1.state) ∧
      ((∀ m i, m < encoder.num_states → i < encoder.num_inputs →
          ((encoder.reset m).step i).2.2 < encoder.num_outputs ∧
          ((encoder.reset m).step i).1.state < encoder.num_states) →
        ∀ m i, m < r.1.M → i < r.1.K → r.1.lut_m m i < r.1.M ∧ r.1.lut_X m i < r.1.N) := by
  obtain ⟨r, hr, _, hK, hN, hM, _, _, hlut⟩ := Bcjr.init_spec b encoder tau htau
  refine ⟨r, hr, hK, hN, hM, ?_, ?_⟩
  · intro m i hm hi
    exact hlut m i (hM ▸ hm) (hK ▸ hi)
  · intro hstep m i hm hi
    have hm' : m < encoder.num_states := hM ▸ hm
    have hi' : i < encoder.num_inputs := hK ▸ hi
    obtain ⟨hX, hmm⟩ := hlut m i hm' hi'
    rw [hX, hmm, hM, hN]
    exact ⟨(hstep m i hm' hi').2, (hstep m i hm' hi').1⟩

/-! ## `turbo::init` -/

theorem Turbo.construct_eq (T : Turbo) (encoder : Fsm) (tau : Int) (num_sets : Nat)
    (inter : Nat → Interleaver) (iter : Int) (endatzero parallel circular : Bool) :
    T.construct encoder tau num_sets inter iter endatzero parallel circular =
      (T.bcjr.init encoder tau).bind (fun r =>
        if r.2.num_inputs = 0 then none
        else if r.2.num_outputs / r.2.num_inputs * r.2.num_inputs ≠ r.2.num_outputs then none
        else if ¬ 0 < num_sets then none
        else if ¬ 0 < tau then none
        else if ¬ (!endatzero || !circular) = true then none
        else if ¬ 0 < iter then none
        else some
          { T with
            encoder := r.2, tau := tau.toNat, num_sets := num_sets, inter := inter
            endatzero := endatzero, parallel := parallel, circular := circular
            iter := iter.toNat, bcjr := r.1, initialised := false }) := rfl

/-- C14: construction of a turbo codec (`turbo::init`, with the `bcjr::init` it calls) over an
encoder with at least one input is rejected if and only if `tau < 1`, or
`enc_parity * num_inputs != enc_outputs`, or `num_sets <= 0`, or `iter <= 0`, or both `endatzero`
and `circular` are set; in particular every configuration with both flags set is rejected. -/
theorem construct_rejected_iff (T : Turbo) (encoder : Fsm) (tau : Int) (num_sets : Nat)
    (inter : Nat → Interleaver) (iter : Int) (endatzero parallel circular : Bool)
    (hK : 0 < encoder.num_inputs) :
    (T.construct encoder tau num_sets inter iter endatzero parallel circular = none ↔
      (tau < 1 ∨
        ({ T with encoder := encoder } : Turbo).enc_parity * encoder.num_inputs
          ≠ encoder.num_outputs ∨
        num_sets ≤ 0 ∨ iter ≤ 0 ∨ (endatzero = true ∧ circular = true))) ∧
    (endatzero = true → circular = true →
      T.construct encoder tau num_sets inter iter endatzero parallel circular = none) := by
  have key : T.construct encoder tau num_sets inter iter endatzero parallel circular = none ↔
      (tau < 1 ∨
        ({ T with encoder := encoder } : Turbo).enc_parity * encoder.num_inputs
          ≠ encoder.num_outputs ∨
        num_sets ≤ 0 ∨ iter ≤ 0 ∨ (endatzero = true ∧ circular = true)) := by
    rw [Turbo.construct_eq]
    by_cases htau : tau < 1
    · rw [Bcjr.init_eq, if_pos htau]
      exact ⟨fun _ => Or.inl htau, fun _ => rfl⟩
    · obtain ⟨r, hr, _, _, _, _, _, ⟨st, hst⟩, _⟩ :=
        Bcjr.init_spec T.bcjr encoder tau (by omega)
      have hin : r.2.num_inputs = encoder.num_inputs := by rw [hst]; rfl
      have hout : r.2.num_outputs = encoder.num_outputs := by rw [hst]; rfl
      have hp : ({ T with encoder := encoder } : Turbo).enc_parity
          = encoder.num_outputs / encoder.num_inputs := rfl
      rw [hr, Option.some_bind, hp, hin, hout]
      rw [if_neg (by omega)]
      by_cases h1 : encoder.num_outputs / encoder.num_inputs * encoder.num_inputs
          ≠ encoder.num_outputs
      · rw [if_pos h1]
        exact ⟨fun _ => Or.inr (Or.inl h1), fun _ => rfl⟩
      · rw [if_neg h1]
        by_cases h2 : ¬ 0 < num_sets
        · rw [if_pos h2]
          exact ⟨fun _ => Or.inr (Or.inr (Or.inl (by omega))), fun _ => rfl⟩
        · rw [if_neg h2, if_neg (by omega)]
          by_cases h4 : ¬ (!endatzero || !circular) = true
          · rw [if_pos h4]
            refine ⟨fun _ => Or.inr (Or.inr (Or.inr (Or.inr ?_))), fun _ => rfl⟩
            revert h4
            cases endatzero <;> cases circular <;> simp
          · rw [if_neg h4]
            by_cases h5 : ¬ 0 < iter
            · rw [if_pos h5]
              exact ⟨fun _ => Or.inr (Or.inr (Or.inr (Or.inl (by omega)))), fun _ => rfl⟩
            · rw [if_neg h5]
              constructor
              · intro h
                exact absurd h (by simp)
              · intro h
                rcases h with h | h | h | h | h
                · exact absurd h htau
                · exact absurd h h1
                · omega
                · omega
                · exfalso
                  apply h4
                  rw [h.1, h.2]
                  decide
  exact ⟨key, fun h1 h2 => key.mpr (Or.inr (Or.inr (Or.inr (Or.inr ⟨h1, h2⟩))))⟩

/-! ## `turbo::reset` -/

theorem setend_val (b : Bcjr) (e : Nat) :
    (b.setend e).alpha.val 0 = (if !b.initialised then b.allocate else b).alpha.val 0 ∧
    (b.setend e).M = b.M ∧ (b.setend e).tau = b.tau ∧
    ∀ m, m < b.M → (b.setend e).beta.val b.tau m = if m = e then 1 else 0 := by
  have hval : ∀ (c : Bcjr) m, m < c.M →
      ((forUp c.M (fun m beta => beta.set c.tau m 0) c.beta).set c.tau e 1).val c.tau m
        = if m = e then 1 else 0 := by
    intro c m hm
    rw [Matrix.set_val, (assignLoop_inner c.tau (fun _ => (0 : ℚ)) c.beta c.M).2.2 c.tau m]
    by_cases hme : m = e
    · rw [if_pos ⟨rfl, hme⟩, if_pos hme]
    · rw [if_neg (fun h => hme h.2), if_neg hme, if_pos ⟨rfl, hm⟩]
  unfold Bcjr.setend
  cases hb : b.initialised
  · exact ⟨rfl, rfl, rfl, fun m hm => hval b.allocate m hm⟩
  · exact ⟨rfl, rfl, rfl, fun m hm => hval b m hm⟩

theorem setend_equiprobable_val (b : Bcjr) :
    b.setend_equiprobable.alpha.val 0 = (if !b.initialised then b.allocate else b).alpha.val 0 ∧
    b.setend_equiprobable.M = b.M ∧ b.setend_equiprobable.tau = b.tau ∧
    ∀ m, m < b.M → b.setend_equiprobable.beta.val b.tau m = 1 / (b.M : ℚ) := by
  have hval : ∀ (c : Bcjr) m, m < c.M →
      (forUp c.M (fun m beta => beta.set c.tau m (1 / (c.M : ℚ))) c.beta).val c.tau m
        = 1 / (c.M : ℚ) := by
    intro c m hm
    rw [(assignLoop_inner c.tau (fun _ => 1 / (c.M : ℚ)) c.beta c.M).2.2 c.tau m,
      if_pos ⟨rfl, hm⟩]
  unfold Bcjr.setend_equiprobable
  cases hb : b.initialised
  · exact ⟨rfl, rfl, rfl, fun m hm => hval b.allocate m hm⟩
  · exact ⟨rfl, rfl, rfl, fun m hm => hval b m hm⟩

/-- A loop that stores the uniform distribution in `ss(set)` and `se(set)`, after `n` sets. -/
theorem reset_loop (body : Nat → Turbo → Turbo)
    (hb : ∀ set U, (body set U).encoder = U.encoder ∧
      (body set U).ss = Function.update U.ss set (fun _ => 1 / (U.enc_states : ℚ)) ∧
      (body set U).se = Function.update U.se set (fun _ => 1 / (U.enc_states : ℚ)))
    (T : Turbo) (n : Nat) :
    (forUp n body T).encoder = T.encoder ∧
    ∀ set, set < n →
      (forUp n body T).ss set = (fun _ => 1 / (T.enc_states : ℚ)) ∧
      (forUp n body T).se set = (fun _ => 1 / (T.enc_states : ℚ)) := by
  induction n with
  | zero => exact ⟨rfl, fun set h => absurd h (Nat.not_lt_zero _)⟩
  | succ n ih =>
    obtain ⟨h0, h1⟩ := ih
    obtain ⟨b0, b1, b2⟩ := hb n (forUp n body T)
    have hS : (forUp n body T).enc_states = T.enc_states := by
      unfold Turbo.enc_states
      rw [h0]
    rw [forUp_succ]
    refine ⟨b0.trans h0, ?_⟩
    intro set hset
    rw [b1, b2, hS]
    by_cases hc : set = n
    · subst hc
      simp
    · simp only [Function.update_apply, if_neg hc]
      exact h1 set (by omega)

/-- C17: `turbo::reset` establishes the trellis boundary conditions. For a circular code (on an
allocated codec) every stored start and end distribution `ss(set)`, `se(set)` is uniform, each
entry `1 / enc_states`. Otherwise `alpha(0, ·)` is the impulse at state 0, and `beta(tau, ·)` is
the impulse at state 0 when `endatzero` is set and uniform, each entry `1 / M`, when it is not.
Likewise `setstart(s)` and `setend(s)` leave an impulse at `s`, and `setend()` leaves `1 / M` in
every entry. -/
theorem reset_boundary_conditions (T : Turbo) :
    (T.circular = true → T.initialised = true →
      ∃ T', T.reset = some T' ∧
        ∀ set, set < T.num_sets → ∀ m,
          T'.ss set m = 1 / (T.enc_states : ℚ) ∧ T'.se set m = 1 / (T.enc_states : ℚ)) ∧
    (T.circular = false →
      ∃ T', T.reset = some T' ∧ T'.bcjr.M = T.bcjr.M ∧ T'.bcjr.tau = T.bcjr.tau ∧
        (∀ m, m < T.bcjr.M → T'.bcjr.alpha.val 0 m = if m = 0 then 1 else 0) ∧
        (T.endatzero = true →
          ∀ m, m < T.bcjr.M → T'.bcjr.beta.val T.bcjr.tau m = if m = 0 then 1 else 0) ∧
        (T.endatzero = false →
          ∀ m, m < T.bcjr.M → T'.bcjr.beta.val T.bcjr.tau m = 1 / (T.bcjr.M : ℚ))) ∧
    (∀ (b : Bcjr) (s m : Nat), m < b.M →
      (b.setstart s).alpha.val 0 m = (if m = s then 1 else 0) ∧
      (b.setend s).beta.val b.tau m = (if m = s then 1 else 0) ∧
      b.setend_equiprobable.beta.val b.tau m = 1 / (b.M : ℚ)) := by
  refine ⟨?_, ?_, ?_⟩
  · intro hc hi
    unfold Turbo.reset
    rw [if_pos hc, if_pos hi]
    refine ⟨_, rfl, ?_⟩
    intro set hset m
    obtain ⟨_, h1⟩ := reset_loop
      (fun set T =>
        let T := { T with ss := Function.update T.ss set (fun _ => 1 / (T.enc_states : ℚ)) }
        { T with se := Function.update T.se set (fun _ => 1 / (T.enc_states : ℚ)) })
      (fun _ _ => ⟨rfl, rfl, rfl⟩) T T.num_sets
    rw [(h1 set hset).1, (h1 set hset).2]
    exact ⟨rfl, rfl⟩
  · intro hc
    obtain ⟨s1, s2, _, _, s5, _, _, s8⟩ := setstart_spec T.bcjr 0
    unfold Turbo.reset
    rw [if_neg (by rw [hc]; decide)]
    cases he : T.endatzero
    · rw [if_neg (by decide)]
      obtain ⟨e1, e2, e3, e4⟩ := setend_equiprobable_val (T.bcjr.setstart 0)
      rw [s1] at e1
      refine ⟨_, rfl, e2.trans s5, e3.trans s2, ?_, fun h => absurd h (by decide), ?_⟩
      · intro m hm
        show (T.bcjr.setstart 0).setend_equiprobable.alpha.val 0 m = _
        rw [e1]
        exact s8 m hm
      · intro _ m hm
        have h := e4 m (by rw [s5]; exact hm)
        rw [s2, s5] at h
        exact h
    · rw [if_pos rfl]
      obtain ⟨e1, e2, e3, e4⟩ := setend_val (T.bcjr.setstart 0) 0
      rw [s1] at e1
      refine ⟨_, rfl, e2.trans s5, e3.trans s2, ?_, ?_, fun h => absurd h (by decide)⟩
      · intro m hm
        show ((T.bcjr.setstart 0).setend 0).alpha.val 0 m = _
        rw [e1]
        exact s8 m hm
      · intro _ m hm
        have h := e4 m (by rw [s5]; exact hm)
        rw [s2] at h
        exact h
  · intro b s m hm
    exact ⟨(setstart_spec b s).2.2.2.2.2.2.2 m hm, (setend_val b s).2.2.2 m hm,
      (setend_equiprobable_val b).2.2.2 m hm⟩

/-! ## The a-priori matrices left by `turbo::decode_parallel` -/

namespace Turbo

/-- A loop that assigns to every `ra(set)` a matrix made from `ri` and the old `ra(set)`. -/
theorem ra_loop_val (G : Nat → Matrix → Matrix → Matrix) (T : Turbo) (n : Nat) :
    (∀ s, s < n →
      (forUp n (fun set T =>
        T.store (MRef.m_ra set) (G set (T.mem MRef.m_ri) (T.mem (MRef.m_ra set)))) T).mem
        (MRef.m_ra s) = G s (T.mem MRef.m_ri) (T.mem (MRef.m_ra s))) ∧
    (∀ s, n ≤ s →
      (forUp n (fun set T =>
        T.store (MRef.m_ra set) (G set (T.mem MRef.m_ri) (T.mem (MRef.m_ra set)))) T).mem
        (MRef.m_ra s) = T.mem (MRef.m_ra s)) ∧
    (forUp n (fun set T =>
        T.store (MRef.m_ra set) (G set (T.mem MRef.m_ri) (T.mem (MRef.m_ra set)))) T).mem
        MRef.m_ri = T.mem MRef.m_ri := by
  induction n with
  | zero => exact ⟨fun s h => absurd h (Nat.not_lt_zero _), fun _ _ => rfl, rfl⟩
  | succ n ih =>
    obtain ⟨h1, h2, h3⟩ := ih
    rw [forUp_succ]
    refine ⟨?_, ?_, ?_⟩
    · intro s hs
      by_cases hc : s = n
      · subst hc
        rw [store_mem_same, h3, h2 s (Nat.le_refl _)]
      · rw [store_mem_other _ _ _ _ (by simp [hc]), h1 s (by omega)]
    · intro s hs
      rw [store_mem_other _ _ _ _ (by simp; omega), h2 s (by omega)]
    · rw [store_mem_other _ _ _ _ (by simp), h3]

end Turbo

/-- A number packed from `n` symbols below `P` is below `P ^ n`. -/
theorem radix_sum_lt (P : Nat) (x : Nat → Nat) (n : Nat) (hx : ∀ j, j < n → x j < P) :
    ∑ j in Finset.range n, x j * P ^ j < P ^ n := by
  induction n with
  | zero => simp
  | succ n ih =>
    have h1 := ih (fun j hj => hx j (by omega))
    have h2 := hx n (Nat.lt_succ_self n)
    rw [Finset.sum_range_succ, pow_succ]
    have h3 : x n * P ^ n + P ^ n ≤ P ^ n * P := by
      have : (x n + 1) * P ^ n ≤ P * P ^ n := Nat.mul_le_mul_right _ h2
      nlinarith
    omega

/-- The symbol `j` of a packed number is recovered by division and remainder. -/
theorem radix_sum_digit (P : Nat) (x : Nat → Nat) (n : Nat) (hx : ∀ j, j < n → x j < P)
    (j : Nat) (hj : j < n) :
    (∑ k in Finset.range n, x k * P ^ k) / P ^ j % P = x j := by
  have hP : 0 < P := Nat.lt_of_le_of_lt (Nat.zero_le _) (hx j hj)
  induction n with
  | zero => omega
  | succ n ih =>
    rw [Finset.sum_range_succ]
    by_cases hc : j = n
    · subst hc
      have h1 := radix_sum_lt P x j (fun k hk => hx k (by omega))
      rw [Nat.add_mul_div_right _ _ (pow_pos hP j), Nat.div_eq_of_lt h1, zero_add,
        Nat.mod_eq_of_lt (hx j hj)]
    · have hlt : j < n := by omega
      have hpow : P ^ n = P ^ j * (P * P ^ (n - j - 1)) := by
        rw [← pow_succ', ← pow_add]
        congr 1
        omega
      have e : x n * P ^ n = P ^ j * (P * (x n * P ^ (n - j - 1))) := by
        rw [hpow]; ring
      rw [e, Nat.add_mul_div_left _ _ (pow_pos hP j), Nat.add_mul_mod_self_left]
      exact ih (fun k hk => hx k (by omega)) hlt

/-- The loop over the sets that adds the parity symbols of time `t` to `encoded(t)`. -/
theorem pack_inner (x : Nat → Nat) (K P t : Nat) (e : IntVector) (n : Nat) :
    (forUp n (fun set (r : IntVector × Nat) =>
        (r.1.set t (r.1.val t + x set * r.2), r.2 * P)) (e, K)).2 = K * P ^ n ∧
    (forUp n (fun set (r : IntVector × Nat) =>
        (r.1.set t (r.1.val t + x set * r.2), r.2 * P)) (e, K)).1.size = e.size ∧
    ∀ j, (forUp n (fun set (r : IntVector × Nat) =>
        (r.1.set t (r.1.val t + x set * r.2), r.2 * P)) (e, K)).1.val j =
      if j = t then e.val t + ∑ set in Finset.range n, x set * (K * P ^ set) else e.val j := by
  induction n with
  | zero => exact ⟨by simp [forUp], rfl, fun j => by by_cases h : j = t <;> simp [forUp, h]⟩
  | succ n ih =>
    obtain ⟨h1, h2, h3⟩ := ih
    rw [forUp_succ]
    refine ⟨?_, h2, ?_⟩
    · show _ * P = _
      rw [h1, pow_succ, mul_assoc]
    · intro j
      show (IntVector.set _ t _).val j = _
      rw [intVector_set_val, h1, h3 t, if_pos rfl]
      by_cases hj : j = t
      · rw [if_pos hj, if_pos hj, Finset.sum_range_succ, add_assoc]
      · rw [if_neg hj, if_neg hj, h3 j, if_neg hj]

theorem Turbo.encode_pack_spec (s : EncodeState) (encoded : IntVector) :
    (Turbo.encode_pack s encoded).size = encoded.size ∧
    ∀ t, (Turbo.encode_pack s encoded).val t =
      if t < s.T.tau then
        s.source.val t +
          ∑ set in Finset.range s.T.num_sets,
            s.x set t * (s.T.num_inputs * s.T.enc_parity ^ set)
      else encoded.val t := by
  have hbody : ∀ (t : Nat) (e : IntVector),
      ((forUp s.T.num_sets (fun set (r : IntVector × Nat) =>
          (r.1.set t (r.1.val t + s.x set t * r.2), r.2 * s.T.enc_parity))
          (e.set t (s.source.val t), s.T.num_inputs)).1.size = e.size) ∧
      ∀ j, (forUp s.T.num_sets (fun set (r : IntVector × Nat) =>
          (r.1.set t (r.1.val t + s.x set t * r.2), r.2 * s.T.enc_parity))
          (e.set t (s.source.val t), s.T.num_inputs)).1.val j =
        if j = t then
          s.source.val t +
            ∑ set in Finset.range s.T.num_sets,
              s.x set t * (s.T.num_inputs * s.T.enc_parity ^ set)
        else e.val j := by
    intro t e
    obtain ⟨_, h2, h3⟩ := pack_inner (fun set => s.x set t) s.T.num_inputs s.T.enc_parity t
      (e.set t (s.source.val t)) s.T.num_sets
    refine ⟨h2, ?_⟩
    intro j
    rw [h3 j, intVector_set_val, intVector_set_val, if_pos rfl]
    by_cases hj : j = t
    · rw [if_pos hj, if_pos hj]
    · rw [if_neg hj, if_neg hj, if_neg hj]
  have hloop : ∀ n,
      (forUp n (fun t encoded =>
        let encoded := encoded.set t (s.source.val t)
        (forUp s.T.num_sets (fun set (r : IntVector × Nat) =>
          (r.1.set t (r.1.val t + s.x set t * r.2), r.2 * s.T.enc_parity))
          (encoded, s.T.num_inputs)).1) encoded).size = encoded.size ∧
      ∀ t, (forUp n (fun t encoded =>
        let encoded := encoded.set t (s.source.val t)
        (forUp s.T.num_sets (fun set (r : IntVector × Nat) =>
          (r.1.set t (r.1.val t + s.x set t * r.2), r.2 * s.T.enc_parity))
          (encoded, s.T.num_inputs)).1) encoded).val t =
        if t < n then
          s.source.val t +
            ∑ set in Finset.range s.T.num_sets,
              s.x set t * (s.T.num_inputs * s.T.enc_parity ^ set)
        else encoded.val t := by
    intro n
    induction n with
    | zero => exact ⟨rfl, fun t => by simp [forUp]⟩
    | succ n ih =>
      obtain ⟨h1, h2⟩ := ih
      rw [forUp_succ]
      obtain ⟨b1, b2⟩ := hbody n (forUp n (fun t encoded =>
        let encoded := encoded.set t (s.source.val t)
        (forUp s.T.num_sets (fun set (r : IntVector × Nat) =>
          (r.1.set t (r.1.val t + s.x set t * r.2), r.2 * s.T.enc_parity))
          (encoded, s.T.num_inputs)).1) encoded)
      refine ⟨b1.trans h1, ?_⟩
      intro t
      have e := b2 t
      dsimp only at e ⊢
      rw [e]
      by_cases ht : t = n
      · rw [if_pos ht, if_pos (by omega), ht]
      · rw [if_neg ht, h2 t]
        by_cases hlt : t < n
        · rw [if_pos hlt, if_pos (by omega)]
        · rw [if_neg hlt, if_neg (by omega)]
  exact hloop s.T.tau

/-! ## `turbo::encode`: the loop over the sets -/

theorem Fsm.run_succ (e : Fsm) (u : Nat → Nat) (t : Nat) :
    e.run u (t + 1) = ((e.run u t).step (u t)).1 := rfl

theorem Fsm.run_same_machine (E e : Fsm) (he : ∃ st, e = E.reset st) (u : Nat → Nat)
    (t : Nat) : ∃ st, e.run u t = E.reset st := by
  induction t with
  | zero => exact he
  | succ t ih =>
    obtain ⟨st, hst⟩ := ih
    rw [Fsm.run_succ, hst]
    exact ⟨_, rfl⟩

theorem Fsm.run_output_mem (E e : Fsm) (he : ∃ st, e = E.reset st) (u : Nat → Nat)
    (t : Nat) : ∃ m i, e.run_output u t = E.output m i := by
  obtain ⟨st, hst⟩ := Fsm.run_same_machine E e he u t
  unfold Fsm.run_output
  rw [hst]
  exact ⟨_, _, rfl⟩

/-- The loop of `turbo::encode` that steps the encoder over `source2` and fills row `set` of
`x`, after `n` steps. -/
theorem encode_step_loop (e0 : Fsm) (src : IntVector) (x0 : Nat → Nat → Nat) (set K : Nat)
    (n : Nat) :
    (forUp n (fun t (r : Fsm × IntVector × (Nat → Nat → Nat)) =>
      let o := r.1.step (r.2.1.val t)
      (o.1, r.2.1.set t o.2.1,
        Function.update r.2.2 set (Function.update (r.2.2 set) t (o.2.2 / K))))
      (e0, src, x0)).1 = e0.run src.val n ∧
    (∀ j, n ≤ j →
      (forUp n (fun t (r : Fsm × IntVector × (Nat → Nat → Nat)) =>
        let o := r.1.step (r.2.1.val t)
        (o.1, r.2.1.set t o.2.1,
          Function.update r.2.2 set (Function.update (r.2.2 set) t (o.2.2 / K))))
        (e0, src, x0)).2.1.val j = src.val j) ∧
    (∀ s' t',
      (forUp n (fun t (r : Fsm × IntVector × (Nat → Nat → Nat)) =>
        let o := r.1.step (r.2.1.val t)
        (o.1, r.2.1.set t o.2.1,
          Function.update r.2.2 set (Function.update (r.2.2 set) t (o.2.2 / K))))
        (e0, src, x0)).2.2 s' t' =
      if s' = set ∧ t' < n then e0.run_output src.val t' / K else x0 s' t') := by
  induction n with
  | zero => exact ⟨rfl, fun _ _ => rfl, fun s' t' => by simp [forUp]⟩
  | succ n ih =>
    obtain ⟨h1, h2, h3⟩ := ih
    rw [forUp_succ]
    dsimp only
    rw [h1, h2 n (Nat.le_refl n)]
    refine ⟨?_, ?_, ?_⟩
    · rfl
    · intro j hj
      rw [intVector_set_val, if_neg (by omega), h2 j (by omega)]
    · intro s' t'
      by_cases hs : s' = set
      · subst hs
        by_cases ht : t' = n
        · subst ht
          simp [Fsm.run_output]
        · simp only [Function.update_same, Function.update_apply, if_neg ht]
          rw [h3]
          by_cases hlt : t' < n
          · rw [if_pos ⟨rfl, hlt⟩, if_pos ⟨trivial, by omega⟩]
          · rw [if_neg (fun h => hlt h.2), if_neg (fun h => hlt (by omega))]
      · simp only [Function.update_apply, if_neg hs]
        rw [h3, if_neg (fun h => hs h.1), if_neg (fun h => hs h.1)]

/-- The first pass for a circular code leaves the same machine. -/
theorem encode_advance_loop (E : Fsm) (e0 : Fsm) (src : IntVector) (he : ∃ st, e0 = E.reset st)
    (n : Nat) :
    ∃ st, (forUp n (fun t (r : Fsm × IntVector) =>
      let a := r.1.advance (r.2.val t)
      (a.1, r.2.set t a.2)) (e0, src)).1 = E.reset st := by
  induction n with
  | zero => exact he
  | succ n ih =>
    obtain ⟨st, hst⟩ := ih
    rw [forUp_succ]
    dsimp only
    rw [hst]
    exact ⟨_, rfl⟩

namespace Turbo

theorem encode_prepare_same_machine (advanced : Nat → Interleaver) (set : Nat)
    (s : EncodeState) : ∃ st, (encode_prepare advanced set s).1 = s.T.encoder.reset st := by
  unfold encode_prepare
  dsimp only
  by_cases hc : s.T.circular = true
  · rw [if_pos hc]
    obtain ⟨st, hst⟩ := encode_advance_loop s.T.encoder (s.T.encoder.reset 0)
      ((Function.update s.T.inter set (advanced set) set).transform_int s.source) ⟨0, rfl⟩
      s.T.tau
    dsimp only
    rw [hst]
    exact ⟨_, rfl⟩
  · rw [if_neg hc]
    exact ⟨0, rfl⟩

theorem encode_set_eq (advanced : Nat → Interleaver) (set : Nat) (s : EncodeState) :
    encode_set advanced set s =
      if s.T.circular = true ∧
          (forUp s.T.tau (fun t (r : Fsm × IntVector × (Nat → Nat → Nat)) =>
            let o := r.1.step (r.2.1.val t)
            (o.1, r.2.1.set t o.2.1,
              Function.update r.2.2 set (Function.update (r.2.2 set) t (o.2.2 / s.T.num_inputs))))
            ((encode_prepare advanced set s).1, (encode_prepare advanced set s).2.1, s.x)).1.state
            ≠ (encode_prepare advanced set s).2.2 then none
      else if s.T.endatzero = true ∧
          (forUp s.T.tau (fun t (r : Fsm × IntVector × (Nat → Nat → Nat)) =>
            let o := r.1.step (r.2.1.val t)
            (o.1, r.2.1.set t o.2.1,
              Function.update r.2.2 set (Function.update (r.2.2 set) t (o.2.2 / s.T.num_inputs))))
            ((encode_prepare advanced set s).1, (encode_prepare advanced set s).2.1, s.x)).1.state
            ≠ 0 then none
      else some
        { T := { s.T with
            inter := Function.update s.T.inter set (advanced set)
            encoder :=
              (forUp s.T.tau (fun t (r : Fsm × IntVector × (Nat → Nat → Nat)) =>
                let o := r.1.step (r.2.1.val t)
                (o.1, r.2.1.set t o.2.1,
                  Function.update r.2.2 set
                    (Function.update (r.2.2 set) t (o.2.2 / s.T.num_inputs))))
                ((encode_prepare advanced set s).1, (encode_prepare advanced set s).2.1,
                  s.x)).1 }
          source :=
            if s.T.endatzero && set == 0 then
              (forUp s.T.tau (fun t (r : Fsm × IntVector × (Nat → Nat → Nat)) =>
                let o := r.1.step (r.2.1.val t)
                (o.1, r.2.1.set t o.2.1,
                  Function.update r.2.2 set
                    (Function.update (r.2.2 set) t (o.2.2 / s.T.num_inputs))))
                ((encode_prepare advanced set s).1, (encode_prepare advanced set s).2.1,
                  s.x)).2.1
            else s.source
          source2 :=
            (forUp s.T.tau (fun t (r : Fsm × IntVector × (Nat → Nat → Nat)) =>
              let o := r.1.step (r.2.1.val t)
              (o.1, r.2.1.set t o.2.1,
                Function.update r.2.2 set
                  (Function.update (r.2.2 set) t (o.2.2 / s.T.num_inputs))))
              ((encode_prepare advanced set s).1, (encode_prepare advanced set s).2.1,
                s.x)).2.1
          x :=
            (forUp s.T.tau (fun t (r : Fsm × IntVector × (Nat → Nat → Nat)) =>
              let o := r.1.step (r.2.1.val t)
              (o.1, r.2.1.set t o.2.1,
                Function.update r.2.2 set
                  (Function.update (r.2.2 set) t (o.2.2 / s.T.num_inputs))))
              ((encode_prepare advanced set s).1, (encode_prepare advanced set s).2.1,
                s.x)).2.2 } := rfl

/-- What one pass of the loop over the sets of `turbo::encode` leaves, when it does not
fail. -/
theorem encode_set_spec (advanced : Nat → Interleaver) (set : Nat) (s s' : EncodeState)
    (h : encode_set advanced set s = some s') :
    s'.T.tau = s.T.tau ∧ s'.T.num_sets = s.T.num_sets ∧
    (∃ st, s'.T.encoder = s.T.encoder.reset st) ∧
    s'.T.circular = s.T.circular ∧ s'.T.endatzero = s.T.endatzero ∧
    (s.T.endatzero = false → s'.source = s.source) ∧
    ∀ j t, s'.x j t =
      if j = set ∧ t < s.T.tau then
        Fsm.run_output (encode_prepare advanced set s).1
          (encode_prepare advanced set s).2.1.val t / s.T.num_inputs
      else s.x j t := by
  obtain ⟨st, hst⟩ := encode_prepare_same_machine advanced set s
  obtain ⟨h1, _, h3⟩ := encode_step_loop (encode_prepare advanced set s).1
    (encode_prepare advanced set s).2.1 s.x set s.T.num_inputs s.T.tau
  obtain ⟨st2, hst2⟩ := Fsm.run_same_machine s.T.encoder (encode_prepare advanced set s).1
    ⟨st, hst⟩ (encode_prepare advanced set s).2.1.val s.T.tau
  rw [encode_set_eq] at h
  generalize forUp s.T.tau (fun t (r : Fsm × IntVector × (Nat → Nat → Nat)) =>
      let o := r.1.step (r.2.1.val t)
      (o.1, r.2.1.set t o.2.1,
        Function.update r.2.2 set (Function.update (r.2.2 set) t (o.2.2 / s.T.num_inputs))))
      ((encode_prepare advanced set s).1, (encode_prepare advanced set s).2.1, s.x) = R
    at h h1 h3
  by_cases hc1 : s.T.circular = true ∧ R.1.state ≠ (encode_prepare advanced set s).2.2
  · rw [if_pos hc1] at h
    exact absurd h (by simp)
  · rw [if_neg hc1] at h
    by_cases hc2 : s.T.endatzero = true ∧ R.1.state ≠ 0
    · rw [if_pos hc2] at h
      exact absurd h (by simp)
    · rw [if_neg hc2] at h
      have h' := (Option.some.inj h).symm
      subst h'
      refine ⟨rfl, rfl, ⟨st2, h1.trans hst2⟩, rfl, rfl, ?_, h3⟩
      intro he
      show (if (s.T.endatzero && set == 0) = true then R.2.1 else s.source) = s.source
      rw [he]
      rfl

theorem forUpO_some_succ {σ : Type} (n : Nat) (f : Nat → σ → Option σ) (s s' : σ)
    (h : forUpO (n + 1) f s = some s') :
    ∃ sn, forUpO n f s = some sn ∧ f n sn = some s' := by
  rw [forUpO_succ] at h
  cases hn : forUpO n f s with
  | none => rw [hn] at h; exact absurd h (by simp)
  | some sn => rw [hn] at h; exact ⟨sn, rfl, h⟩

/-- The loop over the sets of `turbo::encode`, after `n` sets, when it has not failed. -/
theorem encode_sets_loop (T : Turbo) (advanced : Nat → Interleaver) (source : IntVector)
    (n : Nat) (sn : EncodeState)
    (h : forUpO n (encode_set advanced)
      { T := T, source := source, source2 := { size := T.tau, val := fun _ => 0 }
        x := fun _ _ => 0 } = some sn) :
    sn.T.tau = T.tau ∧ sn.T.num_sets = T.num_sets ∧
    (∃ st, sn.T.encoder = T.encoder.reset st) ∧
    sn.T.circular = T.circular ∧ sn.T.endatzero = T.endatzero ∧
    (T.endatzero = false → sn.source = source) ∧
    ∀ set t, set < n → t < T.tau → sn.x set t = T.encode_parity advanced source set t := by
  induction n generalizing sn with
  | zero =>
    have h' := (Option.some.inj h).symm
    subst h'
    exact ⟨rfl, rfl, ⟨T.encoder.state, rfl⟩, rfl, rfl, fun _ => rfl,
      fun set t hs => absurd hs (Nat.not_lt_zero _)⟩
  | succ n ih =>
    obtain ⟨sm, hsm, hstep⟩ := forUpO_some_succ n _ _ _ h
    obtain ⟨i1, i2, ⟨st, i3⟩, i4, i5, i6, i7⟩ := ih sm hsm
    obtain ⟨e1, e2, ⟨st2, e3⟩, e4, e5, e6, e7⟩ := encode_set_spec advanced n sm sn hstep
    refine ⟨e1.trans i1, e2.trans i2, ⟨st2, ?_⟩, e4.trans i4, e5.trans i5, ?_, ?_⟩
    · rw [e3, i3]; rfl
    · intro he
      rw [e6 (i5.trans he), i6 he]
    · intro set t hs ht
      rw [e7]
      by_cases hc : set = n
      · subst hc
        rw [if_pos ⟨rfl, by rw [i1]; exact ht⟩]
        unfold encode_parity encode_output encode_before
        rw [hsm]
        have hK : sm.T.num_inputs = T.num_inputs := by
          unfold num_inputs
          rw [i3]; rfl
        rw [hK]
        rfl
      · rw [if_neg (fun h => hc h.1)]
        exact i7 set t (by omega) ht

end Turbo

namespace Turbo

theorem encode_eq (T : Turbo) (advanced : Nat → Interleaver) (source encoded : IntVector) :
    T.encode advanced source encoded =
      (forUpO T.num_sets (encode_set advanced)
        { T := T, source := source, source2 := { size := T.tau, val := fun _ => 0 }
          x := fun _ _ => 0 }).map (fun s => (s, encode_pack s (encoded.init T.tau))) := rfl

/-- A parity symbol is below `enc_parity` when the encoder output is below
`num_inputs * enc_parity`. -/
theorem encode_parity_lt (T : Turbo) (advanced : Nat → Interleaver) (source : IntVector)
    (set t : Nat)
    (hout : T.encode_output advanced source set t < T.num_inputs * T.enc_parity) :
    T.encode_parity advanced source set t < T.enc_parity :=
  Nat.div_lt_of_lt_mul hout

/-- What `turbo::encode` returns, when it returns. -/
theorem encode_result (T : Turbo) (advanced : Nat → Interleaver) (source encoded : IntVector)
    (r : EncodeState × IntVector) (hr : T.encode advanced source encoded = some r) :
    r.1.T.tau = T.tau ∧ r.1.T.num_sets = T.num_sets ∧
    (∃ st, r.1.T.encoder = T.encoder.reset st) ∧
    r.2.size = T.tau ∧ (T.endatzero = false → r.1.source = source) ∧
    ∀ t, t < T.tau →
      (∀ set, set < T.num_sets → r.1.x set t = T.encode_parity advanced source set t) ∧
      r.2.val t = r.1.source.val t +
        ∑ set in Finset.range T.num_sets,
          r.1.x set t * (T.num_inputs * T.enc_parity ^ set) := by
  rw [encode_eq] at hr
  cases hsn : forUpO T.num_sets (encode_set advanced)
      { T := T, source := source, source2 := { size := T.tau, val := fun _ => 0 }
        x := fun _ _ => 0 } with
  | none => rw [hsn] at hr; exact absurd hr (by simp)
  | some sn =>
    rw [hsn] at hr
    have hr' := (Option.some.inj hr).symm
    subst hr'
    obtain ⟨i1, i2, ⟨st, i3⟩, _, _, i6, i7⟩ :=
      encode_sets_loop T advanced source T.num_sets sn hsn
    obtain ⟨p1, p2⟩ := encode_pack_spec sn (encoded.init T.tau)
    have hK : sn.T.num_inputs = T.num_inputs := by
      unfold num_inputs
      rw [i3]; rfl
    have hP : sn.T.enc_parity = T.enc_parity := by
      unfold enc_parity enc_outputs num_inputs
      rw [i3]; rfl
    refine ⟨i1, i2, ⟨st, i3⟩, p1, i6, ?_⟩
    intro t ht
    refine ⟨fun set hs => i7 set t hs ht, ?_⟩
    show (encode_pack sn (encoded.init T.tau)).val t = _
    rw [p2 t, if_pos (by rw [i1]; exact ht), i2, hK, hP]

end Turbo

theorem roundLog_pow (S k : Nat) (hS : 2 ≤ S) : roundLog S (S ^ k) = k := by
  unfold roundLog
  dsimp only
  rw [Nat.log_pow (by omega)]
  have h : ¬ S ^ (2 * k + 1) ≤ (S ^ k) ^ 2 := by
    rw [← pow_mul, Nat.mul_comm k 2]
    exact not_le.mpr (Nat.pow_lt_pow_right (by omega) (Nat.lt_succ_self _))
  rw [if_neg h]

namespace Turbo

theorem frame_refl (keep : MRef → Prop) (T : Turbo) : frame keep T T :=
  ⟨sameConfig_refl T, fun _ _ => rfl⟩

theorem frame_trans (keep : MRef → Prop) (a b c : Turbo) (h1 : frame keep a b)
    (h2 : frame keep b c) : frame keep a c :=
  ⟨sameConfig_trans h1.1 h2.1, fun y hy => (h2.2 y hy).trans (h1.2 y hy)⟩

theorem frame_store (keep : MRef → Prop) (T : Turbo) (x : MRef) (a : Matrix)
    (hx : ¬ keep x) : frame keep T (T.store x a) :=
  ⟨sameConfig_store T x a, fun y hy => store_mem_other T x y a (fun h => hx (h ▸ hy))⟩

theorem translate_apriori_spec (T : Turbo) :
    frame (fun y => ∀ k, y ≠ MRef.m_ra k) T T.translate_apriori ∧
    ∀ set, set < (if T.parallel then T.num_sets else 1) →
      T.translate_apriori.mem (MRef.m_ra set) = (T.mem (MRef.m_ra set)).fill 1 := by
  constructor
  · unfold translate_apriori
    apply forUp_rel (frame (fun y => ∀ k, y ≠ MRef.m_ra k))
      (frame_refl _) (frame_trans _)
    intro k S
    exact frame_store _ S _ _ (fun h => h k rfl)
  · intro set hset
    exact (ra_loop_val (fun _ _ c => c.fill 1) T (if T.parallel then T.num_sets else 1)).1
      set hset

theorem translate_intrinsic_spec (T : Turbo) :
    frame (fun y => y ≠ MRef.m_rp ∧ ∀ k, y ≠ MRef.m_r k) T T.translate_intrinsic ∧
    T.translate_intrinsic.mem MRef.m_rp = Bcjr.normalize (T.mem MRef.m_rp) := by
  have h := forUp_rel (frame (fun y => ∀ k, y ≠ MRef.m_r k))
    (frame_refl _) (frame_trans _)
    (fun set T => T.store (MRef.m_r set) ((T.inter set).transform (T.mem MRef.m_rp)))
    (fun k S => frame_store _ S _ _ (fun h => h k rfl))
    (T.store MRef.m_rp (Bcjr.normalize (T.mem MRef.m_rp))).num_sets
    (T.store MRef.m_rp (Bcjr.normalize (T.mem MRef.m_rp)))
  constructor
  · refine ⟨sameConfig_trans (sameConfig_store T _ _) h.1, ?_⟩
    intro y hy
    have e : T.translate_intrinsic.mem y
        = (T.store MRef.m_rp (Bcjr.normalize (T.mem MRef.m_rp))).mem y := h.2 y hy.2
    rw [e, store_mem_other _ _ _ _ hy.1]
  · have e : T.translate_intrinsic.mem MRef.m_rp
        = (T.store MRef.m_rp (Bcjr.normalize (T.mem MRef.m_rp))).mem MRef.m_rp :=
      h.2 MRef.m_rp (fun k => by simp)
    rw [e, store_mem_same]

theorem translate_encoded_spec (T : Turbo) (p : Matrix3) :
    frame (fun y => ∀ k, y ≠ MRef.m_R k) T (T.translate_encoded p) := by
  unfold translate_encoded
  apply forUp_rel (frame (fun y => ∀ k, y ≠ MRef.m_R k)) (frame_refl _) (frame_trans _)
  intro set S
  refine frame_trans _ _ _ _ ?_ (frame_store _ _ _ _ (fun h => h set rfl))
  apply forUp_rel (frame (fun y => ∀ k, y ≠ MRef.m_R k)) (frame_refl _) (frame_trans _)
  intro t S1
  apply forUp_rel (frame (fun y => ∀ k, y ≠ MRef.m_R k)) (frame_refl _) (frame_trans _)
  intro x S2
  exact frame_store _ _ _ _ (fun h => h set rfl)

/-- `turbo::reset` does not fail on an allocated codec, and leaves the matrices alone. -/
theorem reset_some (T : Turbo) (hinit : T.initialised = true) :
    ∃ T', T.reset = some T' ∧ T'.mem = T.mem := by
  unfold reset
  by_cases hc : T.circular = true
  · rw [if_pos hc, if_pos hinit]
    refine ⟨_, rfl, ?_⟩
    exact forUp_preserve (fun T : Turbo => T.mem)
      (fun set T =>
        let T := { T with ss := Function.update T.ss set (fun _ => 1 / (T.enc_states : ℚ)) }
        { T with se := Function.update T.se set (fun _ => 1 / (T.enc_states : ℚ)) })
      (fun _ _ => rfl) T.num_sets T
  · rw [if_neg hc]
    by_cases he : T.endatzero = true
    · rw [if_pos he]
      exact ⟨_, rfl, rfl⟩
    · rw [if_neg he]
      exact ⟨_, rfl, rfl⟩

/-- The part of `turbo::translate` after the checks, on an allocated codec: the call returns,
`rp` is the normalised table of the input symbols, and every `ra(set)` is filled with 1. -/
theorem translate_work_spec (T : Turbo) (ptable : Matrix) (sk sp : Nat)
    (hinit : T.initialised = true) :
    ∃ T', (T.translate_work ptable sk sp).1 = some T' ∧
      T'.mem MRef.m_rp = Bcjr.normalize
        (T.translate_tables ptable ptable.ysize (sk + T.num_sets * sp) sk sp (T.mem MRef.m_rp)
          { xsize := T.num_sets, ysize := T.tau, zsize := T.enc_parity
            val := fun _ _ _ => 0 }).1 ∧
      ∀ set, set < (if T.parallel then T.num_sets else 1) →
        T'.mem (MRef.m_ra set) = (T.mem (MRef.m_ra set)).fill 1 := by
  generalize htb : T.translate_tables ptable ptable.ysize (sk + T.num_sets * sp) sk sp
    (T.mem MRef.m_rp)
    { xsize := T.num_sets, ysize := T.tau, zsize := T.enc_parity
      val := fun _ _ _ => 0 } = tb
  have hdef : (T.translate_work ptable sk sp).1 =
      ((((T.store MRef.m_rp tb.1).translate_apriori).translate_intrinsic).translate_encoded
        tb.2).reset := by
    rw [← htb]
    rfl
  obtain ⟨a1, a2⟩ := translate_apriori_spec (T.store MRef.m_rp tb.1)
  obtain ⟨b1, b2⟩ := translate_intrinsic_spec (T.store MRef.m_rp tb.1).translate_apriori
  have c1 := translate_encoded_spec
    (T.store MRef.m_rp tb.1).translate_apriori.translate_intrinsic tb.2
  have hcfg := sameConfig_trans (sameConfig_trans a1.1 b1.1) c1.1
  obtain ⟨T', hT', hmem⟩ := reset_some
    (((T.store MRef.m_rp tb.1).translate_apriori).translate_intrinsic.translate_encoded tb.2)
    (hcfg.2.2.2.2.1.trans hinit)
  refine ⟨T', hdef.trans hT', ?_, ?_⟩
  · rw [hmem, c1.2 MRef.m_rp (fun k => by simp), b2, a1.2 MRef.m_rp (fun k => by simp),
      store_mem_same]
  · intro set hset
    rw [hmem, c1.2 (MRef.m_ra set) (fun k => by simp),
      b1.2 (MRef.m_ra set) ⟨by simp, fun k => by simp⟩, a2 set hset,
      store_mem_other _ _ _ _ (by simp)]

end Turbo

namespace Turbo

theorem translate_eq (T : Turbo) (ptable : Matrix) :
    T.translate ptable =
      if T.enc_parity ≠ ptable.ysize ^ roundLog ptable.ysize T.enc_parity ∨
          T.num_inputs ≠ ptable.ysize ^ roundLog ptable.ysize T.num_inputs then none
      else if ptable.xsize ≠ T.tau *
          (roundLog ptable.ysize T.num_inputs
            + T.num_sets * roundLog ptable.ysize T.enc_parity) then none
      else ((if !T.initialised then T.allocate else T).translate_work ptable
        (roundLog ptable.ysize T.num_inputs) (roundLog ptable.ysize T.enc_parity)).1 := rfl

/-- The codec on which `turbo::translate` works is allocated. -/
theorem allocated_initialised (T : Turbo) :
    (if !T.initialised then T.allocate else T).initialised = true := by
  cases h : T.initialised
  · rfl
  · exact h

theorem allocated_parallel (T : Turbo) :
    (if !T.initialised then T.allocate else T).parallel = T.parallel ∧
    (if !T.initialised then T.allocate else T).num_sets = T.num_sets := by
  cases h : T.initialised
  · have e : (fun T : Turbo => (T.parallel, T.num_sets)) T.allocate
        = (fun T : Turbo => (T.parallel, T.num_sets)) T := by
      have h1 : ∀ T : Turbo,
          (fun T : Turbo => (T.parallel, T.num_sets))
            (forUp T.num_sets (fun i T =>
              let T := T.store (MRef.m_r i) ((T.mem (MRef.m_r i)).init T.tau T.num_inputs)
              T.store (MRef.m_R i) ((T.mem (MRef.m_R i)).init T.tau T.enc_outputs)) T)
          = (fun T : Turbo => (T.parallel, T.num_sets)) T :=
        fun T => forUp_preserve (fun T : Turbo => (T.parallel, T.num_sets))
          (fun i T =>
            let T := T.store (MRef.m_r i) ((T.mem (MRef.m_r i)).init T.tau T.num_inputs)
            T.store (MRef.m_R i) ((T.mem (MRef.m_R i)).init T.tau T.enc_outputs))
          (fun _ _ => rfl) T.num_sets T
      have h2 : ∀ (x : MRef) (T : Turbo),
          (fun T : Turbo => (T.parallel, T.num_sets))
            (T.store x ((T.mem x).init T.tau T.num_inputs))
          = (fun T : Turbo => (T.parallel, T.num_sets)) T := fun _ _ => rfl
      have h3 : ∀ T : Turbo,
          (fun T : Turbo => (T.parallel, T.num_sets))
            (if T.parallel then
              forUp T.num_sets (fun i T =>
                T.store (MRef.m_ra i) ((T.mem (MRef.m_ra i)).init T.tau T.num_inputs)) T
            else T.store (MRef.m_ra 0) ((T.mem (MRef.m_ra 0)).init T.tau T.num_inputs))
          = (fun T : Turbo => (T.parallel, T.num_sets)) T := by
        intro T
        by_cases hp : T.parallel = true
        · rw [if_pos hp]
          exact forUp_preserve (fun T : Turbo => (T.parallel, T.num_sets))
            (fun i T => T.store (MRef.m_ra i) ((T.mem (MRef.m_ra i)).init T.tau T.num_inputs))
            (fun _ _ => rfl) T.num_sets T
        · rw [if_neg hp]
          rfl
      have h4 : ∀ T : Turbo,
          (fun T : Turbo => (T.parallel, T.num_sets))
            ({ T with initialised := true } : Turbo)
          = (fun T : Turbo => (T.parallel, T.num_sets)) T := fun _ => rfl
      exact preserve_comp (fun T : Turbo => (T.parallel, T.num_sets))
        (preserve_comp (fun T : Turbo => (T.parallel, T.num_sets))
          (preserve_comp (fun T : Turbo => (T.parallel, T.num_sets))
            (preserve_comp (fun T : Turbo => (T.parallel, T.num_sets))
              (preserve_comp (fun T : Turbo => (T.parallel, T.num_sets))
                (preserve_comp (fun T : Turbo => (T.parallel, T.num_sets)) h1
                  (h2 MRef.m_rp))
                (h2 MRef.m_ri))
              (h2 MRef.m_rai))
            (h2 MRef.m_rii))
          h3)
        h4 T
    simp only [Prod.mk.injEq] at e
    exact e
  · exact ⟨rfl, rfl⟩

end Turbo

/-- C15: `turbo::translate` rejects mis-shaped channel tables. Let `S = ptable.ysize()` be at
least 2 and the input and parity alphabets be non-empty (so that the logarithms are defined).
If `num_inputs` or `enc_parity` is not an exact power of `S` the call fails. Otherwise, with
`S ^ sk = num_inputs` and `S ^ sp = enc_parity`, the call fails if
`ptable.xsize() != tau * (sk + num_sets * sp)`, and else it returns and leaves every entry of
every extrinsic a-priori matrix `ra(set)` (one matrix for the serial schedule, `num_sets` for
the parallel one) equal to 1. -/
theorem translate_rejects_misshaped (T : Turbo) (ptable : Matrix) (hS : 2 ≤ ptable.ysize)
    (_hK : 1 ≤ T.num_inputs) (_hP : 1 ≤ T.enc_parity) :
    (((¬ ∃ k, T.num_inputs = ptable.ysize ^ k) ∨ (¬ ∃ k, T.enc_parity = ptable.ysize ^ k)) →
      T.translate ptable = none) ∧
    ∀ sk sp, T.num_inputs = ptable.ysize ^ sk → T.enc_parity = ptable.ysize ^ sp →
      (ptable.xsize ≠ T.tau * (sk + T.num_sets * sp) → T.translate ptable = none) ∧
      (ptable.xsize = T.tau * (sk + T.num_sets * sp) →
        ∃ T', T.translate ptable = some T' ∧
          ∀ set, set < (if T.parallel then T.num_sets else 1) →
            ∀ t x, t < (T'.mem (MRef.m_ra set)).xsize → x < (T'.mem (MRef.m_ra set)).ysize →
              (T'.mem (MRef.m_ra set)).val t x = 1) := by
  constructor
  · intro h
    rw [Turbo.translate_eq, if_pos]
    rcases h with h | h
    · exact Or.inr (fun e => h ⟨_, e⟩)
    · exact Or.inl (fun e => h ⟨_, e⟩)
  · intro sk sp hsk hsp
    have ek : roundLog ptable.ysize T.num_inputs = sk := by
      rw [hsk]; exact roundLog_pow _ _ hS
    have ep : roundLog ptable.ysize T.enc_parity = sp := by
      rw [hsp]; exact roundLog_pow _ _ hS
    rw [Turbo.translate_eq, ek, ep, if_neg (by rw [← hsk, ← hsp]; simp)]
    constructor
    · intro hx
      rw [if_pos hx]
    · intro hx
      rw [if_neg (not_not.mpr hx)]
      obtain ⟨T', hT', _, hra⟩ := Turbo.translate_work_spec
        (if !T.initialised then T.allocate else T) ptable sk sp (Turbo.allocated_initialised T)
      refine ⟨T', hT', ?_⟩
      intro set hset t x ht hx'
      rw [(Turbo.allocated_parallel T).1, (Turbo.allocated_parallel T).2] at hra
      rw [hra set hset] at ht hx' ⊢
      show (if t < _ ∧ x < _ then (1 : ℚ) else _) = 1
      rw [if_pos ⟨ht, hx'⟩]

/-! ## Digits -/

theorem digit_low (S k j a w : Nat) (hS : 0 < S) (hj : j < k) :
    digit S (a + S ^ k * w) j = digit S a j := by
  unfold digit
  have e : S ^ k * w = S ^ j * (S * (S ^ (k - j - 1) * w)) := by
    have : S ^ k = S ^ j * (S * S ^ (k - j - 1)) := by
      rw [← pow_succ', ← pow_add]
      congr 1
      omega
    rw [this]; ring
  rw [e, Nat.add_mul_div_left _ _ (pow_pos hS j), Nat.add_mul_mod_self_left]

theorem digit_high (S k m a w : Nat) (hS : 0 < S) (ha : a < S ^ k) :
    digit S (a + S ^ k * w) (k + m) = digit S w m := by
  unfold digit
  rw [pow_add, ← Nat.div_div_eq_div_mul, Nat.add_mul_div_left _ _ (pow_pos hS k),
    Nat.div_eq_of_lt ha, zero_add]

theorem digit_zero (S x : Nat) : digit S x 0 = x % S := by
  unfold digit
  rw [pow_zero, Nat.div_one]

theorem digit_succ (S x i : Nat) : digit S x (i + 1) = digit S (x / S) i := by
  unfold digit
  rw [Nat.div_div_eq_div_mul, ← pow_succ']

/-- Two numbers below `S ^ k` with the same `k` digits are equal. -/
theorem digits_eq (S : Nat) (k : Nat) (x a : Nat) (hx : x < S ^ k) (ha : a < S ^ k)
    (h : ∀ i, i < k → digit S x i = digit S a i) : x = a := by
  induction k generalizing x a with
  | zero =>
    rw [pow_zero] at hx ha
    omega
  | succ k ih =>
    have h0 := h 0 (Nat.succ_pos k)
    rw [digit_zero, digit_zero] at h0
    have h1 : x / S = a / S := by
      apply ih
      · exact Nat.div_lt_of_lt_mul (by rw [← pow_succ']; exact hx)
      · exact Nat.div_lt_of_lt_mul (by rw [← pow_succ']; exact ha)
      · intro i hi
        rw [← digit_succ, ← digit_succ]
        exact h (i + 1) (by omega)
    rw [← Nat.mod_add_div x S, ← Nat.mod_add_div a S, h0, h1]

/-- The product of the likelihoods of the digits of `x`, when the table holds the indicator
of the digits of `a`. -/
theorem prod_digit_indicator (S k : Nat) (x a : Nat) (hx : x < S ^ k) (ha : a < S ^ k)
    (f : Nat → Nat → ℚ)
    (hf : ∀ i, i < k → f i (digit S x i) = if digit S x i = digit S a i then 1 else 0) :
    ∏ i in Finset.range k, f i (digit S x i) = if x = a then 1 else 0 := by
  have e : ∏ i in Finset.range k, f i (digit S x i)
      = ∏ i in Finset.range k, (if digit S x i = digit S a i then (1 : ℚ) else 0) :=
    Finset.prod_congr rfl (fun i hi => hf i (Finset.mem_range.mp hi))
  rw [e, Finset.prod_boole]
  by_cases hxa : x = a
  · rw [if_pos hxa, if_pos]
    intro i _
    rw [hxa]
  · rw [if_neg hxa, if_neg]
    intro hall
    exact hxa (digits_eq S k x a hx ha (fun i hi => hall i (Finset.mem_range.mpr hi)))

/-! ## The tables read by `turbo::translate` -/

theorem Matrix.set_set (a : Matrix) (t x : Nat) (u v : ℚ) :
    (a.set t x u).set t x v = a.set t x v := by
  simp [Matrix.set]

theorem Matrix.set_val_same (a : Matrix) (t x : Nat) (u : ℚ) : (a.set t x u).val t x = u := by
  rw [Matrix.set_val, if_pos ⟨rfl, rfl⟩]

theorem Matrix3.set3_set (a : Matrix3) (s t x : Nat) (u v : ℚ) :
    (a.set s t x u).set s t x v = a.set s t x v := by
  simp [Matrix3.set]

theorem Matrix3.set3_val_same (a : Matrix3) (s t x : Nat) (u : ℚ) :
    (a.set s t x u).val s t x = u := by
  rw [matrix3_set_val, if_pos ⟨rfl, rfl, rfl⟩]

theorem translate_rp_entry_eq (ptable : Matrix) (S s sk t x : Nat) (rp : Matrix) :
    translate_rp_entry ptable S s sk t x rp =
      rp.set t x (∏ i in Finset.range sk, ptable.val (t * s + i) (digit S x i)) := by
  have h : ∀ n, forUp n (fun i (r : Matrix × Nat) =>
      (r.1.set t x (r.1.val t x * ptable.val (t * s + i) (r.2 % S)), r.2 / S))
      (rp.set t x 1, x) =
      (rp.set t x (∏ i in Finset.range n, ptable.val (t * s + i) (digit S x i)), x / S ^ n) := by
    intro n
    induction n with
    | zero => simp [forUp]
    | succ n ih =>
      rw [forUp_succ, ih]
      dsimp only
      rw [Matrix.set_set, Matrix.set_val_same, Finset.prod_range_succ, Nat.div_div_eq_div_mul,
        ← pow_succ]
      rfl
  unfold translate_rp_entry
  dsimp only
  rw [h sk]

theorem translate_p_entry_eq (ptable : Matrix) (S s sp t x set offset : Nat) (p : Matrix3) :
    translate_p_entry ptable S s sp t x set offset p =
      p.set set t x
        (∏ i in Finset.range sp, ptable.val (t * s + i + offset) (digit S x i)) := by
  have h : ∀ n, forUp n (fun i (r : Matrix3 × Nat) =>
      (r.1.set set t x (r.1.val set t x * ptable.val (t * s + i + offset) (r.2 % S)), r.2 / S))
      (p.set set t x 1, x) =
      (p.set set t x (∏ i in Finset.range n, ptable.val (t * s + i + offset) (digit S x i)),
        x / S ^ n) := by
    intro n
    induction n with
    | zero => simp [forUp]
    | succ n ih =>
      rw [forUp_succ, ih]
      dsimp only
      rw [Matrix3.set3_set, Matrix3.set3_val_same, Finset.prod_range_succ,
        Nat.div_div_eq_div_mul, ← pow_succ]
      rfl
  unfold translate_p_entry
  dsimp only
  rw [h sp]

theorem forUp_pair {α β : Type} (f : Nat → α → α) (g : Nat → β → β) (n : Nat) (a : α)
    (b : β) :
    forUp n (fun t (st : α × β) => (f t st.1, g t st.2)) (a, b) = (forUp n f a, forUp n g b) := by
  induction n with
  | zero => rfl
  | succ n ih => rw [forUp_succ, ih]; rfl

/-- The loop over the sets in `turbo::translate` that fills `p(·, t, x)`. -/
theorem translate_p_sets (W : Nat → Nat → ℚ) (sk sp t x : Nat) (p : Matrix3) (n : Nat) :
    (forUp n (fun set (q : Matrix3 × Nat) => (q.1.set set t x (W set q.2), q.2 + sp))
      (p, sk)).2 = sk + n * sp ∧
    ∀ s' t' x',
      (forUp n (fun set (q : Matrix3 × Nat) => (q.1.set set t x (W set q.2), q.2 + sp))
        (p, sk)).1.val s' t' x' =
      if s' < n ∧ t' = t ∧ x' = x then W s' (sk + s' * sp) else p.val s' t' x' := by
  induction n with
  | zero => exact ⟨by simp [forUp], fun s' t' x' => by simp [forUp]⟩
  | succ n ih =>
    obtain ⟨h1, h2⟩ := ih
    rw [forUp_succ]
    refine ⟨?_, ?_⟩
    · show _ + sp = _
      rw [h1]; ring
    · intro s' t' x'
      show (Matrix3.set _ n t x _).val s' t' x' = _
      rw [matrix3_set_val, h1, h2]
      by_cases hc : s' = n ∧ t' = t ∧ x' = x
      · obtain ⟨rfl, rfl, rfl⟩ := hc
        rw [if_pos ⟨rfl, rfl, rfl⟩, if_pos ⟨Nat.lt_succ_self _, rfl, rfl⟩]
      · rw [if_neg hc]
        by_cases hc2 : s' < n ∧ t' = t ∧ x' = x
        · rw [if_pos hc2, if_pos ⟨by omega, hc2.2⟩]
        · rw [if_neg hc2, if_neg]
          intro h
          have : s' ≠ n := fun h6 => hc ⟨h6, h.2⟩
          exact hc2 ⟨by omega, h.2⟩

/-- The loops over `x` and the sets in `turbo::translate` that fill `p(·, t, ·)`. -/
theorem translate_p_row (W : Nat → Nat → Nat → ℚ) (sk sp S t : Nat) (p : Matrix3) (n : Nat) :
    ∀ s' t' x',
      (forUp n (fun x p =>
        (forUp S (fun set (q : Matrix3 × Nat) => (q.1.set set t x (W x set q.2), q.2 + sp))
          (p, sk)).1) p).val s' t' x' =
      if s' < S ∧ t' = t ∧ x' < n then W x' s' (sk + s' * sp) else p.val s' t' x' := by
  induction n with
  | zero => intro s' t' x'; simp [forUp]
  | succ n ih =>
    intro s' t' x'
    rw [forUp_succ, (translate_p_sets (W n) sk sp t n _ S).2, ih]
    by_cases hc : s' < S ∧ t' = t ∧ x' = n
    · obtain ⟨h1, rfl, rfl⟩ := hc
      rw [if_pos ⟨h1, rfl, rfl⟩, if_pos ⟨h1, rfl, Nat.lt_succ_self _⟩]
    · rw [if_neg hc]
      by_cases hc2 : s' < S ∧ t' = t ∧ x' < n
      · rw [if_pos hc2, if_pos ⟨hc2.1, hc2.2.1, by omega⟩]
      · rw [if_neg hc2, if_neg]
        intro h
        have : x' ≠ n := fun h6 => hc ⟨h.1, h.2.1, h6⟩
        exact hc2 ⟨h.1, h.2.1, by omega⟩

/-- The loops of `turbo::translate` that fill `p`. -/
theorem translate_p_loops (W : Nat → Nat → Nat → Nat → ℚ) (sk sp S P : Nat) (p : Matrix3)
    (n : Nat) :
    ∀ s' t' x',
      (forUp n (fun t p => forUp P (fun x p =>
        (forUp S (fun set (q : Matrix3 × Nat) => (q.1.set set t x (W t x set q.2), q.2 + sp))
          (p, sk)).1) p) p).val s' t' x' =
      if s' < S ∧ t' < n ∧ x' < P then W t' x' s' (sk + s' * sp) else p.val s' t' x' := by
  induction n with
  | zero => intro s' t' x'; simp [forUp]
  | succ n ih =>
    intro s' t' x'
    rw [forUp_succ, translate_p_row (W n) sk sp S n _ P, ih]
    by_cases hc : s' < S ∧ t' = n ∧ x' < P
    · obtain ⟨h1, rfl, h3⟩ := hc
      rw [if_pos ⟨h1, rfl, h3⟩, if_pos ⟨h1, Nat.lt_succ_self _, h3⟩]
    · rw [if_neg hc]
      by_cases hc2 : s' < S ∧ t' < n ∧ x' < P
      · rw [if_pos hc2, if_pos ⟨hc2.1, by omega, hc2.2.2⟩]
      · rw [if_neg hc2, if_neg]
        intro h
        have : t' ≠ n := fun h6 => hc ⟨h.1, h6, h.2.2⟩
        exact hc2 ⟨h.1, by omega, h.2.2⟩

/-- The two tables that `turbo::translate` reads from the channel table. -/
theorem Turbo.translate_tables_spec (T : Turbo) (ptable : Matrix) (S s sk sp : Nat)
    (rp : Matrix) (p : Matrix3) :
    (T.translate_tables ptable S s sk sp rp p).1.xsize = rp.xsize ∧
    (T.translate_tables ptable S s sk sp rp p).1.ysize = rp.ysize ∧
    (∀ t x, (T.translate_tables ptable S s sk sp rp p).1.val t x =
      if t < T.tau ∧ x < T.num_inputs then
        ∏ i in Finset.range sk, ptable.val (t * s + i) (digit S x i)
      else rp.val t x) ∧
    ∀ set t x, (T.translate_tables ptable S s sk sp rp p).2.val set t x =
      if set < T.num_sets ∧ t < T.tau ∧ x < T.enc_parity then
        ∏ i in Finset.range sp, ptable.val (t * s + i + (sk + set * sp)) (digit S x i)
      else p.val set t x := by
  have e : T.translate_tables ptable S s sk sp rp p =
      (forUp T.tau (fun t rp => forUp T.num_inputs (fun x rp =>
          rp.set t x (∏ i in Finset.range sk, ptable.val (t * s + i) (digit S x i))) rp) rp,
        forUp T.tau (fun t p => forUp T.enc_parity (fun x p =>
          (forUp T.num_sets (fun set (q : Matrix3 × Nat) =>
            (q.1.set set t x
              (∏ i in Finset.range sp, ptable.val (t * s + i + q.2) (digit S x i)),
              q.2 + sp)) (p, sk)).1) p) p) := by
    unfold Turbo.translate_tables
    simp only [translate_rp_entry_eq, translate_p_entry_eq]
    exact forUp_pair _ _ _ _ _
  rw [e]
  obtain ⟨a1, a2, a3⟩ := assignLoop_outer T.num_inputs
    (fun t x => ∏ i in Finset.range sk, ptable.val (t * s + i) (digit S x i)) rp T.tau
  refine ⟨a1, a2, a3, ?_⟩
  intro set t x
  exact translate_p_loops
    (fun t x _ off => ∏ i in Finset.range sp, ptable.val (t * s + i + off) (digit S x i))
    sk sp T.num_sets T.enc_parity p T.tau set t x

/-! ## Encoding followed by `turbo::translate` -/

/-- The digits of the parity symbol of set `set` inside a packed number. -/
theorem packed_digit (S sp n : Nat) (x : Nat → Nat) (set i : Nat) (hS : 0 < S)
    (hx : ∀ k, k < n → x k < S ^ sp) (hset : set < n) (hi : i < sp) :
    digit S (∑ k in Finset.range n, x k * (S ^ sp) ^ k) (set * sp + i) = digit S (x set) i := by
  have hq := radix_sum_digit (S ^ sp) x n hx set hset
  have hsplit : (∑ k in Finset.range n, x k * (S ^ sp) ^ k) / (S ^ sp) ^ set
      = x set + S ^ sp * ((∑ k in Finset.range n, x k * (S ^ sp) ^ k) / (S ^ sp) ^ set
          / S ^ sp) := by
    conv_lhs => rw [← Nat.mod_add_div
      ((∑ k in Finset.range n, x k * (S ^ sp) ^ k) / (S ^ sp) ^ set) (S ^ sp)]
    rw [hq]
  have e : digit S (∑ k in Finset.range n, x k * (S ^ sp) ^ k) (set * sp + i)
      = digit S ((∑ k in Finset.range n, x k * (S ^ sp) ^ k) / (S ^ sp) ^ set) i := by
    unfold digit
    rw [pow_add, Nat.mul_comm set sp, pow_mul, Nat.div_div_eq_div_mul]
  rw [e, hsplit]
  exact digit_low S sp i _ _ hS hi

/-- Row-max normalisation leaves a row alone that holds a single 1 among zeros. -/
theorem normalize_indicator_row (r : Matrix) (t a : Nat) (ha : a < r.ysize) (hrow : ∀ x, x < r.ysize → r.val t x = if x = a then 1 else 0)
    (x : Nat) : (Bcjr.normalize r).val t x = r.val t x := by
  have hmax : r.rowMax t = 1 := by
    unfold Matrix.rowMax
    apply maxLoop_eq_of
    · intro m hm
      rw [hrow m (by omega)]
      split_ifs <;> norm_num
    · exact ⟨a, by omega, by rw [hrow a ha, if_pos rfl]⟩
  rw [normalize_val, hmax]
  split_ifs
  · rw [one_div_one, mul_one]
  · rfl

namespace Turbo

/-- The codec on which `turbo::translate` works has the configuration of the codec it was
called on, and its matrix `rp` has shape `tau x num_inputs` if it has just been allocated. -/
theorem allocated_shape (T : Turbo) :
    (if !T.initialised then T.allocate else T).encoder = T.encoder ∧
    (if !T.initialised then T.allocate else T).tau = T.tau ∧
    (if !T.initialised then T.allocate else T).num_sets = T.num_sets ∧
    (T.initialised = false →
      ((if !T.initialised then T.allocate else T).mem MRef.m_rp).xsize = T.tau ∧
      ((if !T.initialised then T.allocate else T).mem MRef.m_rp).ysize = T.num_inputs) := by
  cases h : T.initialised
  · have h1 : ∀ T : Turbo,
        (fun T : Turbo => (T.encoder, T.tau, T.num_sets))
          (forUp T.num_sets (fun i T =>
            let T := T.store (MRef.m_r i) ((T.mem (MRef.m_r i)).init T.tau T.num_inputs)
            T.store (MRef.m_R i) ((T.mem (MRef.m_R i)).init T.tau T.enc_outputs)) T)
        = (fun T : Turbo => (T.encoder, T.tau, T.num_sets)) T :=
      fun T => forUp_preserve (fun T : Turbo => (T.encoder, T.tau, T.num_sets))
        (fun i T =>
          let T := T.store (MRef.m_r i) ((T.mem (MRef.m_r i)).init T.tau T.num_inputs)
          T.store (MRef.m_R i) ((T.mem (MRef.m_R i)).init T.tau T.enc_outputs))
        (fun _ _ => rfl) T.num_sets T
    have h2 : ∀ (x : MRef) (T : Turbo),
        (fun T : Turbo => (T.encoder, T.tau, T.num_sets))
          (T.store x ((T.mem x).init T.tau T.num_inputs))
        = (fun T : Turbo => (T.encoder, T.tau, T.num_sets)) T := fun _ _ => rfl
    have h3 : ∀ T : Turbo,
        (fun T : Turbo => (T.encoder, T.tau, T.num_sets))
          (if T.parallel then
            forUp T.num_sets (fun i T =>
              T.store (MRef.m_ra i) ((T.mem (MRef.m_ra i)).init T.tau T.num_inputs)) T
          else T.store (MRef.m_ra 0) ((T.mem (MRef.m_ra 0)).init T.tau T.num_inputs))
        = (fun T : Turbo => (T.encoder, T.tau, T.num_sets)) T := by
      intro T
      by_cases hp : T.parallel = true
      · rw [if_pos hp]
        exact forUp_preserve (fun T : Turbo => (T.encoder, T.tau, T.num_sets))
          (fun i T => T.store (MRef.m_ra i) ((T.mem (MRef.m_ra i)).init T.tau T.num_inputs))
          (fun _ _ => rfl) T.num_sets T
      · rw [if_neg hp]
        rfl
    have h4 : ∀ T : Turbo,
        (fun T : Turbo => (T.encoder, T.tau, T.num_sets))
          ({ T with initialised := true } : Turbo)
        = (fun T : Turbo => (T.encoder, T.tau, T.num_sets)) T := fun _ => rfl
    have e : (fun T : Turbo => (T.encoder, T.tau, T.num_sets)) T.allocate
        = (fun T : Turbo => (T.encoder, T.tau, T.num_sets)) T :=
      preserve_comp (fun T : Turbo => (T.encoder, T.tau, T.num_sets))
        (preserve_comp (fun T : Turbo => (T.encoder, T.tau, T.num_sets))
          (preserve_comp (fun T : Turbo => (T.encoder, T.tau, T.num_sets))
            (preserve_comp (fun T : Turbo => (T.encoder, T.tau, T.num_sets))
              (preserve_comp (fun T : Turbo => (T.encoder, T.tau, T.num_sets))
                (preserve_comp (fun T : Turbo => (T.encoder, T.tau, T.num_sets)) h1
                  (h2 MRef.m_rp))
                (h2 MRef.m_ri))
              (h2 MRef.m_rai))
            (h2 MRef.m_rii))
          h3)
        h4 T
    simp only [Prod.mk.injEq] at e
    -- the matrix rp
    have g2 : ∀ (x : MRef), x ≠ MRef.m_rp → ∀ (T : Turbo),
        (fun T : Turbo => T.mem MRef.m_rp) (T.store x ((T.mem x).init T.tau T.num_inputs))
        = (fun T : Turbo => T.mem MRef.m_rp) T :=
      fun x hx T => store_mem_other T x MRef.m_rp _ (Ne.symm hx)
    have g3 : ∀ T : Turbo,
        (fun T : Turbo => T.mem MRef.m_rp)
          (if T.parallel then
            forUp T.num_sets (fun i T =>
              T.store (MRef.m_ra i) ((T.mem (MRef.m_ra i)).init T.tau T.num_inputs)) T
          else T.store (MRef.m_ra 0) ((T.mem (MRef.m_ra 0)).init T.tau T.num_inputs))
        = (fun T : Turbo => T.mem MRef.m_rp) T := by
      intro T
      by_cases hp : T.parallel = true
      · rw [if_pos hp]
        exact forUp_preserve (fun T : Turbo => T.mem MRef.m_rp)
          (fun i T => T.store (MRef.m_ra i) ((T.mem (MRef.m_ra i)).init T.tau T.num_inputs))
          (fun i T => store_mem_other T _ MRef.m_rp _ (by simp)) T.num_sets T
      · rw [if_neg hp]
        exact store_mem_other T _ MRef.m_rp _ (by simp)
    have g4 : ∀ T : Turbo,
        (fun T : Turbo => T.mem MRef.m_rp) ({ T with initialised := true } : Turbo)
        = (fun T : Turbo => T.mem MRef.m_rp) T := fun _ => rfl
    have erp : T.allocate.mem MRef.m_rp =
        ((forUp T.num_sets (fun i T =>
            let T := T.store (MRef.m_r i) ((T.mem (MRef.m_r i)).init T.tau T.num_inputs)
            T.store (MRef.m_R i) ((T.mem (MRef.m_R i)).init T.tau T.enc_outputs)) T).mem
          MRef.m_rp).init
          (forUp T.num_sets (fun i T =>
            let T := T.store (MRef.m_r i) ((T.mem (MRef.m_r i)).init T.tau T.num_inputs)
            T.store (MRef.m_R i) ((T.mem (MRef.m_R i)).init T.tau T.enc_outputs)) T).tau
          (forUp T.num_sets (fun i T =>
            let T := T.store (MRef.m_r i) ((T.mem (MRef.m_r i)).init T.tau T.num_inputs)
            T.store (MRef.m_R i) ((T.mem (MRef.m_R i)).init T.tau T.enc_outputs)) T).num_inputs
        := by
      have c := preserve_comp (fun T : Turbo => T.mem MRef.m_rp)
        (preserve_comp (fun T : Turbo => T.mem MRef.m_rp)
          (preserve_comp (fun T : Turbo => T.mem MRef.m_rp)
            (preserve_comp (fun T : Turbo => T.mem MRef.m_rp)
              (g2 MRef.m_ri (by decide)) (g2 MRef.m_rai (by decide)))
            (g2 MRef.m_rii (by decide)))
          g3)
        g4
        ((forUp T.num_sets (fun i T =>
            let T := T.store (MRef.m_r i) ((T.mem (MRef.m_r i)).init T.tau T.num_inputs)
            T.store (MRef.m_R i) ((T.mem (MRef.m_R i)).init T.tau T.enc_outputs)) T).store
          MRef.m_rp
          (((forUp T.num_sets (fun i T =>
            let T := T.store (MRef.m_r i) ((T.mem (MRef.m_r i)).init T.tau T.num_inputs)
            T.store (MRef.m_R i) ((T.mem (MRef.m_R i)).init T.tau T.enc_outputs)) T).mem
              MRef.m_rp).init
            (forUp T.num_sets (fun i T =>
              let T := T.store (MRef.m_r i) ((T.mem (MRef.m_r i)).init T.tau T.num_inputs)
              T.store (MRef.m_R i) ((T.mem (MRef.m_R i)).init T.tau T.enc_outputs)) T).tau
            (forUp T.num_sets (fun i T =>
              let T := T.store (MRef.m_r i) ((T.mem (MRef.m_r i)).init T.tau T.num_inputs)
              T.store (MRef.m_R i) ((T.mem (MRef.m_R i)).init T.tau T.enc_outputs))
              T).num_inputs))
      exact c.trans (store_mem_same _ _ _)
    have h1' := h1 T
    simp only [Prod.mk.injEq] at h1'
    refine ⟨e.1, e.2.1, e.2.2, fun _ => ?_⟩
    show (T.allocate.mem MRef.m_rp).xsize = T.tau ∧ (T.allocate.mem MRef.m_rp).ysize = _
    rw [erp]
    constructor
    · exact h1'.2.1
    · exact congrArg Fsm.num_inputs h1'.1
  · exact ⟨rfl, rfl, rfl, fun h' => absurd h' (by simp)⟩

end Turbo

/-- The packed symbol `encoded(t)` as systematic symbol plus `S ^ sk` times the packed parity
symbols. -/
theorem packed_split (S sk sp n a : Nat) (x : Nat → Nat) :
    a + ∑ set in Finset.range n, x set * (S ^ sk * (S ^ sp) ^ set)
      = a + S ^ sk * ∑ set in Finset.range n, x set * (S ^ sp) ^ set := by
  rw [Finset.mul_sum]
  congr 1
  apply Finset.sum_congr rfl
  intro set _
  ring

/-- The tables of `turbo::translate` when the channel table holds the indicators of the digits
of the packed symbols `enc t`. -/
theorem Turbo.translate_tables_indicator (T0 : Turbo) (ptable : Matrix) (sk sp : Nat)
    (src enc : Nat → Nat) (xs : Nat → Nat → Nat) (hS0 : 0 < ptable.ysize)
    (hK : T0.num_inputs = ptable.ysize ^ sk) (hP : T0.enc_parity = ptable.ysize ^ sp)
    (hsrc : ∀ t, t < T0.tau → src t < ptable.ysize ^ sk)
    (hxP : ∀ set t, set < T0.num_sets → t < T0.tau → xs set t < ptable.ysize ^ sp)
    (henc : ∀ t, t < T0.tau → enc t = src t + ptable.ysize ^ sk *
      ∑ set in Finset.range T0.num_sets, xs set t * (ptable.ysize ^ sp) ^ set)
    (hpt : ∀ t j d, t < T0.tau → j < sk + T0.num_sets * sp → d < ptable.ysize →
      ptable.val (t * (sk + T0.num_sets * sp) + j) d =
        if d = digit ptable.ysize (enc t) j then 1 else 0)
    (rp : Matrix) (p : Matrix3) :
    (∀ t x, t < T0.tau → x < T0.num_inputs →
      (T0.translate_tables ptable ptable.ysize (sk + T0.num_sets * sp) sk sp rp p).1.val t x
        = if x = src t then 1 else 0) ∧
    ∀ set t x, set < T0.num_sets → t < T0.tau → x < T0.enc_parity →
      (T0.translate_tables ptable ptable.ysize (sk + T0.num_sets * sp) sk sp rp p).2.val set t x
        = if x = xs set t then 1 else 0 := by
  obtain ⟨_, _, b3, b4⟩ := Turbo.translate_tables_spec T0 ptable ptable.ysize
    (sk + T0.num_sets * sp) sk sp rp p
  constructor
  · intro t x ht hx
    rw [b3 t x, if_pos ⟨ht, hx⟩]
    apply prod_digit_indicator ptable.ysize sk x (src t) (hK ▸ hx) (hsrc t ht)
      (fun i d => ptable.val (t * (sk + T0.num_sets * sp) + i) d)
    intro i hi
    show ptable.val _ _ = _
    have hd : digit ptable.ysize x i < ptable.ysize := Nat.mod_lt _ hS0
    rw [hpt t i _ ht (by omega) hd, henc t ht, digit_low _ _ _ _ _ hS0 hi]
  · intro set t x hs ht hx
    rw [b4 set t x, if_pos ⟨hs, ht, hx⟩]
    apply prod_digit_indicator ptable.ysize sp x (xs set t) (hP ▸ hx) (hxP set t hs ht)
      (fun i d => ptable.val (t * (sk + T0.num_sets * sp) + i + (sk + set * sp)) d)
    intro i hi
    show ptable.val _ _ = _
    have hj : i + (sk + set * sp) < sk + T0.num_sets * sp := by
      have : (set + 1) * sp ≤ T0.num_sets * sp := Nat.mul_le_mul_right _ hs
      rw [Nat.add_mul, Nat.one_mul] at this
      omega
    have hd : digit ptable.ysize x i < ptable.ysize := Nat.mod_lt _ hS0
    rw [Nat.add_assoc, hpt t _ _ ht hj hd, henc t ht]
    have e2 : i + (sk + set * sp) = sk + (set * sp + i) := by omega
    rw [e2, digit_high _ _ _ _ _ hS0 (hsrc t ht),
      packed_digit _ _ _ _ _ _ hS0 (fun k hk => hxP k t hk ht) hs hi]

/-- `turbo::translate` on an allocated codec whose channel table holds the indicators of the
digits of the packed symbols. -/
theorem Turbo.translate_indicator (T0 : Turbo) (ptable : Matrix) (sk sp : Nat)
    (src enc : Nat → Nat) (xs : Nat → Nat → Nat) (hS0 : 0 < ptable.ysize)
    (hinit : T0.initialised = true)
    (hK : T0.num_inputs = ptable.ysize ^ sk) (hP : T0.enc_parity = ptable.ysize ^ sp)
    (hsrc : ∀ t, t < T0.tau → src t < ptable.ysize ^ sk)
    (hxP : ∀ set t, set < T0.num_sets → t < T0.tau → xs set t < ptable.ysize ^ sp)
    (henc : ∀ t, t < T0.tau → enc t = src t + ptable.ysize ^ sk *
      ∑ set in Finset.range T0.num_sets, xs set t * (ptable.ysize ^ sp) ^ set)
    (hpt : ∀ t j d, t < T0.tau → j < sk + T0.num_sets * sp → d < ptable.ysize →
      ptable.val (t * (sk + T0.num_sets * sp) + j) d =
        if d = digit ptable.ysize (enc t) j then 1 else 0)
    (hshape : (T0.mem MRef.m_rp).xsize = T0.tau ∧ (T0.mem MRef.m_rp).ysize = T0.num_inputs) :
    ∃ T', (T0.translate_work ptable sk sp).1 = some T' ∧
      (∀ t x, t < T0.tau → x < T0.num_inputs →
        (T'.mem MRef.m_rp).val t x = if x = src t then 1 else 0) ∧
      ∀ set t x, set < T0.num_sets → t < T0.tau → x < T0.enc_parity →
        (T0.translate_work ptable sk sp).2.val set t x = if x = xs set t then 1 else 0 := by
  obtain ⟨T', hT', hrp, _⟩ := Turbo.translate_work_spec T0 ptable sk sp hinit
  obtain ⟨k1, k2⟩ := Turbo.translate_tables_indicator T0 ptable sk sp src enc xs hS0 hK hP hsrc
    hxP henc hpt (T0.mem MRef.m_rp)
    { xsize := T0.num_sets, ysize := T0.tau, zsize := T0.enc_parity, val := fun _ _ _ => 0 }
  obtain ⟨_, b2, _, _⟩ := Turbo.translate_tables_spec T0 ptable ptable.ysize
    (sk + T0.num_sets * sp) sk sp (T0.mem MRef.m_rp)
    { xsize := T0.num_sets, ysize := T0.tau, zsize := T0.enc_parity, val := fun _ _ _ => 0 }
  refine ⟨T', hT', ?_, ?_⟩
  · intro t x ht hx
    rw [hrp, normalize_indicator_row _ t (src t)
      (by rw [b2, hshape.2, hK]; exact hsrc t ht)
      (fun x' hx' => k1 t x' ht (by rw [b2, hshape.2] at hx'; exact hx'))]
    exact k1 t x ht hx
  · intro set t x hs ht hx
    exact k2 set t x hs ht hx

/-- C12: encode/translate layout round trip. Let `K = num_inputs = S ^ sk`,
`P = enc_parity = S ^ sp`, `s = sk + num_sets * sp`, with `S >= 2` the number of channel
symbols, and let `encoded` be the output of `turbo::encode` for a source whose symbols (as the
call leaves them) are below `K`, every encoder output being below `K * P`. If the channel table
has `tau * s` rows and `ptable(t * s + j, d)` is 1 when `d` is digit `j` (base `S`, least
significant first) of `encoded(t)` and 0 otherwise, then `translate` returns and yields
`rp(t, x) = 1` if `x = source(t)` and 0 otherwise, and the entry `(set, t, x)` of its table
`p` of parity priors is 1 if `x` is the parity symbol `x(set, t)` emitted by the set at time
`t` and 0 otherwise. The matrix `rp` of an already allocated codec is taken to have its shape
`tau x K`. -/
theorem encode_translate_round_trip (T : Turbo) (advanced : Nat → Interleaver)
    (source encoded : IntVector) (ptable : Matrix) (sk sp : Nat)
    (r : EncodeState × IntVector) (hr : T.encode advanced source encoded = some r)
    (hS : 2 ≤ ptable.ysize)
    (hK : T.num_inputs = ptable.ysize ^ sk) (hP : T.enc_parity = ptable.ysize ^ sp)
    (hxs : ptable.xsize = T.tau * (sk + T.num_sets * sp))
    (hsrc : ∀ t, t < T.tau → r.1.source.val t < T.num_inputs)
    (hout : ∀ set t, set < T.num_sets → t < T.tau →
      T.encode_output advanced source set t < T.num_inputs * T.enc_parity)
    (hpt : ∀ t j d, t < T.tau → j < sk + T.num_sets * sp → d < ptable.ysize →
      ptable.val (t * (sk + T.num_sets * sp) + j) d =
        if d = digit ptable.ysize (r.2.val t) j then 1 else 0)
    (hshape : r.1.T.initialised = true →
      (r.1.T.mem MRef.m_rp).xsize = T.tau ∧ (r.1.T.mem MRef.m_rp).ysize = T.num_inputs) :
    ∃ T', r.1.T.translate ptable = some T' ∧
      (∀ t x, t < T.tau → x < T.num_inputs →
        (T'.mem MRef.m_rp).val t x = if x = r.1.source.val t then 1 else 0) ∧
      ∀ set t x, set < T.num_sets → t < T.tau → x < T.enc_parity →
        (r.1.T.translate_p ptable).val set t x = if x = r.1.x set t then 1 else 0 := by
  have hS0 : 0 < ptable.ysize := by omega
  obtain ⟨c1, c2, ⟨st, c3⟩, _, _, h6⟩ := Turbo.encode_result T advanced source encoded r hr
  have hKc : r.1.T.num_inputs = T.num_inputs := by
    unfold Turbo.num_inputs
    rw [c3]; rfl
  have hPc : r.1.T.enc_parity = T.enc_parity := by
    unfold Turbo.enc_parity Turbo.enc_outputs Turbo.num_inputs
    rw [c3]; rfl
  obtain ⟨a1, a2, a3, a4⟩ := Turbo.allocated_shape r.1.T
  have hK0 : (if !r.1.T.initialised then r.1.T.allocate else r.1.T).num_inputs
      = T.num_inputs := by
    unfold Turbo.num_inputs
    rw [a1, c3]; rfl
  have hP0 : (if !r.1.T.initialised then r.1.T.allocate else r.1.T).enc_parity
      = T.enc_parity := by
    unfold Turbo.enc_parity Turbo.enc_outputs Turbo.num_inputs
    rw [a1, c3]; rfl
  have htau0 := a2.trans c1
  have hsets0 := a3.trans c2
  have hshape0 : ((if !r.1.T.initialised then r.1.T.allocate else r.1.T).mem MRef.m_rp).xsize
        = T.tau ∧
      ((if !r.1.T.initialised then r.1.T.allocate else r.1.T).mem MRef.m_rp).ysize
        = T.num_inputs := by
    cases hi : r.1.T.initialised
    · have h := a4 hi
      rw [hi] at h
      exact ⟨h.1.trans c1, h.2.trans hKc⟩
    · exact hshape hi
  have ek : roundLog ptable.ysize r.1.T.num_inputs = sk := by
    rw [hKc, hK]; exact roundLog_pow _ _ hS
  have ep : roundLog ptable.ysize r.1.T.enc_parity = sp := by
    rw [hPc, hP]; exact roundLog_pow _ _ hS
  have henc : ∀ t, t < T.tau → r.2.val t = r.1.source.val t + ptable.ysize ^ sk *
      ∑ set in Finset.range T.num_sets, r.1.x set t * (ptable.ysize ^ sp) ^ set := by
    intro t ht
    rw [(h6 t ht).2, hK, hP]
    exact packed_split _ _ _ _ _ _
  have hxP : ∀ set t, set < T.num_sets → t < T.tau → r.1.x set t < ptable.ysize ^ sp := by
    intro set t hs ht
    rw [(h6 t ht).1 set hs, ← hP]
    exact Turbo.encode_parity_lt T advanced source set t (hout set t hs ht)
  have hinit0 := Turbo.allocated_initialised r.1.T
  have etr : r.1.T.translate ptable =
      ((if !r.1.T.initialised then r.1.T.allocate else r.1.T).translate_work ptable sk sp).1 := by
    rw [Turbo.translate_eq, ek, ep, hPc, hKc, if_neg (by rw [← hK, ← hP]; simp), c1, c2,
      if_neg (not_not.mpr hxs)]
  have etp : r.1.T.translate_p ptable =
      ((if !r.1.T.initialised then r.1.T.allocate else r.1.T).translate_work ptable sk sp).2 := by
    unfold Turbo.translate_p
    rw [ek, ep]
  rw [etr, etp]
  generalize (if !r.1.T.initialised then r.1.T.allocate else r.1.T) = T0 at *
  rw [← hK0] at hK hsrc
  rw [← hP0] at hP
  rw [← htau0] at hsrc hxP henc hpt
  rw [← hsets0] at hxP henc hpt
  rw [hK] at hsrc
  obtain ⟨T', hT', k1, k2⟩ := Turbo.translate_indicator T0 ptable sk sp r.1.source.val r.2.val
    r.1.x hS0 hinit0 hK hP hsrc hxP henc hpt (by rw [htau0, hK0]; exact hshape0)
  rw [← htau0, ← hsets0, ← hK0, ← hP0]
  exact ⟨T', hT', k1, k2⟩

/-! ## The lattice decoder: loops over a range of drifts -/

theorem forRange_eq {σ : Type} (lo hi : Int) (f : Int → σ → σ) (s : σ) :
    forRange lo hi f s = forUp (hi + 1 - lo).toNat (fun k s => f (lo + k) s) s := rfl

/-- The drifts `lo, ..., hi` are the values `lo + k` for `k` below their number. -/
theorem Icc_eq_image (lo hi : Int) :
    Finset.Icc lo hi =
      (Finset.range (hi + 1 - lo).toNat).image (fun k : Nat => lo + (k : Int)) := by
  ext x
  simp only [Finset.mem_Icc, Finset.mem_image, Finset.mem_range]
  constructor
  · intro h
    exact ⟨(x - lo).toNat, by omega, by omega⟩
  · rintro ⟨k, hk, rfl⟩
    omega

theorem sum_Icc_eq_range (lo hi : Int) (g : Int → ℚ) :
    ∑ x in Finset.Icc lo hi, g x = ∑ k in Finset.range (hi + 1 - lo).toNat, g (lo + k) := by
  rw [Icc_eq_image, Finset.sum_image]
  intro a _ b _ h
  exact Int.ofNat_inj.mp (Int.add_left_cancel h)

/-- The summation loop `for (x = lo; x <= hi; x++) p += g(x)`. -/
theorem forRange_sum (lo hi : Int) (g : Int → ℚ) (p : ℚ) :
    forRange lo hi (fun x p => p + g x) p = p + ∑ x in Finset.Icc lo hi, g x := by
  rw [forRange_eq, sum_Icc_eq_range]
  exact sumLoop_eq (fun k => g (lo + k)) p _

/-- The drifts reachable from `x` within the lattice are those of the lattice whose change
from `x` is within its limits. -/
theorem Icc_reach (lo hi dlo dhi x : Int) :
    Finset.Icc (max lo (dlo + x)) (min hi (dhi + x)) =
      (Finset.Icc lo hi).filter (fun y => dlo ≤ y - x ∧ y - x ≤ dhi) := by
  ext y
  simp only [Finset.mem_Icc, Finset.mem_filter, max_le_iff, le_min_iff]
  constructor
  · intro h
    exact ⟨⟨h.1.1, h.2.1⟩, by omega, by omega⟩
  · intro h
    exact ⟨⟨h.1.1, by omega⟩, h.1.2, by omega⟩

/-- A loop over a structure that only rewrites one component is a loop over that component. -/
theorem forUp_lift {σ α : Type} (emb : α → σ) (f : Nat → σ → σ) (g : Nat → α → α)
    (h : ∀ k a, f k (emb a) = emb (g k a)) (n : Nat) (a : α) :
    forUp n f (emb a) = emb (forUp n g a) := by
  induction n with
  | zero => rfl
  | succ n ih => rw [forUp_succ, forUp_succ, ih, h]

theorem forRange_lift {σ α : Type} (emb : α → σ) (f : Int → σ → σ) (g : Int → α → α)
    (h : ∀ x a, f x (emb a) = emb (g x a)) (lo hi : Int) (a : α) :
    forRange lo hi f (emb a) = emb (forRange lo hi g a) :=
  forUp_lift emb _ _ (fun k a => h (lo + k) a) _ a

theorem forRange_congr {σ : Type} (lo hi : Int) (f g : Int → σ → σ)
    (h : ∀ x s, lo ≤ x → x ≤ hi → f x s = g x s) (s : σ) :
    forRange lo hi f s = forRange lo hi g s := by
  apply forUp_congr
  intro k s hk
  exact h _ s (by omega) (by omega)

theorem set2_val (a : Nat → Int → ℚ) (i : Nat) (x : Int) (v : ℚ) (j : Nat) (y : Int) :
    set2 a i x v j y = if j = i ∧ y = x then v else a j y := by
  unfold set2
  by_cases hj : j = i
  · subst hj
    rw [Function.update_same]
    by_cases hy : y = x
    · subst hy
      rw [Function.update_same, if_pos ⟨rfl, rfl⟩]
    · rw [Function.update_noteq hy, if_neg (fun h => hy h.2)]
  · rw [Function.update_noteq hj, if_neg (fun h => hj h.1)]

/-- A loop `for (x = lo; x <= hi; x++) a[i][x] += c(x)`. -/
theorem forRange_add_row (i : Nat) (c : Int → ℚ) (lo hi : Int) (a : Nat → Int → ℚ) (j : Nat)
    (y : Int) :
    forRange lo hi (fun x a => set2 a i x (a i x + c x)) a j y =
      if j = i ∧ lo ≤ y ∧ y ≤ hi then a i y + c y else a j y := by
  rw [forRange_eq]
  have key : ∀ n : Nat, forUp n (fun (k : Nat) a => set2 a i (lo + k) (a i (lo + k) + c (lo + k)))
      a j y = if j = i ∧ lo ≤ y ∧ y < lo + n then a i y + c y else a j y := by
    intro n
    induction n with
    | zero =>
      rw [if_neg]
      · rfl
      · intro h
        have := h.2
        omega
    | succ n ih =>
      rw [forUp_succ, set2_val]
      by_cases hj : j = i
      · subst hj
        by_cases hy : y = lo + n
        · rw [if_pos ⟨rfl, hy⟩, if_pos ⟨rfl, by omega, by omega⟩]
          have h0 : forUp n (fun (k : Nat) a =>
              set2 a j (lo + k) (a j (lo + k) + c (lo + k))) a j (lo + n) = a j (lo + n) := by
            have := ih
            rw [hy, if_neg (fun h => by have := h.2.2; omega)] at this
            exact this
          rw [h0, hy]
        · rw [if_neg (fun h => hy h.2), ih]
          by_cases h1 : lo ≤ y ∧ y < lo + n
          · rw [if_pos ⟨rfl, h1⟩, if_pos ⟨rfl, h1.1, by omega⟩]
          · rw [if_neg (fun h => h1 h.2), if_neg (fun h => h1 ⟨h.2.1, by have := h.2.2; omega⟩)]
      · rw [if_neg (fun h => hj h.1), ih, if_neg (fun h => hj h.1), if_neg (fun h => hj h.1)]
  rw [key]
  by_cases hj : j = i
  · by_cases h1 : lo ≤ y ∧ y ≤ hi
    · rw [if_pos ⟨hj, h1.1, by omega⟩, if_pos ⟨hj, h1⟩]
    · rw [if_neg (fun h => h1 ⟨h.2.1, by have := h.2.2; omega⟩), if_neg (fun h => h1 h.2)]
  · rw [if_neg (fun h => hj h.1), if_neg (fun h => hj h.1)]

theorem forUpO_rel {σ : Type} (rel : σ → σ → Prop) (hrefl : ∀ s, rel s s)
    (htrans : ∀ a b c, rel a b → rel b c → rel a c) (f : Nat → σ → Option σ) (n : Nat)
    (h : ∀ k s s', k < n → f k s = some s' → rel s s') (s s' : σ)
    (hr : forUpO n f s = some s') : rel s s' := by
  induction n generalizing s' with
  | zero =>
    have : s = s' := Option.some.inj hr
    subst this
    exact hrefl s
  | succ n ih =>
    obtain ⟨sn, h1, h2⟩ := Turbo.forUpO_some_succ n f s s' hr
    exact htrans _ _ _ (ih (fun k s s' hk => h k s s' (Nat.lt_succ_of_lt hk)) sn h1)
      (h n sn s' (Nat.lt_succ_self n) h2)

theorem forDownO_succ {σ : Type} (n : Nat) (f : Nat → σ → Option σ) (s : σ) :
    forDownO (n + 1) f s = (f n s).bind (forDownO n f) := rfl

theorem forDownO_rel {σ : Type} (rel : σ → σ → Prop) (hrefl : ∀ s, rel s s)
    (htrans : ∀ a b c, rel a b → rel b c → rel a c) (f : Nat → σ → Option σ)
    (h : ∀ k s s', f k s = some s' → rel s s') (n : Nat) (s s' : σ)
    (hr : forDownO n f s = some s') : rel s s' := by
  induction n generalizing s with
  | zero =>
    have : s = s' := Option.some.inj hr
    subst this
    exact hrefl s
  | succ n ih =>
    rw [forDownO_succ] at hr
    cases hn : f n s with
    | none => rw [hn] at hr; exact absurd hr (by simp)
    | some sn =>
      rw [hn, Option.some_bind] at hr
      exact htrans _ _ _ (h n s sn hn) (ih sn hr)

/-! ## The lattice decoder: the forward pass -/

namespace Fba

theorem work_alpha_eq (F : Fba) (i : Nat) :
    F.work_alpha i =
      forRange F.mtau_min F.mtau_max (fun x1 F =>
        forRange (max F.mtau_min (F.mn_min + x1)) (min F.mtau_max (F.mn_max + x1))
          (fun x2 F' =>
            { F' with alpha := (set2 F'.alpha i x2
                (forUp F'.q
                  (fun d t => t + F.alpha (i - 1) x1 * F'.get_gamma d (i - 1) x1 (x2 - x1))
                  (F'.alpha i x2))) }) F) F := rfl

/-- The forward step only rewrites `alpha`, by a double loop that adds to its row `i`. -/
theorem work_alpha_lift (F : Fba) (i : Nat) :
    F.work_alpha i =
      { F with alpha := (forRange F.mtau_min F.mtau_max (fun x1 a =>
          forRange (max F.mtau_min (F.mn_min + x1)) (min F.mtau_max (F.mn_max + x1))
            (fun x2 a' => set2 a' i x2 (a' i x2 +
              ∑ d in Finset.range F.q, a (i - 1) x1 * F.get_gamma d (i - 1) x1 (x2 - x1))) a)
          F.alpha) } := by
  rw [work_alpha_eq]
  refine forRange_lift (fun a => ({ F with alpha := a } : Fba)) _
    (fun x1 a =>
      forRange (max F.mtau_min (F.mn_min + x1)) (min F.mtau_max (F.mn_max + x1))
        (fun x2 a' => set2 a' i x2 (a' i x2 +
          ∑ d in Finset.range F.q, a (i - 1) x1 * F.get_gamma d (i - 1) x1 (x2 - x1))) a)
    (fun x1 a => ?_) F.mtau_min F.mtau_max F.alpha
  refine forRange_lift (fun a => ({ F with alpha := a } : Fba)) _
    (fun x2 a' => set2 a' i x2 (a' i x2 +
      ∑ d in Finset.range F.q, a (i - 1) x1 * F.get_gamma d (i - 1) x1 (x2 - x1)))
    (fun x2 a' => ?_) _ _ a
  show ({ F with alpha := (set2 a' i x2 (forUp F.q (fun d t =>
      t + a (i - 1) x1 * F.get_gamma d (i - 1) x1 (x2 - x1)) (a' i x2))) } : Fba) = _
  rw [sumLoop_eq]

end Fba

/-- The double loop of the forward step: row `i` gains, at every drift `y` of the lattice,
the contributions of the drifts `lo + k` from which `y` can be reached. -/
theorem fba_alpha_rows (i : Nat) (hi1 : 1 ≤ i) (G : Nat → Int → Int → ℚ) (q : Nat)
    (lo hi dlo dhi : Int) (a0 : Nat → Int → ℚ) (n : Nat) (j : Nat) (y : Int) :
    forUp n (fun (k : Nat) a =>
        forRange (max lo (dlo + (lo + k))) (min hi (dhi + (lo + k)))
          (fun x2 a' => set2 a' i x2 (a' i x2 +
            ∑ d in Finset.range q, a (i - 1) (lo + k) * G d (lo + k) (x2 - (lo + k)))) a) a0 j y =
      if j = i ∧ lo ≤ y ∧ y ≤ hi then
        a0 i y + ∑ k in Finset.range n,
          (if dlo ≤ y - (lo + k) ∧ y - (lo + k) ≤ dhi then
            ∑ d in Finset.range q, a0 (i - 1) (lo + k) * G d (lo + k) (y - (lo + k)) else 0)
      else a0 j y := by
  have hne : ∀ p : Prop, ¬ (i - 1 = i ∧ p) := fun p h => by have := h.1; omega
  induction n generalizing j y with
  | zero =>
    rw [Finset.sum_range_zero, add_zero]
    by_cases hj : j = i ∧ lo ≤ y ∧ y ≤ hi
    · rw [if_pos hj, hj.1]
      rfl
    · rw [if_neg hj]
      rfl
  | succ n ih =>
    rw [forUp_succ, forRange_add_row, ih (i - 1), if_neg (hne _), ih i y, ih j y]
    by_cases hj : j = i
    · subst hj
      have hmax : (max lo (dlo + (lo + n)) ≤ y ∧ y ≤ min hi (dhi + (lo + n))) ↔
          ((lo ≤ y ∧ y ≤ hi) ∧ (dlo ≤ y - (lo + n) ∧ y - (lo + n) ≤ dhi)) := by
        rw [max_le_iff, le_min_iff]
        constructor
        · intro h
          exact ⟨⟨h.1.1, h.2.1⟩, by omega, by omega⟩
        · intro h
          exact ⟨⟨h.1.1, by omega⟩, ⟨h.1.2, by omega⟩⟩
      simp only [eq_self, true_and]
      by_cases hy : lo ≤ y ∧ y ≤ hi
      · simp only [if_pos hy]
        rw [Finset.sum_range_succ]
        by_cases hd : dlo ≤ y - (lo + n) ∧ y - (lo + n) ≤ dhi
        · rw [if_pos (hmax.mpr ⟨hy, hd⟩), if_pos hd]
          exact add_assoc _ _ _
        · rw [if_neg (fun h => hd (hmax.mp h).2), if_neg hd, add_zero]
      · simp only [if_neg hy]
        rw [if_neg (fun h => hy (hmax.mp h).1)]
    · rw [if_neg (fun h => hj h.1), if_neg (fun h => hj h.1), if_neg (fun h => hj h.1)]

namespace Fba

/-- The forward step `work_alpha(i)`, for `i ≥ 1`: only `alpha` changes, only in its row `i`
and only at the drifts `y` of the lattice, where the sum over the admissible predecessors is
added. -/
theorem work_alpha_spec (F : Fba) (i : Nat) (hi : 1 ≤ i) :
    F.work_alpha i =
      { F with alpha := fun j y =>
          if j = i ∧ F.mtau_min ≤ y ∧ y ≤ F.mtau_max then
            F.alpha i y +
              ∑ x in (Finset.Icc F.mtau_min F.mtau_max).filter
                  (fun x => F.mn_min ≤ y - x ∧ y - x ≤ F.mn_max),
                ∑ d in Finset.range F.q, F.alpha (i - 1) x * F.get_gamma d (i - 1) x (y - x)
          else F.alpha j y } := by
  rw [work_alpha_lift]
  congr 1
  funext j y
  rw [forRange_eq]
  rw [fba_alpha_rows i hi (fun d x dx => F.get_gamma d (i - 1) x dx) F.q F.mtau_min F.mtau_max
    F.mn_min F.mn_max F.alpha]
  rw [Finset.sum_filter, sum_Icc_eq_range]

end Fba

/-! ## The lattice decoder: what each stage leaves alone -/

namespace Fba

theorem config_refl (F : Fba) : F.sameConfig F :=
  ⟨rfl, rfl, rfl, rfl, rfl, rfl, rfl, rfl, rfl⟩

theorem config_trans (a b c : Fba) (h1 : a.sameConfig b) (h2 : b.sameConfig c) :
    a.sameConfig c := by
  obtain ⟨a1, a2, a3, a4, a5, a6, a7, a8, a9⟩ := h1
  obtain ⟨b1, b2, b3, b4, b5, b6, b7, b8, b9⟩ := h2
  exact ⟨b1.trans a1, b2.trans a2, b3.trans a3, b4.trans a4, b5.trans a5, b6.trans a6,
    b7.trans a7, b8.trans a8, b9.trans a9⟩

theorem keepsAlpha_refl (keep : Nat → Prop) (F : Fba) : F.keepsAlpha keep F :=
  ⟨config_refl F, fun _ _ => rfl⟩

theorem keepsAlpha_trans (keep : Nat → Prop) (a b c : Fba) (h1 : a.keepsAlpha keep b)
    (h2 : b.keepsAlpha keep c) : a.keepsAlpha keep c :=
  ⟨config_trans a b c h1.1 h2.1, fun j hj => (h2.2 j hj).trans (h1.2 j hj)⟩

theorem keepsAlpha_mono (keep keep' : Nat → Prop) (hk : ∀ j, keep' j → keep j) (F F' : Fba)
    (h : F.keepsAlpha keep F') : F.keepsAlpha keep' F' :=
  ⟨h.1, fun j hj => h.2 j (hk j hj)⟩

/-- Normalisation of a row leaves the other rows alone. -/
theorem normalize_rows (metric : Nat → Int → ℚ) (row : Nat) (lo hi : Int)
    (m' : Nat → Int → ℚ) (h : normalize metric row lo hi = some m') (j : Nat) (hj : j ≠ row) :
    m' j = metric j := by
  unfold normalize at h
  obtain ⟨scale, _, h2⟩ := Option.map_eq_some'.mp h
  rw [← h2]
  exact forUp_preserve (fun m : Nat → Int → ℚ => m j) _
    (fun k m => Function.update_noteq hj _ _) _ metric

theorem normalize_alpha_eq (F F' : Fba) (i : Nat) (h : F.normalize_alpha i = some F') :
    ∃ a, normalize F.alpha i F.mtau_min F.mtau_max = some a ∧ F' = { F with alpha := a } := by
  unfold normalize_alpha at h
  obtain ⟨a, h1, h2⟩ := Option.map_eq_some'.mp h
  exact ⟨a, h1, h2.symm⟩

theorem normalize_beta_eq (F F' : Fba) (i : Nat) (h : F.normalize_beta i = some F') :
    ∃ b, normalize F.beta i F.mtau_min F.mtau_max = some b ∧ F' = { F with beta := b } := by
  unfold normalize_beta at h
  obtain ⟨b, h1, h2⟩ := Option.map_eq_some'.mp h
  exact ⟨b, h1, h2.symm⟩

theorem normalize_alpha_keeps (F F' : Fba) (i : Nat) (h : F.normalize_alpha i = some F') :
    F.keepsAlpha (fun j => j ≠ i) F' := by
  obtain ⟨a, h1, rfl⟩ := normalize_alpha_eq F F' i h
  exact ⟨config_refl F, fun j hj => normalize_rows _ _ _ _ _ h1 j hj⟩

theorem normalize_beta_keeps (F F' : Fba) (i : Nat) (h : F.normalize_beta i = some F') :
    F.keepsAlpha (fun _ => True) F' := by
  obtain ⟨b, _, rfl⟩ := normalize_beta_eq F F' i h
  exact keepsAlpha_refl _ F

theorem forRange_keeps (keep : Nat → Prop) (lo hi : Int) (f : Int → Fba → Fba)
    (h : ∀ (x : Int) (F : Fba), F.keepsAlpha keep (f x F)) (F : Fba) :
    F.keepsAlpha keep (forRange lo hi f F) :=
  forUp_rel (keepsAlpha keep) (keepsAlpha_refl keep) (keepsAlpha_trans keep) _
    (fun k F => h (lo + k) F) _ F

theorem work_beta_keeps (F : Fba) (i : Nat) :
    F.keepsAlpha (fun _ => True) (F.work_beta i) := by
  unfold work_beta
  refine forRange_keeps (fun _ => True) _ _ _ ?_ F
  intro x F'
  exact ⟨config_refl F', fun _ _ => rfl⟩

theorem work_alpha_keeps (F : Fba) (i : Nat) (hi : 1 ≤ i) :
    F.keepsAlpha (fun j => j ≠ i) (F.work_alpha i) := by
  rw [work_alpha_spec F i hi]
  refine ⟨config_refl F, fun j hj => ?_⟩
  funext y
  exact if_neg (fun h => hj h.1)

theorem work_gamma_at_keeps (F : Fba) (r : Received) (i : Nat) :
    F.keepsAlpha (fun _ => True) (F.work_gamma_at r i) := by
  unfold work_gamma_at
  by_cases hg : F.globalstore = true
  · rw [if_pos hg]
    exact ⟨config_refl F, fun _ _ => rfl⟩
  · rw [if_neg hg]
    exact ⟨config_refl F, fun _ _ => rfl⟩

theorem alpha_beta_step_keeps (k : Nat) (F F' : Fba) (h : alpha_beta_step k F = some F') :
    F.keepsAlpha (fun j => j ≠ k + 1) F' := by
  unfold alpha_beta_step at h
  obtain ⟨F1, h1, h2⟩ := Option.bind_eq_some.mp h
  have k1 := work_alpha_keeps F (k + 1) (Nat.succ_le_succ (Nat.zero_le k))
  have k2 := keepsAlpha_mono _ (fun j => j ≠ k + 1) (fun _ _ => trivial) _ _
    (work_beta_keeps (F.work_alpha (k + 1)) ((F.work_alpha (k + 1)).N - (k + 1)))
  have k3 := normalize_alpha_keeps _ _ _ h1
  have k4 := keepsAlpha_mono _ (fun j => j ≠ k + 1) (fun _ _ => trivial) _ _
    (normalize_beta_keeps _ _ _ h2)
  exact keepsAlpha_trans _ _ _ _ (keepsAlpha_trans _ _ _ _ (keepsAlpha_trans _ _ _ _ k1 k2) k3) k4

theorem alpha_step_keeps (k : Nat) (F F' : Fba) (h : alpha_step k F = some F') :
    F.keepsAlpha (fun j => j ≠ k + 1) F' := by
  unfold alpha_step at h
  have k0 : F.keepsAlpha (fun j => j ≠ k + 1)
      (if (!F.globalstore) = true then F.work_gamma_at F.r (k + 1 - 1) else F) := by
    by_cases hg : (!F.globalstore) = true
    · rw [if_pos hg]
      exact keepsAlpha_mono _ _ (fun _ _ => trivial) _ _ (work_gamma_at_keeps F F.r _)
    · rw [if_neg hg]
      exact keepsAlpha_refl _ F
  have k1 := work_alpha_keeps
    (if (!F.globalstore) = true then F.work_gamma_at F.r (k + 1 - 1) else F) (k + 1)
    (Nat.succ_le_succ (Nat.zero_le k))
  have k3 := normalize_alpha_keeps _ _ _ h
  exact keepsAlpha_trans _ _ _ _ (keepsAlpha_trans _ _ _ _ k0 k1) k3

theorem alpha_beta_start_eq (F : Fba) (sof_prior eof_prior : RVector) :
    F.alpha_beta_start sof_prior eof_prior =
      ((forRange F.mtau_min F.mtau_max (fun x (F' : Fba) =>
          { F' with
            alpha := (set2 F'.alpha 0 x (sof_prior.val (x - F'.mtau_min).toNat)),
            beta := (set2 F'.beta F'.N x (eof_prior.val (x - F'.mtau_min).toNat)) })
        { F with alpha := (F.zero2 F.alpha), beta := (F.zero2 F.beta) }).normalize_alpha 0).bind
        (fun F => F.normalize_beta F.N) := rfl

theorem alpha_start_eq (F : Fba) (sof_prior : RVector) :
    F.alpha_start sof_prior =
      (forRange F.mtau_min F.mtau_max (fun x (F' : Fba) =>
          { F' with alpha := (set2 F'.alpha 0 x (sof_prior.val (x - F'.mtau_min).toNat)) })
        { F with alpha := (F.zero2 F.alpha) }).normalize_alpha 0 := rfl

theorem zero2_val (F : Fba) (a : Nat → Int → ℚ) (j : Nat) (y : Int) (hj : j ≤ F.N)
    (h1 : F.mtau_min ≤ y) (h2 : y ≤ F.mtau_max) : F.zero2 a j y = 0 :=
  if_pos ⟨hj, h1, h2⟩

/-- After the start of `work_alpha_and_beta`, the rows `1, ..., N` of `alpha` are zero. -/
theorem alpha_beta_start_spec (F F0 : Fba) (sof_prior eof_prior : RVector)
    (h : F.alpha_beta_start sof_prior eof_prior = some F0) :
    F.sameConfig F0 ∧ ∀ j y, 1 ≤ j → j ≤ F.N → F.mtau_min ≤ y → y ≤ F.mtau_max →
      F0.alpha j y = 0 := by
  rw [alpha_beta_start_eq] at h
  obtain ⟨F1, h1, h2⟩ := Option.bind_eq_some.mp h
  have k0 : ({ F with alpha := (F.zero2 F.alpha), beta := (F.zero2 F.beta) } : Fba).keepsAlpha
      (fun j => j ≠ 0) _ := forRange_keeps (fun j => j ≠ 0) F.mtau_min F.mtau_max (fun x (F' : Fba) =>
          { F' with
            alpha := (set2 F'.alpha 0 x (sof_prior.val (x - F'.mtau_min).toNat)),
            beta := (set2 F'.beta F'.N x (eof_prior.val (x - F'.mtau_min).toNat)) })
      (fun x (F' : Fba) => ⟨config_refl F', fun j hj => Function.update_noteq hj _ _⟩) _
  have k1 := normalize_alpha_keeps _ _ _ h1
  have k2 := keepsAlpha_mono _ (fun j => j ≠ 0) (fun _ _ => trivial) _ _
    (normalize_beta_keeps _ _ _ h2)
  have k := keepsAlpha_trans _ _ _ _ (keepsAlpha_trans _ _ _ _ k0 k1) k2
  refine ⟨k.1, fun j y hj1 hjN hy1 hy2 => ?_⟩
  rw [k.2 j (by omega)]
  exact zero2_val F F.alpha j y hjN hy1 hy2

/-- After the start of `work_alpha(sof_prior)`, the rows `1, ..., N` of `alpha` are zero. -/
theorem alpha_start_spec (F F0 : Fba) (sof_prior : RVector)
    (h : F.alpha_start sof_prior = some F0) :
    F.sameConfig F0 ∧ ∀ j y, 1 ≤ j → j ≤ F.N → F.mtau_min ≤ y → y ≤ F.mtau_max →
      F0.alpha j y = 0 := by
  rw [alpha_start_eq] at h
  have k0 : ({ F with alpha := (F.zero2 F.alpha) } : Fba).keepsAlpha
      (fun j => j ≠ 0) _ := forRange_keeps (fun j => j ≠ 0) F.mtau_min F.mtau_max (fun x (F' : Fba) =>
          { F' with alpha := (set2 F'.alpha 0 x (sof_prior.val (x - F'.mtau_min).toNat)) })
      (fun x (F' : Fba) => ⟨config_refl F', fun j hj => Function.update_noteq hj _ _⟩) _
  have k1 := normalize_alpha_keeps _ _ _ h
  have k := keepsAlpha_trans _ _ _ _ k0 k1
  refine ⟨k.1, fun j y hj1 hjN hy1 hy2 => ?_⟩
  rw [k.2 j (by omega)]
  exact zero2_val F F.alpha j y hjN hy1 hy2

/-- The first `k` rounds of a forward loop leave the rows above `k` of `alpha` alone. -/
theorem forward_rounds_keep (step : Nat → Fba → Option Fba)
    (hstep : ∀ k F F', step k F = some F' → F.keepsAlpha (fun j => j ≠ k + 1) F')
    (k : Nat) (F0 Fk : Fba) (h : forUpO k step F0 = some Fk) :
    F0.keepsAlpha (fun j => k < j) Fk :=
  forUpO_rel (keepsAlpha (fun j => k < j)) (keepsAlpha_refl _) (keepsAlpha_trans _) step k
    (fun k' F F' hk hs => keepsAlpha_mono _ _ (fun j (hj : k < j) => by omega) _ _
      (hstep k' F F' hs)) F0 Fk h

end Fba

/-- C18: the forward recursion of the lattice decoder. For `i ≥ 1`, when row `i` of `alpha`
is zero over the drift range on entry, `work_alpha(i)` leaves in `alpha[i][y]`, for every
drift `y` of the range, the sum over the drifts `x` of the range with
`mn_min ≤ y - x ≤ mn_max` and over the symbols `d < q` of
`alpha[i-1][x] * gamma(d, i-1, x, y-x)`. The row is zero on entry at every call made by
`work_alpha_and_beta` and by `work_alpha(sof_prior)`: after any `k < N` completed rounds of
their loops, row `k + 1` is zero over the drift range. -/
theorem fba_forward_recursion (F : Fba) (sof_prior eof_prior : RVector) :
    (∀ i, 1 ≤ i → (∀ y, F.mtau_min ≤ y → y ≤ F.mtau_max → F.alpha i y = 0) →
      ∀ y, F.mtau_min ≤ y → y ≤ F.mtau_max →
        (F.work_alpha i).alpha i y =
          ∑ x in (Finset.Icc F.mtau_min F.mtau_max).filter
              (fun x => F.mn_min ≤ y - x ∧ y - x ≤ F.mn_max),
            ∑ d in Finset.range F.q, F.alpha (i - 1) x * F.get_gamma d (i - 1) x (y - x)) ∧
    (∀ F0 k Fk, F.alpha_beta_start sof_prior eof_prior = some F0 → k < F.N →
      forUpO k Fba.alpha_beta_step F0 = some Fk →
      ∀ y, Fk.mtau_min ≤ y → y ≤ Fk.mtau_max → Fk.alpha (k + 1) y = 0) ∧
    (∀ F0 k Fk, F.alpha_start sof_prior = some F0 → k < F.N →
      forUpO k Fba.alpha_step F0 = some Fk →
      ∀ y, Fk.mtau_min ≤ y → y ≤ Fk.mtau_max →
        (if (!Fk.globalstore) = true then Fk.work_gamma_at Fk.r k else Fk).alpha (k + 1) y
          = 0) := by
  refine ⟨fun i hi hz y h1 h2 => ?_, fun F0 k Fk h0 hk hl y h1 h2 => ?_,
    fun F0 k Fk h0 hk hl y h1 h2 => ?_⟩
  · rw [Fba.work_alpha_spec F i hi]
    show (if i = i ∧ F.mtau_min ≤ y ∧ y ≤ F.mtau_max then _ else _) = _
    rw [if_pos ⟨rfl, h1, h2⟩, hz y h1 h2, zero_add]
  · obtain ⟨c0, z0⟩ := Fba.alpha_beta_start_spec F F0 sof_prior eof_prior h0
    obtain ⟨c1, z1⟩ := Fba.forward_rounds_keep Fba.alpha_beta_step Fba.alpha_beta_step_keeps
      k F0 Fk hl
    rw [z1 (k + 1) (Nat.lt_succ_self k)]
    rw [c1.2.2.2.1, c0.2.2.2.1] at h1
    rw [c1.2.2.2.2.1, c0.2.2.2.2.1] at h2
    exact z0 (k + 1) y (Nat.succ_le_succ (Nat.zero_le k)) hk h1 h2
  · obtain ⟨c0, z0⟩ := Fba.alpha_start_spec F F0 sof_prior h0
    obtain ⟨c1, z1⟩ := Fba.forward_rounds_keep Fba.alpha_step Fba.alpha_step_keeps k F0 Fk hl
    have hg : (if (!Fk.globalstore) = true then Fk.work_gamma_at Fk.r k else Fk).alpha (k + 1) =
        Fk.alpha (k + 1) := by
      by_cases hb : (!Fk.globalstore) = true
      · rw [if_pos hb]
        exact (Fba.work_gamma_at_keeps Fk Fk.r k).2 (k + 1) trivial
      · rw [if_neg hb]
    rw [hg, z1 (k + 1) (Nat.lt_succ_self k)]
    rw [c1.2.2.2.1, c0.2.2.2.1] at h1
    rw [c1.2.2.2.2.1, c0.2.2.2.2.1] at h2
    exact z0 (k + 1) y (Nat.succ_le_succ (Nat.zero_le k)) hk h1 h2

/-- C18 on `exampleForward`: row `1` is zero on entry, and `work_alpha(1)` leaves at drift
`1` the sum over the admissible predecessors. -/
theorem fba_forward_recursion_witness :
    (∀ y, exampleForward.mtau_min ≤ y → y ≤ exampleForward.mtau_max →
      exampleForward.alpha 1 y = 0) ∧
    (exampleForward.work_alpha 1).alpha 1 1 =
      ∑ x in (Finset.Icc exampleForward.mtau_min exampleForward.mtau_max).filter
          (fun x => exampleForward.mn_min ≤ 1 - x ∧ 1 - x ≤ exampleForward.mn_max),
        ∑ d in Finset.range exampleForward.q,
          exampleForward.alpha (1 - 1) x * exampleForward.get_gamma d (1 - 1) x (1 - x) :=
  ⟨fun _ _ _ => rfl,
    (fba_forward_recursion exampleForward emptyRVector emptyRVector).1 1 (by decide)
      (fun _ _ _ => rfl) 1 (by decide) (by decide)⟩

/-! ## The lattice decoder: the posterior of the message -/

namespace Fba

theorem work_message_app_eq (F : Fba) (ptable : RTable) (i : Nat) :
    F.work_message_app ptable i =
      forUp F.q (fun d (pt : RTable) =>
        { pt with val := (Function.update pt.val i ((pt.val i).set d
            (forRange F.mtau_min F.mtau_max (fun x1 p =>
              forRange (max F.mtau_min (F.mn_min + x1)) (min F.mtau_max (F.mn_max + x1))
                (fun x2 p => p + F.alpha i x1 * F.beta (i + 1) x2 * F.get_gamma d i x1 (x2 - x1))
                p) 0))) }) ptable := rfl

/-- The accumulator of `work_message_app` for the symbol `d`. -/
theorem message_app_sum (F : Fba) (i d : Nat) :
    forRange F.mtau_min F.mtau_max (fun x1 p =>
        forRange (max F.mtau_min (F.mn_min + x1)) (min F.mtau_max (F.mn_max + x1))
          (fun x2 p => p + F.alpha i x1 * F.beta (i + 1) x2 * F.get_gamma d i x1 (x2 - x1))
          p) 0 =
      ∑ x in Finset.Icc F.mtau_min F.mtau_max,
        ∑ y in (Finset.Icc F.mtau_min F.mtau_max).filter
            (fun y => F.mn_min ≤ y - x ∧ y - x ≤ F.mn_max),
          F.alpha i x * F.get_gamma d i x (y - x) * F.beta (i + 1) y := by
  have h1 : (fun (x1 : Int) (p : ℚ) =>
      forRange (max F.mtau_min (F.mn_min + x1)) (min F.mtau_max (F.mn_max + x1))
        (fun x2 p => p + F.alpha i x1 * F.beta (i + 1) x2 * F.get_gamma d i x1 (x2 - x1)) p) =
      fun x1 p => p + ∑ y in (Finset.Icc F.mtau_min F.mtau_max).filter
            (fun y => F.mn_min ≤ y - x1 ∧ y - x1 ≤ F.mn_max),
          F.alpha i x1 * F.get_gamma d i x1 (y - x1) * F.beta (i + 1) y := by
    funext x1 p
    rw [forRange_sum, Icc_reach]
    congr 1
    exact Finset.sum_congr rfl (fun y _ => mul_right_comm _ _ _)
  rw [h1, forRange_sum, zero_add]

/-- A loop `for (d = 0; d < n; d++) ptable(i)(d) = p(d)`. -/
theorem store_row_loop (i : Nat) (p : Nat → ℚ) (pt : RTable) (n : Nat) :
    (forUp n (fun d (pt : RTable) =>
        { pt with val := (Function.update pt.val i ((pt.val i).set d (p d))) }) pt).size =
        pt.size ∧
      ∀ j, ((forUp n (fun d (pt : RTable) =>
          { pt with val := (Function.update pt.val i ((pt.val i).set d (p d))) }) pt).val j).size =
          (pt.val j).size ∧
        ∀ d, ((forUp n (fun d (pt : RTable) =>
          { pt with val := (Function.update pt.val i ((pt.val i).set d (p d))) }) pt).val j).val d =
          if j = i ∧ d < n then p d else (pt.val j).val d := by
  induction n with
  | zero =>
    refine ⟨rfl, fun j => ⟨rfl, fun d => ?_⟩⟩
    rw [if_neg (fun h => Nat.not_lt_zero _ h.2)]
    rfl
  | succ n ih =>
    rw [forUp_succ]
    generalize forUp n (fun d (pt : RTable) =>
      { pt with val := (Function.update pt.val i ((pt.val i).set d (p d))) }) pt = T at ih
    obtain ⟨s1, s2⟩ := ih
    refine ⟨s1, fun j => ?_⟩
    show (Function.update T.val i ((T.val i).set n (p n)) j).size = _ ∧
      ∀ d, (Function.update T.val i ((T.val i).set n (p n)) j).val d = _
    by_cases hj : j = i
    · subst hj
      rw [Function.update_same]
      refine ⟨(s2 j).1, fun d => ?_⟩
      show Function.update (T.val j).val n (p n) d = _
      by_cases hd : d = n
      · subst hd
        rw [Function.update_same, if_pos ⟨rfl, Nat.lt_succ_self d⟩]
      · rw [Function.update_noteq hd, (s2 j).2 d]
        by_cases hd2 : d < n
        · rw [if_pos ⟨rfl, hd2⟩, if_pos ⟨rfl, Nat.lt_succ_of_lt hd2⟩]
        · rw [if_neg (fun h => hd2 h.2), if_neg (fun h => hd2 (by have := h.2; omega))]
    · rw [Function.update_noteq hj]
      refine ⟨(s2 j).1, fun d => ?_⟩
      rw [(s2 j).2 d, if_neg (fun h => hj h.1), if_neg (fun h => hj h.1)]

/-- The first `n` rounds of `work_message_app` with the index assertions, on a table that
holds the row `i` with at least `n` elements: no assertion fails. -/
theorem work_message_app_loop_checked (F : Fba) (ptable : RTable) (i n : Nat)
    (hi : i < ptable.size) (hn : n ≤ (ptable.val i).size) :
    forUpO n (fun d (ptable : RTable) =>
        ptable.put i d
          (forRange F.mtau_min F.mtau_max (fun x1 p =>
            forRange (max F.mtau_min (F.mn_min + x1)) (min F.mtau_max (F.mn_max + x1))
              (fun x2 p => p + F.alpha i x1 * F.beta (i + 1) x2 * F.get_gamma d i x1 (x2 - x1))
              p) 0)) ptable =
      some (forUp n (fun d (pt : RTable) =>
        { pt with val := (Function.update pt.val i ((pt.val i).set d
            (forRange F.mtau_min F.mtau_max (fun x1 p =>
              forRange (max F.mtau_min (F.mn_min + x1)) (min F.mtau_max (F.mn_max + x1))
                (fun x2 p => p + F.alpha i x1 * F.beta (i + 1) x2 * F.get_gamma d i x1 (x2 - x1))
                p) 0))) }) ptable) ∧
    ((forUp n (fun d (pt : RTable) =>
        { pt with val := (Function.update pt.val i ((pt.val i).set d
            (forRange F.mtau_min F.mtau_max (fun x1 p =>
              forRange (max F.mtau_min (F.mn_min + x1)) (min F.mtau_max (F.mn_max + x1))
                (fun x2 p => p + F.alpha i x1 * F.beta (i + 1) x2 * F.get_gamma d i x1 (x2 - x1))
                p) 0))) }) ptable).size = ptable.size ∧
      ((forUp n (fun d (pt : RTable) =>
        { pt with val := (Function.update pt.val i ((pt.val i).set d
            (forRange F.mtau_min F.mtau_max (fun x1 p =>
              forRange (max F.mtau_min (F.mn_min + x1)) (min F.mtau_max (F.mn_max + x1))
                (fun x2 p => p + F.alpha i x1 * F.beta (i + 1) x2 * F.get_gamma d i x1 (x2 - x1))
                p) 0))) }) ptable).val i).size = (ptable.val i).size) := by
  refine forUpO_eq_forUp
    (fun pt : RTable => pt.size = ptable.size ∧ (pt.val i).size = (ptable.val i).size)
    _ _ n ptable ⟨rfl, rfl⟩ (fun d pt hd hpt => ?_)
  obtain ⟨h1, h2⟩ := hpt
  dsimp only
  unfold RTable.put RVector.put
  rw [if_pos (by rw [h1]; exact hi), if_pos (by rw [h2]; omega)]
  refine ⟨rfl, h1, ?_⟩
  show (Function.update pt.val i _ i).size = _
  rw [Function.update_same]
  exact h2

theorem work_message_app_checked_eq (F : Fba) (ptable : RTable) (i : Nat) :
    F.work_message_app_checked ptable i =
      forUpO F.q (fun d (ptable : RTable) =>
        ptable.put i d
          (forRange F.mtau_min F.mtau_max (fun x1 p =>
            forRange (max F.mtau_min (F.mn_min + x1)) (min F.mtau_max (F.mn_max + x1))
              (fun x2 p => p + F.alpha i x1 * F.beta (i + 1) x2 * F.get_gamma d i x1 (x2 - x1))
              p) 0)) ptable := rfl

/-- On a table that holds the row `i` with at least `q` elements no index assertion of
`work_message_app` fails: the function returns what the plain assignments give. -/
theorem work_message_app_checked_some (F : Fba) (ptable : RTable) (i : Nat)
    (hi : i < ptable.size) (hq : F.q ≤ (ptable.val i).size) :
    F.work_message_app_checked ptable i = some (F.work_message_app ptable i) := by
  rw [work_message_app_checked_eq, work_message_app_eq]
  exact (work_message_app_loop_checked F ptable i F.q hi hq).1

/-- On a table without the row `i`, or with fewer than `q` elements in it, an assignment
`ptable(i)(d) = p` fails its index assertion. -/
theorem work_message_app_checked_fails (F : Fba) (ptable : RTable) (i : Nat) (hq : 0 < F.q)
    (h : ¬ (i < ptable.size ∧ F.q ≤ (ptable.val i).size)) :
    F.work_message_app_checked ptable i = none := by
  rw [work_message_app_checked_eq]
  by_cases hi : i < ptable.size
  · have hlt : (ptable.val i).size < F.q := by
      by_contra c
      exact h ⟨hi, by omega⟩
    obtain ⟨e1, e2, e3⟩ :=
      work_message_app_loop_checked F ptable i (ptable.val i).size hi (le_refl _)
    refine forUpO_none_mono _ ((ptable.val i).size + 1) F.q ptable ?_ hlt
    show (forUpO (ptable.val i).size _ ptable).bind _ = none
    rw [e1, Option.some_bind]
    dsimp only
    unfold RTable.put RVector.put
    rw [if_pos (by rw [e2]; exact hi), if_neg (by rw [e3]; exact lt_irrefl _)]
    rfl
  · refine forUpO_none_mono _ 1 F.q ptable ?_ hq
    show (some ptable).bind _ = none
    rw [Option.some_bind]
    dsimp only
    unfold RTable.put
    rw [if_neg hi]

end Fba

/-- C19: the message posterior of the lattice decoder. On a table that holds the row `i` with
at least `q` elements (the function does not give the table a size), for every index `i` and
every symbol `d < q`, `work_message_app(ptable, i)` stores in `ptable(i)(d)` the sum, over
the drifts `x` and `y` of the range with `mn_min ≤ y - x ≤ mn_max`, of
`alpha[i][x] * gamma(d, i, x, y-x) * beta[i+1][y]`; the sizes of the table and of its rows
and every other entry stay as they were. On a table without such a row the index assertion
of `ptable(i)(d)` fails. -/
theorem fba_message_app (F : Fba) (ptable : RTable) (i : Nat) :
    (i < ptable.size → F.q ≤ (ptable.val i).size →
      ∃ pt, F.work_message_app_checked ptable i = some pt ∧
        (∀ d, d < F.q →
          (pt.val i).val d =
            ∑ x in Finset.Icc F.mtau_min F.mtau_max,
              ∑ y in (Finset.Icc F.mtau_min F.mtau_max).filter
                  (fun y => F.mn_min ≤ y - x ∧ y - x ≤ F.mn_max),
                F.alpha i x * F.get_gamma d i x (y - x) * F.beta (i + 1) y) ∧
        pt.size = ptable.size ∧
        (∀ j, (pt.val j).size = (ptable.val j).size) ∧
        (∀ j d, ¬ (j = i ∧ d < F.q) → (pt.val j).val d = (ptable.val j).val d)) ∧
    (0 < F.q → ¬ (i < ptable.size ∧ F.q ≤ (ptable.val i).size) →
      F.work_message_app_checked ptable i = none) := by
  refine ⟨fun hi hq => ⟨_, Fba.work_message_app_checked_some F ptable i hi hq, ?_⟩,
    Fba.work_message_app_checked_fails F ptable i⟩
  rw [Fba.work_message_app_eq]
  simp only [Fba.message_app_sum]
  obtain ⟨s1, s2⟩ := Fba.store_row_loop i (fun d =>
    ∑ x in Finset.Icc F.mtau_min F.mtau_max,
      ∑ y in (Finset.Icc F.mtau_min F.mtau_max).filter
          (fun y => F.mn_min ≤ y - x ∧ y - x ≤ F.mn_max),
        F.alpha i x * F.get_gamma d i x (y - x) * F.beta (i + 1) y) ptable F.q
  refine ⟨fun d hd => ?_, s1, fun j => (s2 j).1, fun j d hjd => ?_⟩
  · rw [(s2 i).2 d, if_pos ⟨rfl, hd⟩]
  · rw [(s2 j).2 d, if_neg hjd]

/-- C19 on `exampleForward` and a table of one row with two elements: the function returns,
the entry for symbol `1` at index `0` is the double sum, which is `1/4`, and the entry for
the symbol `2`, which is out of range, is left alone. -/
theorem fba_message_app_witness :
    (0 < exampleAllocatedTable.size ∧
      exampleForward.q ≤ (exampleAllocatedTable.val 0).size) ∧
    (exampleForward.work_message_app_checked exampleAllocatedTable 0).map
      (fun pt => ((pt.val 0).val 0, (pt.val 0).val 1, (pt.val 0).val 2)) =
      some (1 / 2, 1 / 4, 9) ∧
    ∃ pt, exampleForward.work_message_app_checked exampleAllocatedTable 0 = some pt ∧
      (∀ d, d < exampleForward.q →
        (pt.val 0).val d =
          ∑ x in Finset.Icc exampleForward.mtau_min exampleForward.mtau_max,
            ∑ y in (Finset.Icc exampleForward.mtau_min exampleForward.mtau_max).filter
                (fun y => exampleForward.mn_min ≤ y - x ∧ y - x ≤ exampleForward.mn_max),
              exampleForward.alpha 0 x * exampleForward.get_gamma d 0 x (y - x) *
                exampleForward.beta (0 + 1) y) ∧
      pt.size = exampleAllocatedTable.size ∧
      (∀ j, (pt.val j).size = (exampleAllocatedTable.val j).size) ∧
      (∀ j d, ¬ (j = 0 ∧ d < exampleForward.q) →
        (pt.val j).val d = (exampleAllocatedTable.val j).val d) :=
  ⟨⟨by decide, by decide⟩, by decide!,
    (fba_message_app exampleForward exampleAllocatedTable 0).1 (by decide) (by decide)⟩

/-! ## The lattice decoder: the posterior of the drift -/

/-- A loop `for (x = lo; x < lo + n; x++) v(x - lo) = g(x)`. -/
theorem state_app_loop (lo : Int) (g : Int → ℚ) (v : RVector) (n : Nat) :
    (forUp n (fun (k : Nat) (v : RVector) => v.set ((lo + k) - lo).toNat (g (lo + k))) v).size =
        v.size ∧
      ∀ k, (forUp n (fun (k : Nat) (v : RVector) =>
          v.set ((lo + k) - lo).toNat (g (lo + k))) v).val k =
        if k < n then g (lo + k) else v.val k := by
  induction n with
  | zero => exact ⟨rfl, fun k => (if_neg (Nat.not_lt_zero k)).symm⟩
  | succ n ih =>
    rw [forUp_succ]
    generalize forUp n (fun (k : Nat) (v : RVector) =>
      v.set ((lo + k) - lo).toNat (g (lo + k))) v = w at ih
    refine ⟨ih.1, fun k => ?_⟩
    show Function.update w.val ((lo + n) - lo).toNat (g (lo + n)) k = _
    have hn : ((lo + n) - lo).toNat = n := by omega
    rw [hn]
    by_cases hk : k = n
    · subst hk
      rw [Function.update_same, if_pos (Nat.lt_succ_self k)]
    · rw [Function.update_noteq hk, ih.2 k]
      by_cases hk2 : k < n
      · rw [if_pos hk2, if_pos (Nat.lt_succ_of_lt hk2)]
      · rw [if_neg hk2, if_neg (by omega)]

namespace Fba

theorem work_state_app_eq (F : Fba) (v : RVector) (i : Nat) :
    F.work_state_app v i =
      if i ≤ F.N then
        some (forRange F.mtau_min F.mtau_max (fun x (w : RVector) =>
          w.set (x - F.mtau_min).toNat (F.alpha i x * F.beta i x))
          (v.init (F.mtau_max - F.mtau_min + 1).toNat))
      else none := rfl

/-- The posterior of the drift at the boundary `i ≤ N`: a vector with one element for each
drift of the range, holding `alpha[i][x] * beta[i][x]`. -/
theorem work_state_app_spec (F : Fba) (v : RVector) (i : Nat) (hi : i ≤ F.N) :
    ∃ w, F.work_state_app v i = some w ∧ w.size = (F.mtau_max - F.mtau_min + 1).toNat ∧
      ∀ k, k < w.size → w.val k = F.alpha i (F.mtau_min + k) * F.beta i (F.mtau_min + k) := by
  rw [work_state_app_eq, if_pos hi]
  refine ⟨_, rfl, ?_⟩
  obtain ⟨s1, s2⟩ := state_app_loop F.mtau_min (fun x => F.alpha i x * F.beta i x)
    (v.init (F.mtau_max - F.mtau_min + 1).toNat) (F.mtau_max + 1 - F.mtau_min).toNat
  rw [forRange_eq, s1]
  refine ⟨rfl, fun k hk => ?_⟩
  rw [s2 k, if_pos]
  have hk' : k < (F.mtau_max - F.mtau_min + 1).toNat := hk
  omega

theorem work_state_app_same (F : Fba) (v v' w w' : RVector) (i : Nat)
    (h : F.work_state_app v i = some w) (h' : F.work_state_app v' i = some w') :
    w.same w' := by
  have hi : i ≤ F.N := by
    by_contra hn
    rw [work_state_app_eq, if_neg hn] at h
    exact absurd h (by simp)
  obtain ⟨u, e1, e2, e3⟩ := work_state_app_spec F v i hi
  obtain ⟨u', e1', e2', e3'⟩ := work_state_app_spec F v' i hi
  rw [h] at e1
  rw [h'] at e1'
  obtain rfl := Option.some.inj e1
  obtain rfl := Option.some.inj e1'
  refine ⟨e2.trans e2'.symm, fun k hk => ?_⟩
  rw [e3 k hk, e3' k (by rw [e2', ← e2]; exact hk)]

theorem get_drift_pdf_eq (F : Fba) (pdftable : RTable) :
    F.get_drift_pdf pdftable =
      if F.initialised = true then
        forUpO (F.N + 1) (fun i (T : RTable) =>
          (F.work_state_app (T.val i) i).map (fun v =>
            { T with val := (Function.update T.val i v) }))
          { pdftable with size := (F.N + 1) }
      else none := rfl

/-- The loop of `get_drift_pdf`, up to the boundary `n`. -/
theorem drift_loop (F : Fba) (T0 : RTable) (n : Nat) (hn : n ≤ F.N + 1) :
    ∃ T, forUpO n (fun i (T : RTable) =>
          (F.work_state_app (T.val i) i).map (fun v =>
            { T with val := (Function.update T.val i v) })) T0 = some T ∧
      T.size = T0.size ∧
      ∀ i, (i < n → F.work_state_app (T0.val i) i = some (T.val i)) ∧
        (n ≤ i → T.val i = T0.val i) := by
  induction n with
  | zero => exact ⟨T0, rfl, rfl, fun i => ⟨fun h => absurd h (Nat.not_lt_zero i), fun _ => rfl⟩⟩
  | succ n ih =>
    obtain ⟨T, h1, h2, h3⟩ := ih (Nat.le_of_succ_le hn)
    obtain ⟨w, e1, _, _⟩ := work_state_app_spec F (T.val n) n (by omega)
    rw [forUpO_succ, h1, Option.some_bind, e1]
    refine ⟨_, rfl, h2, fun i => ⟨fun hi => ?_, fun hi => ?_⟩⟩
    · show _ = some (Function.update T.val n w i)
      by_cases hin : i = n
      · subst hin
        rw [Function.update_same, ← (h3 i).2 (Nat.le_refl i)]
        exact e1
      · rw [Function.update_noteq hin]
        exact (h3 i).1 (by omega)
    · show Function.update T.val n w i = _
      rw [Function.update_noteq (by omega)]
      exact (h3 i).2 (by omega)

/-- After allocation, `get_drift_pdf` returns `N + 1` vectors, the posteriors of the drift at
the boundaries `0, ..., N`. -/
theorem get_drift_pdf_spec (F : Fba) (pdftable : RTable) (hinit : F.initialised = true) :
    ∃ T, F.get_drift_pdf pdftable = some T ∧ T.size = F.N + 1 ∧
      ∀ i, i ≤ F.N → F.work_state_app (pdftable.val i) i = some (T.val i) := by
  rw [get_drift_pdf_eq, if_pos hinit]
  obtain ⟨T, h1, h2, h3⟩ := drift_loop F { pdftable with size := (F.N + 1) } (F.N + 1)
    (Nat.le_refl _)
  exact ⟨T, h1, h2, fun i hi => (h3 i).1 (by omega)⟩

end Fba

namespace Fba

theorem work_gamma_config (F F' : Fba) (r : Received) (h : F.work_gamma r = some F') :
    F.sameConfig F' := by
  unfold work_gamma at h
  by_cases hi : F.initialised = true
  · rw [if_pos hi] at h
    rw [← Option.some.inj h]
    exact forUp_rel sameConfig config_refl config_trans _
      (fun i F => (work_gamma_at_keeps F r i).1) _ F
  · rw [if_neg hi] at h
    exact absurd h (by simp)

theorem forUpO_config (step : Nat → Fba → Option Fba)
    (hstep : ∀ k F F', step k F = some F' → F.sameConfig F') (n : Nat) (F F' : Fba)
    (h : forUpO n step F = some F') : F.sameConfig F' :=
  forUpO_rel sameConfig config_refl config_trans step n
    (fun k F F' _ hs => hstep k F F' hs) F F' h

theorem work_alpha_and_beta_config (F F' : Fba) (sof_prior eof_prior : RVector)
    (h : F.work_alpha_and_beta sof_prior eof_prior = some F') : F.sameConfig F' := by
  unfold work_alpha_and_beta at h
  by_cases hi : F.initialised = true
  · rw [if_pos hi] at h
    obtain ⟨F0, h0, h1⟩ := Option.bind_eq_some.mp h
    exact config_trans _ _ _ (alpha_beta_start_spec F F0 _ _ h0).1
      (forUpO_config alpha_beta_step (fun k F F' hs => (alpha_beta_step_keeps k F F' hs).1)
        _ F0 F' h1)
  · rw [if_neg hi] at h
    exact absurd h (by simp)

theorem work_alpha_prior_config (F F' : Fba) (sof_prior : RVector)
    (h : F.work_alpha_prior sof_prior = some F') : F.sameConfig F' := by
  unfold work_alpha_prior at h
  by_cases hi : F.initialised = true
  · rw [if_pos hi] at h
    obtain ⟨F0, h0, h1⟩ := Option.bind_eq_some.mp h
    exact config_trans _ _ _ (alpha_start_spec F F0 _ h0).1
      (forUpO_config alpha_step (fun k F F' hs => (alpha_step_keeps k F F' hs).1) _ F0 F' h1)
  · rw [if_neg hi] at h
    exact absurd h (by simp)

/-- The results of the global path are the posteriors of the drift at the two ends. -/
theorem work_results_spec (F : Fba) (ptable : RTable) (sof_post eof_post : RVector)
    (res : RTable × RVector × RVector)
    (h : F.work_results ptable sof_post eof_post = some res) :
    F.initialised = true ∧ F.work_state_app sof_post 0 = some res.2.1 ∧
      F.work_state_app eof_post F.N = some res.2.2 := by
  unfold work_results at h
  by_cases hi : F.initialised = true
  · rw [if_pos hi] at h
    obtain ⟨sof, h0, h1⟩ := Option.bind_eq_some.mp h
    obtain ⟨eof, h2, h3⟩ := Option.map_eq_some'.mp h1
    rw [← h3]
    exact ⟨hi, h0, h2⟩
  · rw [if_neg hi] at h
    exact absurd h (by simp)

theorem beta_results_step_config (i : Nat) (s s' : Fba × RTable)
    (h : beta_results_step i s = some s') : s.1.sameConfig s'.1 := by
  unfold beta_results_step at h
  obtain ⟨F1, h1, h2⟩ := Option.map_eq_some'.mp h
  rw [← h2]
  have k0 : s.1.sameConfig
      (if (!s.1.globalstore) = true then s.1.work_gamma_at s.1.r i else s.1) := by
    by_cases hg : (!s.1.globalstore) = true
    · rw [if_pos hg]
      exact (work_gamma_at_keeps s.1 s.1.r i).1
    · rw [if_neg hg]
      exact config_refl _
  exact config_trans _ _ _ (config_trans _ _ _ k0 (work_beta_keeps _ i).1)
    (normalize_beta_keeps _ _ _ h1).1

/-- The results of the local path are the posteriors of the drift at the two ends, computed
on the final state of the decoder. -/
theorem work_beta_and_results_spec (F : Fba) (eof_prior : RVector) (ptable : RTable)
    (sof_post eof_post : RVector) (res : Fba × RTable × RVector × RVector)
    (h : F.work_beta_and_results eof_prior ptable sof_post eof_post = some res) :
    F.sameConfig res.1 ∧ res.1.work_state_app sof_post 0 = some res.2.2.1 ∧
      res.1.work_state_app eof_post res.1.N = some res.2.2.2 := by
  unfold work_beta_and_results at h
  by_cases hi : F.initialised = true
  · rw [if_pos hi] at h
    obtain ⟨F1, h1, h2⟩ := Option.bind_eq_some.mp h
    obtain ⟨s, h3, h4⟩ := Option.bind_eq_some.mp h2
    obtain ⟨sof, h5, h6⟩ := Option.bind_eq_some.mp h4
    obtain ⟨eof, h7, h8⟩ := Option.map_eq_some'.mp h6
    rw [← h8]
    refine ⟨?_, h5, h7⟩
    have k0 : ({ F with beta := (F.zero2 F.beta) } : Fba).keepsAlpha (fun _ => True) _ :=
      forRange_keeps (fun _ => True) F.mtau_min F.mtau_max (fun x (F' : Fba) =>
          { F' with beta := (set2 F'.beta F'.N x (eof_prior.val (x - F'.mtau_min).toNat)) })
        (fun x F' => ⟨config_refl F', fun _ _ => rfl⟩) _
    have k1 := normalize_beta_keeps _ _ _ h1
    have k2 := forDownO_rel (fun (s s' : Fba × RTable) => s.1.sameConfig s'.1)
      (fun s => config_refl s.1) (fun a b c => config_trans a.1 b.1 c.1)
      beta_results_step beta_results_step_config _ _ _ h3
    exact config_trans _ _ _ (config_trans _ _ _ k0.1 k1.1) k2
  · rw [if_neg hi] at h
    exact absurd h (by simp)

/-- What a successful `decode` leaves: an allocated decoder with the parameters it had, whose
range of drifts has as many elements as the start-of-frame prior, and the posteriors of the
drift at the two ends, computed from the final `alpha` and `beta`. -/
theorem decode_spec (F : Fba) (r : Received) (sof_prior eof_prior : RVector) (ptable : RTable)
    (sof_post eof_post : RVector) (offset : Int) (res : Fba × RTable × RVector × RVector)
    (h : F.decode r sof_prior eof_prior ptable sof_post eof_post offset = some res) :
    res.1.initialised = true ∧ res.1.N = F.N ∧ res.1.mtau_min = F.mtau_min ∧
      res.1.mtau_max = F.mtau_max ∧
      (sof_prior.size : Int) = F.mtau_max - F.mtau_min + 1 ∧
      res.1.work_state_app sof_post 0 = some res.2.2.1 ∧
      res.1.work_state_app eof_post res.1.N = some res.2.2.2 := by
  obtain ⟨F0, hF0, i0, c1, c2, c3, c4⟩ : ∃ F0,
      F0 = (if (!F.initialised) = true then F.allocate else F) ∧ F0.initialised = true ∧
        F0.N = F.N ∧ F0.mtau_min = F.mtau_min ∧ F0.mtau_max = F.mtau_max ∧
        F0.globalstore = F.globalstore := by
    refine ⟨_, rfl, ?_⟩
    by_cases hb : (!F.initialised) = true
    · rw [if_pos hb]
      exact ⟨rfl, rfl, rfl, rfl, rfl⟩
    · rw [if_neg hb]
      refine ⟨?_, rfl, rfl, rfl, rfl⟩
      cases hi : F.initialised
      · rw [hi] at hb
        exact absurd rfl hb
      · rfl
  unfold decode at h
  simp only [← hF0] at h
  by_cases a1 : offset ≠ -F0.mtau_min
  · rw [if_pos a1] at h
    exact absurd h (by simp)
  rw [if_neg a1] at h
  by_cases a2 : (r.size : Int) ≠ ((F0.N * F0.n : Nat) : Int) + F0.mtau_max - F0.mtau_min
  · rw [if_pos a2] at h
    exact absurd h (by simp)
  rw [if_neg a2] at h
  by_cases a3 : (sof_prior.size : Int) ≠ F0.mtau_max - F0.mtau_min + 1
  · rw [if_pos a3] at h
    exact absurd h (by simp)
  rw [if_neg a3] at h
  by_cases a4 : (eof_prior.size : Int) ≠ F0.mtau_max - F0.mtau_min + 1
  · rw [if_pos a4] at h
    exact absurd h (by simp)
  rw [if_neg a4] at h
  have hsz : (sof_prior.size : Int) = F.mtau_max - F.mtau_min + 1 := by
    rw [← c2, ← c3]
    exact not_not.mp a3
  by_cases hg : F0.globalstore = true
  · rw [if_pos hg] at h
    obtain ⟨F1, h1, h2⟩ := Option.bind_eq_some.mp h
    obtain ⟨F2, h3, h4⟩ := Option.bind_eq_some.mp h2
    obtain ⟨out, h5, h6⟩ := Option.map_eq_some'.mp h4
    rw [← h6]
    have k := config_trans _ _ _ (work_gamma_config F0 F1 r h1)
      (work_alpha_and_beta_config F1 F2 _ _ h3)
    obtain ⟨_, w1, w2⟩ := work_results_spec F2 ptable sof_post eof_post out h5
    exact ⟨k.2.2.2.2.2.2.2.2.trans i0, k.1.trans c1, k.2.2.2.1.trans c2,
      k.2.2.2.2.1.trans c3, hsz, w1, w2⟩
  · rw [if_neg hg] at h
    obtain ⟨F1, h1, h2⟩ := Option.bind_eq_some.mp h
    have k1 := work_alpha_prior_config _ F1 _ h1
    obtain ⟨k2, w1, w2⟩ := work_beta_and_results_spec F1 eof_prior ptable sof_post eof_post
      res h2
    have k := config_trans _ _ _ k1 k2
    exact ⟨k.2.2.2.2.2.2.2.2.trans i0, k.1.trans c1, k.2.2.2.1.trans c2,
      k.2.2.2.2.1.trans c3, hsz, w1, w2⟩

end Fba

/-- The decoder `exampleFba` decodes the frame `exampleReceived` with the priors
`examplePrior`. -/
theorem exampleFba_decodes :
    (exampleFba.decode exampleReceived examplePrior examplePrior emptyRTable emptyRVector
      emptyRVector 1).isSome = true := by decide!

/-- C20: the drift posterior of the lattice decoder. After a `decode` that returns, on the
decoder it leaves, `get_drift_pdf` returns `N + 1` vectors, each of length
`mtau_max - mtau_min + 1`, with `pdftable(i)(x - mtau_min) = alpha[i][x] * beta[i][x]` for
every `i ≤ N` and every drift `x` of the range; the `sof_post` and `eof_post` that `decode`
returned hold the same values as `pdftable(0)` and `pdftable(N)`. -/
theorem fba_drift_pdf (F : Fba) (r : Received) (sof_prior eof_prior : RVector)
    (ptable : RTable) (sof_post eof_post : RVector) (offset : Int) (pdftable : RTable)
    (res : Fba × RTable × RVector × RVector)
    (h : F.decode r sof_prior eof_prior ptable sof_post eof_post offset = some res) :
    ∃ T, res.1.get_drift_pdf pdftable = some T ∧ T.size = F.N + 1 ∧
      (∀ i, i ≤ F.N →
        ((T.val i).size : Int) = F.mtau_max - F.mtau_min + 1 ∧
        ∀ x, F.mtau_min ≤ x → x ≤ F.mtau_max →
          (T.val i).val (x - F.mtau_min).toNat = res.1.alpha i x * res.1.beta i x) ∧
      res.2.2.1.same (T.val 0) ∧ res.2.2.2.same (T.val F.N) := by
  obtain ⟨hinit, cN, clo, chi, hsz, w1, w2⟩ :=
    Fba.decode_spec F r sof_prior eof_prior ptable sof_post eof_post offset res h
  obtain ⟨T, t1, t2, t3⟩ := Fba.get_drift_pdf_spec res.1 pdftable hinit
  rw [cN] at t2 t3 w2
  refine ⟨T, t1, t2, fun i hi => ?_, ?_, ?_⟩
  · obtain ⟨w, e1, e2, e3⟩ := Fba.work_state_app_spec res.1 (pdftable.val i) i (by omega)
    rw [t3 i hi] at e1
    obtain rfl := Option.some.inj e1
    rw [clo, chi] at e2
    rw [clo] at e3
    refine ⟨by omega, fun x h1 h2 => ?_⟩
    rw [e3 (x - F.mtau_min).toNat (by omega)]
    have hx : F.mtau_min + ((x - F.mtau_min).toNat : Int) = x := by omega
    rw [hx]
  · exact Fba.work_state_app_same res.1 _ _ _ _ 0 w1 (t3 0 (Nat.zero_le _))
  · rw [← cN] at w2
    have := t3 F.N (Nat.le_refl _)
    rw [← cN] at this ⊢
    exact Fba.work_state_app_same res.1 _ _ _ _ res.1.N w2 this

/-- C20 on `exampleFba`: the decoder decodes `exampleReceived`, and the drift posteriors
that follow are as stated. -/
theorem fba_drift_pdf_witness :
    ∃ res, exampleFba.decode exampleReceived examplePrior examplePrior emptyRTable emptyRVector
        emptyRVector 1 = some res ∧
      ∃ T, res.1.get_drift_pdf emptyRTable = some T ∧ T.size = exampleFba.N + 1 ∧
        (∀ i, i ≤ exampleFba.N →
          ((T.val i).size : Int) = exampleFba.mtau_max - exampleFba.mtau_min + 1 ∧
          ∀ x, exampleFba.mtau_min ≤ x → x ≤ exampleFba.mtau_max →
            (T.val i).val (x - exampleFba.mtau_min).toNat =
              res.1.alpha i x * res.1.beta i x) ∧
        res.2.2.1.same (T.val 0) ∧ res.2.2.2.same (T.val exampleFba.N) :=
  ⟨Option.get _ exampleFba_decodes, (Option.some_get exampleFba_decodes).symm,
    fba_drift_pdf exampleFba exampleReceived examplePrior examplePrior emptyRTable emptyRVector
      emptyRVector 1 emptyRTable (Option.get _ exampleFba_decodes)
      (Option.some_get exampleFba_decodes).symm⟩

/-! ## Construction, encoding and translation at the example codec -/

/-- C16 on the encoder of the example codec, with block length 1. -/
theorem init_builds_trellis_witness :
    (1 : Int) ≤ 1 ∧
    ∃ r, exampleTrellis.init exampleTurbo.encoder 1 = some r ∧
      r.1.K = exampleTurbo.encoder.num_inputs ∧ r.1.N = exampleTurbo.encoder.num_outputs ∧
      r.1.M = exampleTurbo.encoder.num_states ∧
      (∀ m i, m < r.1.M → i < r.1.K →
        r.1.lut_X m i = ((exampleTurbo.encoder.reset m).step i).2.2 ∧
        r.1.lut_m m i = ((exampleTurbo.encoder.reset m).step i).1.state) ∧
      ((∀ m i, m < exampleTurbo.encoder.num_states → i < exampleTurbo.encoder.num_inputs →
          ((exampleTurbo.encoder.reset m).step i).2.2 < exampleTurbo.encoder.num_outputs ∧
          ((exampleTurbo.encoder.reset m).step i).1.state < exampleTurbo.encoder.num_states) →
        ∀ m i, m < r.1.M → i < r.1.K → r.1.lut_m m i < r.1.M ∧ r.1.lut_X m i < r.1.N) :=
  ⟨by decide, init_builds_trellis exampleTrellis exampleTurbo.encoder 1 (by decide)⟩

/-- C14 on the encoder of the example codec, with both termination flags set. -/
theorem construct_rejected_iff_witness :
    0 < exampleTurbo.encoder.num_inputs ∧
    (exampleTurbo.construct exampleTurbo.encoder 1 1 exampleTurbo.inter 1 true false true
        = none ↔
      ((1 : Int) < 1 ∨
        ({ exampleTurbo with encoder := exampleTurbo.encoder } : Turbo).enc_parity *
            exampleTurbo.encoder.num_inputs ≠ exampleTurbo.encoder.num_outputs ∨
        1 ≤ 0 ∨ (1 : Int) ≤ 0 ∨ (true = true ∧ true = true))) ∧
    (true = true → true = true →
      exampleTurbo.construct exampleTurbo.encoder 1 1 exampleTurbo.inter 1 true false true
        = none) :=
  ⟨by decide,
    construct_rejected_iff exampleTurbo exampleTurbo.encoder 1 1 exampleTurbo.inter 1 true
      false true (by decide)⟩

/-- C17 on the example codec, which is not circular and ends at zero. -/
theorem reset_boundary_conditions_witness :
    exampleTurbo.circular = false ∧
    ∃ T', exampleTurbo.reset = some T' ∧ T'.bcjr.M = exampleTurbo.bcjr.M ∧
      T'.bcjr.tau = exampleTurbo.bcjr.tau ∧
      (∀ m, m < exampleTurbo.bcjr.M → T'.bcjr.alpha.val 0 m = if m = 0 then 1 else 0) ∧
      (exampleTurbo.endatzero = true →
        ∀ m, m < exampleTurbo.bcjr.M →
          T'.bcjr.beta.val exampleTurbo.bcjr.tau m = if m = 0 then 1 else 0) ∧
      (exampleTurbo.endatzero = false →
        ∀ m, m < exampleTurbo.bcjr.M →
          T'.bcjr.beta.val exampleTurbo.bcjr.tau m = 1 / (exampleTurbo.bcjr.M : ℚ)) :=
  ⟨rfl, (reset_boundary_conditions exampleTurbo).2.1 rfl⟩

/-- C15 on the example codec and a table of two binary symbols. -/
theorem translate_rejects_misshaped_witness :
    2 ≤ exampleChannel.ysize ∧ 1 ≤ exampleTurbo.num_inputs ∧ 1 ≤ exampleTurbo.enc_parity ∧
    (((¬ ∃ k, exampleTurbo.num_inputs = exampleChannel.ysize ^ k) ∨
        (¬ ∃ k, exampleTurbo.enc_parity = exampleChannel.ysize ^ k)) →
      exampleTurbo.translate exampleChannel = none) ∧
    ∀ sk sp, exampleTurbo.num_inputs = exampleChannel.ysize ^ sk →
      exampleTurbo.enc_parity = exampleChannel.ysize ^ sp →
      (exampleChannel.xsize ≠ exampleTurbo.tau * (sk + exampleTurbo.num_sets * sp) →
        exampleTurbo.translate exampleChannel = none) ∧
      (exampleChannel.xsize = exampleTurbo.tau * (sk + exampleTurbo.num_sets * sp) →
        ∃ T', exampleTurbo.translate exampleChannel = some T' ∧
          ∀ set, set < (if exampleTurbo.parallel then exampleTurbo.num_sets else 1) →
            ∀ t x, t < (T'.mem (MRef.m_ra set)).xsize → x < (T'.mem (MRef.m_ra set)).ysize →
              (T'.mem (MRef.m_ra set)).val t x = 1) :=
  ⟨by decide, by decide, by decide,
    translate_rejects_misshaped exampleTurbo exampleChannel (by decide) (by decide)
      (by decide)⟩

/-- The example codec encodes the example source. -/
theorem exampleTurbo_encodes :
    (exampleTurbo.encode exampleTurbo.inter exampleSource exampleDecoded).isSome = true := by
  decide!

/-- C12 on the example codec: the example source is encoded into the symbol `3`, whose binary
digits are both `1`; the noiseless table of these digits, `exampleChannel`, is translated
into the indicator of the source symbol and of the parity symbol. -/
theorem encode_translate_round_trip_witness :
    ∃ r, exampleTurbo.encode exampleTurbo.inter exampleSource exampleDecoded = some r ∧
      2 ≤ exampleChannel.ysize ∧
      exampleTurbo.num_inputs = exampleChannel.ysize ^ 1 ∧
      exampleTurbo.enc_parity = exampleChannel.ysize ^ 1 ∧
      exampleChannel.xsize = exampleTurbo.tau * (1 + exampleTurbo.num_sets * 1) ∧
      (∀ t, t < exampleTurbo.tau → r.1.source.val t < exampleTurbo.num_inputs) ∧
      (∀ set t, set < exampleTurbo.num_sets → t < exampleTurbo.tau →
        exampleTurbo.encode_output exampleTurbo.inter exampleSource set t <
          exampleTurbo.num_inputs * exampleTurbo.enc_parity) ∧
      (∀ t j d, t < exampleTurbo.tau → j < 1 + exampleTurbo.num_sets * 1 →
        d < exampleChannel.ysize →
        exampleChannel.val (t * (1 + exampleTurbo.num_sets * 1) + j) d =
          if d = digit exampleChannel.ysize (r.2.val t) j then 1 else 0) ∧
      (r.1.T.initialised = true →
        (r.1.T.mem MRef.m_rp).xsize = exampleTurbo.tau ∧
        (r.1.T.mem MRef.m_rp).ysize = exampleTurbo.num_inputs) ∧
      ∃ T', r.1.T.translate exampleChannel = some T' ∧
        (∀ t x, t < exampleTurbo.tau → x < exampleTurbo.num_inputs →
          (T'.mem MRef.m_rp).val t x = if x = r.1.source.val t then 1 else 0) ∧
        ∀ set t x, set < exampleTurbo.num_sets → t < exampleTurbo.tau →
          x < exampleTurbo.enc_parity →
          (r.1.T.translate_p exampleChannel).val set t x =
            if x = r.1.x set t then 1 else 0 := by
  have htau : exampleTurbo.tau = 1 := rfl
  have hsets : exampleTurbo.num_sets = 1 := rfl
  have hys : exampleChannel.ysize = 2 := rfl
  have hsrc : ∀ t, t < exampleTurbo.tau →
      ((exampleTurbo.encode exampleTurbo.inter exampleSource exampleDecoded).get
        exampleTurbo_encodes).1.source.val t < exampleTurbo.num_inputs := by
    intro t ht
    obtain rfl : t = 0 := by omega
    decide!
  have hout : ∀ set t, set < exampleTurbo.num_sets → t < exampleTurbo.tau →
      exampleTurbo.encode_output exampleTurbo.inter exampleSource set t <
        exampleTurbo.num_inputs * exampleTurbo.enc_parity := by
    intro set t hs ht
    obtain rfl : set = 0 := by omega
    obtain rfl : t = 0 := by omega
    decide!
  have hpt : ∀ t j d, t < exampleTurbo.tau → j < 1 + exampleTurbo.num_sets * 1 →
      d < exampleChannel.ysize →
      exampleChannel.val (t * (1 + exampleTurbo.num_sets * 1) + j) d =
        if d = digit exampleChannel.ysize
          (((exampleTurbo.encode exampleTurbo.inter exampleSource exampleDecoded).get
            exampleTurbo_encodes).2.val t) j then 1 else 0 := by
    intro t j d ht hj hd
    obtain rfl : t = 0 := by omega
    rw [hsets] at hj
    rw [hys] at hd
    interval_cases j <;> interval_cases d <;> decide!
  have hshape : ((exampleTurbo.encode exampleTurbo.inter exampleSource exampleDecoded).get
        exampleTurbo_encodes).1.T.initialised = true →
      (((exampleTurbo.encode exampleTurbo.inter exampleSource exampleDecoded).get
        exampleTurbo_encodes).1.T.mem MRef.m_rp).xsize = exampleTurbo.tau ∧
      (((exampleTurbo.encode exampleTurbo.inter exampleSource exampleDecoded).get
        exampleTurbo_encodes).1.T.mem MRef.m_rp).ysize = exampleTurbo.num_inputs :=
    fun _ => by decide!
  exact ⟨Option.get _ exampleTurbo_encodes, (Option.some_get exampleTurbo_encodes).symm,
    by decide, by decide, by decide, by decide, hsrc, hout, hpt, hshape,
    encode_translate_round_trip exampleTurbo exampleTurbo.inter exampleSource exampleDecoded
      exampleChannel 1 1 (Option.get _ exampleTurbo_encodes)
      (Option.some_get exampleTurbo_encodes).symm (by decide) (by decide) (by decide)
      (by decide) hsrc hout hpt hshape⟩

/-! ## The lattice decoder: normalisation of a row -/

/-- A loop `for (x = lo; x <= hi; x++) a[i][x] = h(x, a[i][x])`. -/
theorem forRange_map_row (i : Nat) (h : Int → ℚ → ℚ) (lo hi : Int) (a : Nat → Int → ℚ)
    (j : Nat) (y : Int) :
    forRange lo hi (fun x a => set2 a i x (h x (a i x))) a j y =
      if j = i ∧ lo ≤ y ∧ y ≤ hi then h y (a i y) else a j y := by
  rw [forRange_eq]
  have key : ∀ n : Nat, forUp n (fun (k : Nat) a => set2 a i (lo + k) (h (lo + k) (a i (lo + k))))
      a j y = if j = i ∧ lo ≤ y ∧ y < lo + n then h y (a i y) else a j y := by
    intro n
    induction n generalizing j y with
    | zero =>
      rw [if_neg]
      · rfl
      · intro h
        have := h.2
        omega
    | succ n ih =>
      rw [forUp_succ, set2_val]
      by_cases hj : j = i ∧ y = lo + n
      · obtain ⟨rfl, rfl⟩ := hj
        have c1 : j = j ∧ lo + (n : Int) = lo + n := ⟨rfl, rfl⟩
        have c2 : j = j ∧ lo ≤ lo + (n : Int) ∧ lo + (n : Int) < lo + (n + 1 : Nat) :=
          ⟨rfl, by omega, by omega⟩
        have c3 : ¬ (j = j ∧ lo ≤ lo + (n : Int) ∧ lo + (n : Int) < lo + n) :=
          fun h => by have := h.2.2; omega
        rw [if_pos c1, if_pos c2, ih, if_neg c3]
      · rw [if_neg hj, ih]
        by_cases hc : j = i ∧ lo ≤ y ∧ y < lo + n
        · rw [if_pos hc, if_pos ⟨hc.1, hc.2.1, by have := hc.2.2; omega⟩]
        · rw [if_neg hc, if_neg]
          intro h
          by_cases hy : y = lo + n
          · exact hj ⟨h.1, hy⟩
          · exact hc ⟨h.1, h.2.1, by have := h.2.2; omega⟩
  rw [key]
  by_cases hc : j = i ∧ lo ≤ y ∧ y ≤ hi
  · rw [if_pos hc, if_pos ⟨hc.1, hc.2.1, by have := hc.2; omega⟩]
  · rw [if_neg hc, if_neg]
    intro h
    exact hc ⟨h.1, h.2.1, by have := h.2; omega⟩

namespace Fba

/-- The scale factor of a row: the reciprocal of the sum of the row over the columns, when
that sum is positive. -/
theorem get_scale_eq (metric : Nat → Int → ℚ) (row : Nat) (lo hi : Int) :
    get_scale metric row lo hi =
      if 0 < ∑ x in Finset.Icc lo hi, metric row x then
        some (1 / ∑ x in Finset.Icc lo hi, metric row x)
      else none := by
  unfold get_scale
  simp only [forRange_sum, zero_add, gt_iff_lt]

/-- The row normaliser: every entry of the row over the columns is multiplied by the
reciprocal of the sum. -/
theorem normalize_eq_some (metric : Nat → Int → ℚ) (row : Nat) (lo hi : Int)
    (hpos : 0 < ∑ x in Finset.Icc lo hi, metric row x) :
    ∃ m', normalize metric row lo hi = some m' ∧
      ∀ j y, m' j y =
        if j = row ∧ lo ≤ y ∧ y ≤ hi then
          metric row y * (1 / ∑ x in Finset.Icc lo hi, metric row x)
        else metric j y := by
  unfold normalize
  rw [get_scale_eq, if_pos hpos, Option.map_some']
  exact ⟨_, rfl, fun j y => forRange_map_row row
    (fun _ v => v * (1 / ∑ x in Finset.Icc lo hi, metric row x)) lo hi metric j y⟩

theorem normalize_eq_none (metric : Nat → Int → ℚ) (row : Nat) (lo hi : Int) :
    normalize metric row lo hi = none ↔ ¬ 0 < ∑ x in Finset.Icc lo hi, metric row x := by
  unfold normalize
  rw [get_scale_eq]
  by_cases hpos : 0 < ∑ x in Finset.Icc lo hi, metric row x
  · rw [if_pos hpos, Option.map_some']
    exact ⟨fun h => absurd h (by simp), fun h => absurd hpos h⟩
  · rw [if_neg hpos, Option.map_none']
    exact ⟨fun _ => hpos, fun _ => rfl⟩

end Fba

/-- C23: numeric underflow of the lattice decoder is surfaced as an error. `get_scale` fails
exactly when the accumulated value of the row over `[col_min, col_max]` is not strictly
positive, and otherwise returns its reciprocal; `normalize` fails in the same case, and
when it returns, the divisor is positive and every entry of the row over the columns has
been divided by it, the rest of the array being left alone. -/
theorem fba_get_scale_fails_iff (metric : Nat → Int → ℚ) (row : Nat) (col_min col_max : Int) :
    (Fba.get_scale metric row col_min col_max = none ↔
      ¬ 0 < ∑ col in Finset.Icc col_min col_max, metric row col) ∧
    (0 < ∑ col in Finset.Icc col_min col_max, metric row col →
      Fba.get_scale metric row col_min col_max =
        some (1 / ∑ col in Finset.Icc col_min col_max, metric row col)) ∧
    (Fba.normalize metric row col_min col_max = none ↔
      ¬ 0 < ∑ col in Finset.Icc col_min col_max, metric row col) ∧
    (∀ m', Fba.normalize metric row col_min col_max = some m' →
      0 < ∑ col in Finset.Icc col_min col_max, metric row col ∧
      ∀ j y, m' j y =
        if j = row ∧ col_min ≤ y ∧ y ≤ col_max then
          metric row y / ∑ col in Finset.Icc col_min col_max, metric row col
        else metric j y) := by
  refine ⟨?_, ?_, Fba.normalize_eq_none metric row col_min col_max, ?_⟩
  · rw [Fba.get_scale_eq]
    by_cases hpos : 0 < ∑ x in Finset.Icc col_min col_max, metric row x
    · rw [if_pos hpos]
      exact ⟨fun h => absurd h (by simp), fun h => absurd hpos h⟩
    · rw [if_neg hpos]
      exact ⟨fun _ => hpos, fun _ => rfl⟩
  · intro hpos
    rw [Fba.get_scale_eq, if_pos hpos]
  · intro m' hm
    have hpos : 0 < ∑ col in Finset.Icc col_min col_max, metric row col := by
      by_contra hn
      rw [(Fba.normalize_eq_none metric row col_min col_max).mpr hn] at hm
      exact absurd hm (by simp)
    obtain ⟨m'', h1, h2⟩ := Fba.normalize_eq_some metric row col_min col_max hpos
    rw [hm] at h1
    obtain rfl := Option.some.inj h1
    refine ⟨hpos, fun j y => ?_⟩
    rw [h2 j y, mul_one_div]

/-- C23 on the start-of-frame row of `exampleForward`, whose sum is 1, and on its row `1`,
whose sum is 0. -/
theorem fba_get_scale_fails_iff_witness :
    Fba.get_scale exampleForward.alpha 0 (-1) 1 =
        some (1 / ∑ col in Finset.Icc (-1 : Int) 1, exampleForward.alpha 0 col) ∧
      Fba.get_scale exampleForward.alpha 1 (-1) 1 = none :=
  ⟨(fba_get_scale_fails_iff exampleForward.alpha 0 (-1) 1).2.1 (by decide!),
    (fba_get_scale_fails_iff exampleForward.alpha 1 (-1) 1).1.mpr (by decide!)⟩

/-- C22 (counterexample): the row `(1, 1)` has a positive entry; `normalize` returns on it
and leaves `(1/2, 1/2)`, whose largest entry is `1/2`, not `1`: the divisor was the sum `2`
of the row, not its maximum `1`. -/
theorem fba_normalize_max_counterexample :
    (∃ y : Int, 0 ≤ y ∧ y ≤ 1 ∧ 0 < exampleOnesArray 0 y) ∧
    (Fba.normalize exampleOnesArray 0 0 1).map (fun m => (m 0 0, m 0 1)) =
      some (1 / 2, 1 / 2) := by
  refine ⟨⟨0, by decide, by decide, by decide!⟩, ?_⟩
  decide!

/-- C22 (amended): rows of the lattice decoder are normalised by their sum; the statement
is for exact arithmetic. On a row whose
entries over `[col_min, col_max]` are non-negative, with at least one positive entry,
`normalize` returns; afterwards the entries of the row over these columns sum to `1`, each
is the former entry divided by the former sum of the row, and each lies in `[0, 1]`. -/
theorem fba_normalize_row_sum (metric : Nat → Int → ℚ) (row : Nat) (col_min col_max : Int)
    (hnn : ∀ y, col_min ≤ y → y ≤ col_max → 0 ≤ metric row y)
    (hpos : ∃ y, col_min ≤ y ∧ y ≤ col_max ∧ 0 < metric row y) :
    ∃ m', Fba.normalize metric row col_min col_max = some m' ∧
      ∑ y in Finset.Icc col_min col_max, m' row y = 1 ∧
      ∀ y, col_min ≤ y → y ≤ col_max →
        m' row y = metric row y / ∑ col in Finset.Icc col_min col_max, metric row col ∧
        0 ≤ m' row y ∧ m' row y ≤ 1 := by
  obtain ⟨y0, h1, h2, h3⟩ := hpos
  have hmem : ∀ y, y ∈ Finset.Icc col_min col_max → 0 ≤ metric row y := fun y hy =>
    hnn y (Finset.mem_Icc.mp hy).1 (Finset.mem_Icc.mp hy).2
  have hS : 0 < ∑ col in Finset.Icc col_min col_max, metric row col :=
    lt_of_lt_of_le h3
      (Finset.single_le_sum (f := fun col => metric row col) (fun y hy => hmem y hy)
        (Finset.mem_Icc.mpr ⟨h1, h2⟩))
  obtain ⟨m', e1, e2⟩ := Fba.normalize_eq_some metric row col_min col_max hS
  have hval : ∀ y, col_min ≤ y → y ≤ col_max →
      m' row y = metric row y / ∑ col in Finset.Icc col_min col_max, metric row col := by
    intro y hy1 hy2
    rw [e2 row y, if_pos ⟨rfl, hy1, hy2⟩, mul_one_div]
  refine ⟨m', e1, ?_, fun y hy1 hy2 => ⟨hval y hy1 hy2, ?_, ?_⟩⟩
  · rw [Finset.sum_congr rfl (fun y hy =>
      hval y (Finset.mem_Icc.mp hy).1 (Finset.mem_Icc.mp hy).2), ← Finset.sum_div]
    exact div_self (ne_of_gt hS)
  · rw [hval y hy1 hy2]
    exact div_nonneg (hnn y hy1 hy2) (le_of_lt hS)
  · rw [hval y hy1 hy2, div_le_one hS]
    exact Finset.single_le_sum (f := fun col => metric row col) (fun y hy => hmem y hy)
      (Finset.mem_Icc.mpr ⟨hy1, hy2⟩)

/-- C22 (amended) on the row `(1, 1)`. -/
theorem fba_normalize_row_sum_witness :
    (∀ y : Int, 0 ≤ y → y ≤ 1 → 0 ≤ exampleOnesArray 0 y) ∧
    (∃ y : Int, 0 ≤ y ∧ y ≤ 1 ∧ 0 < exampleOnesArray 0 y) ∧
    ∃ m', Fba.normalize exampleOnesArray 0 0 1 = some m' ∧
      ∑ y in Finset.Icc (0 : Int) 1, m' 0 y = 1 ∧
      ∀ y, 0 ≤ y → y ≤ 1 →
        m' 0 y = exampleOnesArray 0 y / ∑ col in Finset.Icc (0 : Int) 1, exampleOnesArray 0 col ∧
        0 ≤ m' 0 y ∧ m' 0 y ≤ 1 :=
  ⟨fun _ _ _ => zero_le_one, ⟨0, by decide, by decide, by decide!⟩,
    fba_normalize_row_sum exampleOnesArray 0 0 1 (fun _ _ _ => zero_le_one)
      ⟨0, by decide, by decide, by decide!⟩⟩

/-! ## The lattice decoder: each step on its array -/

/-- A loop `for (x = lo; x <= hi; x++) a[i][x] = T(x, a)` whose values `T` do not read
row `i`. -/
theorem forRange_set_row_of (i : Nat) (T : Int → (Nat → Int → ℚ) → ℚ)
    (hT : ∀ x a x' v, T x (set2 a i x' v) = T x a) (lo hi : Int) (a : Nat → Int → ℚ)
    (j : Nat) (y : Int) :
    forRange lo hi (fun x a => set2 a i x (T x a)) a j y =
      if j = i ∧ lo ≤ y ∧ y ≤ hi then T y a else a j y := by
  rw [forRange_eq]
  have hpre : ∀ (n : Nat) (x : Int),
      T x (forUp n (fun (k : Nat) a => set2 a i (lo + k) (T (lo + k) a)) a) = T x a :=
    fun n x => forUp_preserve (T x) _ (fun k a => hT x a _ _) n a
  have key : ∀ n : Nat, forUp n (fun (k : Nat) a => set2 a i (lo + k) (T (lo + k) a))
      a j y = if j = i ∧ lo ≤ y ∧ y < lo + n then T y a else a j y := by
    intro n
    induction n with
    | zero =>
      rw [if_neg]
      · rfl
      · intro h
        have := h.2
        omega
    | succ n ih =>
      rw [forUp_succ, set2_val, hpre]
      by_cases hj : j = i ∧ y = lo + n
      · rw [if_pos hj, if_pos ⟨hj.1, by omega, by omega⟩, hj.2]
      · rw [if_neg hj, ih]
        by_cases hc : j = i ∧ lo ≤ y ∧ y < lo + n
        · rw [if_pos hc, if_pos ⟨hc.1, hc.2.1, by have := hc.2.2; omega⟩]
        · rw [if_neg hc, if_neg]
          intro h
          by_cases hy : y = lo + n
          · exact hj ⟨h.1, hy⟩
          · exact hc ⟨h.1, h.2.1, by have := h.2.2; omega⟩
  rw [key]
  by_cases hc : j = i ∧ lo ≤ y ∧ y ≤ hi
  · rw [if_pos hc, if_pos ⟨hc.1, hc.2.1, by have := hc.2; omega⟩]
  · rw [if_neg hc, if_neg]
    intro h
    exact hc ⟨h.1, h.2.1, by have := h.2; omega⟩

namespace Fba

/-- The forward step on `alpha`, for branch metrics that are those of `g`. -/
theorem work_alpha_next (F : Fba) (g : Nat → Int → Nat → Int → ℚ) (i : Nat) (hi : 1 ≤ i)
    (hg : F.gammaIs g (i - 1)) :
    F.work_alpha i = { F with alpha := (F.alphaNext g i F.alpha) } := by
  rw [work_alpha_spec F i hi]
  congr 1
  funext j y
  unfold alphaNext
  by_cases hc : j = i ∧ F.mtau_min ≤ y ∧ y ≤ F.mtau_max
  · rw [if_pos hc, if_pos hc]
    congr 1
    refine Finset.sum_congr rfl (fun x hx => Finset.sum_congr rfl (fun d hd => ?_))
    obtain ⟨hx1, hx2⟩ := Finset.mem_filter.mp hx
    rw [hg x d (y - x) (Finset.mem_Icc.mp hx1).1 (Finset.mem_Icc.mp hx1).2
      (Finset.mem_range.mp hd) hx2.1 hx2.2]
  · rw [if_neg hc, if_neg hc]

theorem work_beta_eq (F : Fba) (i : Nat) :
    F.work_beta i =
      forRange F.mtau_min F.mtau_max (fun x1 (F' : Fba) =>
        { F' with beta := (set2 F'.beta i x1
            (forRange (max F'.mtau_min (F'.mn_min + x1)) (min F'.mtau_max (F'.mn_max + x1))
              (fun x2 tb => forUp F'.q
                (fun d tb => tb + F'.beta (i + 1) x2 * F'.get_gamma d i x1 (x2 - x1)) tb)
              0)) }) F := rfl

/-- The backward step only rewrites `beta`, by a loop that assigns to its row `i`. -/
theorem work_beta_lift (F : Fba) (i : Nat) :
    F.work_beta i =
      { F with beta := (forRange F.mtau_min F.mtau_max (fun x1 b =>
          set2 b i x1
            (∑ x2 in (Finset.Icc F.mtau_min F.mtau_max).filter
                (fun x2 => F.mn_min ≤ x2 - x1 ∧ x2 - x1 ≤ F.mn_max),
              ∑ d in Finset.range F.q, b (i + 1) x2 * F.get_gamma d i x1 (x2 - x1)))
          F.beta) } := by
  rw [work_beta_eq]
  refine forRange_lift (fun b => ({ F with beta := b } : Fba)) _
    (fun x1 b =>
      set2 b i x1
        (∑ x2 in (Finset.Icc F.mtau_min F.mtau_max).filter
            (fun x2 => F.mn_min ≤ x2 - x1 ∧ x2 - x1 ≤ F.mn_max),
          ∑ d in Finset.range F.q, b (i + 1) x2 * F.get_gamma d i x1 (x2 - x1)))
    (fun x1 b => ?_) F.mtau_min F.mtau_max F.beta
  show ({ F with beta := (set2 b i x1
      (forRange (max F.mtau_min (F.mn_min + x1)) (min F.mtau_max (F.mn_max + x1))
        (fun x2 tb => forUp F.q
          (fun d tb => tb + b (i + 1) x2 * F.get_gamma d i x1 (x2 - x1)) tb) 0)) } : Fba) = _
  have h1 : (fun (x2 : Int) (tb : ℚ) => forUp F.q
      (fun d tb => tb + b (i + 1) x2 * F.get_gamma d i x1 (x2 - x1)) tb) =
      fun x2 tb => tb + ∑ d in Finset.range F.q,
        b (i + 1) x2 * F.get_gamma d i x1 (x2 - x1) := by
    funext x2 tb
    exact sumLoop_eq _ tb F.q
  rw [h1, forRange_sum, zero_add, Icc_reach]

/-- The backward step on `beta`, for branch metrics that are those of `g`. -/
theorem work_beta_next (F : Fba) (g : Nat → Int → Nat → Int → ℚ) (i : Nat)
    (hg : F.gammaIs g i) :
    F.work_beta i = { F with beta := (F.betaNext g i F.beta) } := by
  rw [work_beta_lift]
  congr 1
  funext j x
  rw [forRange_set_row_of i (fun x1 b =>
    ∑ x2 in (Finset.Icc F.mtau_min F.mtau_max).filter
        (fun x2 => F.mn_min ≤ x2 - x1 ∧ x2 - x1 ≤ F.mn_max),
      ∑ d in Finset.range F.q, b (i + 1) x2 * F.get_gamma d i x1 (x2 - x1))]
  · unfold betaNext
    by_cases hc : j = i ∧ F.mtau_min ≤ x ∧ x ≤ F.mtau_max
    · rw [if_pos hc, if_pos hc]
      refine Finset.sum_congr rfl (fun y hy => Finset.sum_congr rfl (fun d hd => ?_))
      obtain ⟨hy1, hy2⟩ := Finset.mem_filter.mp hy
      rw [hg x d (y - x) hc.2.1 hc.2.2 (Finset.mem_range.mp hd) hy2.1 hy2.2]
    · rw [if_neg hc, if_neg hc]
  · intro x1 a x' v
    have hrow : set2 a i x' v (i + 1) = a (i + 1) :=
      Function.update_noteq (Nat.succ_ne_self i) _ _
    simp only [hrow]

/-- The message posteriors, for branch metrics that are those of `g`. -/
theorem work_message_next (F : Fba) (g : Nat → Int → Nat → Int → ℚ) (ptable : RTable)
    (i : Nat) (hg : F.gammaIs g i) :
    F.work_message_app ptable i = F.messageNext g F.alpha F.beta ptable i := by
  rw [work_message_app_eq]
  simp only [message_app_sum]
  obtain ⟨s1, s2⟩ := store_row_loop i (fun d =>
    ∑ x in Finset.Icc F.mtau_min F.mtau_max,
      ∑ y in (Finset.Icc F.mtau_min F.mtau_max).filter
          (fun y => F.mn_min ≤ y - x ∧ y - x ≤ F.mn_max),
        F.alpha i x * F.get_gamma d i x (y - x) * F.beta (i + 1) y) ptable F.q
  generalize forUp F.q (fun d (pt : RTable) =>
    { pt with val := (Function.update pt.val i ((pt.val i).set d
      (∑ x in Finset.Icc F.mtau_min F.mtau_max,
        ∑ y in (Finset.Icc F.mtau_min F.mtau_max).filter
            (fun y => F.mn_min ≤ y - x ∧ y - x ≤ F.mn_max),
          F.alpha i x * F.get_gamma d i x (y - x) * F.beta (i + 1) y))) }) ptable = T at s1 s2
  unfold messageNext messageRow
  obtain ⟨Ts, Tv⟩ := T
  have hv : Tv = Function.update ptable.val i
      { size := (ptable.val i).size
        val := fun d =>
          if d < F.q then
            ∑ x in Finset.Icc F.mtau_min F.mtau_max,
              ∑ y in (Finset.Icc F.mtau_min F.mtau_max).filter
                  (fun y => F.mn_min ≤ y - x ∧ y - x ≤ F.mn_max),
                F.alpha i x * g i x d (y - x) * F.beta (i + 1) y
          else (ptable.val i).val d } := by
    funext j
    have e1 := (s2 j).1
    have e2 := (s2 j).2
    by_cases hj : j = i
    · subst hj
      rw [Function.update_same]
      cases hrow : Tv j with
      | mk rs rv =>
        simp only [hrow] at e1 e2
        congr 1
        funext d
        rw [e2 d]
        by_cases hd : d < F.q
        · rw [if_pos ⟨trivial, hd⟩, if_pos hd]
          refine Finset.sum_congr rfl (fun x hx => Finset.sum_congr rfl (fun y hy => ?_))
          obtain ⟨_, hy2⟩ := Finset.mem_filter.mp hy
          rw [hg x d (y - x) (Finset.mem_Icc.mp hx).1 (Finset.mem_Icc.mp hx).2 hd hy2.1 hy2.2]
        · rw [if_neg (fun h => hd h.2), if_neg hd]
    · rw [Function.update_noteq hj]
      cases hrow : Tv j with
      | mk rs rv =>
        cases hrow' : ptable.val j with
        | mk ps pv =>
          simp only [hrow, hrow'] at e1 e2
          congr 1
          funext d
          rw [e2 d, if_neg (fun h => hj h.1)]
  simp only at s1
  rw [hv, s1]

end Fba

/-! ## Loops that may fail: simulation, reversal, independent components -/

/-- A loop on states simulates a loop on an abstraction of the states, under an invariant. -/
theorem forUpO_sim {σ τ : Type} (absf : σ → τ) (Inv : σ → Prop) (f : Nat → σ → Option σ)
    (g : Nat → τ → Option τ) (n : Nat)
    (hstep : ∀ k s, k < n → Inv s → (f k s).map absf = g k (absf s))
    (hinv : ∀ k s s', k < n → Inv s → f k s = some s' → Inv s') (s : σ) (hs : Inv s) :
    (forUpO n f s).map absf = forUpO n g (absf s) ∧ ∀ s', forUpO n f s = some s' → Inv s' := by
  induction n with
  | zero =>
    refine ⟨rfl, fun s' h => ?_⟩
    obtain rfl : s = s' := Option.some.inj h
    exact hs
  | succ n ih =>
    obtain ⟨e, i⟩ := ih (fun k s hk => hstep k s (Nat.lt_succ_of_lt hk))
      (fun k s s' hk => hinv k s s' (Nat.lt_succ_of_lt hk))
    rw [forUpO_succ, forUpO_succ, ← e]
    cases hn : forUpO n f s with
    | none => exact ⟨rfl, fun s' h => absurd h (by simp)⟩
    | some sn =>
      rw [Option.some_bind, Option.map_some', Option.some_bind]
      exact ⟨hstep n sn (Nat.lt_succ_self n) (i sn hn),
        fun s' h => hinv n sn s' (Nat.lt_succ_self n) (i sn hn) h⟩

theorem forUpO_congr {σ : Type} (f g : Nat → σ → Option σ) (n : Nat)
    (h : ∀ k s, k < n → f k s = g k s) (s : σ) : forUpO n f s = forUpO n g s := by
  induction n with
  | zero => rfl
  | succ n ih =>
    rw [forUpO_succ, forUpO_succ, ih (fun k s hk => h k s (Nat.lt_succ_of_lt hk))]
    cases forUpO n g s with
    | none => rfl
    | some sn => exact h n sn (Nat.lt_succ_self n)

/-- The first round of a loop, peeled off. -/
theorem forUpO_peel {σ : Type} (h : Nat → σ → Option σ) (n : Nat) (s : σ) :
    forUpO (n + 1) h s = (h 0 s).bind (forUpO n (fun k => h (k + 1))) := by
  induction n with
  | zero =>
    rw [forUpO_succ]
    show (some s).bind (h 0) = (h 0 s).bind some
    rw [Option.some_bind, Option.bind_some]
  | succ n ih =>
    rw [forUpO_succ, ih, Option.bind_assoc]
    rfl

/-- A loop downwards is a loop upwards over the mirrored index. -/
theorem forDownO_eq_forUpO {σ : Type} (f : Nat → σ → Option σ) (n : Nat) (s : σ) :
    forDownO n f s = forUpO n (fun k => f (n - (k + 1))) s := by
  induction n generalizing s with
  | zero => rfl
  | succ n ih =>
    rw [forDownO_succ, forUpO_peel]
    show (f n s).bind (forDownO n f) = (f (n + 1 - (0 + 1)) s).bind _
    have h0 : n + 1 - (0 + 1) = n := by omega
    rw [h0]
    congr 1
    funext s'
    rw [ih s']
    exact forUpO_congr _ _ n (fun k s hk => by
      show f (n - (k + 1)) s = f (n + 1 - (k + 1 + 1)) s
      have : n + 1 - (k + 1 + 1) = n - (k + 1) := by omega
      rw [this]) s'

/-- A loop on pairs whose rounds treat the components independently. -/
theorem forUpO_prod {α β : Type} (f : Nat → α → Option α) (g : Nat → β → Option β) (n : Nat)
    (a : α) (b : β) :
    forUpO n (fun k (s : α × β) => (f k s.1).bind (fun a' => (g k s.2).map (fun b' => (a', b'))))
        (a, b) =
      (forUpO n f a).bind (fun a' => (forUpO n g b).map (fun b' => (a', b'))) := by
  induction n with
  | zero => rfl
  | succ n ih =>
    rw [forUpO_succ, ih, forUpO_succ, forUpO_succ]
    cases forUpO n f a with
    | none => rfl
    | some an =>
      cases forUpO n g b with
      | none =>
        rw [Option.some_bind, Option.map_none', Option.none_bind, Option.some_bind]
        cases f n an <;> rfl
      | some bn => rfl

/-- A loop over a structure that only rewrites some components, and may fail, is a loop over
these components. -/
theorem forUpO_emb {σ τ : Type} (emb : τ → σ) (f : Nat → σ → Option σ)
    (g : Nat → τ → Option τ) (n : Nat)
    (h : ∀ k t, k < n → f k (emb t) = (g k t).map emb) (t : τ) :
    forUpO n f (emb t) = (forUpO n g t).map emb := by
  induction n with
  | zero => rfl
  | succ n ih =>
    rw [forUpO_succ, forUpO_succ, ih (fun k t hk => h k t (Nat.lt_succ_of_lt hk))]
    cases forUpO n g t with
    | none => rfl
    | some tn => exact h n tn (Nat.lt_succ_self n)

theorem forDownO_emb {σ τ : Type} (emb : τ → σ) (f : Nat → σ → Option σ)
    (g : Nat → τ → Option τ) (n : Nat)
    (h : ∀ k t, k < n → f k (emb t) = (g k t).map emb) (t : τ) :
    forDownO n f (emb t) = (forDownO n g t).map emb := by
  rw [forDownO_eq_forUpO, forDownO_eq_forUpO]
  exact forUpO_emb emb _ _ n (fun k t _ => h (n - (k + 1)) t (by omega)) t

/-- A loop over a range of drifts on a pair of arrays that are treated independently. -/
theorem forRange_pair {α β : Type} (lo hi : Int) (f : Int → α → α) (g : Int → β → β) (a : α)
    (b : β) :
    forRange lo hi (fun x (st : α × β) => (f x st.1, g x st.2)) (a, b) =
      (forRange lo hi f a, forRange lo hi g b) :=
  forUp_pair (fun k a => f (lo + k) a) (fun k b => g (lo + k) b) _ a b

/-! ## The lattice decoder: the rounds of its loops on the arrays -/

namespace Fba

theorem alpha_beta_step_def (k : Nat) (F : Fba) :
    alpha_beta_step k F =
      (((F.work_alpha (k + 1)).work_beta ((F.work_alpha (k + 1)).N - (k + 1))).normalize_alpha
        (k + 1)).bind (fun F' => F'.normalize_beta (F'.N - (k + 1))) := rfl

/-- A round of `work_alpha_and_beta` treats `alpha` and `beta` independently. -/
theorem alpha_beta_step_arrays (g : Nat → Int → Nat → Int → ℚ) (k : Nat) (F : Fba)
    (hgA : F.gammaIs g k) (hgB : F.gammaIs g (F.N - (k + 1))) :
    alpha_beta_step k F =
      (normalize (F.alphaNext g (k + 1) F.alpha) (k + 1) F.mtau_min F.mtau_max).bind (fun a' =>
        (normalize (F.betaNext g (F.N - (k + 1)) F.beta) (F.N - (k + 1)) F.mtau_min
          F.mtau_max).map (fun b' => ({ F with alpha := a', beta := b' } : Fba))) := by
  have e1 := work_alpha_next F g (k + 1) (Nat.succ_le_succ (Nat.zero_le k)) hgA
  have e2 := work_beta_next ({ F with alpha := (F.alphaNext g (k + 1) F.alpha) } : Fba) g
    (F.N - (k + 1)) hgB
  rw [alpha_beta_step_def, e1, e2]
  unfold normalize_alpha normalize_beta
  show ((normalize (F.alphaNext g (k + 1) F.alpha) (k + 1) F.mtau_min F.mtau_max).map _).bind _
    = _
  cases normalize (F.alphaNext g (k + 1) F.alpha) (k + 1) F.mtau_min F.mtau_max with
  | none => rfl
  | some a' => rfl

/-- The start of `work_alpha_and_beta` treats `alpha` and `beta` independently. -/
theorem alpha_beta_start_arrays (F : Fba) (sof_prior eof_prior : RVector) :
    F.alpha_beta_start sof_prior eof_prior =
      (normalize (F.priorRow F.alpha 0 sof_prior) 0 F.mtau_min F.mtau_max).bind (fun a' =>
        (normalize (F.priorRow F.beta F.N eof_prior) F.N F.mtau_min F.mtau_max).map
          (fun b' => ({ F with alpha := a', beta := b' } : Fba))) := by
  rw [alpha_beta_start_eq]
  have e : forRange F.mtau_min F.mtau_max (fun x (F' : Fba) =>
      ({ F' with
        alpha := (set2 F'.alpha 0 x (sof_prior.val (x - F'.mtau_min).toNat)),
        beta := (set2 F'.beta F'.N x (eof_prior.val (x - F'.mtau_min).toNat)) } : Fba))
      { F with alpha := (F.zero2 F.alpha), beta := (F.zero2 F.beta) } =
      ({ F with alpha := (F.priorRow F.alpha 0 sof_prior),
                beta := (F.priorRow F.beta F.N eof_prior) } : Fba) := by
    have l := forRange_lift
      (fun (t : (Nat → Int → ℚ) × (Nat → Int → ℚ)) => ({ F with alpha := t.1, beta := t.2 } : Fba))
      (fun x (F' : Fba) =>
        ({ F' with
          alpha := (set2 F'.alpha 0 x (sof_prior.val (x - F'.mtau_min).toNat)),
          beta := (set2 F'.beta F'.N x (eof_prior.val (x - F'.mtau_min).toNat)) } : Fba))
      (fun x t => (set2 t.1 0 x (sof_prior.val (x - F.mtau_min).toNat),
        set2 t.2 F.N x (eof_prior.val (x - F.mtau_min).toNat)))
      (fun x t => rfl) F.mtau_min F.mtau_max (F.zero2 F.alpha, F.zero2 F.beta)
    rw [forRange_pair F.mtau_min F.mtau_max
      (fun x (a : Nat → Int → ℚ) => set2 a 0 x (sof_prior.val (x - F.mtau_min).toNat))
      (fun x (b : Nat → Int → ℚ) => set2 b F.N x (eof_prior.val (x - F.mtau_min).toNat))] at l
    exact l
  rw [e]
  unfold normalize_alpha normalize_beta
  show ((normalize (F.priorRow F.alpha 0 sof_prior) 0 F.mtau_min F.mtau_max).map _).bind _ = _
  cases normalize (F.priorRow F.alpha 0 sof_prior) 0 F.mtau_min F.mtau_max with
  | none => rfl
  | some a' => rfl

/-- The start of `work_alpha(sof_prior)` on `alpha`. -/
theorem alpha_start_arrays (F : Fba) (sof_prior : RVector) :
    F.alpha_start sof_prior =
      (normalize (F.priorRow F.alpha 0 sof_prior) 0 F.mtau_min F.mtau_max).map
        (fun a' => ({ F with alpha := a' } : Fba)) := by
  rw [alpha_start_eq]
  have e : forRange F.mtau_min F.mtau_max (fun x (F' : Fba) =>
      ({ F' with alpha := (set2 F'.alpha 0 x (sof_prior.val (x - F'.mtau_min).toNat)) } : Fba))
      { F with alpha := (F.zero2 F.alpha) } =
      ({ F with alpha := (F.priorRow F.alpha 0 sof_prior) } : Fba) :=
    forRange_lift (fun (t : Nat → Int → ℚ) => ({ F with alpha := t } : Fba))
      (fun x (F' : Fba) =>
        ({ F' with alpha := (set2 F'.alpha 0 x (sof_prior.val (x - F'.mtau_min).toNat)) } : Fba))
      (fun x t => set2 t 0 x (sof_prior.val (x - F.mtau_min).toNat))
      (fun x t => rfl) F.mtau_min F.mtau_max (F.zero2 F.alpha)
  rw [e]
  rfl

/-- With local storage, `work_gamma(r, app, i)` makes the branch metrics at index `i` those of
the frame, and leaves everything but the local store alone. -/
theorem work_gamma_at_local (F : Fba) (r : Received) (i : Nat) (hl : F.globalstore = false) :
    F.work_gamma_at r i = { F with gamma_local := (F.work_gamma_at r i).gamma_local } ∧
      (F.work_gamma_at r i).gammaIs r.metric i := by
  unfold work_gamma_at
  rw [hl]
  refine ⟨rfl, fun x d dx h1 h2 h3 h4 h5 => ?_⟩
  show (if (false = true) then _ else _) = _
  rw [if_neg (by decide)]
  exact if_pos ⟨h1, h2, h3, h4, h5⟩

theorem alpha_step_def (k : Nat) (F : Fba) :
    alpha_step k F =
      ((if (!F.globalstore) = true then F.work_gamma_at F.r (k + 1 - 1) else F).work_alpha
        (k + 1)).normalize_alpha (k + 1) := rfl

/-- A round of `work_alpha(sof_prior)` with local storage, on `alpha`. -/
theorem alpha_step_arrays (k : Nat) (F : Fba) (hl : F.globalstore = false) :
    alpha_step k F =
      (normalize (F.alphaNext F.r.metric (k + 1) F.alpha) (k + 1) F.mtau_min F.mtau_max).map
        (fun a' => ({ F with alpha := a',
                             gamma_local := (F.work_gamma_at F.r k).gamma_local } : Fba)) := by
  obtain ⟨g1, g2⟩ := work_gamma_at_local F F.r k hl
  have hb : (!F.globalstore) = true := by rw [hl]; rfl
  rw [alpha_step_def, if_pos hb]
  show ((F.work_gamma_at F.r k).work_alpha (k + 1)).normalize_alpha (k + 1) = _
  have e1 := work_alpha_next (F.work_gamma_at F.r k) F.r.metric (k + 1)
    (Nat.succ_le_succ (Nat.zero_le k)) g2
  rw [e1]
  generalize (F.work_gamma_at F.r k).gamma_local = gl at g1
  rw [g1]
  rfl

theorem beta_results_step_def (i : Nat) (s : Fba × RTable) :
    beta_results_step i s =
      (((if (!s.1.globalstore) = true then s.1.work_gamma_at s.1.r i else s.1).work_beta
        i).normalize_beta i).map (fun F => (F, F.work_message_app s.2 i)) := rfl

/-- A round of `work_beta_and_results` with local storage, on `beta` and the table. -/
theorem beta_results_step_arrays (i : Nat) (F : Fba) (pt : RTable)
    (hl : F.globalstore = false) :
    beta_results_step i (F, pt) =
      (normalize (F.betaNext F.r.metric i F.beta) i F.mtau_min F.mtau_max).map
        (fun b' => (({ F with beta := b',
                              gamma_local := (F.work_gamma_at F.r i).gamma_local } : Fba),
          F.messageNext F.r.metric F.alpha b' pt i)) := by
  obtain ⟨g1, g2⟩ := work_gamma_at_local F F.r i hl
  have hb : (!F.globalstore) = true := by rw [hl]; rfl
  rw [beta_results_step_def]
  show ((((if (!F.globalstore) = true then F.work_gamma_at F.r i else F).work_beta
        i).normalize_beta i).map (fun F' => (F', F'.work_message_app pt i))) = _
  rw [if_pos hb, work_beta_next (F.work_gamma_at F.r i) F.r.metric i g2]
  generalize hgl : (F.work_gamma_at F.r i).gamma_local = gl at g1
  rw [g1] at g2 ⊢
  unfold normalize_beta
  show ((normalize (F.betaNext F.r.metric i F.beta) i F.mtau_min F.mtau_max).map _).map _ = _
  cases normalize (F.betaNext F.r.metric i F.beta) i F.mtau_min F.mtau_max with
  | none => rfl
  | some b' =>
    have e3 := work_message_next ({ F with beta := b', gamma_local := gl } : Fba) F.r.metric
      pt i g2
    exact congrArg (fun t => some (({ F with beta := b', gamma_local := gl } : Fba), t)) e3

end Fba

/-! ## The lattice decoder: the path with global storage on the arrays -/

namespace Fba

/-- With global storage, the loop of `work_gamma(r, app)` only rewrites the global store, and
makes the branch metrics at the indices it has treated those of the frame. -/
theorem work_gamma_loop (F : Fba) (r : Received) (hg : F.globalstore = true) (n : Nat) :
    ∃ G, forUp n (fun i (F : Fba) => F.work_gamma_at r i) F = { F with gamma_global := G } ∧
      ∀ i, i < n → ({ F with gamma_global := G } : Fba).gammaIs r.metric i := by
  induction n with
  | zero => exact ⟨F.gamma_global, rfl, fun i hi => absurd hi (Nat.not_lt_zero i)⟩
  | succ n ih =>
    obtain ⟨G, e, h⟩ := ih
    rw [forUp_succ, e]
    refine ⟨fun i' x d deltax =>
      if i' = n ∧ F.mtau_min ≤ x ∧ x ≤ F.mtau_max ∧ d < F.q ∧
          F.mn_min ≤ deltax ∧ deltax ≤ F.mn_max then
        r.metric n x d deltax
      else G i' x d deltax, ?_, ?_⟩
    · unfold work_gamma_at
      show (if F.globalstore = true then _ else _) = _
      rw [if_pos hg]
    · intro i hi x d dx h1 h2 h3 h4 h5
      show (if F.globalstore = true then _ else _) = _
      rw [if_pos hg]
      by_cases hin : i = n
      · subst hin
        exact if_pos ⟨rfl, h1, h2, h3, h4, h5⟩
      · have h' := h i (by omega) x d dx h1 h2 h3 h4 h5
        have h'' : G i x d dx = r.metric i x d dx := by
          have e2 : ({ F with gamma_global := G } : Fba).get_gamma d i x dx = G i x d dx := by
            show (if F.globalstore = true then _ else _) = _
            rw [if_pos hg]
          rw [← e2]
          exact h'
        show (if i = n ∧ _ then _ else _) = _
        rw [if_neg (fun hc => hin hc.1)]
        exact h''

/-- The main loop of `work_alpha_and_beta` is a loop on `alpha` and a loop on `beta`. -/
theorem alpha_beta_loop_arrays (F : Fba) (g : Nat → Int → Nat → Int → ℚ)
    (hg : ∀ i, i < F.N → F.gammaIs g i) (a b : Nat → Int → ℚ) :
    forUpO F.N alpha_beta_step ({ F with alpha := a, beta := b } : Fba) =
      (forUpO F.N (fun k a =>
          normalize (F.alphaNext g (k + 1) a) (k + 1) F.mtau_min F.mtau_max) a).bind (fun a' =>
        (forUpO F.N (fun k b =>
          normalize (F.betaNext g (F.N - (k + 1)) b) (F.N - (k + 1)) F.mtau_min F.mtau_max)
          b).map (fun b' => ({ F with alpha := a', beta := b' } : Fba))) := by
  have l := forUpO_emb
    (fun (t : (Nat → Int → ℚ) × (Nat → Int → ℚ)) => ({ F with alpha := t.1, beta := t.2 } : Fba))
    alpha_beta_step
    (fun k (s : (Nat → Int → ℚ) × (Nat → Int → ℚ)) =>
      (normalize (F.alphaNext g (k + 1) s.1) (k + 1) F.mtau_min F.mtau_max).bind (fun a' =>
        (normalize (F.betaNext g (F.N - (k + 1)) s.2) (F.N - (k + 1)) F.mtau_min
          F.mtau_max).map (fun b' => (a', b'))))
    F.N (fun k t hk => by
      have e := alpha_beta_step_arrays g k ({ F with alpha := t.1, beta := t.2 } : Fba)
        (hg k hk) (hg (F.N - (k + 1)) (by omega))
      refine e.trans ?_
      show (normalize (F.alphaNext g (k + 1) t.1) (k + 1) F.mtau_min F.mtau_max).bind _ =
        ((normalize (F.alphaNext g (k + 1) t.1) (k + 1) F.mtau_min F.mtau_max).bind _).map _
      cases normalize (F.alphaNext g (k + 1) t.1) (k + 1) F.mtau_min F.mtau_max with
      | none => rfl
      | some a' =>
        show (normalize (F.betaNext g (F.N - (k + 1)) t.2) (F.N - (k + 1)) F.mtau_min
          F.mtau_max).map _ =
          ((normalize (F.betaNext g (F.N - (k + 1)) t.2) (F.N - (k + 1)) F.mtau_min
            F.mtau_max).map _).map _
        cases normalize (F.betaNext g (F.N - (k + 1)) t.2) (F.N - (k + 1)) F.mtau_min
          F.mtau_max with
        | none => rfl
        | some b' => rfl) (a, b)
  rw [forUpO_prod
    (fun k a => normalize (F.alphaNext g (k + 1) a) (k + 1) F.mtau_min F.mtau_max)
    (fun k b => normalize (F.betaNext g (F.N - (k + 1)) b) (F.N - (k + 1)) F.mtau_min
      F.mtau_max)] at l
  refine l.trans ?_
  cases forUpO F.N (fun k a =>
      normalize (F.alphaNext g (k + 1) a) (k + 1) F.mtau_min F.mtau_max) a with
  | none => rfl
  | some a' =>
    cases forUpO F.N (fun k b =>
      normalize (F.betaNext g (F.N - (k + 1)) b) (F.N - (k + 1)) F.mtau_min F.mtau_max) b with
    | none => rfl
    | some b' => rfl

/-- `work_alpha_and_beta` is the forward pass on `alpha` and the backward pass on `beta`. -/
theorem work_alpha_and_beta_arrays (F : Fba) (g : Nat → Int → Nat → Int → ℚ)
    (hinit : F.initialised = true) (hg : ∀ i, i < F.N → F.gammaIs g i)
    (sof_prior eof_prior : RVector) :
    F.work_alpha_and_beta sof_prior eof_prior =
      (F.alphaPass g sof_prior).bind (fun a' =>
        (F.betaPass g eof_prior).map (fun b' => ({ F with alpha := a', beta := b' } : Fba))) := by
  unfold work_alpha_and_beta alphaPass betaPass
  rw [if_pos hinit, alpha_beta_start_arrays]
  cases normalize (F.priorRow F.alpha 0 sof_prior) 0 F.mtau_min F.mtau_max with
  | none => rfl
  | some a0 =>
    cases normalize (F.priorRow F.beta F.N eof_prior) F.N F.mtau_min F.mtau_max with
    | none =>
      show none = (forUpO F.N _ a0).bind _
      cases forUpO F.N (fun k a =>
        normalize (F.alphaNext g (k + 1) a) (k + 1) F.mtau_min F.mtau_max) a0 <;> rfl
    | some b0 =>
      show forUpO F.N alpha_beta_step ({ F with alpha := a0, beta := b0 } : Fba) = _
      rw [alpha_beta_loop_arrays F g hg a0 b0]
      rfl

/-- `work_results`, from the arrays of the decoder. -/
theorem work_results_arrays (F : Fba) (g : Nat → Int → Nat → Int → ℚ)
    (hinit : F.initialised = true) (hg : ∀ i, i < F.N → F.gammaIs g i) (ptable : RTable)
    (sof_post eof_post : RVector) :
    F.work_results ptable sof_post eof_post =
      F.resultsOf g F.alpha F.beta ptable sof_post eof_post := by
  unfold work_results resultsOf
  rw [if_pos hinit]
  have e : forUp F.N (fun i ptable => F.work_message_app ptable i) (ptable.allocate F.N F.q) =
      forUp F.N (fun i pt => F.messageNext g F.alpha F.beta pt i) (ptable.allocate F.N F.q) :=
    forUp_congr _ _ F.N (fun i pt hi => work_message_next F g pt i (hg i hi)) _
  show (F.work_state_app sof_post 0).bind _ = (F.work_state_app sof_post 0).bind _
  rw [e]

end Fba

/-! ## The lattice decoder: the order in which the table of results is filled -/

/-- A loop that replaces one row of a table in each round, each row at most once: the rows
that were treated are replaced, the others are left alone. -/
theorem rows_loop (R : Nat → RVector → RVector) (sel : Nat → Nat) (n : Nat)
    (hinj : ∀ k k', k < n → k' < n → sel k = sel k' → k = k') (pt0 : RTable) :
    (forUp n (fun k (pt : RTable) =>
        ({ pt with val := (Function.update pt.val (sel k) (R (sel k) (pt.val (sel k)))) }
          : RTable)) pt0).size = pt0.size ∧
      ∀ j, ((∃ k, k < n ∧ sel k = j) →
          (forUp n (fun k (pt : RTable) =>
            ({ pt with val := (Function.update pt.val (sel k) (R (sel k) (pt.val (sel k)))) }
              : RTable)) pt0).val j = R j (pt0.val j)) ∧
        ((¬ ∃ k, k < n ∧ sel k = j) →
          (forUp n (fun k (pt : RTable) =>
            ({ pt with val := (Function.update pt.val (sel k) (R (sel k) (pt.val (sel k)))) }
              : RTable)) pt0).val j = pt0.val j) := by
  induction n with
  | zero =>
    exact ⟨rfl, fun j => ⟨fun ⟨k, hk, _⟩ => absurd hk (Nat.not_lt_zero k), fun _ => rfl⟩⟩
  | succ n ih =>
    obtain ⟨s1, s2⟩ := ih (fun k k' hk hk' => hinj k k' (Nat.lt_succ_of_lt hk)
      (Nat.lt_succ_of_lt hk'))
    rw [forUp_succ]
    generalize forUp n (fun k (pt : RTable) =>
      ({ pt with val := (Function.update pt.val (sel k) (R (sel k) (pt.val (sel k)))) }
        : RTable)) pt0 = T at s1 s2
    refine ⟨s1, fun j => ⟨fun ⟨k, hk, hkj⟩ => ?_, fun hne => ?_⟩⟩
    · show Function.update T.val (sel n) (R (sel n) (T.val (sel n))) j = _
      by_cases hj : j = sel n
      · subst hj
        rw [Function.update_same]
        have hnot : ¬ ∃ k, k < n ∧ sel k = sel n := by
          rintro ⟨k', hk', e⟩
          have := hinj k' n (Nat.lt_succ_of_lt hk') (Nat.lt_succ_self n) e
          omega
        rw [(s2 (sel n)).2 hnot]
      · rw [Function.update_noteq hj]
        have hkn : k < n := by
          rcases Nat.lt_succ_iff_lt_or_eq.mp hk with h | h
          · exact h
          · subst h
            exact absurd hkj.symm hj
        exact (s2 j).1 ⟨k, hkn, hkj⟩
    · show Function.update T.val (sel n) (R (sel n) (T.val (sel n))) j = _
      have hj : j ≠ sel n := fun h => hne ⟨n, Nat.lt_succ_self n, h.symm⟩
      rw [Function.update_noteq hj]
      exact (s2 j).2 (fun ⟨k, hk, e⟩ => hne ⟨k, Nat.lt_succ_of_lt hk, e⟩)

theorem RTable.table_ext (a b : RTable) (h1 : a.size = b.size) (h2 : ∀ j, a.val j = b.val j) :
    a = b := by
  obtain ⟨s, v⟩ := a
  obtain ⟨s', v'⟩ := b
  simp only at h1 h2
  subst h1
  have : v = v' := funext h2
  subst this
  rfl

namespace Fba

/-- The table of results does not depend on the order in which its rows are computed. -/
theorem message_rows_mirror (F : Fba) (g : Nat → Int → Nat → Int → ℚ) (a b : Nat → Int → ℚ)
    (pt0 : RTable) (N : Nat) :
    forUp N (fun k pt => F.messageNext g a b pt (N - (k + 1))) pt0 =
      forUp N (fun i pt => F.messageNext g a b pt i) pt0 := by
  have hR : ∀ (sel : Nat → Nat),
      (fun k (pt : RTable) => F.messageNext g a b pt (sel k)) =
      fun k (pt : RTable) =>
        ({ pt with val := (Function.update pt.val (sel k)
            (F.messageRow g a b (sel k) (pt.val (sel k)))) } : RTable) :=
    fun sel => rfl
  rw [hR (fun k => N - (k + 1)), hR (fun i => i)]
  obtain ⟨m1, m2⟩ := rows_loop (F.messageRow g a b) (fun k => N - (k + 1)) N
    (fun k k' hk hk' e => by
      have e' : N - (k + 1) = N - (k' + 1) := e
      omega) pt0
  obtain ⟨u1, u2⟩ := rows_loop (F.messageRow g a b) (fun i => i) N (fun k k' _ _ e => e) pt0
  refine RTable.table_ext _ _ (m1.trans u1.symm) (fun j => ?_)
  by_cases hj : j < N
  · rw [(m2 j).1 ⟨N - (j + 1), by omega, by show N - (N - (j + 1) + 1) = j; omega⟩,
      (u2 j).1 ⟨j, hj, rfl⟩]
  · rw [(m2 j).2 (fun ⟨k, hk, e⟩ => hj (by
        have e' : N - (k + 1) = j := e
        omega)),
      (u2 j).2 (fun ⟨k, hk, e⟩ => hj (by
        have e' : k = j := e
        omega))]

theorem messageRow_congr (F : Fba) (g : Nat → Int → Nat → Int → ℚ) (a b b' : Nat → Int → ℚ)
    (i : Nat) (h : b (i + 1) = b' (i + 1)) (row : RVector) :
    F.messageRow g a b i row = F.messageRow g a b' i row := by
  have hv : ∀ d, (F.messageRow g a b i row).val d = (F.messageRow g a b' i row).val d := by
    intro d
    show (if d < F.q then _ else _) = (if d < F.q then _ else _)
    by_cases hd : d < F.q
    · rw [if_pos hd, if_pos hd]
      exact Finset.sum_congr rfl (fun x _ => Finset.sum_congr rfl (fun y _ => by
        rw [congrFun h y]))
    · rw [if_neg hd, if_neg hd]
  show RVector.mk _ _ = RVector.mk _ _
  exact congrArg (RVector.mk row.size) (funext hv)

/-- The message posteriors at index `i` only read row `i + 1` of `beta`. -/
theorem messageNext_congr (F : Fba) (g : Nat → Int → Nat → Int → ℚ) (a b b' : Nat → Int → ℚ)
    (pt : RTable) (i : Nat) (h : b (i + 1) = b' (i + 1)) :
    F.messageNext g a b pt i = F.messageNext g a b' pt i := by
  unfold messageNext
  rw [messageRow_congr F g a b b' i h]

/-- A backward round only rewrites its row of `beta`. -/
theorem beta_round_rows (F : Fba) (g : Nat → Int → Nat → Int → ℚ) (i : Nat)
    (b b' : Nat → Int → ℚ)
    (h : normalize (F.betaNext g i b) i F.mtau_min F.mtau_max = some b') (j : Nat)
    (hj : j ≠ i) : b' j = b j := by
  rw [normalize_rows _ _ _ _ _ h j hj]
  funext x
  exact if_neg (fun hc => hj hc.1)

/-- The backward loop that fills the table of results as it goes leaves the table that the
finished `beta` gives. -/
theorem beta_results_loop (F : Fba) (g : Nat → Int → Nat → Int → ℚ) (a : Nat → Int → ℚ)
    (N n : Nat) (hn : n ≤ N) (b0 : Nat → Int → ℚ) (pt0 : RTable) :
    forUpO n (fun k (s : (Nat → Int → ℚ) × RTable) =>
        (normalize (F.betaNext g (N - (k + 1)) s.1) (N - (k + 1)) F.mtau_min F.mtau_max).map
          (fun b' => (b', F.messageNext g a b' s.2 (N - (k + 1))))) (b0, pt0) =
      (forUpO n (fun k b =>
        normalize (F.betaNext g (N - (k + 1)) b) (N - (k + 1)) F.mtau_min F.mtau_max) b0).map
        (fun B => (B, forUp n (fun k pt => F.messageNext g a B pt (N - (k + 1))) pt0)) := by
  induction n with
  | zero => rfl
  | succ n ih =>
    rw [forUpO_succ, ih (Nat.le_of_succ_le hn), forUpO_succ]
    cases forUpO n (fun k b =>
        normalize (F.betaNext g (N - (k + 1)) b) (N - (k + 1)) F.mtau_min F.mtau_max) b0 with
    | none =>
      rw [Option.map_none', Option.none_bind, Option.none_bind, Option.map_none']
    | some Bn =>
      rw [Option.map_some', Option.some_bind, Option.some_bind]
      dsimp only
      cases hB : normalize (F.betaNext g (N - (n + 1)) Bn) (N - (n + 1)) F.mtau_min
          F.mtau_max with
      | none => rw [Option.map_none', Option.map_none']
      | some B' =>
        rw [Option.map_some', Option.map_some', forUp_succ]
        have e : forUp n (fun k pt => F.messageNext g a Bn pt (N - (k + 1))) pt0 =
            forUp n (fun k pt => F.messageNext g a B' pt (N - (k + 1))) pt0 :=
          forUp_congr _ _ n (fun k pt hk =>
            messageNext_congr F g a Bn B' pt (N - (k + 1))
              (beta_round_rows F g (N - (n + 1)) Bn B' hB (N - (k + 1) + 1)
                (by omega)).symm) pt0
        rw [e]

end Fba

/-! ## The lattice decoder: the path with local storage on the arrays -/

theorem option_map_retract {α β : Type} (o : Option α) (f : α → β) (p : β → α)
    (h : ∀ a, p (f a) = a) : (o.map f).map p = o := by
  cases o with
  | none => rfl
  | some a => exact congrArg some (h a)

namespace Fba

/-- With local storage, `work_alpha(sof_prior)` only rewrites `alpha` and the local store, and
its `alpha` is that of the forward pass. -/
theorem work_alpha_prior_arrays (F : Fba) (hinit : F.initialised = true)
    (hl : F.globalstore = false) (sof_prior : RVector) :
    ∃ X : Option ((Nat → Int → ℚ) × (Int → Nat → Int → ℚ)),
      F.work_alpha_prior sof_prior =
        X.map (fun t => ({ F with alpha := t.1, gamma_local := t.2 } : Fba)) ∧
      X.map Prod.fst = F.alphaPass F.r.metric sof_prior := by
  unfold work_alpha_prior alphaPass
  rw [if_pos hinit, alpha_start_arrays]
  cases normalize (F.priorRow F.alpha 0 sof_prior) 0 F.mtau_min F.mtau_max with
  | none => exact ⟨none, rfl, rfl⟩
  | some a0 =>
    rw [Option.map_some', Option.some_bind, Option.some_bind]
    have l := forUpO_emb
      (fun (t : (Nat → Int → ℚ) × (Int → Nat → Int → ℚ)) =>
        ({ F with alpha := t.1, gamma_local := t.2 } : Fba))
      alpha_step
      (fun k (t : (Nat → Int → ℚ) × (Int → Nat → Int → ℚ)) =>
        (normalize (F.alphaNext F.r.metric (k + 1) t.1) (k + 1) F.mtau_min F.mtau_max).map
          (fun a' => (a', (({ F with alpha := t.1, gamma_local := t.2 } : Fba).work_gamma_at
            F.r k).gamma_local)))
      F.N (fun k t _ => by
        have e := alpha_step_arrays k ({ F with alpha := t.1, gamma_local := t.2 } : Fba) hl
        refine e.trans ?_
        rw [Option.map_map]
        rfl) (a0, F.gamma_local)
    refine ⟨_, l, ?_⟩
    exact (forUpO_sim Prod.fst (fun _ => True) _
      (fun k a => normalize (F.alphaNext F.r.metric (k + 1) a) (k + 1) F.mtau_min F.mtau_max)
      F.N (fun k s _ _ => option_map_retract _ _ _ (fun _ => rfl))
      (fun _ _ _ _ _ _ => trivial) (a0, F.gamma_local) trivial).1

end Fba

namespace Fba

theorem work_beta_and_results_def (F : Fba) (eof_prior : RVector) (ptable : RTable)
    (sof_post eof_post : RVector) :
    F.work_beta_and_results eof_prior ptable sof_post eof_post =
      if F.initialised = true then
        (fun (X : Fba) =>
          (X.normalize_beta X.N).bind (fun F1 =>
            (forDownO F1.N beta_results_step (F1, ptable.allocate F.N F.q)).bind (fun s =>
              (s.1.work_state_app sof_post 0).bind (fun sof =>
                (s.1.work_state_app eof_post s.1.N).map (fun eof => (s.1, s.2, sof, eof))))))
          (forRange F.mtau_min F.mtau_max (fun x (F' : Fba) =>
            ({ F' with beta := (set2 F'.beta F'.N x (eof_prior.val (x - F'.mtau_min).toNat)) }
              : Fba)) { F with beta := (F.zero2 F.beta) })
      else none := rfl

/-- The start of `work_beta_and_results` on `beta`. -/
theorem beta_start_arrays (F : Fba) (eof_prior : RVector) :
    forRange F.mtau_min F.mtau_max (fun x (F' : Fba) =>
        ({ F' with beta := (set2 F'.beta F'.N x (eof_prior.val (x - F'.mtau_min).toNat)) }
          : Fba)) { F with beta := (F.zero2 F.beta) } =
      ({ F with beta := (F.priorRow F.beta F.N eof_prior) } : Fba) :=
  forRange_lift (fun (t : Nat → Int → ℚ) => ({ F with beta := t } : Fba))
    (fun x (F' : Fba) =>
      ({ F' with beta := (set2 F'.beta F'.N x (eof_prior.val (x - F'.mtau_min).toNat)) } : Fba))
    (fun x t => set2 t F.N x (eof_prior.val (x - F.mtau_min).toNat))
    (fun _ _ => rfl) F.mtau_min F.mtau_max (F.zero2 F.beta)

/-- With local storage, the main loop of `work_beta_and_results` only rewrites `beta`, the
local store and the table; its `beta` is that of the backward rounds, and its table is the
one that the finished `beta` gives. -/
theorem beta_results_loop_arrays (F : Fba) (hl : F.globalstore = false) (A b0 : Nat → Int → ℚ)
    (gl0 : Int → Nat → Int → ℚ) (pt0 : RTable) :
    ∃ X : Option ((Nat → Int → ℚ) × (Int → Nat → Int → ℚ) × RTable),
      forDownO F.N beta_results_step
          (({ F with alpha := A, beta := b0, gamma_local := gl0 } : Fba), pt0) =
        X.map (fun t =>
          (({ F with alpha := A, beta := t.1, gamma_local := t.2.1 } : Fba), t.2.2)) ∧
      X.map (fun t => (t.1, t.2.2)) =
        (forUpO F.N (fun k b =>
          normalize (F.betaNext F.r.metric (F.N - (k + 1)) b) (F.N - (k + 1)) F.mtau_min
            F.mtau_max) b0).map
          (fun B => (B, forUp F.N (fun i pt => F.messageNext F.r.metric A B pt i) pt0)) := by
  have l := forDownO_emb
    (fun (t : (Nat → Int → ℚ) × (Int → Nat → Int → ℚ) × RTable) =>
      (({ F with alpha := A, beta := t.1, gamma_local := t.2.1 } : Fba), t.2.2))
    beta_results_step
    (fun i (t : (Nat → Int → ℚ) × (Int → Nat → Int → ℚ) × RTable) =>
      (normalize (F.betaNext F.r.metric i t.1) i F.mtau_min F.mtau_max).map
        (fun b' => (b',
          (({ F with alpha := A, beta := t.1, gamma_local := t.2.1 } : Fba).work_gamma_at
            F.r i).gamma_local,
          F.messageNext F.r.metric A b' t.2.2 i)))
    F.N (fun i t _ => by
      have e := beta_results_step_arrays i
        ({ F with alpha := A, beta := t.1, gamma_local := t.2.1 } : Fba) t.2.2 hl
      refine e.trans ?_
      rw [Option.map_map]
      rfl) (b0, gl0, pt0)
  refine ⟨_, l, ?_⟩
  rw [forDownO_eq_forUpO]
  have p := (forUpO_sim
    (fun (t : (Nat → Int → ℚ) × (Int → Nat → Int → ℚ) × RTable) => (t.1, t.2.2))
    (fun _ => True)
    (fun k (t : (Nat → Int → ℚ) × (Int → Nat → Int → ℚ) × RTable) =>
      (normalize (F.betaNext F.r.metric (F.N - (k + 1)) t.1) (F.N - (k + 1)) F.mtau_min
        F.mtau_max).map
        (fun b' => (b',
          (({ F with alpha := A, beta := t.1, gamma_local := t.2.1 } : Fba).work_gamma_at
            F.r (F.N - (k + 1))).gamma_local,
          F.messageNext F.r.metric A b' t.2.2 (F.N - (k + 1)))))
    (fun k (s : (Nat → Int → ℚ) × RTable) =>
      (normalize (F.betaNext F.r.metric (F.N - (k + 1)) s.1) (F.N - (k + 1)) F.mtau_min
        F.mtau_max).map
        (fun b' => (b', F.messageNext F.r.metric A b' s.2 (F.N - (k + 1)))))
    F.N (fun k s _ _ => by rw [Option.map_map]; rfl) (fun _ _ _ _ _ _ => trivial)
    (b0, gl0, pt0) trivial).1
  refine p.trans ?_
  rw [beta_results_loop F F.r.metric A F.N F.N (Nat.le_refl _) b0 pt0]
  cases forUpO F.N (fun k b =>
      normalize (F.betaNext F.r.metric (F.N - (k + 1)) b) (F.N - (k + 1)) F.mtau_min
        F.mtau_max) b0 with
  | none => rfl
  | some B =>
    rw [Option.map_some', Option.map_some', message_rows_mirror]

end Fba

namespace Fba

/-- The drift posterior only reads `alpha`, `beta` and the drift range. -/
theorem work_state_app_arrays (F G : Fba) (v : RVector) (i : Nat) (hN : G.N = F.N)
    (hlo : G.mtau_min = F.mtau_min) (hhi : G.mtau_max = F.mtau_max) (ha : G.alpha = F.alpha)
    (hb : G.beta = F.beta) : G.work_state_app v i = F.work_state_app v i := by
  rw [work_state_app_eq, work_state_app_eq, hN, hlo, hhi, ha, hb]

/-- With local storage, `work_beta_and_results` leaves the `alpha` it was given, the `beta`
of the backward pass and the results that these arrays give. -/
theorem work_beta_and_results_arrays (F : Fba) (hinit : F.initialised = true)
    (hl : F.globalstore = false) (A : Nat → Int → ℚ) (gl : Int → Nat → Int → ℚ)
    (eof_prior : RVector) (ptable : RTable) (sof_post eof_post : RVector) :
    (({ F with alpha := A, gamma_local := gl } : Fba).work_beta_and_results eof_prior ptable
        sof_post eof_post).map observed =
      (F.betaPass F.r.metric eof_prior).bind (fun B =>
        (F.resultsOf F.r.metric A B ptable sof_post eof_post).map (fun res => (A, B, res))) := by
  have hi' : ({ F with alpha := A, gamma_local := gl } : Fba).initialised = true := hinit
  rw [work_beta_and_results_def, if_pos hi',
    beta_start_arrays ({ F with alpha := A, gamma_local := gl } : Fba) eof_prior]
  unfold betaPass
  dsimp only
  unfold normalize_beta
  dsimp only
  show (((normalize (F.priorRow F.beta F.N eof_prior) F.N F.mtau_min F.mtau_max).map _).bind
    _).map observed = _
  cases normalize (F.priorRow F.beta F.N eof_prior) F.N F.mtau_min F.mtau_max with
  | none => rfl
  | some b0 =>
    rw [Option.map_some', Option.some_bind, Option.some_bind]
    dsimp only
    obtain ⟨X, e1, e2⟩ := beta_results_loop_arrays F hl A b0 gl (ptable.allocate F.N F.q)
    rw [e1]
    cases X with
    | none =>
      rw [Option.map_none'] at e2
      rw [Option.map_none', Option.none_bind, Option.map_none']
      cases hB : forUpO F.N (fun k b =>
          normalize (F.betaNext F.r.metric (F.N - (k + 1)) b) (F.N - (k + 1)) F.mtau_min
            F.mtau_max) b0 with
      | none => rfl
      | some B =>
        rw [hB] at e2
        exact absurd e2 (by simp)
    | some t =>
      rw [Option.map_some'] at e2
      rw [Option.map_some', Option.some_bind]
      cases hB : forUpO F.N (fun k b =>
          normalize (F.betaNext F.r.metric (F.N - (k + 1)) b) (F.N - (k + 1)) F.mtau_min
            F.mtau_max) b0 with
      | none =>
        rw [hB] at e2
        exact absurd e2 (by simp)
      | some B =>
        rw [hB, Option.map_some'] at e2
        have e3 := Option.some.inj e2
        have hB1 : t.1 = B := congrArg Prod.fst e3
        have hpt : t.2.2 = forUp F.N (fun i pt => F.messageNext F.r.metric A B pt i)
            (ptable.allocate F.N F.q) := congrArg Prod.snd e3
        rw [Option.some_bind]
        unfold resultsOf
        dsimp only
        rw [hB1, hpt]
        have s1 : ({ F with alpha := A, beta := B, gamma_local := t.2.1 } : Fba).work_state_app
            sof_post 0 = ({ F with alpha := A, beta := B } : Fba).work_state_app sof_post 0 :=
          work_state_app_arrays _ _ _ _ rfl rfl rfl rfl rfl
        have s2 : ({ F with alpha := A, beta := B, gamma_local := t.2.1 } : Fba).work_state_app
            eof_post F.N = ({ F with alpha := A, beta := B } : Fba).work_state_app eof_post F.N :=
          work_state_app_arrays _ _ _ _ rfl rfl rfl rfl rfl
        rw [s1, s2]
        cases ({ F with alpha := A, beta := B } : Fba).work_state_app sof_post 0 with
        | none => rfl
        | some sof =>
          rw [Option.some_bind, Option.some_bind]
          cases ({ F with alpha := A, beta := B } : Fba).work_state_app eof_post F.N with
          | none => rfl
          | some eof => rfl

end Fba

/-! ## The lattice decoder: `decode` on the arrays -/

namespace Fba

theorem decode_start (F : Fba) :
    (if (!F.initialised) = true then F.allocate else F) =
      ({ F with initialised := true } : Fba) := by
  cases hi : F.initialised with
  | false => rfl
  | true =>
    obtain ⟨N, n, q, a1, a2, a3, a4, gs, ini, al, be, gg, gl, r⟩ := F
    simp only at hi
    subst hi
    rfl

theorem decode_def (F : Fba) (r : Received) (sof_prior eof_prior : RVector) (ptable : RTable)
    (sof_post eof_post : RVector) (offset : Int) :
    F.decode r sof_prior eof_prior ptable sof_post eof_post offset =
      (fun (F0 : Fba) =>
        if offset ≠ -F0.mtau_min then none
        else if (r.size : Int) ≠ ((F0.N * F0.n : Nat) : Int) + F0.mtau_max - F0.mtau_min then none
        else if (sof_prior.size : Int) ≠ F0.mtau_max - F0.mtau_min + 1 then none
        else if (eof_prior.size : Int) ≠ F0.mtau_max - F0.mtau_min + 1 then none
        else if F0.globalstore = true then
          (F0.work_gamma r).bind (fun F =>
            (F.work_alpha_and_beta sof_prior eof_prior).bind (fun F =>
              (F.work_results ptable sof_post eof_post).map (fun res => (F, res))))
        else
          (({ F0 with r := r } : Fba).work_alpha_prior sof_prior).bind (fun F =>
            F.work_beta_and_results eof_prior ptable sof_post eof_post))
        (if (!F.initialised) = true then F.allocate else F) := rfl

/-- The path with global storage, once the sizes have been checked. -/
theorem global_path_arrays (F : Fba) (hinit : F.initialised = true)
    (hg : F.globalstore = true) (r : Received) (sof_prior eof_prior : RVector)
    (ptable : RTable) (sof_post eof_post : RVector) :
    ((F.work_gamma r).bind (fun F =>
        (F.work_alpha_and_beta sof_prior eof_prior).bind (fun F =>
          (F.work_results ptable sof_post eof_post).map (fun res => (F, res))))).map observed =
      F.passes r sof_prior eof_prior ptable sof_post eof_post := by
  obtain ⟨G, e, h⟩ := work_gamma_loop F r hg F.N
  unfold work_gamma
  rw [if_pos hinit, e, Option.some_bind]
  have hinit1 : ({ F with gamma_global := G } : Fba).initialised = true := hinit
  rw [work_alpha_and_beta_arrays ({ F with gamma_global := G } : Fba) r.metric hinit1 h]
  unfold passes
  show ((((F.alphaPass r.metric sof_prior).bind _).bind _).map observed) =
    (F.alphaPass r.metric sof_prior).bind _
  cases F.alphaPass r.metric sof_prior with
  | none => rfl
  | some a =>
    rw [Option.some_bind, Option.some_bind]
    show ((((F.betaPass r.metric eof_prior).map _).bind _).map observed) =
      (F.betaPass r.metric eof_prior).bind _
    cases F.betaPass r.metric eof_prior with
    | none => rfl
    | some b =>
      rw [Option.map_some', Option.some_bind, Option.some_bind]
      have hinit2 : ({ F with alpha := a, beta := b, gamma_global := G } : Fba).initialised =
        true := hinit
      rw [work_results_arrays ({ F with alpha := a, beta := b, gamma_global := G } : Fba)
        r.metric hinit2 h]
      show ((F.resultsOf r.metric a b ptable sof_post eof_post).map _).map observed =
        (F.resultsOf r.metric a b ptable sof_post eof_post).map _
      cases F.resultsOf r.metric a b ptable sof_post eof_post with
      | none => rfl
      | some res => rfl

/-- The path with local storage, once the sizes have been checked. -/
theorem local_path_arrays (F : Fba) (hinit : F.initialised = true)
    (hl : F.globalstore = false) (r : Received) (sof_prior eof_prior : RVector)
    (ptable : RTable) (sof_post eof_post : RVector) :
    ((({ F with r := r } : Fba).work_alpha_prior sof_prior).bind (fun F =>
        F.work_beta_and_results eof_prior ptable sof_post eof_post)).map observed =
      F.passes r sof_prior eof_prior ptable sof_post eof_post := by
  obtain ⟨X, e1, e2⟩ := work_alpha_prior_arrays ({ F with r := r } : Fba) hinit hl sof_prior
  rw [e1]
  unfold passes
  have e2' : X.map Prod.fst = F.alphaPass r.metric sof_prior := e2
  rw [← e2']
  cases X with
  | none => rfl
  | some t =>
    rw [Option.map_some', Option.some_bind, Option.map_some', Option.some_bind]
    exact work_beta_and_results_arrays ({ F with r := r } : Fba) hinit hl t.1 t.2 eof_prior
      ptable sof_post eof_post

/-- A call of `decode`, on the arrays: the sizes are checked, and then the two passes and the
results are computed, with either storage. -/
theorem decode_arrays (F : Fba) (r : Received) (sof_prior eof_prior : RVector)
    (ptable : RTable) (sof_post eof_post : RVector) (offset : Int) :
    (F.decode r sof_prior eof_prior ptable sof_post eof_post offset).map observed =
      if offset ≠ -F.mtau_min then none
      else if (r.size : Int) ≠ ((F.N * F.n : Nat) : Int) + F.mtau_max - F.mtau_min then none
      else if (sof_prior.size : Int) ≠ F.mtau_max - F.mtau_min + 1 then none
      else if (eof_prior.size : Int) ≠ F.mtau_max - F.mtau_min + 1 then none
      else F.passes r sof_prior eof_prior ptable sof_post eof_post := by
  rw [decode_def, decode_start]
  dsimp only
  by_cases a1 : offset ≠ -F.mtau_min
  · rw [if_pos a1, if_pos a1]
    rfl
  rw [if_neg a1, if_neg a1]
  by_cases a2 : (r.size : Int) ≠ ((F.N * F.n : Nat) : Int) + F.mtau_max - F.mtau_min
  · rw [if_pos a2, if_pos a2]
    rfl
  rw [if_neg a2, if_neg a2]
  by_cases a3 : (sof_prior.size : Int) ≠ F.mtau_max - F.mtau_min + 1
  · rw [if_pos a3, if_pos a3]
    rfl
  rw [if_neg a3, if_neg a3]
  by_cases a4 : (eof_prior.size : Int) ≠ F.mtau_max - F.mtau_min + 1
  · rw [if_pos a4, if_pos a4]
    rfl
  rw [if_neg a4, if_neg a4]
  by_cases hg : F.globalstore = true
  · rw [if_pos hg]
    exact global_path_arrays ({ F with initialised := true } : Fba) rfl hg r sof_prior
      eof_prior ptable sof_post eof_post
  · rw [if_neg hg]
    have hl : F.globalstore = false := by
      cases h : F.globalstore with
      | false => rfl
      | true => exact absurd h hg
    exact local_path_arrays ({ F with initialised := true } : Fba) rfl hl r sof_prior
      eof_prior ptable sof_post eof_post

end Fba

/-- C21: global and local storage of the branch metrics are observationally equivalent. For
every decoder and every input, `decode` with global storage (`work_gamma`,
`work_alpha_and_beta`, `work_results`) and `decode` with local storage (`work_alpha`,
`work_beta_and_results`) either both fail or both return, and then with identical `alpha`,
`beta`, `ptable`, `sof_post` and `eof_post`. -/
theorem fba_storage_equivalence (F : Fba) (r : Received) (sof_prior eof_prior : RVector)
    (ptable : RTable) (sof_post eof_post : RVector) (offset : Int) :
    (({ F with globalstore := true } : Fba).decode r sof_prior eof_prior ptable sof_post
        eof_post offset).map Fba.observed =
      (({ F with globalstore := false } : Fba).decode r sof_prior eof_prior ptable sof_post
        eof_post offset).map Fba.observed ∧
    ∀ res, ({ F with globalstore := true } : Fba).decode r sof_prior eof_prior ptable sof_post
        eof_post offset = some res →
      ∃ res', ({ F with globalstore := false } : Fba).decode r sof_prior eof_prior ptable
          sof_post eof_post offset = some res' ∧
        res'.1.alpha = res.1.alpha ∧ res'.1.beta = res.1.beta ∧ res'.2.1 = res.2.1 ∧
        res'.2.2.1 = res.2.2.1 ∧ res'.2.2.2 = res.2.2.2 := by
  have e : (({ F with globalstore := true } : Fba).decode r sof_prior eof_prior ptable sof_post
        eof_post offset).map Fba.observed =
      (({ F with globalstore := false } : Fba).decode r sof_prior eof_prior ptable sof_post
        eof_post offset).map Fba.observed := by
    rw [Fba.decode_arrays, Fba.decode_arrays]
    rfl
  refine ⟨e, fun res h => ?_⟩
  rw [h, Option.map_some'] at e
  cases h' : ({ F with globalstore := false } : Fba).decode r sof_prior eof_prior ptable
      sof_post eof_post offset with
  | none =>
    rw [h', Option.map_none'] at e
    exact absurd e (by simp)
  | some res' =>
    rw [h', Option.map_some'] at e
    have e' : Fba.observed res = Fba.observed res' := Option.some.inj e
    have e1 : res.1.alpha = res'.1.alpha := congrArg (fun t => t.1) e'
    have e2 : res.1.beta = res'.1.beta := congrArg (fun t => t.2.1) e'
    have e3 : res.2.1 = res'.2.1 := congrArg (fun t => t.2.2.1) e'
    have e4 : res.2.2.1 = res'.2.2.1 := congrArg (fun t => t.2.2.2.1) e'
    have e5 : res.2.2.2 = res'.2.2.2 := congrArg (fun t => t.2.2.2.2) e'
    exact ⟨res', rfl, e1.symm, e2.symm, e3.symm, e4.symm, e5.symm⟩

/-- C21 on `exampleFba`: with global storage it decodes `exampleReceived`, and so it does with
local storage, with the same arrays and results. -/
theorem fba_storage_equivalence_witness :
    ∃ res res', exampleFba.decode exampleReceived examplePrior examplePrior emptyRTable
        emptyRVector emptyRVector 1 = some res ∧
      exampleFbaLocal.decode exampleReceived examplePrior examplePrior emptyRTable
        emptyRVector emptyRVector 1 = some res' ∧
      res'.1.alpha = res.1.alpha ∧ res'.1.beta = res.1.beta ∧ res'.2.1 = res.2.1 ∧
      res'.2.2.1 = res.2.2.1 ∧ res'.2.2.2 = res.2.2.2 := by
  obtain ⟨res', h1, h2⟩ := (fba_storage_equivalence exampleFba exampleReceived examplePrior
    examplePrior emptyRTable emptyRVector emptyRVector 1).2
    (Option.get _ exampleFba_decodes) (Option.some_get exampleFba_decodes).symm
  exact ⟨Option.get _ exampleFba_decodes, res', (Option.some_get exampleFba_decodes).symm,
    h1, h2⟩

/-- C24: `decode` validates the shapes before any computation. It fails if `offset` is not
`-mtau_min`, or the received frame does not have `N * n + mtau_max - mtau_min` symbols, or
one of the priors does not have `mtau_max - mtau_min + 1` elements, whatever the rest of the
input; and it fails only in these cases and when a normaliser of the forward or of the
backward pass fails. -/
theorem fba_decode_validates (F : Fba) (r : Received) (sof_prior eof_prior : RVector)
    (ptable : RTable) (sof_post eof_post : RVector) (offset : Int) :
    ((offset ≠ -F.mtau_min ∨
        (r.size : Int) ≠ ((F.N * F.n : Nat) : Int) + F.mtau_max - F.mtau_min ∨
        (sof_prior.size : Int) ≠ F.mtau_max - F.mtau_min + 1 ∨
        (eof_prior.size : Int) ≠ F.mtau_max - F.mtau_min + 1) →
      F.decode r sof_prior eof_prior ptable sof_post eof_post offset = none) ∧
    (F.decode r sof_prior eof_prior ptable sof_post eof_post offset = none ↔
      (offset ≠ -F.mtau_min ∨
        (r.size : Int) ≠ ((F.N * F.n : Nat) : Int) + F.mtau_max - F.mtau_min ∨
        (sof_prior.size : Int) ≠ F.mtau_max - F.mtau_min + 1 ∨
        (eof_prior.size : Int) ≠ F.mtau_max - F.mtau_min + 1 ∨
        F.alphaPass r.metric sof_prior = none ∨ F.betaPass r.metric eof_prior = none)) := by
  have hmap : F.decode r sof_prior eof_prior ptable sof_post eof_post offset = none ↔
      (F.decode r sof_prior eof_prior ptable sof_post eof_post offset).map Fba.observed
        = none := by
    cases F.decode r sof_prior eof_prior ptable sof_post eof_post offset with
    | none => exact ⟨fun _ => rfl, fun _ => rfl⟩
    | some res => exact ⟨fun h => absurd h (by simp), fun h => absurd h (by simp)⟩
  have hpass : F.passes r sof_prior eof_prior ptable sof_post eof_post = none ↔
      (F.alphaPass r.metric sof_prior = none ∨ F.betaPass r.metric eof_prior = none) := by
    unfold Fba.passes
    cases F.alphaPass r.metric sof_prior with
    | none => exact ⟨fun _ => Or.inl rfl, fun _ => rfl⟩
    | some a =>
      rw [Option.some_bind]
      cases F.betaPass r.metric eof_prior with
      | none => exact ⟨fun _ => Or.inr rfl, fun _ => rfl⟩
      | some b =>
        rw [Option.some_bind]
        unfold Fba.resultsOf
        dsimp only
        obtain ⟨w1, h1, _⟩ := Fba.work_state_app_spec ({ F with alpha := a, beta := b } : Fba)
          sof_post 0 (Nat.zero_le _)
        obtain ⟨w2, h2, _⟩ := Fba.work_state_app_spec ({ F with alpha := a, beta := b } : Fba)
          eof_post F.N (Nat.le_refl _)
        rw [h1, Option.some_bind, h2, Option.map_some', Option.map_some']
        exact ⟨fun h => absurd h (by simp), fun h => by
          rcases h with h | h <;> exact absurd h (by simp)⟩
  rw [hmap, Fba.decode_arrays]
  by_cases a1 : offset ≠ -F.mtau_min
  · rw [if_pos a1]
    exact ⟨fun _ => rfl, fun _ => Or.inl a1, fun _ => rfl⟩
  rw [if_neg a1]
  by_cases a2 : (r.size : Int) ≠ ((F.N * F.n : Nat) : Int) + F.mtau_max - F.mtau_min
  · rw [if_pos a2]
    exact ⟨fun _ => rfl, fun _ => Or.inr (Or.inl a2), fun _ => rfl⟩
  rw [if_neg a2]
  by_cases a3 : (sof_prior.size : Int) ≠ F.mtau_max - F.mtau_min + 1
  · rw [if_pos a3]
    exact ⟨fun _ => rfl, fun _ => Or.inr (Or.inr (Or.inl a3)), fun _ => rfl⟩
  rw [if_neg a3]
  by_cases a4 : (eof_prior.size : Int) ≠ F.mtau_max - F.mtau_min + 1
  · rw [if_pos a4]
    exact ⟨fun _ => rfl, fun _ => Or.inr (Or.inr (Or.inr (Or.inl a4))), fun _ => rfl⟩
  rw [if_neg a4, hpass]
  refine ⟨fun h => ?_, fun h => Or.inr (Or.inr (Or.inr (Or.inr h))), fun h => ?_⟩
  · rcases h with h | h | h | h
    · exact absurd h a1
    · exact absurd h a2
    · exact absurd h a3
    · exact absurd h a4
  · rcases h with h | h | h | h | h
    · exact absurd h a1
    · exact absurd h a2
    · exact absurd h a3
    · exact absurd h a4
    · exact h

/-- C24 on `exampleFba`: the offset `0` is not `-mtau_min = 1`, and `decode` fails. -/
theorem fba_decode_validates_witness :
    exampleFba.decode exampleReceived examplePrior examplePrior emptyRTable emptyRVector
      emptyRVector 0 = none :=
  (fba_decode_validates exampleFba exampleReceived examplePrior examplePrior emptyRTable
    emptyRVector emptyRVector 0).1 (Or.inl (by decide))

/-! ## The BCJR decoder: the divisors of the normalisations are positive -/

/-- A backward step gives a positive metric to a predecessor of a state of positive metric. -/
theorem bkStep_pos (K : Nat) (lm : Nat → Nat → Nat) (g : Nat → Nat → ℚ) (f : Nat → ℚ)
    (m i0 : Nat) (hi0 : i0 < K) (hf : ∀ i, i < K → 0 ≤ f (lm m i))
    (hg : ∀ i, i < K → 0 ≤ g m i) (hf0 : 0 < f (lm m i0)) (hg0 : 0 < g m i0) :
    0 < bkStep K lm g f m := by
  unfold bkStep
  have h2 : f (lm m i0) * g m i0 ≤ ∑ i in Finset.range K, f (lm m i) * g m i :=
    Finset.single_le_sum (f := fun i => f (lm m i) * g m i)
      (fun i hi => mul_nonneg (hf i (Finset.mem_range.mp hi)) (hg i (Finset.mem_range.mp hi)))
      (Finset.mem_range.mpr hi0)
  exact lt_of_lt_of_le (mul_pos hf0 hg0) h2

/-- A row that is a non-negative function with a positive value, divided by its running
maximum: the maximum is positive, the quotients lie in `[0, 1]` and one of them is `1`. -/
theorem maxLoop_normalised (f : Nat → ℚ) (M : Nat) (hM : 0 < M)
    (hf : ∀ m, m < M → 0 ≤ f m) (hpos : ∃ m, m < M ∧ 0 < f m) :
    0 < maxLoop f (M - 1) ∧
      (∀ m, m < M → 0 ≤ f m * (1 / maxLoop f (M - 1)) ∧ f m * (1 / maxLoop f (M - 1)) ≤ 1) ∧
      ∃ m, m < M ∧ f m * (1 / maxLoop f (M - 1)) = 1 := by
  obtain ⟨m0, hm0, h0⟩ := hpos
  have hD : 0 < maxLoop f (M - 1) := maxLoop_pos f (M - 1) m0 (by omega) h0
  refine ⟨hD, fun m hm => ⟨?_, ?_⟩, ?_⟩
  · exact mul_nonneg (hf m hm) (le_of_lt (one_div_pos.mpr hD))
  · rw [mul_one_div, div_le_one hD]
    exact maxLoop_ge f (M - 1) m (by omega)
  · obtain ⟨m, hm, e⟩ := maxLoop_mem f (M - 1)
    refine ⟨m, by omega, ?_⟩
    rw [mul_one_div, e]
    exact div_self (ne_of_gt (e ▸ hD))

/-- C29 (counterexample): in the trellis of `exampleDeadEnd` the table `lut_m` maps into
`[0, M)`, the channel table is strictly positive and `beta[tau] = (0, 1)` is non-negative
with a positive entry, but no transition leads to state `1`: the row maximum that
`bcjr::work_beta` uses as divisor at `t = 0` is `0`. -/
theorem bcjr_backward_divisor_counterexample :
    (∀ m i, m < exampleDeadEnd.M → i < exampleDeadEnd.K →
      exampleDeadEnd.lut_m m i < exampleDeadEnd.M) ∧
    (∀ t x, t < exampleDeadEnd.tau → x < exampleDeadEnd.N → 0 < exampleUnitR.val t x) ∧
    (∀ m, m < exampleDeadEnd.M → 0 ≤ exampleDeadEnd.beta.val exampleDeadEnd.tau m) ∧
    0 < exampleDeadEnd.beta.val exampleDeadEnd.tau 1 ∧
    (exampleDeadEnd.work_gamma exampleUnitR).beta_divisor 0 = 0 := by
  refine ⟨fun _ _ _ _ => Nat.zero_lt_two, fun _ _ _ _ => one_pos, ?_, by decide!, by decide!⟩
  exact (by decide! : ∀ m, m < 2 → 0 ≤ exampleDeadEnd.beta.val exampleDeadEnd.tau m)

/-- C29 (amended): in exact arithmetic backward normalisation never divides by zero when
every state has an incoming transition. For a trellis whose tables map into the state and output ranges and in
which every state is the next state of some transition, a channel table `R` with strictly
positive entries and a non-negative row `beta[tau]` with at least one positive entry, the
row maximum that `bcjr::work_beta` uses as divisor is strictly positive at every `t` in
`[0, tau - 1]`, and afterwards every `beta(t, m)` lies in `[0, 1]` and `beta(t, m) = 1` for
some state `m`. -/
theorem bcjr_backward_divisor_positive (b : Bcjr) (R : Matrix)
    (hwf : ∀ m i, m < b.M → i < b.K → b.lut_m m i < b.M)
    (hwfX : ∀ m i, m < b.M → i < b.K → b.lut_X m i < b.N)
    (hpred : ∀ m', m' < b.M → ∃ m i, m < b.M ∧ i < b.K ∧ b.lut_m m i = m')
    (hR : ∀ t x, t < b.tau → x < b.N → 0 < R.val t x)
    (hb : ∀ m, m < b.M → 0 ≤ b.beta.val b.tau m)
    (hpos : ∃ m, m < b.M ∧ 0 < b.beta.val b.tau m) :
    ∀ t, t < b.tau →
      0 < (b.work_gamma R).beta_divisor t ∧
      (∀ m, m < b.M →
        0 ≤ (b.work_gamma R).work_beta.beta.val t m ∧
        (b.work_gamma R).work_beta.beta.val t m ≤ 1) ∧
      ∃ m, m < b.M ∧ (b.work_gamma R).work_beta.beta.val t m = 1 := by
  have hM : 0 < b.M := by
    obtain ⟨m, hm, _⟩ := hpos
    omega
  have r0 : (b.work_gamma R).work_beta.beta.val b.tau = b.beta.val b.tau :=
    (work_beta_rows (b.work_gamma R) hM).1
  have rows : ∀ t, t < b.tau →
      (b.work_gamma R).beta_divisor t =
        maxLoop (bkStep b.K b.lut_m ((b.work_gamma R).gamma.val t)
          ((b.work_gamma R).work_beta.beta.val (t + 1))) (b.M - 1) ∧
      ∀ m, m < b.M → (b.work_gamma R).work_beta.beta.val t m =
        bkStep b.K b.lut_m ((b.work_gamma R).gamma.val t)
          ((b.work_gamma R).work_beta.beta.val (t + 1)) m *
          (1 / (b.work_gamma R).beta_divisor t) :=
    (work_beta_rows (b.work_gamma R) hM).2
  have hg : ∀ t m i, t < b.tau → m < b.M → i < b.K →
      0 < (b.work_gamma R).gamma.val t m i := by
    intro t m i ht hm hi
    rw [work_gamma_val, if_pos ⟨ht, hm, hi⟩]
    exact hR t _ ht (hwfX m i hm hi)
  have step : ∀ t, t < b.tau →
      ((∀ m, m < b.M → 0 ≤ (b.work_gamma R).work_beta.beta.val (t + 1) m) ∧
        ∃ m, m < b.M ∧ 0 < (b.work_gamma R).work_beta.beta.val (t + 1) m) →
      0 < (b.work_gamma R).beta_divisor t ∧
      (∀ m, m < b.M →
        0 ≤ (b.work_gamma R).work_beta.beta.val t m ∧
        (b.work_gamma R).work_beta.beta.val t m ≤ 1) ∧
      ∃ m, m < b.M ∧ (b.work_gamma R).work_beta.beta.val t m = 1 := by
    intro t ht ⟨n1, m', hm', p'⟩
    obtain ⟨d, st⟩ := rows t ht
    obtain ⟨m0, i0, hm0, hi0, e0⟩ := hpred m' hm'
    have hf : ∀ m, m < b.M → 0 ≤ bkStep b.K b.lut_m ((b.work_gamma R).gamma.val t)
        ((b.work_gamma R).work_beta.beta.val (t + 1)) m :=
      fun m hm => bkStep_nonneg b.M b.K b.lut_m _ _ n1 m hm (fun i hi => hwf m i hm hi)
        (fun m i hm hi => le_of_lt (hg t m i ht hm hi))
    obtain ⟨hD, h01, m1, hm1, e1⟩ := maxLoop_normalised _ b.M hM hf
      ⟨m0, hm0, bkStep_pos b.K b.lut_m _ _ m0 i0 hi0
        (fun i hi => n1 _ (hwf m0 i hm0 hi))
        (fun i hi => le_of_lt (hg t m0 i ht hm0 hi))
        (by rw [e0]; exact p') (hg t m0 i0 ht hm0 hi0)⟩
    refine ⟨by rw [d]; exact hD, fun m hm => ?_, m1, hm1, ?_⟩
    · rw [st m hm, d]
      exact h01 m hm
    · rw [st m1 hm1, d]
      exact e1
  have inv : ∀ j, j ≤ b.tau →
      (∀ m, m < b.M → 0 ≤ (b.work_gamma R).work_beta.beta.val (b.tau - j) m) ∧
      ∃ m, m < b.M ∧ 0 < (b.work_gamma R).work_beta.beta.val (b.tau - j) m := by
    intro j
    induction j with
    | zero =>
      intro _
      rw [Nat.sub_zero, r0]
      exact ⟨hb, hpos⟩
    | succ j ih =>
      intro hj
      have h1 : b.tau - (j + 1) + 1 = b.tau - j := by omega
      obtain ⟨_, h01, m1, hm1, e1⟩ := step (b.tau - (j + 1)) (by omega)
        (by rw [h1]; exact ih (by omega))
      exact ⟨fun m hm => (h01 m hm).1, m1, hm1, by rw [e1]; exact one_pos⟩
  intro t ht
  have h1 : b.tau - (b.tau - (t + 1)) = t + 1 := by omega
  exact step t ht (by
    have := inv (b.tau - (t + 1)) (by omega)
    rw [h1] at this
    exact this)

/-- C29 (amended) on the two-state example decoder, in which every state has an incoming
transition, and a strictly positive channel table. -/
theorem bcjr_backward_divisor_positive_witness :
    (∀ m', m' < exampleBcjr.M →
      ∃ m i, m < exampleBcjr.M ∧ i < exampleBcjr.K ∧ exampleBcjr.lut_m m i = m') ∧
    (∃ m, m < exampleBcjr.M ∧ 0 < exampleBcjr.beta.val exampleBcjr.tau m) ∧
    ∀ t, t < exampleBcjr.tau →
      0 < (exampleBcjr.work_gamma exampleRpos).beta_divisor t ∧
      (∀ m, m < exampleBcjr.M →
        0 ≤ (exampleBcjr.work_gamma exampleRpos).work_beta.beta.val t m ∧
        (exampleBcjr.work_gamma exampleRpos).work_beta.beta.val t m ≤ 1) ∧
      ∃ m, m < exampleBcjr.M ∧
        (exampleBcjr.work_gamma exampleRpos).work_beta.beta.val t m = 1 :=
  ⟨fun m' hm' => ⟨0, m', by decide, hm',
      (by decide : ∀ m', m' < 2 → (0 + m') % 2 = m') m' hm'⟩,
    ⟨1, by decide, by decide!⟩,
    bcjr_backward_divisor_positive exampleBcjr exampleRpos
      (fun m i hm hi => (by decide : ∀ m, m < 2 → ∀ i, i < 2 → (m + i) % 2 < 2) m hm i hi)
      (fun m i hm hi =>
        (by decide : ∀ m, m < 2 → ∀ i, i < 2 → i + 2 * ((m + i) % 2) < 4) m hm i hi)
      (fun m' hm' => ⟨0, m', by decide, hm',
        (by decide : ∀ m', m' < 2 → (0 + m') % 2 = m') m' hm'⟩)
      (fun t x ht hx =>
        (by decide! : ∀ t, t < 2 → ∀ x, x < 4 → 0 < exampleRpos.val t x) t ht x hx)
      (by decide!) ⟨1, by decide, by decide!⟩⟩

/-! ## The interleaved mapper -/

/-- A loop `for (i = 0; i < m; i++) out(lut(i)) = s(i)` over pairwise different positions. -/
theorem scatter_loop (lut s out : IntVector) (m : Nat)
    (hinj : ∀ i j, i < m → j < m → lut.val i = lut.val j → i = j) :
    (forUp m (fun i (out : IntVector) => out.set (lut.val i) (s.val i)) out).size = out.size ∧
      ∀ i, i < m →
        (forUp m (fun i (out : IntVector) => out.set (lut.val i) (s.val i)) out).val (lut.val i)
          = s.val i := by
  induction m with
  | zero => exact ⟨rfl, fun i hi => absurd hi (Nat.not_lt_zero i)⟩
  | succ m ih =>
    obtain ⟨s1, s2⟩ := ih (fun i j hi hj => hinj i j (Nat.lt_succ_of_lt hi)
      (Nat.lt_succ_of_lt hj))
    rw [forUp_succ]
    refine ⟨s1, fun i hi => ?_⟩
    rw [intVector_set_val]
    by_cases him : i = m
    · subst him
      rw [if_pos rfl]
    · have hlt : i < m := by omega
      rw [if_neg (fun h => him (hinj i m hi (Nat.lt_succ_self m) h)), s2 i hlt]

/-- A loop `for (i = 0; i < m; i++) out(i) = f(i)`. -/
theorem gather_loop (f : Nat → Nat) (out : IntVector) (m : Nat) :
    (forUp m (fun i (out : IntVector) => out.set i (f i)) out).size = out.size ∧
      ∀ i, i < m → (forUp m (fun i (out : IntVector) => out.set i (f i)) out).val i = f i := by
  induction m with
  | zero => exact ⟨rfl, fun i hi => absurd hi (Nat.not_lt_zero i)⟩
  | succ m ih =>
    rw [forUp_succ]
    refine ⟨ih.1, fun i hi => ?_⟩
    rw [intVector_set_val]
    by_cases him : i = m
    · subst him
      rw [if_pos rfl]
    · rw [if_neg him, ih.2 i (by omega)]

/-- A loop `for (i = 0; i < m; i++) ptable(i) = g(i)` on a vector of vectors. -/
theorem table_loop (g : Nat → RVector) (pt : RTable) (m : Nat) :
    (forUp m (fun i (pt : RTable) =>
        ({ pt with val := Function.update pt.val i (g i) } : RTable)) pt).size = pt.size ∧
      ∀ i, i < m → (forUp m (fun i (pt : RTable) =>
        ({ pt with val := Function.update pt.val i (g i) } : RTable)) pt).val i = g i := by
  induction m with
  | zero => exact ⟨rfl, fun i hi => absurd hi (Nat.not_lt_zero i)⟩
  | succ m ih =>
    rw [forUp_succ]
    refine ⟨ih.1, fun i hi => ?_⟩
    dsimp only
    by_cases him : i = m
    · subst him
      rw [Function.update_same]
    · rw [Function.update_noteq him]
      exact ih.2 i (by omega)

/-- A loop `for (i = 0; i < m; i++) for (j = 0; j < pout.ysize(); j++)
pout(lut(i), j) = ptable(i, j)` over pairwise different rows. -/
theorem scatter_rows_loop (lut : IntVector) (pt pout : Matrix) (m : Nat)
    (hinj : ∀ i j, i < m → j < m → lut.val i = lut.val j → i = j) :
    (forUp m (fun i (pout : Matrix) =>
        forUp pout.ysize (fun j pout => pout.set (lut.val i) j (pt.val i j)) pout) pout).xsize =
        pout.xsize ∧
      (forUp m (fun i (pout : Matrix) =>
        forUp pout.ysize (fun j pout => pout.set (lut.val i) j (pt.val i j)) pout) pout).ysize =
        pout.ysize ∧
      ∀ i j, i < m → j < pout.ysize →
        (forUp m (fun i (pout : Matrix) =>
          forUp pout.ysize (fun j pout => pout.set (lut.val i) j (pt.val i j)) pout) pout).val
            (lut.val i) j = pt.val i j := by
  induction m with
  | zero => exact ⟨rfl, rfl, fun i j hi => absurd hi (Nat.not_lt_zero i)⟩
  | succ m ih =>
    obtain ⟨s1, s2, s3⟩ := ih (fun i j hi hj => hinj i j (Nat.lt_succ_of_lt hi)
      (Nat.lt_succ_of_lt hj))
    rw [forUp_succ]
    generalize forUp m (fun i (pout : Matrix) =>
      forUp pout.ysize (fun j pout => pout.set (lut.val i) j (pt.val i j)) pout) pout = P
      at s1 s2 s3
    obtain ⟨a1, a2, a3⟩ := assignLoop_inner (lut.val m) (pt.val m) P P.ysize
    refine ⟨a1.trans s1, a2.trans s2, fun i j hi hj => ?_⟩
    rw [a3]
    by_cases him : i = m
    · subst him
      rw [if_pos ⟨rfl, s2 ▸ hj⟩]
    · rw [if_neg (fun h => him (hinj i m hi (Nat.lt_succ_self m) h.1)), s3 i j (by omega) hj]

/-- C26: the interleaved mapper round trip. For a look-up table `lut` that is a permutation
of `[0, n)` and a straight-mapped sequence `s` of length `n`: in the template version,
`dotransform` returns `out` of length `n` with `out(lut(i)) = s(i)`, and `doinverse` passes on
a table of `n` elements with `ptable(i) = pin(lut(i))`, so that the table it places at
position `i` is the table of the transformed position that carries `s(i)`; in the older
version, `transform` returns `out` of length `n` with `out(i) = s(lut(i))` and `inverse`
returns `pout` of the shape of `ptable` with `pout(lut(i), j) = ptable(i, j)`, so that row
`k` of `pout` is the row of the transformed position that carries `s(k)`. -/
theorem map_interleaved_round_trip (lut : IntVector) (n : Nat) (hperm : lut.isPerm n) :
    (∀ (base : IntVector → IntVector) (inp out : IntVector), (base inp).size = n →
      ∃ o, MapInterleaved.dotransform lut base inp out = some o ∧ o.size = n ∧
        (∀ i, i < n → o.val (lut.val i) = (base inp).val i) ∧
        ∀ (baseI : RTable → RTable → RTable) (pin pout : RTable), pin.size = n →
          MapInterleaved.doinverse lut baseI pin pout =
            some (baseI (MapInterleaved.deshuffle lut pin) pout) ∧
          (MapInterleaved.deshuffle lut pin).size = n ∧
          (∀ i, i < n → (MapInterleaved.deshuffle lut pin).val i = pin.val (lut.val i)) ∧
          (∀ i, i < n → ∃ k, k < n ∧ o.val k = (base inp).val i ∧
            (MapInterleaved.deshuffle lut pin).val i = pin.val k) ∧
          ∀ T : Nat → RVector, (∀ k, k < n → pin.val k = T (o.val k)) →
            ∀ i, i < n → (MapInterleaved.deshuffle lut pin).val i = T ((base inp).val i)) ∧
    (∀ (base : IntVector → IntVector) (inp out : IntVector), (base inp).size = n →
      (MapInterleavedOld.transform lut base inp out).size = n ∧
      (∀ i, i < n →
        (MapInterleavedOld.transform lut base inp out).val i = (base inp).val (lut.val i)) ∧
      ∀ (baseI : Matrix → Matrix) (pin pout : Matrix), (baseI pin).xsize = n →
        ∃ po, MapInterleavedOld.inverse lut baseI pin pout = some po ∧
          po.xsize = n ∧ po.ysize = (baseI pin).ysize ∧
          (∀ i j, i < n → j < (baseI pin).ysize →
            po.val (lut.val i) j = (baseI pin).val i j) ∧
          (∀ k, k < n → ∃ i, i < n ∧
            (MapInterleavedOld.transform lut base inp out).val i = (base inp).val k ∧
            ∀ j, j < (baseI pin).ysize → po.val k j = (baseI pin).val i j) ∧
          ∀ T : Nat → Nat → ℚ,
            (∀ i j, i < n → j < (baseI pin).ysize →
              (baseI pin).val i j = T ((MapInterleavedOld.transform lut base inp out).val i) j) →
            ∀ k j, k < n → j < (baseI pin).ysize → po.val k j = T ((base inp).val k) j) := by
  obtain ⟨hsize, hrange, hinj, hsurj⟩ := hperm
  refine ⟨fun base inp out hs => ?_, fun base inp out hs => ?_⟩
  · obtain ⟨c1, c2⟩ := scatter_loop lut (base inp) (out.init (base inp).size) n hinj
    have hne : ¬ (out.init (base inp).size).size ≠ lut.size := by
      show ¬ (base inp).size ≠ lut.size
      rw [hs, hsize]
      exact fun h => h rfl
    have ho : MapInterleaved.dotransform lut base inp out =
        some (forUp n (fun i (out : IntVector) => out.set (lut.val i) ((base inp).val i))
          (out.init (base inp).size)) := by
      unfold MapInterleaved.dotransform MapInterleaved.shuffle
      dsimp only
      rw [if_neg hne]
      show some (forUp (base inp).size _ _) = _
      rw [hs]
    refine ⟨_, ho, c1.trans hs, c2, fun baseI pin pout hp => ?_⟩
    have hd : MapInterleaved.deshuffle lut pin =
        forUp n (fun i (pt : RTable) =>
          ({ pt with val := Function.update pt.val i (pin.val (lut.val i)) } : RTable))
          (emptyRTable.init n) := by
      unfold MapInterleaved.deshuffle
      dsimp only
      rw [hsize]
    obtain ⟨t1, t2⟩ := table_loop (fun i => pin.val (lut.val i)) (emptyRTable.init n) n
    rw [← hd] at t1 t2
    refine ⟨?_, t1, t2, fun i hi => ⟨lut.val i, hrange i hi, c2 i hi, t2 i hi⟩,
      fun T hT i hi => ?_⟩
    · unfold MapInterleaved.doinverse
      rw [if_neg (by rw [hp, hsize]; exact fun h => h rfl)]
    · rw [t2 i hi, hT (lut.val i) (hrange i hi), c2 i hi]
  · obtain ⟨g1, g2⟩ := gather_loop (fun i => (base inp).val (lut.val i))
      (out.init (base inp).size) n
    have ht : MapInterleavedOld.transform lut base inp out =
        forUp n (fun i (out : IntVector) => out.set i ((base inp).val (lut.val i)))
          (out.init (base inp).size) := by
      unfold MapInterleavedOld.transform
      dsimp only
      show forUp (base inp).size _ _ = _
      rw [hs]
    rw [ht]
    refine ⟨g1.trans hs, g2, fun baseI pin pout hx => ?_⟩
    obtain ⟨r1, r2, r3⟩ := scatter_rows_loop lut (baseI pin)
      (pout.init (baseI pin).xsize (baseI pin).ysize) n hinj
    have hi : MapInterleavedOld.inverse lut baseI pin pout =
        some (forUp n (fun i (pout : Matrix) =>
          forUp pout.ysize (fun j pout =>
            pout.set (lut.val i) j ((baseI pin).val i j)) pout)
          (pout.init (baseI pin).xsize (baseI pin).ysize)) := by
      unfold MapInterleavedOld.inverse
      dsimp only
      rw [if_neg (by rw [hx, hsize]; exact fun h => h rfl)]
      show some (forUp (baseI pin).xsize _ _) = _
      rw [hx]
    refine ⟨_, hi, r1.trans hx, r2, r3, fun k hk => ?_, fun T hT k j hk hj => ?_⟩
    · obtain ⟨i, hi', e⟩ := hsurj k hk
      refine ⟨i, hi', by rw [g2 i hi', e], fun j hj => ?_⟩
      rw [← e]
      exact r3 i j hi' hj
    · obtain ⟨i, hi', e⟩ := hsurj k hk
      rw [← e, r3 i j hi' hj, hT i j hi' hj, g2 i hi']

/-- The example look-up table `i ↦ (i + 1) mod 3` is a permutation of `[0, 3)`. -/
theorem exampleLut_isPerm : exampleLut.isPerm 3 := by
  refine ⟨rfl, by decide, fun i j hi hj h => ?_, fun k hk => ?_⟩
  · have h' : (i + 1) % 3 = (j + 1) % 3 := h
    omega
  · refine ⟨(k + 2) % 3, Nat.mod_lt _ (by decide), ?_⟩
    show ((k + 2) % 3 + 1) % 3 = k
    omega

/-- Witness for C26 on the three-element rotation and the sequence `(5, 6, 7)`. -/
theorem map_interleaved_round_trip_witness :
    exampleLut.isPerm 3 ∧
      (∃ o, MapInterleaved.dotransform exampleLut id exampleSeq exampleSeq = some o ∧
        o.size = 3 ∧ ∀ i, i < 3 → o.val (exampleLut.val i) = exampleSeq.val i) ∧
      (MapInterleavedOld.transform exampleLut id exampleSeq exampleSeq).size = 3 ∧
      ∀ i, i < 3 → (MapInterleavedOld.transform exampleLut id exampleSeq exampleSeq).val i
        = exampleSeq.val (exampleLut.val i) :=
  ⟨exampleLut_isPerm,
    ((map_interleaved_round_trip exampleLut 3 exampleLut_isPerm).1 id exampleSeq exampleSeq
      rfl).imp (fun _ h => ⟨h.1, h.2.1, h.2.2.1⟩),
    ((map_interleaved_round_trip exampleLut 3 exampleLut_isPerm).2 id exampleSeq exampleSeq
      rfl).1,
    ((map_interleaved_round_trip exampleLut 3 exampleLut_isPerm).2 id exampleSeq exampleSeq
      rfl).2.1⟩

/-! ## The direct block modem -/

/-- A loop whose body keeps an invariant and does not fail returns a state with the
invariant. -/
theorem forUpO_invariant {σ : Type} (Inv : σ → Prop) (f : Nat → σ → Option σ) (n : Nat)
    (s : σ) (h0 : Inv s)
    (hstep : ∀ k s, k < n → Inv s → ∃ s', f k s = some s' ∧ Inv s') :
    ∃ s', forUpO n f s = some s' ∧ Inv s' := by
  induction n with
  | zero => exact ⟨s, rfl, h0⟩
  | succ n ih =>
    obtain ⟨s1, e1, i1⟩ := ih (fun k s hk hs => hstep k s (Nat.lt_succ_of_lt hk) hs)
    obtain ⟨s2, e2, i2⟩ := hstep n s1 (Nat.lt_succ_self n) i1
    refine ⟨s2, ?_, i2⟩
    rw [forUpO_succ, e1, Option.some_bind, e2]

/-- A loop whose body keeps an invariant returns a state with the invariant. -/
theorem forUp_invariant {σ : Type} (Inv : σ → Prop) (f : Nat → σ → σ) (n : Nat)
    (s : σ) (h0 : Inv s) (hstep : ∀ k s, k < n → Inv s → Inv (f k s)) :
    Inv (forUp n f s) := by
  induction n with
  | zero => exact h0
  | succ n ih =>
    rw [forUp_succ]
    exact hstep n _ (Nat.lt_succ_self n)
      (ih (fun k s hk hs => hstep k s (Nat.lt_succ_of_lt hk) hs))

/-- The invariant rule for a loop over an integer range. -/
theorem forRange_invariant {σ : Type} (Inv : σ → Prop) (lo hi : Int) (f : Int → σ → σ)
    (s : σ) (h0 : Inv s) (hstep : ∀ x s, lo ≤ x → x ≤ hi → Inv s → Inv (f x s)) :
    Inv (forRange lo hi f s) := by
  unfold forRange
  exact forUp_invariant Inv _ _ s h0
    (fun k s hk hs => hstep (lo + k) s (by omega) (by omega) hs)

/-- The invariant rule for a loop over an integer range whose body may fail. -/
theorem forRangeO_invariant {σ : Type} (Inv : σ → Prop) (lo hi : Int)
    (f : Int → σ → Option σ) (s : σ) (h0 : Inv s)
    (hstep : ∀ x s, lo ≤ x → x ≤ hi → Inv s → ∃ s', f x s = some s' ∧ Inv s') :
    ∃ s', forRangeO lo hi f s = some s' ∧ Inv s' := by
  unfold forRangeO
  exact forUpO_invariant Inv _ _ s h0
    (fun k s hk hs => hstep (lo + k) s (by omega) (by omega) hs)

/-- The invariant rule for a downward loop over an integer range whose body may fail. -/
theorem forRangeDownO_invariant {σ : Type} (Inv : σ → Prop) (hi lo : Int)
    (f : Int → σ → Option σ) (s : σ) (h0 : Inv s)
    (hstep : ∀ x s, lo ≤ x → x ≤ hi → Inv s → ∃ s', f x s = some s' ∧ Inv s') :
    ∃ s', forRangeDownO hi lo f s = some s' ∧ Inv s' := by
  unfold forRangeDownO
  exact forUpO_invariant Inv _ _ s h0
    (fun k s hk hs => hstep (hi - k) s (by omega) (by omega) hs)

/-- `vector::extract` returns when its two assertions hold. -/
theorem Vec.extract_isSome {G : Type} (v : Vec G) (start n : Int) (hn : 0 ≤ n)
    (hs : start + n ≤ (v.size : Int)) :
    v.extract start n =
      some { size := n.toNat, val := fun i => v.val (start + i).toNat } := by
  unfold Vec.extract
  rw [if_neg (fun h => h hn), if_neg (fun h => h hs)]

/-- With neither deletions nor insertions the drift stays where it is. -/
theorem myfba_P_zero (a b : Int) : myfba_P 0 0 a b = if b = a then 1 else 0 := by
  unfold myfba_P
  dsimp only
  by_cases h1 : b - a = -1
  · rw [if_pos h1, if_neg (by omega)]
  · rw [if_neg h1]
    by_cases h2 : b - a ≥ 0
    · rw [if_pos h2]
      by_cases h3 : b = a
      · rw [if_pos h3, h3, sub_self]
        norm_num
      · rw [if_neg h3]
        have hpos : (b - a).toNat ≠ 0 := by omega
        rw [zero_pow hpos]
        norm_num
    · rw [if_neg h2, if_neg (by omega)]

namespace OldFba

variable {G : Type}

/-- A forward event within the loop bounds runs and keeps the invariant of the pass. -/
theorem forward_event_inv (A0 : OldFba G) (r : Vec G) (j a y : Int) (A : OldFba G)
    (hA : A0.forwardInv r A) (ha1 : max (-A0.xmax) (1 - j) ≤ a) (ha2 : a ≤ A0.xmax)
    (hy1 : max (-A0.xmax) (a - 1) ≤ y)
    (hy2 : y ≤ min (min A0.xmax (a + A0.I)) ((r.size : Int) - j)) :
    ∃ A', forward_event r j a y A = some A' ∧ A0.forwardInv r A' := by
  obtain ⟨hset, hB, hbv, hbs, hvis, hzero⟩ := hA
  unfold forward_event
  rw [Vec.extract_isSome r (j - 1 + a) (y - a + 1) (by omega) (by omega), Option.map_some']
  refine ⟨_, rfl, hset, hB, hbv, hbs, ?_, ?_⟩
  · intro t ht
    rcases List.mem_cons.mp ht with e | e
    · rw [e]
      unfold fitsForward
      dsimp only
      omega
    · exact hvis t e
  · intro hP j' y' hy'
    have hz := hzero hP
    show Function.update A.mF j (Function.update (A.mF j) y _) j' y' = 0
    by_cases hj : j' = j
    · subst hj
      rw [Function.update_same]
      by_cases hyy : y' = y
      · subst hyy
        rw [Function.update_same]
        have hPA : A.P = myfba_P 0 0 := hset.2.2.2.2.2.1.trans hP
        show A.mF j' y' + A.mF (j' - 1) a * A.P a y' * _ = 0
        rw [hz j' y' hy', hPA, myfba_P_zero]
        by_cases hay : y' = a
        · subst hay
          rw [hz (j' - 1) y' hy']
          ring
        · rw [if_neg hay]
          ring
      · rw [Function.update_noteq hyy]
        exact hz j' y' hy'
    · rw [Function.update_noteq hj]
      exact hz j' y' hy'

/-- The normalisation of a row of `F` keeps the invariant of the forward pass. -/
theorem forward_normalize_inv (A0 : OldFba G) (r : Vec G) (j : Int) (A : OldFba G)
    (hA : A0.forwardInv r A) : A0.forwardInv r (forward_normalize j A) := by
  unfold forward_normalize
  dsimp only
  refine forRange_invariant (A0.forwardInv r) _ _ _ _ hA (fun y A' _ _ hA' => ?_)
  obtain ⟨hset, hB, hbv, hbs, hvis, hzero⟩ := hA'
  refine ⟨hset, hB, hbv, hbs, hvis, fun hP j' y' hy' => ?_⟩
  have hz := hzero hP
  show Function.update A'.mF j (Function.update (A'.mF j) y _) j' y' = 0
  by_cases hj : j' = j
  · subst hj
    rw [Function.update_same]
    by_cases hyy : y' = y
    · subst hyy
      rw [Function.update_same]
      show A'.mF j' y' * _ = 0
      rw [hz j' y' hy', zero_mul]
    · rw [Function.update_noteq hyy]
      exact hz j' y' hy'
  · rw [Function.update_noteq hj]
    exact hz j' y' hy'

/-- The loops over `a` and `y` of a forward step run and keep the invariant of the pass,
whatever the threshold. -/
theorem forward_events_inv (A0 : OldFba G) (r : Vec G) (j : Int) (th : ℚ) (A : OldFba G)
    (hA : A0.forwardInv r A) :
    ∃ A', forRangeO (max (-A.xmax) (1 - j)) A.xmax (fun a (A : OldFba G) =>
        if A.F (j - 1) a < th then some A
        else forRangeO (max (-A.xmax) (a - 1))
          (min (min A.xmax (a + A.I)) ((r.size : Int) - j)) (forward_event r j a) A) A
        = some A' ∧ A0.forwardInv r A' := by
  have hx : A.xmax = A0.xmax := hA.1.2.2.1
  rw [hx]
  refine forRangeO_invariant (A0.forwardInv r) _ _ _ A hA (fun a A' ha1 ha2 hA' => ?_)
  have hx' : A'.xmax = A0.xmax := hA'.1.2.2.1
  have hI' : A'.I = A0.I := hA'.1.2.1
  by_cases hth : A'.F (j - 1) a < th
  · rw [if_pos hth]
    exact ⟨A', rfl, hA'⟩
  · rw [if_neg hth, hx', hI']
    exact forRangeO_invariant (A0.forwardInv r) _ _ _ A' hA'
      (fun y A'' hy1 hy2 hA'' => forward_event_inv A0 r j a y A'' hA'' ha1 ha2 hy1 hy2)

/-- A step of the forward pass runs and keeps the invariant of the pass. -/
theorem forward_step_inv (A0 : OldFba G) (r : Vec G) (j : Int) (A : OldFba G)
    (hA : A0.forwardInv r A) :
    ∃ A', forward_step r j A = some A' ∧ A0.forwardInv r A' := by
  obtain ⟨A1, e1, i1⟩ := forward_events_inv A0 r j
    (forRange (-A.xmax) A.xmax
      (fun a threshold => if A.F (j - 1) a > threshold then A.F (j - 1) a else threshold) 0
      * A.th_inner) A hA
  unfold forward_step
  dsimp only
  rw [e1, Option.map_some']
  by_cases hn : A1.normalize = true
  · rw [if_pos hn]
    exact ⟨_, rfl, forward_normalize_inv A0 r j A1 i1⟩
  · rw [if_neg hn]
    exact ⟨_, rfl, i1⟩

/-- The forward pass runs, whatever the object and the received vector, and its result has
the invariant of the pass. -/
theorem work_forward_inv (A : OldFba G) (r : Vec G) :
    ∃ res, A.work_forward r = some res ∧ A.forwardInv r res := by
  unfold work_forward
  dsimp only
  refine forRangeO_invariant (A.forwardInv r) _ _ _ _ ?_
    (fun j A' _ _ hA' => forward_step_inv A r j A' hA')
  have hsetup : ∀ A1 : OldFba G, A.sameSetup A1 → A1.mB = A.mB →
      A1.bwd_visited = A.bwd_visited → A1.bwd_sums = A.bwd_sums →
      A.forwardInv r (setF { A1 with mF := fun _ _ => 0, fwd_visited := [], fwd_sums := [] }
        0 0 1) := by
    intro A1 h1 h2 h3 h4
    refine ⟨h1, h2, h3, h4, fun t ht => absurd ht (List.not_mem_nil t), fun _ j y hy => ?_⟩
    show Function.update (fun _ _ => (0 : ℚ)) (0 : Int)
      (Function.update (fun _ => (0 : ℚ)) (0 : Int) 1) j y = 0
    by_cases hj : j = 0
    · rw [hj, Function.update_same, Function.update_noteq hy]
    · rw [Function.update_noteq hj]
  cases hi : A.initialised
  · exact hsetup _ ⟨rfl, rfl, rfl, rfl, rfl, rfl, rfl⟩ rfl rfl rfl
  · exact hsetup _ ⟨rfl, rfl, rfl, rfl, rfl, rfl, rfl⟩ rfl rfl rfl

end OldFba

namespace OldFba

variable {G : Type}

/-- A backward event within the loop bounds runs and keeps the invariant of the pass. -/
theorem backward_event_inv (A0 : OldFba G) (r : Vec G) (j b y : Int) (A : OldFba G)
    (hA : A0.backwardInv r A) (hb1 : -A0.xmax ≤ b)
    (hb2 : b ≤ min A0.xmax ((r.size : Int) - j - 1))
    (hy1 : max (max (-A0.xmax) (b - A0.I)) (-j) ≤ y) (hy2 : y ≤ min A0.xmax (b + 1)) :
    ∃ A', backward_event r j b y A = some A' ∧ A0.backwardInv r A' := by
  obtain ⟨hset, hF, hfv, hfs, hvis⟩ := hA
  unfold backward_event
  rw [Vec.extract_isSome r (j + y) (b - y + 1) (by omega) (by omega), Option.map_some']
  refine ⟨_, rfl, hset, hF, hfv, hfs, ?_⟩
  intro t ht
  rcases List.mem_cons.mp ht with e | e
  · rw [e]
    unfold fitsBackward
    dsimp only
    omega
  · exact hvis t e

/-- The normalisation of a row of `B` keeps the invariant of the backward pass. -/
theorem backward_normalize_inv (A0 : OldFba G) (r : Vec G) (j : Int) (A : OldFba G)
    (hA : A0.backwardInv r A) : A0.backwardInv r (backward_normalize j A) := by
  unfold backward_normalize
  dsimp only
  exact forRange_invariant (A0.backwardInv r) _ _ _ _ hA (fun y A' _ _ hA' => hA')

/-- The loops over `b` and `y` of a backward step run and keep the invariant of the pass,
whatever the threshold. -/
theorem backward_events_inv (A0 : OldFba G) (r : Vec G) (j : Int) (th : ℚ) (A : OldFba G)
    (hA : A0.backwardInv r A) :
    ∃ A', forRangeO (-A.xmax) (min A.xmax ((r.size : Int) - j - 1)) (fun b (A : OldFba G) =>
        if A.B (j + 1) b < th then some A
        else forRangeO (max (max (-A.xmax) (b - A.I)) (-j)) (min A.xmax (b + 1))
          (backward_event r j b) A) A
        = some A' ∧ A0.backwardInv r A' := by
  have hx : A.xmax = A0.xmax := hA.1.2.2.1
  rw [hx]
  refine forRangeO_invariant (A0.backwardInv r) _ _ _ A hA (fun b A' hb1 hb2 hA' => ?_)
  have hx' : A'.xmax = A0.xmax := hA'.1.2.2.1
  have hI' : A'.I = A0.I := hA'.1.2.1
  by_cases hth : A'.B (j + 1) b < th
  · rw [if_pos hth]
    exact ⟨A', rfl, hA'⟩
  · rw [if_neg hth, hx', hI']
    exact forRangeO_invariant (A0.backwardInv r) _ _ _ A' hA'
      (fun y A'' hy1 hy2 hA'' => backward_event_inv A0 r j b y A'' hA'' hb1 hb2 hy1 hy2)

/-- A step of the backward pass runs and keeps the invariant of the pass. -/
theorem backward_step_inv (A0 : OldFba G) (r : Vec G) (j : Int) (A : OldFba G)
    (hA : A0.backwardInv r A) :
    ∃ A', backward_step r j A = some A' ∧ A0.backwardInv r A' := by
  obtain ⟨A1, e1, i1⟩ := backward_events_inv A0 r j
    (forRange (-A.xmax) A.xmax
      (fun b threshold => if A.B (j + 1) b > threshold then A.B (j + 1) b else threshold) 0
      * A.th_inner) A hA
  unfold backward_step
  dsimp only
  rw [e1, Option.map_some']
  by_cases hn : A1.normalize = true
  · rw [if_pos hn]
    exact ⟨_, rfl, backward_normalize_inv A0 r j A1 i1⟩
  · rw [if_neg hn]
    exact ⟨_, rfl, i1⟩

/-- The backward pass fails on the check of the received length; when the check holds it
runs and its result has the invariant of the pass. -/
theorem work_backward_inv (A : OldFba G) (r : Vec G) :
    (¬ |(r.size : Int) - A.tau| ≤ A.xmax → A.work_backward r = none) ∧
      (|(r.size : Int) - A.tau| ≤ A.xmax →
        ∃ res, A.work_backward r = some res ∧ A.backwardInv r res) := by
  have hsetup : ∀ A1 : OldFba G, A.sameSetup A1 → A1.mF = A.mF →
      A1.fwd_visited = A.fwd_visited → A1.fwd_sums = A.fwd_sums →
      A.backwardInv r (setB { A1 with mB := fun _ _ => 0, bwd_visited := [], bwd_sums := [] }
        A.tau ((r.size : Int) - A.tau) 1) :=
    fun A1 h1 h2 h3 h4 => ⟨h1, h2, h3, h4, fun t ht => absurd ht (List.not_mem_nil t)⟩
  refine ⟨fun h => ?_, fun h => ?_⟩
  · unfold work_backward
    dsimp only
    cases hi : A.initialised
    · exact if_pos h
    · exact if_pos h
  · unfold work_backward
    dsimp only
    cases hi : A.initialised
    · show ∃ res, (if ¬ |(r.size : Int) - A.tau| ≤ A.xmax then none else _) = some res ∧ _
      rw [if_neg (not_not_intro h)]
      exact forRangeDownO_invariant (A.backwardInv r) _ _ _ _
        (hsetup _ ⟨rfl, rfl, rfl, rfl, rfl, rfl, rfl⟩ rfl rfl rfl)
        (fun j A' _ _ hA' => backward_step_inv A r j A' hA')
    · show ∃ res, (if ¬ |(r.size : Int) - A.tau| ≤ A.xmax then none else _) = some res ∧ _
      rw [if_neg (not_not_intro h)]
      exact forRangeDownO_invariant (A.backwardInv r) _ _ _ _
        (hsetup _ ⟨rfl, rfl, rfl, rfl, rfl, rfl, rfl⟩ rfl rfl rfl)
        (fun j A' _ _ hA' => backward_step_inv A r j A' hA')

end OldFba

/-- C30: the passes of the old forward-backward algorithm visit only events that fit the
received sequence. `work_forward` runs to its end on every object and every received vector,
and every triple `(j, a, y)` at which its innermost statement runs has
`-xmax <= a, y <= xmax`, `j - 1 + a >= 0`, `j + y <= r.size()` and `-1 <= y - a <= I`, so that
its call `r.extract(j - 1 + a, y - a + 1)` has a start of at least 0, a length of at least 0
and an end of at most `r.size()`. `work_backward` fails exactly on its check of the received
length; otherwise every triple `(j, y, b)` at which its innermost statement runs has
`-xmax <= y, b <= xmax`, `j + y >= 0`, `j + b + 1 <= r.size()` and `-1 <= b - y <= I`, and
its call `r.extract(j + y, b - y + 1)` has a start of at least 0, a length of at least 0 and
an end of at most `r.size()`. -/
theorem old_fba_events_fit {G : Type} (A : OldFba G) (r : Vec G) :
    (∃ res, A.work_forward r = some res ∧
      ∀ j a y, (j, a, y) ∈ res.fwd_visited →
        (-A.xmax ≤ a ∧ a ≤ A.xmax ∧ -A.xmax ≤ y ∧ y ≤ A.xmax ∧
          0 ≤ j - 1 + a ∧ j + y ≤ (r.size : Int) ∧ -1 ≤ y - a ∧ y - a ≤ A.I) ∧
        (0 ≤ j - 1 + a ∧ 0 ≤ y - a + 1 ∧ (j - 1 + a) + (y - a + 1) ≤ (r.size : Int))) ∧
    (A.work_backward r = none ↔ ¬ |(r.size : Int) - A.tau| ≤ A.xmax) ∧
    (∀ res, A.work_backward r = some res →
      ∀ j y b, (j, y, b) ∈ res.bwd_visited →
        (-A.xmax ≤ y ∧ y ≤ A.xmax ∧ -A.xmax ≤ b ∧ b ≤ A.xmax ∧
          0 ≤ j + y ∧ j + b + 1 ≤ (r.size : Int) ∧ -1 ≤ b - y ∧ b - y ≤ A.I) ∧
        (0 ≤ j + y ∧ 0 ≤ b - y + 1 ∧ (j + y) + (b - y + 1) ≤ (r.size : Int))) := by
  refine ⟨?_, ⟨fun h => ?_, (OldFba.work_backward_inv A r).1⟩, fun res hres j y b hv => ?_⟩
  · obtain ⟨res, e, inv⟩ := OldFba.work_forward_inv A r
    refine ⟨res, e, fun j a y hv => ?_⟩
    have hfit := inv.2.2.2.2.1 (j, a, y) hv
    unfold OldFba.fitsForward at hfit
    dsimp only at hfit
    exact ⟨hfit, by omega⟩
  · intro hc
    obtain ⟨res, e, _⟩ := (OldFba.work_backward_inv A r).2 hc
    rw [h] at e
    exact Option.noConfusion e
  · by_cases hc : |(r.size : Int) - A.tau| ≤ A.xmax
    · obtain ⟨res', e, inv⟩ := (OldFba.work_backward_inv A r).2 hc
      rw [hres] at e
      have hr : res = res' := Option.some.inj e
      subst hr
      have hfit := inv.2.2.2.2 (j, y, b) hv
      unfold OldFba.fitsBackward at hfit
      dsimp only at hfit
      exact ⟨hfit, by omega⟩
    · rw [(OldFba.work_backward_inv A r).1 hc] at hres
      exact Option.noConfusion hres

/-- On the example object the forward pass visits twelve events and the backward pass
seventeen. -/
theorem exampleOldFba_visits :
    (exampleOldFba.work_forward exampleBits).map (fun A => A.fwd_visited.length) = some 12 ∧
      (exampleOldFba.work_backward exampleBits).map (fun A => A.bwd_visited.length)
        = some 17 := by
  decide!

/-- C25: zero-noise drift concentration. With `Pd = Pi = 0` the drift metric `myfba::P(a, b)`
is 1 when `b = a` and 0 otherwise. For an object with this metric and every received vector,
`work_forward` runs to its end, and in every run in which no normalisation sum is zero the
forward metric `F(j, y)` is 0 for every `j` in `[0, tau)` and every drift `y != 0` in
`[-xmax, xmax]`; so is, after `prepare`, the drift posterior `F(j, y) * B(j, y)`. -/
theorem old_fba_zero_noise {G : Type} (A : OldFba G) (r : Vec G)
    (hP : A.P = myfba_P 0 0) :
    (∀ a b, A.P a b = if b = a then 1 else 0) ∧
    (∃ res, A.work_forward r = some res) ∧
    (∀ res, A.work_forward r = some res →
      (A.normalize = true → ∀ s, s ∈ res.fwd_sums → s ≠ 0) →
      ∀ j y, 0 ≤ j → j < A.tau → -A.xmax ≤ y → y ≤ A.xmax → y ≠ 0 → res.F j y = 0) ∧
    (∀ res, A.prepare r = some res →
      (A.normalize = true → ∀ s, s ∈ res.fwd_sums ++ res.bwd_sums → s ≠ 0) →
      ∀ j y, 0 ≤ j → j < A.tau → -A.xmax ≤ y → y ≤ A.xmax → y ≠ 0 →
        res.F j y = 0 ∧ res.F j y * res.B j y = 0) := by
  obtain ⟨res0, e0, inv0⟩ := OldFba.work_forward_inv A r
  refine ⟨fun a b => by rw [hP, myfba_P_zero], ⟨res0, e0⟩,
    fun res hres _ j y _ _ _ _ hy => ?_, fun res hres _ j y _ _ _ _ hy => ?_⟩
  · rw [e0] at hres
    have hr : res0 = res := Option.some.inj hres
    subst hr
    exact inv0.2.2.2.2.2 hP j y hy
  · unfold OldFba.prepare at hres
    rw [e0, Option.some_bind] at hres
    have hz : res.F j y = 0 := by
      by_cases hc : |(r.size : Int) - res0.tau| ≤ res0.xmax
      · obtain ⟨res', e, inv⟩ := (OldFba.work_backward_inv res0 r).2 hc
        rw [hres] at e
        have hr : res = res' := Option.some.inj e
        subst hr
        show res.mF j y = 0
        rw [inv.2.1]
        exact inv0.2.2.2.2.2 hP j y hy
      · rw [(OldFba.work_backward_inv res0 r).1 hc] at hres
        exact Option.noConfusion hres
    exact ⟨hz, by rw [hz, zero_mul]⟩

/-- On the example object `prepare` runs to its end. -/
theorem exampleOldFba_prepares : (exampleOldFba.prepare exampleBits).isSome = true := by
  decide!

/-- Witness for C25: three symbols received without deletions and insertions. -/
theorem old_fba_zero_noise_witness :
    exampleOldFba.P = myfba_P 0 0 ∧
      ∃ res, exampleOldFba.prepare exampleBits = some res ∧
        ∀ j y, 0 ≤ j → j < 3 → -1 ≤ y → y ≤ 1 → y ≠ 0 →
          res.F j y = 0 ∧ res.F j y * res.B j y = 0 :=
  ⟨rfl, Option.get _ exampleOldFba_prepares, (Option.some_get exampleOldFba_prepares).symm,
    (old_fba_zero_noise exampleOldFba exampleBits rfl).2.2.2
      (Option.get _ exampleOldFba_prepares) (Option.some_get exampleOldFba_prepares).symm
      (fun _ => by decide!)⟩

/-! ## Allocation of the working matrices of the BCJR decoder -/

namespace Bcjr

end Bcjr

theorem forUp_snd {α β : Type} (f : Nat → α × β → α × β) (g : Nat → β → β)
    (h : ∀ k s, (f k s).2 = g k s.2) (n : Nat) (s : α × β) :
    (forUp n f s).2 = forUp n g s.2 := by
  induction n with
  | zero => rfl
  | succ n ih => rw [forUp_succ, forUp_succ, h, ih]

/-- A loop `for (i = 0; i < n; i++) a(t, X(i)) += d(i)`: every element of row `t` gains the
sum of the `d(i)` whose `X(i)` is its column. -/
theorem scatterAdd_inner (t : Nat) (X : Nat → Nat) (d : Nat → ℚ) (a : Matrix) (n : Nat) :
    (forUp n (fun i a => a.set t (X i) (a.val t (X i) + d i)) a).xsize = a.xsize ∧
    (forUp n (fun i a => a.set t (X i) (a.val t (X i) + d i)) a).ysize = a.ysize ∧
    ∀ t' x, (forUp n (fun i a => a.set t (X i) (a.val t (X i) + d i)) a).val t' x =
      a.val t' x + if t' = t then ∑ i in Finset.range n, (if X i = x then d i else 0)
        else 0 := by
  induction n with
  | zero => exact ⟨rfl, rfl, fun t' x => by simp [forUp]⟩
  | succ n ih =>
    obtain ⟨h1, h2, h3⟩ := ih
    rw [forUp_succ]
    refine ⟨h1, h2, fun t' x => ?_⟩
    rw [Matrix.set_val, Finset.sum_range_succ]
    by_cases ht : t' = t
    · subst ht
      by_cases hx : x = X n
      · subst hx
        rw [if_pos ⟨rfl, rfl⟩, h3, if_pos rfl, if_pos rfl, if_pos rfl, add_assoc]
      · rw [if_neg (fun h => hx h.2), h3, if_pos rfl, if_pos rfl,
          if_neg (fun h => hx h.symm), add_zero]
    · rw [if_neg (fun h => ht h.1), h3, if_neg ht, if_neg ht]

/-- The loop over the states around `scatterAdd_inner`. -/
theorem scatterAdd_middle (t K : Nat) (X : Nat → Nat → Nat) (d : Nat → Nat → ℚ) (a : Matrix)
    (n : Nat) :
    (forUp n (fun m a => forUp K (fun i a =>
      a.set t (X m i) (a.val t (X m i) + d m i)) a) a).xsize = a.xsize ∧
    (forUp n (fun m a => forUp K (fun i a =>
      a.set t (X m i) (a.val t (X m i) + d m i)) a) a).ysize = a.ysize ∧
    ∀ t' x, (forUp n (fun m a => forUp K (fun i a =>
      a.set t (X m i) (a.val t (X m i) + d m i)) a) a).val t' x =
      a.val t' x + if t' = t then
        ∑ m in Finset.range n, ∑ i in Finset.range K, (if X m i = x then d m i else 0)
        else 0 := by
  induction n with
  | zero => exact ⟨rfl, rfl, fun t' x => by simp [forUp]⟩
  | succ n ih =>
    obtain ⟨h1, h2, h3⟩ := ih
    rw [forUp_succ]
    obtain ⟨k1, k2, k3⟩ := scatterAdd_inner t (X n) (d n)
      (forUp n (fun m a => forUp K (fun i a =>
        a.set t (X m i) (a.val t (X m i) + d m i)) a) a) K
    refine ⟨k1.trans h1, k2.trans h2, fun t' x => ?_⟩
    rw [k3, h3, Finset.sum_range_succ]
    by_cases ht : t' = t
    · rw [if_pos ht, if_pos ht, if_pos ht, add_assoc]
    · rw [if_neg ht, if_neg ht, if_neg ht, add_zero]

/-- The loop over the time steps around `scatterAdd_middle`. -/
theorem scatterAdd_outer (M K : Nat) (X : Nat → Nat → Nat) (d : Nat → Nat → Nat → ℚ)
    (a : Matrix) (n : Nat) :
    (forUp n (fun t a => forUp M (fun m a => forUp K (fun i a =>
      a.set t (X m i) (a.val t (X m i) + d t m i)) a) a) a).xsize = a.xsize ∧
    (forUp n (fun t a => forUp M (fun m a => forUp K (fun i a =>
      a.set t (X m i) (a.val t (X m i) + d t m i)) a) a) a).ysize = a.ysize ∧
    ∀ t' x, (forUp n (fun t a => forUp M (fun m a => forUp K (fun i a =>
      a.set t (X m i) (a.val t (X m i) + d t m i)) a) a) a).val t' x =
      a.val t' x + if t' < n then
        ∑ m in Finset.range M, ∑ i in Finset.range K, (if X m i = x then d t' m i else 0)
        else 0 := by
  induction n with
  | zero => exact ⟨rfl, rfl, fun t' x => by simp [forUp]⟩
  | succ n ih =>
    obtain ⟨h1, h2, h3⟩ := ih
    rw [forUp_succ]
    obtain ⟨k1, k2, k3⟩ := scatterAdd_middle n K X (d n)
      (forUp n (fun t a => forUp M (fun m a => forUp K (fun i a =>
        a.set t (X m i) (a.val t (X m i) + d t m i)) a) a) a) M
    refine ⟨k1.trans h1, k2.trans h2, fun t' x => ?_⟩
    rw [k3, h3]
    by_cases ht : t' = n
    · subst ht
      rw [if_neg (lt_irrefl t'), if_pos rfl, if_pos (Nat.lt_succ_self t'), add_zero]
    · rw [if_neg ht, add_zero]
      by_cases hlt : t' < n
      · rw [if_pos hlt, if_pos (Nat.lt_succ_of_lt hlt)]
      · rw [if_neg hlt, if_neg (by omega)]

/-- The output posteriors written by `work_results(ri, ro)`. -/
theorem work_results_snd (b : Bcjr) (ri ro : Matrix) :
    (b.work_results ri ro).2 =
      forUp b.tau (fun t a => forUp b.M (fun m a =>
        forUp b.K (fun i a =>
          a.set t (b.lut_X m i)
            (a.val t (b.lut_X m i) + b.sigma (t + 1) m i / b.work_results_Py)) a) a)
        (ro.fill 0) := by
  unfold Bcjr.work_results
  dsimp only
  rw [forUp_snd _ (fun t a => forUp b.M (fun m a =>
        forUp b.K (fun i a =>
          a.set t (b.lut_X m i)
            (a.val t (b.lut_X m i) + b.sigma (t + 1) m i / b.work_results_Py)) a) a)]
  intro k s
  rw [forUp_snd _ (fun m a =>
        forUp b.K (fun i a =>
          a.set k (b.lut_X m i)
            (a.val k (b.lut_X m i) + b.sigma (k + 1) m i / b.work_results_Py)) a)]
  intro m s
  rw [forUp_snd _ (fun i a =>
          a.set k (b.lut_X m i)
            (a.val k (b.lut_X m i) + b.sigma (k + 1) m i / b.work_results_Py))]
  intro i s
  rfl

/-- The value of `ro(t, X)` after `work_results(ri, ro)`. -/
theorem work_results_ro_val (b : Bcjr) (ri ro : Matrix) (t x : Nat) :
    (b.work_results ri ro).2.val t x =
      (ro.fill 0).val t x + if t < b.tau then
        ∑ m in Finset.range b.M, ∑ i in Finset.range b.K,
          (if b.lut_X m i = x then b.sigma (t + 1) m i / b.work_results_Py else 0)
        else 0 := by
  rw [work_results_snd]
  exact (scatterAdd_outer b.M b.K b.lut_X
    (fun t m i => b.sigma (t + 1) m i / b.work_results_Py) (ro.fill 0) b.tau).2.2 t x

/-- The masses of the two result matrices of `work_results(ri, ro)` agree. -/
theorem work_results_mass (b : Bcjr) (ri ro : Matrix)
    (hX : ∀ m i, m < b.M → i < b.K → b.lut_X m i < b.N)
    (hri : b.tau ≤ ri.xsize ∧ b.K ≤ ri.ysize) (hro : b.tau ≤ ro.xsize ∧ b.N ≤ ro.ysize)
    (t : Nat) (ht : t < b.tau) :
    (∀ i, i < b.K → (b.work_results ri ro).1.val t i =
      ∑ m in Finset.range b.M, b.sigma (t + 1) m i / b.work_results_Py) ∧
    (∀ x, x < b.N → (b.work_results ri ro).2.val t x =
      ∑ m in Finset.range b.M, ∑ i in Finset.range b.K,
        (if b.lut_X m i = x then b.sigma (t + 1) m i / b.work_results_Py else 0)) ∧
    ∑ i in Finset.range b.K, (b.work_results ri ro).1.val t i =
      ∑ x in Finset.range b.N, (b.work_results ri ro).2.val t x := by
  have h1 : ∀ i, i < b.K → (b.work_results ri ro).1.val t i =
      ∑ m in Finset.range b.M, b.sigma (t + 1) m i / b.work_results_Py := by
    intro i hi
    rw [work_results_val, if_pos ⟨ht, hi⟩]
    have hz : (ri.fill 0).val t i = 0 := by
      unfold Matrix.fill
      dsimp only
      rw [if_pos ⟨by omega, by omega⟩]
    rw [hz, zero_add]
  have h2 : ∀ x, x < b.N → (b.work_results ri ro).2.val t x =
      ∑ m in Finset.range b.M, ∑ i in Finset.range b.K,
        (if b.lut_X m i = x then b.sigma (t + 1) m i / b.work_results_Py else 0) := by
    intro x hx
    rw [work_results_ro_val, if_pos ht]
    have hz : (ro.fill 0).val t x = 0 := by
      unfold Matrix.fill
      dsimp only
      rw [if_pos ⟨by omega, by omega⟩]
    rw [hz, zero_add]
  refine ⟨h1, h2, ?_⟩
  rw [Finset.sum_congr rfl (fun i hi => h1 i (Finset.mem_range.mp hi)),
    Finset.sum_congr rfl (fun x hx => h2 x (Finset.mem_range.mp hx))]
  rw [Finset.sum_comm]
  rw [Finset.sum_comm (s := Finset.range b.N)]
  refine Finset.sum_congr rfl (fun m hm => ?_)
  rw [Finset.sum_comm (s := Finset.range b.N)]
  refine Finset.sum_congr rfl (fun i hi => ?_)
  rw [Finset.sum_ite_eq]
  rw [if_pos (Finset.mem_range.mpr (hX m i (Finset.mem_range.mp hm) (Finset.mem_range.mp hi)))]

/-- C32: input and output posteriors carry the same mass. For an allocated decoder whose
table `lut_X` maps into `[0, N)` and result matrices that hold at least `tau x K` and
`tau x N` entries, `decode(R, ri, ro)` and `decode(R, app, ri, ro)` return, and afterwards
`sum_i ri(t, i) = sum_X ro(t, X)` for every `t` in `[0, tau)`, where `ro(t, X)` is the sum of
`sigma(t + 1, m, i) / Py` over exactly the pairs `(m, i)` of a state and an input with
`lut_X(m, i) = X`, and `ri(t, i)` is the sum of the same terms over the states `m`. -/
theorem posteriors_same_mass (b : Bcjr) (R app ri ro : Matrix) (hinit : b.initialised = true)
    (hX : ∀ m i, m < b.M → i < b.K → b.lut_X m i < b.N)
    (hri : b.tau ≤ ri.xsize ∧ b.K ≤ ri.ysize) (hro : b.tau ≤ ro.xsize ∧ b.N ≤ ro.ysize) :
    (∃ res, b.decode R ri ro = some res) ∧ (∃ res, b.decode_app R app ri ro = some res) ∧
    ∀ res, (b.decode R ri ro = some res ∨ b.decode_app R app ri ro = some res) →
      ∀ t, t < b.tau →
        ∑ i in Finset.range b.K, res.2.1.val t i = ∑ x in Finset.range b.N, res.2.2.val t x ∧
        (∀ x, x < b.N → res.2.2.val t x =
          ∑ m in Finset.range b.M, ∑ i in Finset.range b.K,
            (if b.lut_X m i = x then res.1.sigma (t + 1) m i / res.1.work_results_Py
              else 0)) ∧
        ∀ i, i < b.K → res.2.1.val t i =
          ∑ m in Finset.range b.M, res.1.sigma (t + 1) m i / res.1.work_results_Py := by
  have key : ∀ b3 : Bcjr, b3.tau = b.tau → b3.K = b.K → b3.N = b.N → b3.M = b.M →
      b3.lut_X = b.lut_X → ∀ t, t < b.tau →
        ∑ i in Finset.range b.K, (b3.work_results ri ro).1.val t i =
          ∑ x in Finset.range b.N, (b3.work_results ri ro).2.val t x ∧
        (∀ x, x < b.N → (b3.work_results ri ro).2.val t x =
          ∑ m in Finset.range b.M, ∑ i in Finset.range b.K,
            (if b.lut_X m i = x then b3.sigma (t + 1) m i / b3.work_results_Py else 0)) ∧
        ∀ i, i < b.K → (b3.work_results ri ro).1.val t i =
          ∑ m in Finset.range b.M, b3.sigma (t + 1) m i / b3.work_results_Py := by
    intro b3 e1 e2 e3 e4 e5 t ht
    have hX3 : ∀ m i, m < b3.M → i < b3.K → b3.lut_X m i < b3.N := by
      rw [e2, e3, e4, e5]
      exact hX
    obtain ⟨m1, m2, m3⟩ := work_results_mass b3 ri ro hX3 (by rw [e1, e2]; exact hri)
      (by rw [e1, e3]; exact hro) t (by rw [e1]; exact ht)
    rw [e2, e3, e4, e5] at m2
    rw [e2, e3] at m3
    rw [e2, e4] at m1
    exact ⟨m3, m2, m1⟩
  have hd : b.decode R ri ro = some (((b.work_gamma R).work_alpha).work_beta,
      ((((b.work_gamma R).work_alpha).work_beta).work_results ri ro).1,
      ((((b.work_gamma R).work_alpha).work_beta).work_results ri ro).2) := by
    unfold Bcjr.decode
    rw [if_pos hinit]
  have hda : b.decode_app R app ri ro = some (((b.work_gamma_app R app).work_alpha).work_beta,
      ((((b.work_gamma_app R app).work_alpha).work_beta).work_results ri ro).1,
      ((((b.work_gamma_app R app).work_alpha).work_beta).work_results ri ro).2) := by
    unfold Bcjr.decode_app
    rw [if_pos hinit]
  refine ⟨⟨_, hd⟩, ⟨_, hda⟩, fun res hres t ht => ?_⟩
  rcases hres with h | h
  · rw [hd] at h
    rw [← Option.some.inj h]
    exact key (((b.work_gamma R).work_alpha).work_beta) rfl rfl rfl rfl rfl t ht
  · rw [hda] at h
    rw [← Option.some.inj h]
    exact key (((b.work_gamma_app R app).work_alpha).work_beta) rfl rfl rfl rfl rfl t ht

/-- Witness for C32: the example decoder with a strictly positive channel table. -/
theorem posteriors_same_mass_witness :
    exampleBcjr.initialised = true ∧
    ∃ res, exampleBcjr.decode exampleRpos exampleRi exampleRo = some res ∧
      ∀ t, t < exampleBcjr.tau →
        ∑ i in Finset.range exampleBcjr.K, res.2.1.val t i =
          ∑ x in Finset.range exampleBcjr.N, res.2.2.val t x :=
  have h := posteriors_same_mass exampleBcjr exampleRpos exampleOnes exampleRi exampleRo
    (by decide!)
    (fun m i hm hi =>
      (by decide! : ∀ m, m < 2 → ∀ i, i < 2 → exampleBcjr.lut_X m i < 4) m hm i hi)
    ⟨by decide!, by decide!⟩ ⟨by decide!, by decide!⟩
  ⟨by decide!, h.1.imp (fun res hr => ⟨hr, fun t ht => (h.2.2 res (Or.inl hr) t ht).1⟩)⟩

/-! ## Extreme elements of a vector -/

/-- The loop of `vector::max(index, getfirst)` after `n` rounds: the state is the largest of
the elements `0..n` and a position that holds it, the first or the last such position. -/
theorem max_index_loop {G : Type} [LinearOrder G] (v : Vec G) (getfirst : Bool) (n : Nat) :
    (forUp n (fun k (st : G × Nat) =>
        if v.val (k + 1) > st.1 then (v.val (k + 1), k + 1)
        else if getfirst = false ∧ v.val (k + 1) = st.1 then (st.1, k + 1)
        else st) (v.val 0, 0)).2 ≤ n ∧
    v.val (forUp n (fun k (st : G × Nat) =>
        if v.val (k + 1) > st.1 then (v.val (k + 1), k + 1)
        else if getfirst = false ∧ v.val (k + 1) = st.1 then (st.1, k + 1)
        else st) (v.val 0, 0)).2 =
      (forUp n (fun k (st : G × Nat) =>
        if v.val (k + 1) > st.1 then (v.val (k + 1), k + 1)
        else if getfirst = false ∧ v.val (k + 1) = st.1 then (st.1, k + 1)
        else st) (v.val 0, 0)).1 ∧
    (∀ i, i ≤ n → v.val i ≤ (forUp n (fun k (st : G × Nat) =>
        if v.val (k + 1) > st.1 then (v.val (k + 1), k + 1)
        else if getfirst = false ∧ v.val (k + 1) = st.1 then (st.1, k + 1)
        else st) (v.val 0, 0)).1) ∧
    (getfirst = true → ∀ i, i < (forUp n (fun k (st : G × Nat) =>
        if v.val (k + 1) > st.1 then (v.val (k + 1), k + 1)
        else if getfirst = false ∧ v.val (k + 1) = st.1 then (st.1, k + 1)
        else st) (v.val 0, 0)).2 →
      v.val i ≠ (forUp n (fun k (st : G × Nat) =>
        if v.val (k + 1) > st.1 then (v.val (k + 1), k + 1)
        else if getfirst = false ∧ v.val (k + 1) = st.1 then (st.1, k + 1)
        else st) (v.val 0, 0)).1) ∧
    (getfirst = false → ∀ i, (forUp n (fun k (st : G × Nat) =>
        if v.val (k + 1) > st.1 then (v.val (k + 1), k + 1)
        else if getfirst = false ∧ v.val (k + 1) = st.1 then (st.1, k + 1)
        else st) (v.val 0, 0)).2 < i → i ≤ n →
      v.val i ≠ (forUp n (fun k (st : G × Nat) =>
        if v.val (k + 1) > st.1 then (v.val (k + 1), k + 1)
        else if getfirst = false ∧ v.val (k + 1) = st.1 then (st.1, k + 1)
        else st) (v.val 0, 0)).1) := by
  induction n with
  | zero =>
    refine ⟨le_refl 0, rfl, fun i hi => ?_, fun _ i hi => absurd hi (Nat.not_lt_zero i),
      fun _ i h1 h2 => ?_⟩
    · have e : i = 0 := by omega
      rw [e]
      exact le_refl _
    · exact absurd (Nat.lt_of_lt_of_le h1 h2) (lt_irrefl 0)
  | succ n ih =>
    rw [forUp_succ]
    generalize forUp n (fun k (st : G × Nat) =>
        if v.val (k + 1) > st.1 then (v.val (k + 1), k + 1)
        else if getfirst = false ∧ v.val (k + 1) = st.1 then (st.1, k + 1)
        else st) (v.val 0, 0) = st at ih
    obtain ⟨h1, h2, h3, h4, h5⟩ := ih
    by_cases c1 : v.val (n + 1) > st.1
    · rw [if_pos c1]
      refine ⟨le_refl _, rfl, fun i hi => ?_, fun _ i hi => ?_, fun _ i hi hi' => ?_⟩
      · by_cases e : i = n + 1
        · rw [e]
        · exact le_of_lt (lt_of_le_of_lt (h3 i (by omega)) c1)
      · exact ne_of_lt (lt_of_le_of_lt (h3 i (Nat.lt_succ_iff.mp hi)) c1)
      · exact absurd (Nat.lt_of_lt_of_le hi hi') (lt_irrefl _)
    · rw [if_neg c1]
      have hle : v.val (n + 1) ≤ st.1 := not_lt.mp c1
      by_cases c2 : getfirst = false ∧ v.val (n + 1) = st.1
      · rw [if_pos c2]
        refine ⟨le_refl _, c2.2, fun i hi => ?_, fun hg => ?_, fun _ i hi hi' => ?_⟩
        · by_cases e : i = n + 1
          · rw [e]
            exact hle
          · exact h3 i (by omega)
        · rw [c2.1] at hg
          exact Bool.noConfusion hg
        · exact absurd (Nat.lt_of_lt_of_le hi hi') (lt_irrefl _)
      · rw [if_neg c2]
        refine ⟨Nat.le_succ_of_le h1, h2, fun i hi => ?_, h4, fun hg i hi hi' => ?_⟩
        · by_cases e : i = n + 1
          · rw [e]
            exact hle
          · exact h3 i (by omega)
        · by_cases e : i = n + 1
          · rw [e]
            exact fun hv => c2 ⟨hg, hv⟩
          · exact h5 hg i hi (by omega)

/-- The loop of `vector::min(index, getfirst)` after `n` rounds: the state is the smallest
of the elements `0..n` and a position that holds it, the first or the last such position. -/
theorem min_index_loop {G : Type} [LinearOrder G] (v : Vec G) (getfirst : Bool) (n : Nat) :
    (forUp n (fun k (st : G × Nat) =>
        if v.val (k + 1) < st.1 then (v.val (k + 1), k + 1)
        else if getfirst = false ∧ v.val (k + 1) = st.1 then (st.1, k + 1)
        else st) (v.val 0, 0)).2 ≤ n ∧
    v.val (forUp n (fun k (st : G × Nat) =>
        if v.val (k + 1) < st.1 then (v.val (k + 1), k + 1)
        else if getfirst = false ∧ v.val (k + 1) = st.1 then (st.1, k + 1)
        else st) (v.val 0, 0)).2 =
      (forUp n (fun k (st : G × Nat) =>
        if v.val (k + 1) < st.1 then (v.val (k + 1), k + 1)
        else if getfirst = false ∧ v.val (k + 1) = st.1 then (st.1, k + 1)
        else st) (v.val 0, 0)).1 ∧
    (∀ i, i ≤ n → (forUp n (fun k (st : G × Nat) =>
        if v.val (k + 1) < st.1 then (v.val (k + 1), k + 1)
        else if getfirst = false ∧ v.val (k + 1) = st.1 then (st.1, k + 1)
        else st) (v.val 0, 0)).1 ≤ v.val i) ∧
    (getfirst = true → ∀ i, i < (forUp n (fun k (st : G × Nat) =>
        if v.val (k + 1) < st.1 then (v.val (k + 1), k + 1)
        else if getfirst = false ∧ v.val (k + 1) = st.1 then (st.1, k + 1)
        else st) (v.val 0, 0)).2 →
      v.val i ≠ (forUp n (fun k (st : G × Nat) =>
        if v.val (k + 1) < st.1 then (v.val (k + 1), k + 1)
        else if getfirst = false ∧ v.val (k + 1) = st.1 then (st.1, k + 1)
        else st) (v.val 0, 0)).1) ∧
    (getfirst = false → ∀ i, (forUp n (fun k (st : G × Nat) =>
        if v.val (k + 1) < st.1 then (v.val (k + 1), k + 1)
        else if getfirst = false ∧ v.val (k + 1) = st.1 then (st.1, k + 1)
        else st) (v.val 0, 0)).2 < i → i ≤ n →
      v.val i ≠ (forUp n (fun k (st : G × Nat) =>
        if v.val (k + 1) < st.1 then (v.val (k + 1), k + 1)
        else if getfirst = false ∧ v.val (k + 1) = st.1 then (st.1, k + 1)
        else st) (v.val 0, 0)).1) := by
  induction n with
  | zero =>
    refine ⟨le_refl 0, rfl, fun i hi => ?_, fun _ i hi => absurd hi (Nat.not_lt_zero i),
      fun _ i h1 h2 => ?_⟩
    · have e : i = 0 := by omega
      rw [e]
      exact le_refl _
    · exact absurd (Nat.lt_of_lt_of_le h1 h2) (lt_irrefl 0)
  | succ n ih =>
    rw [forUp_succ]
    generalize forUp n (fun k (st : G × Nat) =>
        if v.val (k + 1) < st.1 then (v.val (k + 1), k + 1)
        else if getfirst = false ∧ v.val (k + 1) = st.1 then (st.1, k + 1)
        else st) (v.val 0, 0) = st at ih
    obtain ⟨h1, h2, h3, h4, h5⟩ := ih
    by_cases c1 : v.val (n + 1) < st.1
    · rw [if_pos c1]
      refine ⟨le_refl _, rfl, fun i hi => ?_, fun _ i hi => ?_, fun _ i hi hi' => ?_⟩
      · by_cases e : i = n + 1
        · rw [e]
        · exact le_of_lt (lt_of_lt_of_le c1 (h3 i (by omega)))
      · exact ne_of_gt (lt_of_lt_of_le c1 (h3 i (Nat.lt_succ_iff.mp hi)))
      · exact absurd (Nat.lt_of_lt_of_le hi hi') (lt_irrefl _)
    · rw [if_neg c1]
      have hle : st.1 ≤ v.val (n + 1) := not_lt.mp c1
      by_cases c2 : getfirst = false ∧ v.val (n + 1) = st.1
      · rw [if_pos c2]
        refine ⟨le_refl _, c2.2, fun i hi => ?_, fun hg => ?_, fun _ i hi hi' => ?_⟩
        · by_cases e : i = n + 1
          · rw [e]
            exact hle
          · exact h3 i (by omega)
        · rw [c2.1] at hg
          exact Bool.noConfusion hg
        · exact absurd (Nat.lt_of_lt_of_le hi hi') (lt_irrefl _)
      · rw [if_neg c2]
        refine ⟨Nat.le_succ_of_le h1, h2, fun i hi => ?_, h4, fun hg i hi hi' => ?_⟩
        · by_cases e : i = n + 1
          · rw [e]
            exact hle
          · exact h3 i (by omega)
        · by_cases e : i = n + 1
          · rw [e]
            exact fun hv => c2 ⟨hg, hv⟩
          · exact h5 hg i hi (by omega)

/-- C37: `vector::max(index, getfirst)` and `vector::min(index, getfirst)` return the extreme
element of a non-empty vector together with its position. The returned value is at least
(at most) every element, the element at `index` is the returned value, `index` is the first
position that holds this value when `getfirst` is true and the last when it is false; both
fail on an empty vector. -/
theorem vector_extreme_index {G : Type} [LinearOrder G] (v : Vec G) (getfirst : Bool) :
    (v.size = 0 → v.max_index getfirst = none ∧ v.min_index getfirst = none) ∧
    (0 < v.size →
      (∃ r idx, v.max_index getfirst = some (r, idx) ∧ idx < v.size ∧ v.val idx = r ∧
        (∀ i, i < v.size → v.val i ≤ r) ∧
        (getfirst = true → ∀ i, i < idx → v.val i ≠ r) ∧
        (getfirst = false → ∀ i, idx < i → i < v.size → v.val i ≠ r)) ∧
      ∃ r idx, v.min_index getfirst = some (r, idx) ∧ idx < v.size ∧ v.val idx = r ∧
        (∀ i, i < v.size → r ≤ v.val i) ∧
        (getfirst = true → ∀ i, i < idx → v.val i ≠ r) ∧
        (getfirst = false → ∀ i, idx < i → i < v.size → v.val i ≠ r)) := by
  refine ⟨fun h0 => ?_, fun hpos => ⟨?_, ?_⟩⟩
  · unfold Vec.max_index Vec.min_index
    rw [if_pos (by omega), if_pos (by omega)]
    exact ⟨rfl, rfl⟩
  · obtain ⟨h1, h2, h3, h4, h5⟩ := max_index_loop v getfirst (v.size - 1)
    refine ⟨_, _, ?_, by omega, h2, fun i hi => h3 i (by omega), h4,
      fun hg i hi hi' => h5 hg i hi (by omega)⟩
    unfold Vec.max_index
    rw [if_neg (by omega)]
  · obtain ⟨h1, h2, h3, h4, h5⟩ := min_index_loop v getfirst (v.size - 1)
    refine ⟨_, _, ?_, by omega, h2, fun i hi => h3 i (by omega), h4,
      fun hg i hi hi' => h5 hg i hi (by omega)⟩
    unfold Vec.min_index
    rw [if_neg (by omega)]

/-- Witness for C37 on the vector `(3, 7, 1, 7, 1)`: the largest element `7` is found at
position 1 or 3, the smallest element `1` at position 2 or 4. -/
theorem vector_extreme_index_witness :
    0 < exampleInts.size ∧
    exampleInts.max_index true = some (7, 1) ∧ exampleInts.max_index false = some (7, 3) ∧
    exampleInts.min_index true = some (1, 2) ∧ exampleInts.min_index false = some (1, 4) ∧
    ∃ r idx, exampleInts.max_index true = some (r, idx) ∧ idx < exampleInts.size ∧
      exampleInts.val idx = r ∧ (∀ i, i < exampleInts.size → exampleInts.val i ≤ r) ∧
      (true = true → ∀ i, i < idx → exampleInts.val i ≠ r) ∧
      (true = false → ∀ i, idx < i → i < exampleInts.size → exampleInts.val i ≠ r) :=
  ⟨by decide, by decide, by decide, by decide, by decide,
    ((vector_extreme_index exampleInts true).2 (by decide)).1⟩

/-! ## Normalisation of a probability table in `dminner2` -/

/-- The loop of `vector::max()` after `n` rounds holds the largest of the elements `0..n`. -/
theorem max_loop {G : Type} [LinearOrder G] (v : Vec G) (n : Nat) :
    (∀ i, i ≤ n → v.val i ≤ forUp n (fun k result =>
      if v.val (k + 1) > result then v.val (k + 1) else result) (v.val 0)) ∧
    ∃ i, i ≤ n ∧ v.val i = forUp n (fun k result =>
      if v.val (k + 1) > result then v.val (k + 1) else result) (v.val 0) := by
  induction n with
  | zero =>
    refine ⟨fun i hi => ?_, 0, le_refl 0, rfl⟩
    have e : i = 0 := by omega
    rw [e]
    exact le_refl _
  | succ n ih =>
    rw [forUp_succ]
    generalize forUp n (fun k result =>
      if v.val (k + 1) > result then v.val (k + 1) else result) (v.val 0) = r at ih
    obtain ⟨h1, j, hj, ej⟩ := ih
    by_cases c : v.val (n + 1) > r
    · rw [if_pos c]
      refine ⟨fun i hi => ?_, n + 1, le_refl _, rfl⟩
      by_cases e : i = n + 1
      · rw [e]
      · exact le_of_lt (lt_of_le_of_lt (h1 i (by omega)) c)
    · rw [if_neg c]
      refine ⟨fun i hi => ?_, j, Nat.le_succ_of_le hj, ej⟩
      by_cases e : i = n + 1
      · rw [e]
        exact not_lt.mp c
      · exact h1 i (by omega)

/-- `vector::max()` on a non-empty vector returns its largest element. -/
theorem vec_max_spec {G : Type} [LinearOrder G] (v : Vec G) (hpos : 0 < v.size) :
    ∃ mx, v.max = some mx ∧ (∀ i, i < v.size → v.val i ≤ mx) ∧
      ∃ i, i < v.size ∧ v.val i = mx := by
  obtain ⟨h1, j, hj, ej⟩ := max_loop v (v.size - 1)
  refine ⟨_, ?_, fun i hi => h1 i (by omega), j, by omega, ej⟩
  unfold Vec.max
  rw [if_neg (by omega)]

/-- The loop `for (i = 0; i < n; i++) out(i) = f(i)` on a vector. -/
theorem vec_assign_loop {G : Type} (f : Nat → G) (out : Vec G) (n : Nat) :
    (forUp n (fun i (out : Vec G) => out.set i (f i)) out).size = out.size ∧
      ∀ i, i < n → (forUp n (fun i (out : Vec G) => out.set i (f i)) out).val i = f i := by
  induction n with
  | zero => exact ⟨rfl, fun i hi => absurd hi (Nat.not_lt_zero i)⟩
  | succ n ih =>
    rw [forUp_succ]
    refine ⟨ih.1, fun i hi => ?_⟩
    show Function.update (forUp n (fun i (out : Vec G) => out.set i (f i)) out).val n (f n) i
      = f i
    by_cases e : i = n
    · rw [e, Function.update_same]
    · rw [Function.update_noteq e]
      exact ih.2 i (by omega)

/-- `dminner2::normalize` when the largest element of the input is `mx`, not zero. -/
theorem normalize_of_max (inp out : Vec ℚ) (mx : ℚ) (hmax : inp.max = some mx)
    (hne : mx ≠ 0) :
    ∃ o, Dminner2.normalize inp out = some o ∧ o.size = inp.size ∧
      ∀ i, i < inp.size → o.val i = inp.val i / mx := by
  have hpos : 0 < inp.size := by
    by_contra h
    unfold Vec.max at hmax
    rw [if_pos (by omega)] at hmax
    exact Option.noConfusion hmax
  obtain ⟨a1, a2⟩ := vec_assign_loop (fun i => inp.val i * (1 / mx)) (out.init inp.size)
    inp.size
  refine ⟨forUp inp.size (fun i (out : Vec ℚ) => out.set i (inp.val i * (1 / mx)))
    (out.init inp.size), ?_, a1, fun i hi => ?_⟩
  · unfold Dminner2.normalize
    dsimp only
    rw [if_neg (by omega), hmax, Option.some_bind, if_neg (fun h => h hne)]
  · rw [a2 i hi, mul_one_div]

/-- C38 (counterexample): over the `double` backend the table `(49, 7)`, which is not empty
and has the maximum 49, is turned into `(1 - 2 ^ (-53), 2573485501354569 / 2 ^ 54)`: the
reciprocal of 49 is rounded before the entries are multiplied by it, and the largest value of
the output is `1 - 2 ^ (-53)`, not 1. -/
theorem dminner2_normalize_counterexample :
    0 < exampleSevensTable.size ∧ exampleSevensTable.max = some 49 ∧
    (Dminner2.normalize_fl roundDouble exampleSevensTable emptyRealVec).map
      (fun o => (o.size, o.val 0, o.val 1)) =
      some (2, 1 - 1 / 2 ^ 53, 2573485501354569 / 2 ^ 54) ∧
    (Dminner2.normalize_fl roundDouble exampleSevensTable emptyRealVec).bind Vec.max =
      some (1 - 1 / 2 ^ 53) := by
  decide!

/-- C38 (amended): in exact arithmetic `dminner2::normalize` scales a probability table so
that its largest value is 1. It fails when the input is empty or its maximum is zero. For a
non-empty input whose maximum `mx` is not zero it returns an output of the same length with
`out(i) = in(i) / mx` for every `i`; when no value of the input is negative, every value of
the output is at most 1 and one of them is 1. -/
theorem dminner2_normalize_scales (inp out : Vec ℚ) :
    (inp.size = 0 → Dminner2.normalize inp out = none) ∧
    (inp.max = some 0 → Dminner2.normalize inp out = none) ∧
    (0 < inp.size → ∃ mx, inp.max = some mx ∧ (∀ i, i < inp.size → inp.val i ≤ mx) ∧
      ∃ i, i < inp.size ∧ inp.val i = mx) ∧
    ∀ mx, inp.max = some mx → mx ≠ 0 →
      ∃ o, Dminner2.normalize inp out = some o ∧ o.size = inp.size ∧
        (∀ i, i < inp.size → o.val i = inp.val i / mx) ∧
        ((∀ i, i < inp.size → 0 ≤ inp.val i) →
          (∀ i, i < o.size → o.val i ≤ 1) ∧ ∃ i, i < o.size ∧ o.val i = 1) := by
  refine ⟨fun h0 => ?_, fun hz => ?_, fun hpos => vec_max_spec inp hpos,
    fun mx hmax hne => ?_⟩
  · unfold Dminner2.normalize
    dsimp only
    rw [if_pos (by omega)]
  · unfold Dminner2.normalize
    dsimp only
    by_cases c : ¬ inp.size > 0
    · rw [if_pos c]
    · rw [if_neg c, hz, Option.some_bind, if_pos (fun h => h rfl)]
  · obtain ⟨o, e, hs, hv⟩ := normalize_of_max inp out mx hmax hne
    refine ⟨o, e, hs, hv, fun hnn => ?_⟩
    have hpos : 0 < inp.size := by
      by_contra h
      unfold Vec.max at hmax
      rw [if_pos (by omega)] at hmax
      exact Option.noConfusion hmax
    obtain ⟨mx', e', hle, j, hj, ej⟩ := vec_max_spec inp hpos
    rw [hmax] at e'
    have hm : mx = mx' := Option.some.inj e'
    subst hm
    have hp : 0 < mx := lt_of_le_of_ne (ej ▸ hnn j hj) (Ne.symm hne)
    rw [hs]
    refine ⟨fun i hi => ?_, j, hj, ?_⟩
    · rw [hv i hi, div_le_one hp]
      exact hle i hi
    · rw [hv j hj, ej]
      exact div_self hne

/-- Witness for C38 on the table `(1, 4, 2)`, which `normalize` turns into
`(1/4, 1, 1/2)`. -/
theorem dminner2_normalize_scales_witness :
    exampleTable.max = some 4 ∧ (4 : ℚ) ≠ 0 ∧
    ∃ o, Dminner2.normalize exampleTable emptyRealVec = some o ∧ o.size = exampleTable.size ∧
      (∀ i, i < exampleTable.size → o.val i = exampleTable.val i / 4) ∧
      ((∀ i, i < exampleTable.size → 0 ≤ exampleTable.val i) →
        (∀ i, i < o.size → o.val i ≤ 1) ∧ ∃ i, i < o.size ∧ o.val i = 1) :=
  ⟨by decide!, by decide!,
    (dminner2_normalize_scales exampleTable emptyRealVec).2.2.2 4 (by decide!) (by decide!)⟩

/-! ## The state sequence of the bit-patterned media channel -/

/-- The invariant rule for a counted loop, the invariant depending on the round. -/
theorem forUp_indexed {σ : Type} (Inv : Nat → σ → Prop) (f : Nat → σ → σ) (n : Nat) (s : σ)
    (h0 : Inv 0 s) (hstep : ∀ k s, k < n → Inv k s → Inv (k + 1) (f k s)) :
    Inv n (forUp n f s) := by
  induction n with
  | zero => exact h0
  | succ n ih =>
    rw [forUp_succ]
    exact hstep n _ (Nat.lt_succ_self n)
      (ih (fun k s hk hs => hstep k s (Nat.lt_succ_of_lt hk) hs))

namespace Bpmr

/-- The next state depends on the object through its limits and its probabilities only. -/
theorem next_state_congr (c c' : Bpmr) (h1 : c'.Zmin = c.Zmin) (h2 : c'.Zmax = c.Zmax)
    (h3 : c'.Pd = c.Pd) (h4 : c'.Pi = c.Pi) (z : Int) (p : ℚ) :
    c'.next_state z p = c.next_state z p := by
  unfold next_state
  rw [h1, h2, h3, h4]

/-- The next state differs from the previous one by at most 1. -/
theorem next_state_step (c : Bpmr) (z : Int) (p : ℚ) :
    c.next_state z p = z ∨ c.next_state z p = z + 1 ∨ c.next_state z p = z - 1 := by
  unfold next_state
  split_ifs <;> simp

/-- From a state within the limits the next state is within the limits, when the lower limit
is below the upper one. -/
theorem next_state_range (c : Bpmr) (hlt : c.Zmin < c.Zmax) (z : Int) (p : ℚ)
    (h1 : c.Zmin ≤ z) (h2 : z ≤ c.Zmax) :
    c.Zmin ≤ c.next_state z p ∧ c.next_state z p ≤ c.Zmax := by
  unfold next_state
  split_ifs <;> constructor <;> omega

/-- With neither deletions nor insertions and random values that are not negative, the state
does not move. -/
theorem next_state_still (c : Bpmr) (hd : c.Pd = 0) (hi : c.Pi = 0) (z : Int) (p : ℚ)
    (hp : 0 ≤ p) : c.next_state z p = z := by
  unfold next_state
  simp only [hd, hi, add_zero, if_neg (not_lt.mpr hp), ite_self]

/-- What `generate_state_sequence` leaves: the limits, the probabilities and the stream are
untouched, `tau` values have been drawn, and `Z` holds `tau` states, each the next state of
its predecessor (of `0` for the first) under the random value drawn for it. -/
theorem generate_state_sequence_spec (c : Bpmr) (tau : Nat) :
    (c.generate_state_sequence tau).Zmin = c.Zmin ∧
    (c.generate_state_sequence tau).Zmax = c.Zmax ∧
    (c.generate_state_sequence tau).Pd = c.Pd ∧
    (c.generate_state_sequence tau).Pi = c.Pi ∧
    (c.generate_state_sequence tau).draws = c.draws ∧
    (c.generate_state_sequence tau).drawn = c.drawn + tau ∧
    (c.generate_state_sequence tau).Z.size = tau ∧
    ∀ i, i < tau → (c.generate_state_sequence tau).Z.val i =
      c.next_state (if i = 0 then 0 else (c.generate_state_sequence tau).Z.val (i - 1))
        (c.draws (c.drawn + i)) := by
  have key := forUp_indexed
    (fun k (st : Bpmr × Int) =>
      st.1.Zmin = c.Zmin ∧ st.1.Zmax = c.Zmax ∧ st.1.Pd = c.Pd ∧ st.1.Pi = c.Pi ∧
      st.1.draws = c.draws ∧ st.1.drawn = c.drawn + k ∧ st.1.Z.size = tau ∧
      st.2 = (if k = 0 then 0 else st.1.Z.val (k - 1)) ∧
      ∀ i, i < k → st.1.Z.val i =
        c.next_state (if i = 0 then 0 else st.1.Z.val (i - 1)) (c.draws (c.drawn + i)))
    (fun i (st : Bpmr × Int) =>
      (({ st.1 with drawn := st.1.drawn + 1,
                    Z := st.1.Z.set i (Bpmr.next_state { st.1 with drawn := st.1.drawn + 1 }
                      st.2 (st.1.draws st.1.drawn)) } : Bpmr),
       (st.1.Z.set i (Bpmr.next_state { st.1 with drawn := st.1.drawn + 1 }
          st.2 (st.1.draws st.1.drawn))).val i))
    tau (({ c with Z := (c.Z.init tau).fill 0 } : Bpmr), 0)
    ⟨rfl, rfl, rfl, rfl, rfl, rfl, rfl, rfl, fun i hi => absurd hi (Nat.not_lt_zero i)⟩
    (fun k st hk hst => ?_)
  · obtain ⟨k1, k2, k3, k4, k5, k6, k7, _, k9⟩ := key
    exact ⟨k1, k2, k3, k4, k5, k6, k7, k9⟩
  · obtain ⟨h1, h2, h3, h4, h5, h6, h7, h8, h9⟩ := hst
    have hn : Bpmr.next_state { st.1 with drawn := st.1.drawn + 1 } st.2
        (st.1.draws st.1.drawn) =
        c.next_state (if k = 0 then 0 else st.1.Z.val (k - 1)) (c.draws (c.drawn + k)) := by
      rw [next_state_congr c { st.1 with drawn := st.1.drawn + 1 } h1 h2 h3 h4, h8, h5, h6]
    have hval : ∀ i, (st.1.Z.set k (Bpmr.next_state { st.1 with drawn := st.1.drawn + 1 }
        st.2 (st.1.draws st.1.drawn))).val i =
        if i = k then
          c.next_state (if k = 0 then 0 else st.1.Z.val (k - 1)) (c.draws (c.drawn + k))
        else st.1.Z.val i := by
      intro i
      show Function.update st.1.Z.val k _ i = _
      by_cases e : i = k
      · rw [e, Function.update_same, if_pos rfl, hn]
      · rw [Function.update_noteq e, if_neg e]
    refine ⟨h1, h2, h3, h4, h5, ?_, h7, ?_, fun i hi => ?_⟩
    · show st.1.drawn + 1 = c.drawn + (k + 1)
      rw [h6, Nat.add_assoc]
    · show _ = if k + 1 = 0 then 0 else _
      rw [if_neg (Nat.succ_ne_zero k)]
      rfl
    · show (st.1.Z.set k _).val i = c.next_state (if i = 0 then 0 else (st.1.Z.set k _).val (i - 1)) _
      rw [hval i]
      by_cases e : i = k
      · rw [if_pos e, e]
        by_cases e0 : k = 0
        · rw [if_pos e0, if_pos e0]
        · rw [if_neg e0, if_neg e0, hval (k - 1), if_neg (by omega)]
      · rw [if_neg e, h9 i (by omega)]
        by_cases e0 : i = 0
        · rw [if_pos e0, if_pos e0]
        · rw [if_neg e0, if_neg e0, hval (i - 1), if_neg (by omega)]

end Bpmr

/-- C33 (counterexample): the range `[-2, -1]` passes both sanity checks of the loader, yet
the first state that `generate_state_sequence` yields is `0`, above the upper limit `-1`. -/
theorem bpmr_state_range_counterexample :
    exampleBpmrLow.sanity_checks.isSome = true ∧
    exampleBpmrLow.Zmin ≤ 0 ∧ exampleBpmrLow.Zmax > exampleBpmrLow.Zmin ∧
    (exampleBpmrLow.generate_state_sequence 1).Z.size = 1 ∧
    (exampleBpmrLow.generate_state_sequence 1).Z.val 0 = 0 ∧
    ¬ (exampleBpmrLow.generate_state_sequence 1).Z.val 0 ≤ exampleBpmrLow.Zmax := by
  decide!

/-- C33 (amended): the Markov state of the channel stays in its declared range when the
range holds the initial state. For every configuration that passes the sanity checks of the
loader (`Zmin <= 0` and `Zmax > Zmin`) and has `Zmax >= 0`, every `tau` and every stream of
random values, `generate_state_sequence` yields `tau` states `Z(i)` in `[Zmin, Zmax]`, and
with `Z_0 = 0` consecutive states differ by at most 1. -/
theorem bpmr_state_in_range (c : Bpmr) (tau : Nat) (hacc : c.sanity_checks.isSome = true)
    (hmax : 0 ≤ c.Zmax) :
    (c.generate_state_sequence tau).Z.size = tau ∧
    ∀ i, i < tau →
      c.Zmin ≤ (c.generate_state_sequence tau).Z.val i ∧
      (c.generate_state_sequence tau).Z.val i ≤ c.Zmax ∧
      |(c.generate_state_sequence tau).Z.val i -
        (if i = 0 then 0 else (c.generate_state_sequence tau).Z.val (i - 1))| ≤ 1 := by
  have hchk : c.Zmin ≤ 0 ∧ c.Zmin < c.Zmax := by
    unfold Bpmr.sanity_checks at hacc
    by_cases h1 : ¬ c.Zmin ≤ 0
    · rw [if_pos h1] at hacc
      exact Bool.noConfusion hacc
    · rw [if_neg h1] at hacc
      by_cases h2 : ¬ c.Zmax > c.Zmin
      · rw [if_pos h2] at hacc
        exact Bool.noConfusion hacc
      · exact ⟨not_not.mp h1, not_not.mp h2⟩
  obtain ⟨_, _, _, _, _, _, hsize, hrec⟩ := Bpmr.generate_state_sequence_spec c tau
  have hrange : ∀ i, i < tau →
      c.Zmin ≤ (c.generate_state_sequence tau).Z.val i ∧
      (c.generate_state_sequence tau).Z.val i ≤ c.Zmax := by
    intro i
    induction i with
    | zero =>
      intro hi
      rw [hrec 0 hi, if_pos rfl]
      exact Bpmr.next_state_range c hchk.2 0 _ hchk.1 hmax
    | succ i ih =>
      intro hi
      rw [hrec (i + 1) hi, if_neg (Nat.succ_ne_zero i), Nat.add_sub_cancel]
      exact Bpmr.next_state_range c hchk.2 _ _ (ih (by omega)).1 (ih (by omega)).2
  refine ⟨hsize, fun i hi => ⟨(hrange i hi).1, (hrange i hi).2, ?_⟩⟩
  have hstep := Bpmr.next_state_step c
    (if i = 0 then 0 else (c.generate_state_sequence tau).Z.val (i - 1))
    (c.draws (c.drawn + i))
  rw [← hrec i hi] at hstep
  rw [abs_le]
  omega

/-- Witness for C33: six states of the example channel with the range `[-1, 1]`. -/
theorem bpmr_state_in_range_witness :
    exampleBpmr.sanity_checks.isSome = true ∧ 0 ≤ exampleBpmr.Zmax ∧
    (exampleBpmr.generate_state_sequence 6).Z.size = 6 ∧
    ∀ i, i < 6 →
      exampleBpmr.Zmin ≤ (exampleBpmr.generate_state_sequence 6).Z.val i ∧
      (exampleBpmr.generate_state_sequence 6).Z.val i ≤ exampleBpmr.Zmax ∧
      |(exampleBpmr.generate_state_sequence 6).Z.val i -
        (if i = 0 then 0 else (exampleBpmr.generate_state_sequence 6).Z.val (i - 1))| ≤ 1 :=
  ⟨by decide!, by decide!, bpmr_state_in_range exampleBpmr 6 (by decide!) (by decide!)⟩

/-! ## Transmission over the bit-patterned media channel -/

namespace Bpmr

/-- `vector::operator=` gives the vector the size and the elements of its argument. -/
theorem vec_assign_spec {G : Type} (v x : Vec G) :
    (v.assign x).size = x.size ∧ ∀ i, i < x.size → (v.assign x).val i = x.val i := by
  obtain ⟨a1, a2⟩ := vec_assign_loop x.val (v.init x.size) x.size
  exact ⟨a1, a2⟩

/-- With neither deletions nor insertions and random values that are not negative, every
state of the sequence is 0. -/
theorem generate_state_sequence_still (c : Bpmr) (tau : Nat) (hd : c.Pd = 0) (hi : c.Pi = 0)
    (hp : ∀ k, 0 ≤ c.draws k) :
    ∀ i, i < tau → (c.generate_state_sequence tau).Z.val i = 0 := by
  obtain ⟨_, _, _, _, _, _, _, hrec⟩ := generate_state_sequence_spec c tau
  intro i
  induction i with
  | zero =>
    intro h
    rw [hrec 0 h, if_pos rfl]
    exact next_state_still c hd hi 0 _ (hp _)
  | succ i ih =>
    intro h
    rw [hrec (i + 1) h, if_neg (Nat.succ_ne_zero i), Nat.add_sub_cancel, ih (by omega)]
    exact next_state_still c hd hi 0 _ (hp _)

/-- The loop of `transmit`: the state sequence is not touched, and the new vector holds at
every position the bit of `tx` that the state of this position points to. -/
theorem transmit_loop (c : Bpmr) (T : Vec Bool) (newrx : Vec Bool) (n : Nat) :
    (forUp n (fun i (st : Bpmr × Vec Bool) =>
      if (i : Int) - st.1.Z.val i ≥ 0 ∧ (i : Int) - st.1.Z.val i < (T.size : Int) then
        (st.1, st.2.set i (T.val ((i : Int) - st.1.Z.val i).toNat))
      else if (i : Int) - st.1.Z.val i < 0 then
        (({ st.1 with drawn := st.1.drawn + 1 } : Bpmr),
          st.2.set i (decide (st.1.draws st.1.drawn < 1 / 2)))
      else (st.1, st.2.set i (T.val (T.size - 1)))) (c, newrx)).1.Z = c.Z ∧
    (forUp n (fun i (st : Bpmr × Vec Bool) =>
      if (i : Int) - st.1.Z.val i ≥ 0 ∧ (i : Int) - st.1.Z.val i < (T.size : Int) then
        (st.1, st.2.set i (T.val ((i : Int) - st.1.Z.val i).toNat))
      else if (i : Int) - st.1.Z.val i < 0 then
        (({ st.1 with drawn := st.1.drawn + 1 } : Bpmr),
          st.2.set i (decide (st.1.draws st.1.drawn < 1 / 2)))
      else (st.1, st.2.set i (T.val (T.size - 1)))) (c, newrx)).2.size = newrx.size ∧
    ∀ i, i < n →
      ((0 ≤ (i : Int) - c.Z.val i ∧ (i : Int) - c.Z.val i < (T.size : Int)) →
        (forUp n (fun i (st : Bpmr × Vec Bool) =>
          if (i : Int) - st.1.Z.val i ≥ 0 ∧ (i : Int) - st.1.Z.val i < (T.size : Int) then
            (st.1, st.2.set i (T.val ((i : Int) - st.1.Z.val i).toNat))
          else if (i : Int) - st.1.Z.val i < 0 then
            (({ st.1 with drawn := st.1.drawn + 1 } : Bpmr),
              st.2.set i (decide (st.1.draws st.1.drawn < 1 / 2)))
          else (st.1, st.2.set i (T.val (T.size - 1)))) (c, newrx)).2.val i =
          T.val ((i : Int) - c.Z.val i).toNat) ∧
      ((T.size : Int) ≤ (i : Int) - c.Z.val i →
        (forUp n (fun i (st : Bpmr × Vec Bool) =>
          if (i : Int) - st.1.Z.val i ≥ 0 ∧ (i : Int) - st.1.Z.val i < (T.size : Int) then
            (st.1, st.2.set i (T.val ((i : Int) - st.1.Z.val i).toNat))
          else if (i : Int) - st.1.Z.val i < 0 then
            (({ st.1 with drawn := st.1.drawn + 1 } : Bpmr),
              st.2.set i (decide (st.1.draws st.1.drawn < 1 / 2)))
          else (st.1, st.2.set i (T.val (T.size - 1)))) (c, newrx)).2.val i =
          T.val (T.size - 1)) := by
  induction n with
  | zero => exact ⟨rfl, rfl, fun i hi => absurd hi (Nat.not_lt_zero i)⟩
  | succ n ih =>
    rw [forUp_succ]
    generalize forUp n (fun i (st : Bpmr × Vec Bool) =>
      if (i : Int) - st.1.Z.val i ≥ 0 ∧ (i : Int) - st.1.Z.val i < (T.size : Int) then
        (st.1, st.2.set i (T.val ((i : Int) - st.1.Z.val i).toNat))
      else if (i : Int) - st.1.Z.val i < 0 then
        (({ st.1 with drawn := st.1.drawn + 1 } : Bpmr),
          st.2.set i (decide (st.1.draws st.1.drawn < 1 / 2)))
      else (st.1, st.2.set i (T.val (T.size - 1)))) (c, newrx) = st at ih
    obtain ⟨h1, h2, h3⟩ := ih
    dsimp only
    rw [h1]
    have hold : ∀ (v : Bool) i, i < n → (st.2.set n v).val i = st.2.val i := by
      intro v i hi
      show Function.update st.2.val n v i = st.2.val i
      rw [Function.update_noteq (by omega)]
    have hnew : ∀ (v : Bool), (st.2.set n v).val n = v := by
      intro v
      show Function.update st.2.val n v n = v
      rw [Function.update_same]
    by_cases c1 : (n : Int) - c.Z.val n ≥ 0 ∧ (n : Int) - c.Z.val n < (T.size : Int)
    · rw [if_pos c1]
      refine ⟨h1, h2, fun i hi => ?_⟩
      by_cases e : i = n
      · subst e
        exact ⟨fun _ => hnew _, fun h => absurd h (not_le.mpr c1.2)⟩
      · have hlt : i < n := by omega
        exact ⟨fun h => (hold _ i hlt).trans ((h3 i hlt).1 h),
          fun h => (hold _ i hlt).trans ((h3 i hlt).2 h)⟩
    · rw [if_neg c1]
      by_cases c2 : (n : Int) - c.Z.val n < 0
      · rw [if_pos c2]
        refine ⟨rfl, h2, fun i hi => ?_⟩
        by_cases e : i = n
        · subst e
          exact ⟨fun h => absurd h.1 (not_le.mpr c2), fun h => by omega⟩
        · have hlt : i < n := by omega
          exact ⟨fun h => (hold _ i hlt).trans ((h3 i hlt).1 h),
            fun h => (hold _ i hlt).trans ((h3 i hlt).2 h)⟩
      · rw [if_neg c2]
        refine ⟨h1, h2, fun i hi => ?_⟩
        by_cases e : i = n
        · subst e
          exact ⟨fun h => absurd h c1, fun _ => hnew _⟩
        · have hlt : i < n := by omega
          exact ⟨fun h => (hold _ i hlt).trans ((h3 i hlt).1 h),
            fun h => (hold _ i hlt).trans ((h3 i hlt).2 h)⟩

/-- `transmit` as the copy of the vector that its loop builds. -/
theorem transmit_eq (c : Bpmr) (mem : Nat → Vec Bool) (tx rx : Nat) :
    c.transmit mem tx rx =
      ((forUp (mem tx).size (fun i (st : Bpmr × Vec Bool) =>
        if (i : Int) - st.1.Z.val i ≥ 0 ∧ (i : Int) - st.1.Z.val i < ((mem tx).size : Int) then
          (st.1, st.2.set i ((mem tx).val ((i : Int) - st.1.Z.val i).toNat))
        else if (i : Int) - st.1.Z.val i < 0 then
          (({ st.1 with drawn := st.1.drawn + 1 } : Bpmr),
            st.2.set i (decide (st.1.draws st.1.drawn < 1 / 2)))
        else (st.1, st.2.set i ((mem tx).val ((mem tx).size - 1))))
        (c.generate_state_sequence (mem tx).size, emptyBoolVec.init (mem tx).size)).1,
       Function.update mem rx ((mem rx).assign
        (forUp (mem tx).size (fun i (st : Bpmr × Vec Bool) =>
        if (i : Int) - st.1.Z.val i ≥ 0 ∧ (i : Int) - st.1.Z.val i < ((mem tx).size : Int) then
          (st.1, st.2.set i ((mem tx).val ((i : Int) - st.1.Z.val i).toNat))
        else if (i : Int) - st.1.Z.val i < 0 then
          (({ st.1 with drawn := st.1.drawn + 1 } : Bpmr),
            st.2.set i (decide (st.1.draws st.1.drawn < 1 / 2)))
        else (st.1, st.2.set i ((mem tx).val ((mem tx).size - 1))))
        (c.generate_state_sequence (mem tx).size, emptyBoolVec.init (mem tx).size)).2)) :=
  rfl

end Bpmr

/-- C34: `bpmr::transmit` implements `Y_i = X_(i - Z_i)`. Whether `rx` and `tx` name the same
vector or not, the vector that `rx` names after the call has the length `tau` of `tx` before
the call; with `Z` the state sequence that the call generates, for every `i` with
`0 <= i - Z(i) < tau` it holds at `i` the bit that `tx` held at `i - Z(i)` before the call,
and for every `i` with `i - Z(i) >= tau` the bit that `tx` held at `tau - 1`; no other vector
is changed; and when `Pd = Pi = 0`, the random values not being negative, the output equals
the input. -/
theorem bpmr_transmit_shifts (c : Bpmr) (mem : Nat → Vec Bool) (tx rx : Nat) :
    ((c.transmit mem tx rx).2 rx).size = (mem tx).size ∧
    (c.transmit mem tx rx).1.Z = (c.generate_state_sequence (mem tx).size).Z ∧
    (∀ y, y ≠ rx → (c.transmit mem tx rx).2 y = mem y) ∧
    (∀ i, i < (mem tx).size →
      ((0 ≤ (i : Int) - (c.transmit mem tx rx).1.Z.val i ∧
          (i : Int) - (c.transmit mem tx rx).1.Z.val i < ((mem tx).size : Int)) →
        ((c.transmit mem tx rx).2 rx).val i =
          (mem tx).val ((i : Int) - (c.transmit mem tx rx).1.Z.val i).toNat) ∧
      (((mem tx).size : Int) ≤ (i : Int) - (c.transmit mem tx rx).1.Z.val i →
        ((c.transmit mem tx rx).2 rx).val i = (mem tx).val ((mem tx).size - 1))) ∧
    (c.Pd = 0 → c.Pi = 0 → (∀ k, 0 ≤ c.draws k) →
      ∀ i, i < (mem tx).size → ((c.transmit mem tx rx).2 rx).val i = (mem tx).val i) := by
  obtain ⟨l1, l2, l3⟩ := Bpmr.transmit_loop (c.generate_state_sequence (mem tx).size)
    (mem tx) (emptyBoolVec.init (mem tx).size) (mem tx).size
  rw [Bpmr.transmit_eq]
  dsimp only
  generalize forUp (mem tx).size (fun i (st : Bpmr × Vec Bool) =>
        if (i : Int) - st.1.Z.val i ≥ 0 ∧ (i : Int) - st.1.Z.val i < ((mem tx).size : Int) then
          (st.1, st.2.set i ((mem tx).val ((i : Int) - st.1.Z.val i).toNat))
        else if (i : Int) - st.1.Z.val i < 0 then
          (({ st.1 with drawn := st.1.drawn + 1 } : Bpmr),
            st.2.set i (decide (st.1.draws st.1.drawn < 1 / 2)))
        else (st.1, st.2.set i ((mem tx).val ((mem tx).size - 1))))
        (c.generate_state_sequence (mem tx).size, emptyBoolVec.init (mem tx).size) = st
    at l1 l2 l3
  obtain ⟨a1, a2⟩ := Bpmr.vec_assign_spec (mem rx) st.2
  have hsz : st.2.size = (mem tx).size := l2
  have hval : ∀ i, i < (mem tx).size →
      (Function.update mem rx ((mem rx).assign st.2) rx).val i = st.2.val i := by
    intro i hi
    rw [Function.update_same]
    exact a2 i (by rw [hsz]; exact hi)
  refine ⟨?_, l1, fun y hy => Function.update_noteq hy _ _, fun i hi => ⟨fun h => ?_, fun h => ?_⟩,
    fun hd hp hdraw i hi => ?_⟩
  · rw [Function.update_same, a1, hsz]
  · rw [hval i hi, l1]
    rw [l1] at h
    exact (l3 i hi).1 h
  · rw [hval i hi]
    rw [l1] at h
    exact (l3 i hi).2 h
  · rw [hval i hi]
    have hz := Bpmr.generate_state_sequence_still c (mem tx).size hd hp hdraw i hi
    have h := (l3 i hi).1 (by rw [hz]; omega)
    rw [hz] at h
    rw [h]
    simp

/-- Witness for C34: four bits sent through the example channel, `rx` and `tx` naming the
same vector. The states are `1, 0, -1, -1`; position 1 receives the bit sent at 1,
position 2 the bit sent at 3 and position 3, whose index is late, the last bit. -/
theorem bpmr_transmit_shifts_witness :
    ((exampleBpmr.transmit exampleMem 0 0).2 0).size = 4 ∧
    (List.range 4).map (exampleBpmr.transmit exampleMem 0 0).1.Z.val = [1, 0, -1, -1] ∧
    ((exampleBpmr.transmit exampleMem 0 0).2 0).val 2 = (exampleMem 0).val 3 ∧
    ∀ i, i < (exampleMem 0).size →
      ((0 ≤ (i : Int) - (exampleBpmr.transmit exampleMem 0 0).1.Z.val i ∧
          (i : Int) - (exampleBpmr.transmit exampleMem 0 0).1.Z.val i
            < ((exampleMem 0).size : Int)) →
        ((exampleBpmr.transmit exampleMem 0 0).2 0).val i =
          (exampleMem 0).val ((i : Int) - (exampleBpmr.transmit exampleMem 0 0).1.Z.val i).toNat)
      ∧
      (((exampleMem 0).size : Int) ≤ (i : Int) - (exampleBpmr.transmit exampleMem 0 0).1.Z.val i →
        ((exampleBpmr.transmit exampleMem 0 0).2 0).val i =
          (exampleMem 0).val ((exampleMem 0).size - 1)) :=
  ⟨by decide!, by decide!, by decide!, (bpmr_transmit_shifts exampleBpmr exampleMem 0 0).2.2.2.1⟩

/-! ## Round trip of the extension fields of `dminner2` -/

theorem eatcomments_comment (t : String) (s : List Line) :
    eatcomments (Line.comment t :: s) = eatcomments s := rfl

theorem eatcomments_number (v : Int) (s : List Line) :
    eatcomments (Line.number v :: s) = Line.number v :: s := rfl

/-- Reading a number that stands after one comment line. -/
theorem read_int_written (t : String) (v : Int) (s : List Line) :
    read_int (Line.comment t :: Line.number v :: s) = some (v, s) := rfl

/-- Reading a flag that stands after one comment line. -/
theorem read_bool_written (t : String) (x : Bool) (s : List Line) :
    read_bool (Line.comment t :: write_bool x :: s) = some (x, s) := by
  cases x <;> rfl

namespace Dminner2

/-- The load after the base class has been read, for a stream that starts with a version
number of at least 2. -/
theorem serialize_istream_versioned (d : Dminner2) (base : List Line → Option (List Line))
    (sin s s1 : List Line) (version : Int) (hb : base sin = some s)
    (hv : read_int s = some (version, s1)) (h2 : 2 ≤ version) :
    d.serialize_istream base sin =
      ((read_bool s1).bind (fun b =>
          (read_bool b.2).bind (fun l =>
            if l.1 = true ∨ version ≥ 3 then
              (read_bool l.2).map (fun g =>
                (({ d with batch := b.1, lazy := l.1, globalstore := g.1 } : Dminner2), g.2))
            else some ({ d with batch := b.1, lazy := l.1, globalstore := true }, l.2)))).bind
        (fun ds =>
          if version ≥ 4 then
            (read_int ds.2).map (fun la => (({ ds.1 with lookahead := la.1 } : Dminner2), la.2))
          else some ({ ds.1 with lookahead := 0 }, ds.2)) := by
  have h2' : ¬ version < 2 := not_lt.mpr h2
  unfold serialize_istream
  rw [hb, Option.some_bind]
  simp only [hv, if_neg h2', ge_iff_le, if_pos h2]

/-- The load after the base class has been read, for a stream that does not start with a
version number of at least 2: the defaults, and the stream where the base class left it. -/
theorem serialize_istream_old (d : Dminner2) (base : List Line → Option (List Line))
    (sin s : List Line) (hb : base sin = some s)
    (hv : read_int s = none ∨ ∃ version s1, read_int s = some (version, s1) ∧ version < 2) :
    d.serialize_istream base sin =
      some ({ batch := true, lazy := true, globalstore := true, lookahead := 0 }, s) := by
  unfold serialize_istream
  rw [hb, Option.some_bind]
  dsimp only
  have n2 : ¬ (2 : Int) ≤ 1 := by decide
  have n4 : ¬ (4 : Int) ≤ 1 := by decide
  rcases hv with hv | ⟨version, s1, hv, hlt⟩
  · simp only [hv, ge_iff_le, if_neg n2, if_neg n4, Option.some_bind]
  · simp only [hv, if_pos hlt, ge_iff_le, if_neg n2, if_neg n4, Option.some_bind]

/-- What `serialize(std::ostream&)` writes on an empty stream, followed by `rest`. -/
theorem serialize_ostream_lines (d : Dminner2) (base rest : List Line) :
    d.serialize_ostream base [] ++ rest =
      base ++ (Line.comment "Version" :: Line.number 4 ::
        Line.comment "Use batch receiver computation?" :: write_bool d.batch ::
        Line.comment "Lazy computation of gamma?" :: write_bool d.lazy ::
        Line.comment "Global storage / caching of computed gamma values?" ::
        write_bool d.globalstore ::
        Line.comment "Number of codewords to look ahead when stream decoding" ::
        Line.number d.lookahead :: rest) := by
  unfold serialize_ostream
  simp only [List.nil_append, List.append_assoc, List.singleton_append]
  rfl

end Dminner2

/-- C39: the extension fields of `dminner2` round-trip through the text format and old
versions load with defaults. For a base class whose reader takes back what its writer wrote:
reading what `serialize(ostream)` wrote (version 4) gives the same `batch`, `lazy`,
`globalstore` and `lookahead` and leaves the rest of the stream; a stream without version
number, or with a version below 2, gives `batch = lazy = globalstore = true` and
`lookahead = 0`, nothing being taken from the stream; version 2 reads `globalstore` only
when `lazy` is true and otherwise sets it to true; a version below 4 sets
`lookahead = 0`. -/
theorem dminner2_serialize_round_trip (d d0 : Dminner2) (base : List Line)
    (reader : List Line → Option (List Line)) (hbase : ∀ s, reader (base ++ s) = some s) :
    (∀ rest, d0.serialize_istream reader (d.serialize_ostream base [] ++ rest)
      = some (d, rest)) ∧
    (∀ s, (read_int s = none ∨ ∃ version s1, read_int s = some (version, s1) ∧ version < 2) →
      d0.serialize_istream reader (base ++ s) =
        some ({ batch := true, lazy := true, globalstore := true, lookahead := 0 }, s)) ∧
    (∀ s s1 s2 s3 b l, read_int s = some (2, s1) → read_bool s1 = some (b, s2) →
      read_bool s2 = some (l, s3) →
      (l = false → d0.serialize_istream reader (base ++ s) =
        some ({ batch := b, lazy := false, globalstore := true, lookahead := 0 }, s3)) ∧
      (l = true → ∀ g s4, read_bool s3 = some (g, s4) →
        d0.serialize_istream reader (base ++ s) =
          some ({ batch := b, lazy := true, globalstore := g, lookahead := 0 }, s4))) ∧
    (∀ s res, d0.serialize_istream reader (base ++ s) = some res →
      (read_int s = none ∨ ∃ version s1, read_int s = some (version, s1) ∧ version < 4) →
      res.1.lookahead = 0) := by
  refine ⟨fun rest => ?_, fun s hs => Dminner2.serialize_istream_old d0 reader _ s (hbase s) hs,
    fun s s1 s2 s3 b l hv hb hl => ⟨fun hf => ?_, fun ht g s4 hg => ?_⟩,
    fun s res hres hv => ?_⟩
  · rw [Dminner2.serialize_ostream_lines,
      Dminner2.serialize_istream_versioned d0 reader _ _ _ 4 (hbase _)
        (read_int_written _ _ _) (by decide)]
    rw [read_bool_written, Option.some_bind]
    dsimp only
    rw [read_bool_written, Option.some_bind]
    dsimp only
    rw [if_pos (Or.inr (by decide)), read_bool_written, Option.map_some', Option.some_bind]
    dsimp only
    rw [if_pos (by decide), read_int_written, Option.map_some']
  · rw [Dminner2.serialize_istream_versioned d0 reader _ s s1 2 (hbase s) hv (le_refl 2),
      hb, Option.some_bind]
    dsimp only
    rw [hl, Option.some_bind]
    dsimp only
    rw [hf, if_neg (by decide), Option.some_bind, if_neg (by decide)]
  · rw [Dminner2.serialize_istream_versioned d0 reader _ s s1 2 (hbase s) hv (le_refl 2),
      hb, Option.some_bind]
    dsimp only
    rw [hl, Option.some_bind]
    dsimp only
    rw [ht, if_pos (Or.inl rfl), hg, Option.map_some', Option.some_bind,
      if_neg (by decide)]
  · rcases hv with hv | ⟨version, s1, hv, hlt⟩
    · rw [Dminner2.serialize_istream_old d0 reader _ s (hbase s) (Or.inl hv)] at hres
      rw [← Option.some.inj hres]
    · by_cases h2 : 2 ≤ version
      · rw [Dminner2.serialize_istream_versioned d0 reader _ s s1 version (hbase s) hv h2]
          at hres
        obtain ⟨ds, _, hds⟩ := Option.bind_eq_some.mp hres
        rw [if_neg (not_le.mpr hlt)] at hds
        rw [← Option.some.inj hds]
      · rw [Dminner2.serialize_istream_old d0 reader _ s (hbase s)
          (Or.inr ⟨version, s1, hv, not_le.mp h2⟩)] at hres
        rw [← Option.some.inj hres]

/-- Witness for C39: the example modem written after the two lines of a base class and read
back, some text following. -/
theorem dminner2_serialize_round_trip_witness :
    (∀ s, exampleBaseReader (exampleBaseLines ++ s) = some s) ∧
    exampleDminner2.serialize_ostream exampleBaseLines [] =
      [Line.comment "n", Line.number 5, Line.comment "Version", Line.number 4,
        Line.comment "Use batch receiver computation?", Line.number 0,
        Line.comment "Lazy computation of gamma?", Line.number 0,
        Line.comment "Global storage / caching of computed gamma values?", Line.number 0,
        Line.comment "Number of codewords to look ahead when stream decoding",
        Line.number 3] ∧
    ({ batch := true, lazy := true, globalstore := true, lookahead := 0 } :
        Dminner2).serialize_istream exampleBaseReader
      (exampleDminner2.serialize_ostream exampleBaseLines [] ++ [Line.other "next"])
      = some (exampleDminner2, [Line.other "next"]) :=
  ⟨fun _ => rfl, rfl,
    (dminner2_serialize_round_trip exampleDminner2
      { batch := true, lazy := true, globalstore := true, lookahead := 0 } exampleBaseLines
      exampleBaseReader (fun _ => rfl)).1 [Line.other "next"]⟩

/-! ## The tables of `bsid::receive` -/

namespace OldFba

variable {G : Type}

/-- `prepare` keeps the parameters of the object. -/
theorem prepare_setup (A : OldFba G) (r : Vec G) (A' : OldFba G)
    (h : A.prepare r = some A') : A'.tau = A.tau ∧ A'.xmax = A.xmax := by
  unfold prepare at h
  obtain ⟨A1, e1, i1⟩ := work_forward_inv A r
  rw [e1, Option.some_bind] at h
  by_cases hc : |(r.size : Int) - A1.tau| ≤ A1.xmax
  · obtain ⟨A2, e2, i2⟩ := (work_backward_inv A1 r).2 hc
    rw [h] at e2
    rw [Option.some.inj e2]
    exact ⟨i2.1.1.trans i1.1.1, i2.1.2.2.1.trans i1.1.2.2.1⟩
  · rw [(work_backward_inv A1 r).1 hc] at h
    exact Option.noConfusion h

/-- What `init` sets. -/
theorem init_setup (A : OldFba G) (tau I xmax : Int) (th_inner : ℚ) (A' : OldFba G)
    (h : A.init tau I xmax th_inner = some A') : A'.tau = tau ∧ A'.xmax = xmax := by
  unfold init at h
  split_ifs at h
  rw [← Option.some.inj h]
  exact ⟨rfl, rfl⟩

end OldFba

/-- C31: in the branch of `bsid::receive` for a single candidate sequence (`M == 1`, more
than one time step) the likelihood is not written inside the result table and not read
inside the forward lattice. The table that `ptable.init(1, M)` allocates has the single entry
`(0, 0)`, and the write goes to `(1, 1)`; the lattice that `f.init(tau + 1, I, xmax)`
announces has the rows `0..tau`, and the read goes to row `tau + 1`. Both index checks fail,
so that `receive` does not return a table. -/
theorem bsid_receive_outside_tables {G : Type} [DecidableEq G] (c : Bsid) (th_inner : ℚ)
    (normalize : Bool) (Q : Int → Int → Int → Vec G → ℚ) (tx : Mat G) (rx : Vec G)
    (ptable : Matrix) (hM : tx.ysize = 1) (htau : tx.xsize ≠ 1) :
    c.receive th_inner normalize Q tx rx ptable = none ∧
    (ptable.init 1 tx.ysize).xsize = 1 ∧ (ptable.init 1 tx.ysize).ysize = 1 ∧
    (∀ v, (ptable.init 1 tx.ysize).put 1 1 v = none) ∧
    (∀ v, ∃ p, (ptable.init 1 tx.ysize).put 0 0 v = some p) ∧
    ∀ f f', (c.myfba normalize Q).init ((tx.xsize : Int) + 1) c.I c.xmax th_inner = some f →
      f.prepare rx = some f' →
      f'.tau = (tx.xsize : Int) + 1 ∧
      f'.getF ((tx.xsize : Int) + 1) ((rx.size : Int) - (tx.xsize : Int)) = none := by
  have hread : ∀ f f',
      (c.myfba normalize Q).init ((tx.xsize : Int) + 1) c.I c.xmax th_inner = some f →
      f.prepare rx = some f' →
      f'.tau = (tx.xsize : Int) + 1 ∧
      f'.getF ((tx.xsize : Int) + 1) ((rx.size : Int) - (tx.xsize : Int)) = none := by
    intro f f' hf hf'
    have ht : f'.tau = (tx.xsize : Int) + 1 :=
      (OldFba.prepare_setup f rx f' hf').1.trans (OldFba.init_setup _ _ _ _ _ f hf).1
    refine ⟨ht, ?_⟩
    unfold OldFba.getF
    rw [if_pos]
    rw [ht]
    omega
  have hput : ∀ v, (ptable.init 1 tx.ysize).put 1 1 v = none := by
    intro v
    unfold Matrix.put
    rw [if_pos]
    show ¬ ((1 : Int) ≥ 0 ∧ (1 : Int) < ((1 : Nat) : Int) ∧ _)
    omega
  refine ⟨?_, rfl, hM, hput, fun v => ⟨(ptable.init 1 tx.ysize).set 0 0 v, ?_⟩, hread⟩
  · unfold Bsid.receive
    dsimp only
    rw [if_neg (by omega), if_pos hM]
    cases hf : (c.myfba normalize Q).init ((tx.xsize : Int) + 1) c.I c.xmax th_inner with
    | none => rfl
    | some f =>
      rw [Option.some_bind]
      cases hf' : f.prepare rx with
      | none => rfl
      | some f' =>
        rw [Option.some_bind, (hread f f' hf hf').2]
        rfl
  · have hin : ¬ ¬ ((0 : Int) ≥ 0 ∧ (0 : Int) < (((ptable.init 1 tx.ysize).xsize : Nat) : Int) ∧
        (0 : Int) ≥ 0 ∧ (0 : Int) < (((ptable.init 1 tx.ysize).ysize : Nat) : Int)) := by
      rw [not_not]
      show (0 : Int) ≥ 0 ∧ (0 : Int) < ((1 : Nat) : Int) ∧ (0 : Int) ≥ 0 ∧
        (0 : Int) < ((tx.ysize : Nat) : Int)
      rw [hM]
      decide
    unfold Matrix.put
    rw [if_neg hin]
    rfl

/-- Witness for C31: a candidate sequence of two symbols and three received bits. -/
theorem bsid_receive_outside_tables_witness :
    exampleCandidate.ysize = 1 ∧ exampleCandidate.xsize ≠ 1 ∧
    exampleBsid.receive 0 true (fun _ _ _ _ => 1 / 2) exampleCandidate exampleBits exampleUnitR
      = none ∧
    ∀ v, ((exampleUnitR.init 1 exampleCandidate.ysize).put 1 1 v) = none :=
  ⟨rfl, by decide,
    (bsid_receive_outside_tables exampleBsid 0 true (fun _ _ _ _ => 1 / 2) exampleCandidate
      exampleBits exampleUnitR rfl (by decide)).1,
    (bsid_receive_outside_tables exampleBsid 0 true (fun _ _ _ _ => 1 / 2) exampleCandidate
      exampleBits exampleUnitR rfl (by decide)).2.2.2.1⟩

/-! ## Creation of S-random interleavers -/

/-- A loop that clears a flag at the first round at which `P` holds and then does nothing
leaves the flag set exactly when `P` holds at no round. -/
theorem break_loop (P : Nat → Prop) [DecidablePred P] (m : Nat) :
    forUp m (fun k (good : Bool) => if good = true ∧ P k then false else good) true = true ↔
      ∀ k, k < m → ¬ P k := by
  induction m with
  | zero => exact ⟨fun _ k hk => absurd hk (Nat.not_lt_zero k), fun _ => rfl⟩
  | succ m ih =>
    rw [forUp_succ]
    constructor
    · intro h k hk
      by_cases hg : forUp m (fun k (good : Bool) =>
          if good = true ∧ P k then false else good) true = true
      · by_cases hp : P m
        · rw [if_pos ⟨hg, hp⟩] at h
          exact Bool.noConfusion h
        · by_cases e : k = m
          · rw [e]
            exact hp
          · exact ih.mp hg k (by omega)
      · rw [if_neg (fun c => hg c.1)] at h
        exact absurd h hg
    · intro h
      have hg := ih.mpr (fun k hk => h k (Nat.lt_succ_of_lt hk))
      rw [if_neg (fun c => h m (Nat.lt_succ_self m) c.2)]
      exact hg

namespace SRandom

/-- The test of the spread constraint succeeds exactly when the candidate `n` keeps the
spread to every entry `j` with `max(0, i - spread) <= j < i`. -/
theorem good_spec (lut : IntVector) (i : Nat) (spread : Int) (n : Nat) :
    good lut i spread n = true ↔
      ∀ j : Nat, max 0 ((i : Int) - spread) ≤ (j : Int) → j < i →
        spread ≤ |((lut.val j : Nat) : Int) - (n : Int)| := by
  unfold good forRange
  have hlo : (0 : Int) ≤ max 0 ((i : Int) - spread) := le_max_left _ _
  generalize max 0 ((i : Int) - spread) = lo at hlo
  rw [break_loop (fun k => |((lut.val (lo + (k : Int)).toNat : Nat) : Int) - (n : Int)| < spread)]
  constructor
  · intro h j h1 h2
    have hk := h (((j : Int) - lo).toNat) (by omega)
    have e : (lo + (((j : Int) - lo).toNat : Int)).toNat = j := by omega
    rw [e] at hk
    exact not_lt.mp hk
  · intro h k hk
    have hj := h (lo + (k : Int)).toNat (by omega) (by omega)
    exact not_lt.mpr hj

/-- A read that returns has read an element of the vector. -/
theorem get_elems (asserts : Bool) (v : DerivedVector) (x n : Nat)
    (h : v.get asserts x = some n) : v.elems[x]? = some n := by
  unfold DerivedVector.get at h
  by_cases c : asserts = true ∧ v.test_invariant = false
  · rw [if_pos c] at h
    exact Option.noConfusion h
  · rw [if_neg c] at h
    exact h

/-- A vector that holds an element passes `test_invariant()` when its data pointer is not
NULL. -/
theorem test_invariant_of_elems (v : DerivedVector) (hn : v.null = false)
    (hl : 0 < v.elems.length) : v.test_invariant = true := by
  unfold DerivedVector.test_invariant
  rw [if_neg (by omega), hn]
  rfl

/-- What the inner loop of an entry does when it returns: either it has failed, has emptied
`untried` and has left the interleaver and the unused numbers alone, or it has taken an
unused number that passes the test out of `unused` and put it at entry `i`, and `untried`
still holds a number. The data pointer of `untried` is as it was. -/
theorem choose_spec (asserts : Bool) (ival : Nat → Nat → Nat) (spread : Int) (i : Nat)
    (fuel : Nat) :
    ∀ (untried index : DerivedVector) (s : SRandom)
      (r : SRandom × DerivedVector × DerivedVector),
      (∀ k n : Nat, untried.elems[k]? = some n →
        ∃ x : Nat, index.elems[k]? = some x ∧ s.unused.elems[x]? = some n) →
      choose asserts ival spread i fuel untried index s = some r →
      r.2.1.null = untried.null ∧
      ((r.1.failed = true ∧ r.1.lut = s.lut ∧ r.1.unused = s.unused ∧
          r.2.1.elems.length = 0) ∨
        (r.1.failed = s.failed ∧ 0 < r.2.1.elems.length ∧
          ∃ n x : Nat, s.unused.elems[x]? = some n ∧
            r.1.unused = { s.unused with elems := s.unused.elems.eraseIdx x } ∧
            r.1.lut = s.lut.set i n ∧ good s.lut i spread n = true)) := by
  induction fuel with
  | zero =>
    intro untried index s r _ h
    exact Option.noConfusion h
  | succ fuel ih =>
    intro untried index s r hinv h
    unfold choose at h
    dsimp only at h
    obtain ⟨n, hn', h⟩ := Option.bind_eq_some.mp h
    have hn := get_elems asserts untried _ n hn'
    unfold DerivedVector.size at hn
    by_cases hg : good s.lut i spread n = false
    · rw [if_pos hg] at h
      obtain ⟨untried', hu, h⟩ := Option.bind_eq_some.mp h
      obtain ⟨index', hi, h⟩ := Option.bind_eq_some.mp h
      unfold DerivedVector.remove at hu hi
      unfold DerivedVector.size at hu hi
      by_cases c1 : ¬ ival s.calls untried.elems.length < untried.elems.length
      · rw [if_pos c1] at hu
        exact Option.noConfusion hu
      · rw [if_neg c1] at hu
        by_cases c2 : ¬ ival s.calls untried.elems.length < index.elems.length
        · rw [if_pos c2] at hi
          exact Option.noConfusion hi
        · rw [if_neg c2] at hi
          have eu := Option.some.inj hu
          have ei := Option.some.inj hi
          have hnull : untried'.null = untried.null := by rw [← eu]
          by_cases c3 : untried'.size = 0
          · rw [if_pos c3] at h
            rw [← Option.some.inj h]
            exact ⟨hnull, Or.inl ⟨rfl, rfl, rfl, c3⟩⟩
          · rw [if_neg c3] at h
            have hinv' : ∀ k n : Nat, untried'.elems[k]? = some n →
                ∃ x : Nat, index'.elems[k]? = some x ∧
                  ({ s with calls := s.calls + 1 } : SRandom).unused.elems[x]? = some n := by
              intro k m hk
              rw [← eu] at hk
              rw [← ei]
              dsimp only at hk ⊢
              rw [List.getElem?_eraseIdx] at hk
              rw [List.getElem?_eraseIdx]
              by_cases c4 : k < ival s.calls untried.elems.length
              · rw [if_pos c4] at hk
                rw [if_pos c4]
                exact hinv k m hk
              · rw [if_neg c4] at hk
                rw [if_neg c4]
                exact hinv (k + 1) m hk
            obtain ⟨g1, g2⟩ := ih untried' index' { s with calls := s.calls + 1 } r hinv' h
            exact ⟨g1.trans hnull, g2⟩
    · rw [if_neg hg] at h
      obtain ⟨x, hx', h⟩ := Option.bind_eq_some.mp h
      have hx := get_elems asserts index _ x hx'
      unfold DerivedVector.size at hx
      obtain ⟨unused', hr, h⟩ := Option.map_eq_some'.mp h
      unfold DerivedVector.remove at hr
      by_cases c1 : ¬ x < s.unused.elems.length
      · rw [if_pos c1] at hr
        exact Option.noConfusion hr
      · rw [if_neg c1] at hr
        obtain ⟨x', hx1, hn1⟩ := hinv _ n hn
        rw [hx] at hx1
        have exx : x = x' := Option.some.inj hx1
        rw [← exx] at hn1
        rw [← h]
        obtain ⟨hlt, _⟩ := List.getElem?_eq_some.mp hn
        refine ⟨rfl, Or.inr ⟨rfl, (by show 0 < untried.elems.length; omega), n, x, hn1,
          (Option.some.inj hr).symm, rfl, ?_⟩⟩
        cases hb : good s.lut i spread n with
        | true => rfl
        | false => exact absurd hb hg

end SRandom

namespace SRandom

/-- In a list without repetition two positions that hold the same element are the same. -/
theorem nodup_index_eq (l : List Nat) (hl : l.Nodup) (k x v : Nat) (hk : l[k]? = some v)
    (hx : l[x]? = some v) : k = x := by
  obtain ⟨h1, e1⟩ := List.getElem?_eq_some.mp hk
  obtain ⟨h2, e2⟩ := List.getElem?_eq_some.mp hx
  exact (hl.getElem_inj_iff).mp (e1.trans e2.symm)

/-- Filling entry `i` with an unused number that passes the test of the spread keeps what
holds of the working variables. -/
theorem filled_step (tau : Nat) (spread : Int) (i : Nat) (s s' : SRandom) (n x : Nat)
    (hs : filled tau spread i s) (hx : s.unused.elems[x]? = some n)
    (hu' : s'.unused = { s.unused with elems := s.unused.elems.eraseIdx x })
    (hl : s'.lut = s.lut.set i n)
    (hg : good s.lut i spread n = true) : filled tau spread (i + 1) s' := by
  have hu : s'.unused.elems = s.unused.elems.eraseIdx x := by rw [hu']
  obtain ⟨h1, h2, h3, h4, h5, h6, h7⟩ := hs
  obtain ⟨hxlt, _⟩ := List.getElem?_eq_some.mp hx
  have hmem : n ∈ s.unused.elems := List.mem_iff_getElem?.mpr ⟨x, hx⟩
  have hn := (h3 n).mp hmem
  have hval : ∀ j, s'.lut.val j = if j = i then n else s.lut.val j := by
    intro j
    rw [hl, intVector_set_val]
  have hold : ∀ j, j < i → s'.lut.val j = s.lut.val j := by
    intro j hj
    rw [hval j, if_neg (by omega)]
  have hnew : s'.lut.val i = n := by rw [hval i, if_pos rfl]
  refine ⟨?_, ?_, fun v => ⟨fun hv => ?_, fun hv => ?_⟩, ?_, fun j hj => ?_,
    fun j j' hj hj' e => ?_, fun i' j hi' hj1 hj2 => ?_⟩
  · rw [hl]
    exact h1
  · rw [hu]
    exact h2.sublist (List.eraseIdx_sublist _ _)
  · rw [hu] at hv
    have hv' := (h3 v).mp (List.mem_of_mem_eraseIdx hv)
    obtain ⟨k, hk, ek⟩ := List.mem_eraseIdx_iff_getElem?.mp hv
    refine ⟨hv'.1, fun j hj => ?_⟩
    by_cases e : j = i
    · rw [e, hnew]
      intro hnv
      rw [← hnv] at ek
      exact hk (nodup_index_eq s.unused.elems h2 k x n ek hx)
    · rw [hold j (by omega)]
      exact hv'.2 j (by omega)
  · rw [hu]
    have hin : v ∈ s.unused.elems :=
      (h3 v).mpr ⟨hv.1, fun j hj => (hold j hj) ▸ hv.2 j (Nat.lt_succ_of_lt hj)⟩
    obtain ⟨k, ek⟩ := List.mem_iff_getElem?.mp hin
    refine List.mem_eraseIdx_iff_getElem?.mpr ⟨k, fun e => ?_, ek⟩
    rw [e, hx] at ek
    have hvn := hv.2 i (Nat.lt_succ_self i)
    rw [hnew] at hvn
    exact hvn (Option.some.inj ek)
  · rw [hu, List.length_eraseIdx_of_lt hxlt]
    omega
  · by_cases e : j = i
    · rw [e, hnew]
      exact hn.1
    · rw [hold j (by omega)]
      exact h5 j (by omega)
  · by_cases c : j = i
    · by_cases c' : j' = i
      · rw [c, c']
      · rw [c, hnew, hold j' (by omega)] at e
        exact absurd e.symm (hn.2 j' (by omega))
    · by_cases c' : j' = i
      · rw [c', hnew, hold j (by omega)] at e
        exact absurd e (hn.2 j (by omega))
      · rw [hold j (by omega), hold j' (by omega)] at e
        exact h6 j j' (by omega) (by omega) e
  · by_cases e : i' = i
    · rw [e, hnew, hold j (by rw [e] at hj2; exact hj2)]
      rw [e] at hj1 hj2
      have hgood := (good_spec s.lut i spread n).mp hg j hj1 hj2
      rw [abs_sub_comm]
      exact hgood
    · rw [hold i' (by omega), hold j (by omega)]
      exact h7 i' j (by omega) hj1 hj2

/-- The invariant rule for a counted loop whose body may fail, the invariant depending on the
round. -/
theorem forUpO_indexed {σ : Type} (Inv : Nat → σ → Prop) (f : Nat → σ → Option σ) (n : Nat)
    (s : σ) (h0 : Inv 0 s)
    (hstep : ∀ k s s', k < n → Inv k s → f k s = some s' → Inv (k + 1) s') :
    ∀ s', forUpO n f s = some s' → Inv n s' := by
  induction n with
  | zero =>
    intro s' h
    rw [← Option.some.inj h]
    exact h0
  | succ n ih =>
    intro s' h
    rw [forUpO_succ] at h
    obtain ⟨s1, e1, e2⟩ := Option.bind_eq_some.mp h
    exact hstep n s1 s' (Nat.lt_succ_self n)
      (ih (fun k s s' hk => hstep k s s' (Nat.lt_succ_of_lt hk)) s1 e1) e2

/-- A fresh vector after `sequence()` holds `0, 1, ..., n - 1`. -/
theorem sequence_create (n : Nat) :
    (DerivedVector.create n).sequence.elems = List.range n := by
  unfold DerivedVector.sequence DerivedVector.create
  dsimp only
  rw [List.length_replicate]

/-- The numbers not yet tried and their positions at the start of an entry. -/
theorem entry_start (unused : DerivedVector) :
    ∀ k n : Nat, unused.copy.elems[k]? = some n →
      ∃ x : Nat, ((DerivedVector.create unused.size).sequence).elems[k]? = some x ∧
        unused.elems[x]? = some n := by
  intro k n hk
  have hk' : unused.elems[k]? = some n := hk
  obtain ⟨hlt, _⟩ := List.getElem?_eq_some.mp hk'
  refine ⟨k, ?_, hk'⟩
  rw [sequence_create]
  exact List.getElem?_range hlt

/-- The end of the body of an entry: when the two destructors return, the working variables
are those that the inner loop has left. -/
theorem entry_end (asserts : Bool) (r : SRandom × DerivedVector × DerivedVector)
    (s' : SRandom)
    (h : (r.2.2.destroy asserts).bind (fun _ => (r.2.1.destroy asserts).map (fun _ => r.1))
      = some s') :
    r.1 = s' ∧ r.2.1.destroy asserts = some () := by
  obtain ⟨_, _, h⟩ := Option.bind_eq_some.mp h
  obtain ⟨u, hu, h⟩ := Option.map_eq_some'.mp h
  exact ⟨h, hu⟩

/-- A round of the loop over the entries keeps what holds of the working variables. -/
theorem attempt_step (asserts : Bool) (ival : Nat → Nat → Nat) (tau : Nat) (spread : Int)
    (k : Nat) (s s' : SRandom)
    (hinv : s.lut.size = tau ∧ (s.failed = false → filled tau spread k s))
    (hstep : (if s.failed = true then some s
      else (choose asserts ival spread k s.unused.copy.size s.unused.copy
          ((DerivedVector.create s.unused.size).sequence) s).bind (fun r =>
        (r.2.2.destroy asserts).bind (fun _ =>
          (r.2.1.destroy asserts).map (fun _ => r.1)))) = some s') :
    s'.lut.size = tau ∧ (s'.failed = false → filled tau spread (k + 1) s') := by
  by_cases hf : s.failed = true
  · rw [if_pos hf] at hstep
    rw [← Option.some.inj hstep]
    exact ⟨hinv.1, fun c => absurd hf (by rw [c]; exact Bool.noConfusion)⟩
  · rw [if_neg hf] at hstep
    have hff : s.failed = false := by
      cases hb : s.failed with
      | true => exact absurd hb hf
      | false => rfl
    have hfill := hinv.2 hff
    obtain ⟨r, hr, hend⟩ := Option.bind_eq_some.mp hstep
    obtain ⟨e, _⟩ := entry_end asserts r s' hend
    rw [← e]
    rcases (choose_spec asserts ival spread k s.unused.copy.size s.unused.copy _ s r
      (entry_start s.unused) hr).2 with ⟨c1, c2, c3, _⟩ | ⟨c1, _, n, x, c2, c3, c4, c5⟩
    · exact ⟨c2 ▸ hinv.1, fun c => absurd c1 (by rw [c]; exact Bool.noConfusion)⟩
    · have hnext := filled_step tau spread k s r.1 n x hfill c2 c3 c4 c5
      exact ⟨hnext.1, fun _ => hnext⟩

/-- What holds of the working variables at the start of an attempt. -/
theorem attempt_start (tau : Nat) (spread : Int) (lut : IntVector) (hsize : lut.size = tau) :
    filled tau spread 0
      { lut := lut, unused := (DerivedVector.create tau).sequence, failed := false,
        calls := 0 } := by
  refine ⟨hsize, ?_, fun v => ?_, ?_,
    fun j hj => absurd hj (Nat.not_lt_zero j),
    fun j _ hj => absurd hj (Nat.not_lt_zero j),
    fun i' _ hi' => absurd hi' (Nat.not_lt_zero i')⟩
  · show ((DerivedVector.create tau).sequence).elems.Nodup
    rw [sequence_create]
    exact List.nodup_range tau
  · show v ∈ ((DerivedVector.create tau).sequence).elems ↔ _
    rw [sequence_create, List.mem_range]
    exact ⟨fun hv => ⟨hv, fun j hj => absurd hj (Nat.not_lt_zero j)⟩, fun hv => hv.1⟩
  · show ((DerivedVector.create tau).sequence).elems.length + 0 = tau
    rw [sequence_create, List.length_range, Nat.add_zero]

/-- An attempt that returns without having failed has filled all `tau` entries. -/
theorem attempt_spec (asserts : Bool) (ival : Nat → Nat → Nat) (tau : Nat) (spread : Int)
    (lut : IntVector) (hsize : lut.size = tau) (s : SRandom)
    (h : attempt asserts ival tau spread lut = some s) :
    s.lut.size = tau ∧ (s.failed = false → filled tau spread tau s) := by
  unfold attempt at h
  dsimp only at h
  exact forUpO_indexed
    (fun i (s : SRandom) => s.lut.size = tau ∧ (s.failed = false → filled tau spread i s))
    _ tau _ ⟨hsize, fun _ => attempt_start tau spread lut hsize⟩
    (fun k s s' _ hinv hstep => attempt_step asserts ival tau spread k s s' hinv hstep) s h

/-- What the outer loop returns is the interleaver of an attempt that has not failed, made
with the spread that is returned and with the generator of the seed that is returned, which
is a value of the true random generator. -/
theorem attempts_spec (asserts : Bool) (trng : Nat → Nat) (prng : Nat → Nat → Nat → Nat)
    (tau : Nat) (max_attempts : Int) (fuel : Nat) :
    ∀ (k : Nat) (attempt_no spread : Int) (lut : IntVector) (r : IntVector × Int × Nat),
      lut.size = tau →
      attempts asserts trng prng tau max_attempts fuel k attempt_no spread lut = some r →
      ∃ (k' : Nat) (lut' : IntVector) (s : SRandom),
        attempt asserts (prng (trng k')) tau r.2.1 lut' = some s ∧ lut'.size = tau ∧
        s.failed = false ∧ s.lut = r.1 ∧ r.2.2 = trng k' ∧
        s.unused.destroy asserts = some () := by
  induction fuel with
  | zero =>
    intro k a sp lut r _ h
    exact Option.noConfusion h
  | succ fuel ih =>
    intro k a sp lut r hsize h
    unfold attempts at h
    dsimp only at h
    obtain ⟨s, hs, h⟩ := Option.bind_eq_some.mp h
    obtain ⟨u, hd, h⟩ := Option.bind_eq_some.mp h
    have hsz := (attempt_spec asserts (prng (trng k)) tau sp lut hsize s hs).1
    by_cases hf : s.failed = true
    · rw [if_pos hf] at h
      by_cases hm : a + 1 ≥ max_attempts
      · rw [if_pos hm] at h
        exact ih (k + 1) 0 (sp - 1) s.lut r hsz h
      · rw [if_neg hm] at h
        exact ih (k + 1) (a + 1) sp s.lut r hsz h
    · rw [if_neg hf] at h
      rw [← Option.some.inj h]
      refine ⟨k, lut, s, hs, hsize, ?_, rfl, rfl, hd⟩
      cases hb : s.failed with
      | true => exact absurd hb hf
      | false => rfl

end SRandom

namespace SRandom

end SRandom

/-- What `create_srandom` returns comes from an attempt that has not failed, made with the
spread that is returned and with a generator seeded with a value of the true random
generator; the reference parameter `seed` is returned as it came. -/
theorem create_srandom_spec (asserts : Bool) (trng : Nat → Nat)
    (prng : Nat → Nat → Nat → Nat) (fuel tau : Nat)
    (spread : Int) (seed : Nat) (max_attempts : Int) (res : SRandomResult)
    (h : create_srandom asserts trng prng fuel tau spread seed max_attempts = some res) :
    res.seed = seed ∧
    ∃ (k : Nat) (lut' : IntVector) (s : SRandom),
      SRandom.attempt asserts (prng (trng k)) tau res.spread lut' = some s ∧
      lut'.size = tau ∧ s.failed = false ∧ s.lut = res.lut ∧ res.prng_seed = trng k := by
  unfold create_srandom at h
  dsimp only at h
  obtain ⟨r, hr, e⟩ := Option.map_eq_some'.mp h
  rw [← e]
  obtain ⟨k, lut', s, h1, h2, h3, h4, h5, _⟩ :=
    SRandom.attempts_spec asserts trng prng tau max_attempts fuel 0 0 spread
      { size := tau, val := fun _ => 0 } r rfl hr
  exact ⟨rfl, k, lut', s, h1, h2, h3, h4, h5⟩

/-- The example run of `create_srandom` with the assertions compiled out: eight entries,
initial spread 3, two attempts at each spread. The attempts with the seeds 7 and 8 fail, the
attempt with the seed 9 at spread 2 gives the interleaver `(1, 6, 4, 2, 0, 5, 7, 3)`; the
parameter `seed` is still 0. -/
theorem exampleSRandom_run :
    (create_srandom false exampleTrng examplePrng 8 8 3 0 2).map
      (fun r => ((List.range 8).map r.lut.val, r.spread, r.seed, r.prng_seed)) =
      some ([1, 6, 4, 2, 0, 5, 7, 3], 2, 0, 9) := by
  decide!

/-- The example run of `create_srandom` returns when the assertions are compiled out. -/
theorem exampleSRandom_returns :
    (create_srandom false exampleTrng examplePrng 8 8 3 0 2).isSome = true := by
  decide!

/-- The example run of `create_srandom` in the default build does not return; nor does the
run for a single entry with spread 0, in which the only attempt fills the interleaver. -/
theorem exampleSRandom_aborts :
    create_srandom true exampleTrng examplePrng 8 8 3 0 2 = none ∧
    (create_srandom true exampleTrng examplePrng 8 1 0 0 2).isSome = false ∧
    (create_srandom false exampleTrng examplePrng 8 1 0 0 2).map
      (fun r => (r.lut.size, r.lut.val 0, r.spread)) = some (1, 0, 0) := by
  refine ⟨?_, by decide!, by decide!⟩
  have h : (create_srandom true exampleTrng examplePrng 8 8 3 0 2).isSome = false := by
    decide!
  exact Option.not_isSome_iff_eq_none.mp (by rw [h]; exact Bool.noConfusion)

/-- C36: the seed that `create_srandom` hands back is not the seed of the generator. The
loop body declares a local `seed`, which receives the value of the true random generator and
seeds the pseudo-random generator; the reference parameter `seed` is never assigned. Whenever
`create_srandom` returns, in either build, its parameter `seed` holds the value it had before
the call, while the interleaver comes from the generator seeded with a value `trng(k)` of the
true random generator. -/
theorem srandom_seed_unassigned (asserts : Bool) (trng : Nat → Nat)
    (prng : Nat → Nat → Nat → Nat)
    (fuel tau : Nat) (spread : Int) (seed : Nat) (max_attempts : Int) (res : SRandomResult)
    (h : create_srandom asserts trng prng fuel tau spread seed max_attempts = some res) :
    res.seed = seed ∧
    ∃ (k : Nat) (lut' : IntVector) (s : SRandom), res.prng_seed = trng k ∧
      SRandom.attempt asserts (prng (trng k)) tau res.spread lut' = some s ∧
      s.failed = false ∧ s.lut = res.lut := by
  obtain ⟨h1, k, lut', s, hs, _, hf, hl, hk⟩ :=
    create_srandom_spec asserts trng prng fuel tau spread seed max_attempts res h
  exact ⟨h1, k, lut', s, hk, hs, hf, hl⟩

/-- Witness for C36 on the example run with the assertions compiled out: the generator of
the attempt that succeeds is seeded with 9, and the parameter `seed` still holds the 0 with
which it was passed. -/
theorem srandom_seed_unassigned_witness :
    ∃ res, create_srandom false exampleTrng examplePrng 8 8 3 0 2 = some res ∧
      res.seed = 0 ∧ res.prng_seed = 9 ∧ res.seed ≠ res.prng_seed :=
  ⟨Option.get _ exampleSRandom_returns, (Option.some_get exampleSRandom_returns).symm,
    (srandom_seed_unassigned false exampleTrng examplePrng 8 8 3 0 2 _
      (Option.some_get exampleSRandom_returns).symm).1,
    by decide!, by decide!⟩

end Simcommsys
